import Mathlib

/-!
# StudentVersionManagement: cluster coordination and replicated-write layer

A shallow embedding of the Go sources under `StudentVersionManagement/`
(`service/`, `dao/`, `redis/`, `raft/fsm/`, `controller/`, `routers/`) and the
properties of the specification checked against it.

Conventions of the embedding.

* A Go `error` is an `Option String`: `none` is `nil`, `some m` is an error
  whose `Error()` text is `m`.  `fmt.Errorf("p: %w", err)` is `"p: " ++ m`.
* A Go result pair `(T, error)` is an `Except String T`; where the Go code can
  return a nil pointer together with a nil error the value is an `Option`.
* The durable store (MySQL table `versions`) is the list of its rows; the
  cache (Redis) is an association list from keys to stored strings.  Both are
  shared by all nodes.
* Every command sent to a store first asks a fault oracle (`Env`) whether the
  store answers at all.  A command that fails changes nothing.  "Both stores
  reachable" means the oracle never reports a fault.
* Expiry of Redis keys is not modelled: a call is short with respect to the
  expiry of the keys it touches.  The in-process store of
  `dao/version_db_dao.go` has its expiry times modelled, with the clock read
  once per call.
* A Go `string` is a Unicode text, a Go `int` an integer; a `float64` is the
  exact value it stands for, and an arithmetic operation on it rounds as
  IEEE 754 does.  The wire format of a command is the exception: there a Go
  `string` is the sequence of its bytes, valid UTF-8 or not, an `int` has 64
  bits, and `encoding/json` works on the bytes of the text.
* SQL comparison of ids is exact string equality.
-/

set_option autoImplicit false

/-! ## Data model (`model/version.go`, `config/config.go`) -/

/-- Record `model.Version`. -/
structure Version where
  ID : String
  VersionNo : String
  Platform : String
  deriving DecidableEq, Repr, Inhabited

/-- Record `config.Peer`. -/
structure Peer where
  ID : String
  Address : String
  Port : String
  deriving DecidableEq, Repr, Inhabited

/-- Record `config.Node`. -/
structure Node where
  ID : String
  Address : String
  Port : String
  deriving DecidableEq, Repr, Inhabited

/-! ## Strings -/

/-- Whether the characters `p` are the first characters of `s`. -/
def startsWithChars : List Char → List Char → Bool
  | [], _ => true
  | _ :: _, [] => false
  | a :: p, b :: s => decide (a = b) && startsWithChars p s

/-- Whether the characters `sub` occur contiguously in `s`. -/
def containsChars : List Char → List Char → Bool
  | [], sub => sub.isEmpty
  | c :: s, sub => startsWithChars sub (c :: s) || containsChars s sub

/-- Go `strings.Contains(s, substr)`. -/
def strings.Contains (s substr : String) : Bool :=
  containsChars s.data substr.data

/-- Go `fmt.Sprintf("%d", id)` for a string argument: the verb does not fit
the operand, and the output is the bad-verb form. -/
def sprintfD (id : String) : String :=
  "%!d(string=" ++ id ++ ")"

/-! ## Go strings as bytes (`unicode/utf8`, `unicode/utf16`)

For the wire format a Go string is what Go holds: a sequence of bytes, each a
number below 256, that need not be valid UTF-8. -/

/-- A sequence of bytes: a Go `string` or `[]byte`.  A byte is a number below
256; a larger number stands for no byte, and the functions below treat it as
they treat `0xFF`, as a byte that begins no valid encoding. -/
abbrev Bytes := List Nat

/-- Rows of the table `first` of `unicode/utf8` with the ranges of
`acceptRanges`: for a leading byte, the size of the sequence and the range
accepted for its second byte.  `none` for a byte that leads no sequence of
two bytes or more. -/
def utf8.first (b : Nat) : Option (Nat × Nat × Nat) :=
  if 0xC2 ≤ b ∧ b ≤ 0xDF then some (2, 0x80, 0xBF)
  else if b = 0xE0 then some (3, 0xA0, 0xBF)
  else if 0xE1 ≤ b ∧ b ≤ 0xEC then some (3, 0x80, 0xBF)
  else if b = 0xED then some (3, 0x80, 0x9F)
  else if 0xEE ≤ b ∧ b ≤ 0xEF then some (3, 0x80, 0xBF)
  else if b = 0xF0 then some (4, 0x90, 0xBF)
  else if 0xF1 ≤ b ∧ b ≤ 0xF3 then some (4, 0x80, 0xBF)
  else if b = 0xF4 then some (4, 0x80, 0x8F)
  else none

/-- A continuation byte. -/
def utf8.isCont (b : Nat) : Bool :=
  decide (0x80 ≤ b ∧ b ≤ 0xBF)

/-- The size `utf8.DecodeRune` returns for the bytes at hand when they begin
with a valid encoding; `0` when they do not, where Go returns
`(RuneError, 1)`, and on no bytes at all. -/
def utf8.runeLen : Bytes → Nat
  | [] => 0
  | b0 :: rest =>
    if b0 < 0x80 then 1
    else
      match utf8.first b0 with
      | none => 0
      | some (size, lo, hi) =>
        match rest with
        | [] => 0
        | b1 :: rest1 =>
          if lo ≤ b1 ∧ b1 ≤ hi then
            if size = 2 then 2
            else
              match rest1 with
              | [] => 0
              | b2 :: rest2 =>
                if utf8.isCont b2 then
                  if size = 3 then 3
                  else
                    match rest2 with
                    | [] => 0
                    | b3 :: _ => if utf8.isCont b3 then 4 else 0
                else 0
          else 0

/-- The bytes of `U+FFFD`, the replacement character. -/
def utf8.RuneError : Bytes := [0xEF, 0xBF, 0xBD]

/-- Go `utf8.EncodeRune` (`utf8.AppendRune`) on a code point. -/
def utf8.EncodeRune (r : Nat) : Bytes :=
  if r < 0x80 then [r]
  else if r < 0x800 then [0xC0 + r / 64, 0x80 + r % 64]
  else if 0x10FFFF < r ∨ (0xD800 ≤ r ∧ r ≤ 0xDFFF) then utf8.RuneError
  else if r < 0x10000 then [0xE0 + r / 4096, 0x80 + r / 64 % 64, 0x80 + r % 64]
  else [0xF0 + r / 262144, 0x80 + r / 4096 % 64, 0x80 + r / 64 % 64, 0x80 + r % 64]

/-- The loop of `utf8.ValidString`. -/
def utf8.validAux : Nat → Bytes → Bool
  | 0, s => s.isEmpty
  | _ + 1, [] => true
  | fuel + 1, b :: rest =>
    if utf8.runeLen (b :: rest) = 0 then false
    else utf8.validAux fuel (rest.drop (utf8.runeLen (b :: rest) - 1))

/-- Go `utf8.ValidString`. -/
def utf8.ValidString (s : Bytes) : Bool :=
  utf8.validAux s.length s

/-- The bytes of a text: its UTF-8 encoding, which is how Go holds a string
that is a Unicode text. -/
def utf8.bytes (s : String) : Bytes :=
  s.data.flatMap fun c => utf8.EncodeRune c.toNat

/-! ## JSON strings (`encoding/json`: `appendString`, `unquoteBytes`) -/

/-- A digit of `"0123456789abcdef"`. -/
def json.hex (n : Nat) : Nat :=
  if n < 10 then 0x30 + n else 0x57 + n

/-- Entry of `htmlSafeSet`: an ASCII byte that `json.Marshal` writes as it
is. -/
def json.htmlSafe (b : Nat) : Bool :=
  decide (0x20 ≤ b ∧ b < 0x80 ∧ b ≠ 0x22 ∧ b ≠ 0x26 ∧ b ≠ 0x3C ∧ b ≠ 0x3E ∧ b ≠ 0x5C)

/-- What `appendString` writes for an ASCII byte (`\b` and `\f` as Go 1.22
and later write them; earlier releases write `\u0008` and `\u000c`, which
read back the same). -/
def json.escapeByte (b : Nat) : Bytes :=
  if json.htmlSafe b then [b]
  else if b = 0x5C ∨ b = 0x22 then [0x5C, b]
  else if b = 0x08 then [0x5C, 0x62]
  else if b = 0x0C then [0x5C, 0x66]
  else if b = 0x0A then [0x5C, 0x6E]
  else if b = 0x0D then [0x5C, 0x72]
  else if b = 0x09 then [0x5C, 0x74]
  else [0x5C, 0x75, 0x30, 0x30, json.hex (b / 16), json.hex (b % 16)]

/-- The loop of `appendString` with `escapeHTML` set, as `json.Marshal` runs
it: an ASCII byte is written or escaped, a byte that begins no valid encoding
is written as the escape of `U+FFFD`, `U+2028` and `U+2029` are escaped, and
any other encoded rune is copied. -/
def json.appendStringAux : Nat → Bytes → Bytes
  | 0, _ => []
  | _ + 1, [] => []
  | fuel + 1, b :: rest =>
    if b < 0x80 then json.escapeByte b ++ json.appendStringAux fuel rest
    else if utf8.runeLen (b :: rest) = 0 then
      [0x5C, 0x75, 0x66, 0x66, 0x66, 0x64] ++ json.appendStringAux fuel rest
    else if (b :: rest).take 3 = [0xE2, 0x80, 0xA8] then
      [0x5C, 0x75, 0x32, 0x30, 0x32, 0x38] ++ json.appendStringAux fuel (rest.drop 2)
    else if (b :: rest).take 3 = [0xE2, 0x80, 0xA9] then
      [0x5C, 0x75, 0x32, 0x30, 0x32, 0x39] ++ json.appendStringAux fuel (rest.drop 2)
    else
      (b :: rest).take (utf8.runeLen (b :: rest)) ++
        json.appendStringAux fuel (rest.drop (utf8.runeLen (b :: rest) - 1))

/-- Go `appendString(dst, src, true)`: the JSON string literal of a Go
string. -/
def json.appendString (s : Bytes) : Bytes :=
  [0x22] ++ json.appendStringAux s.length s ++ [0x22]

/-- Value of a hexadecimal digit. -/
def json.hexVal (c : Nat) : Option Nat :=
  if 0x30 ≤ c ∧ c ≤ 0x39 then some (c - 0x30)
  else if 0x61 ≤ c ∧ c ≤ 0x66 then some (c - 0x61 + 10)
  else if 0x41 ≤ c ∧ c ≤ 0x46 then some (c - 0x41 + 10)
  else none

/-- Go `getu4`: the code unit of a `\uXXXX` escape at the head of the bytes,
`none` where Go returns `-1`. -/
def json.getu4 : Bytes → Option Nat
  | b0 :: b1 :: h1 :: h2 :: h3 :: h4 :: _ =>
    if b0 = 0x5C ∧ b1 = 0x75 then
      match json.hexVal h1, json.hexVal h2, json.hexVal h3, json.hexVal h4 with
      | some d1, some d2, some d3, some d4 => some (((d1 * 16 + d2) * 16 + d3) * 16 + d4)
      | _, _, _, _ => none
    else none
  | _ => none

/-- Go `utf16.DecodeRune`: the code point of a surrogate pair, `U+FFFD` for
anything else. -/
def utf16.DecodeRune (r1 : Nat) (r2 : Option Nat) : Nat :=
  match r2 with
  | some r2 =>
    if 0xD800 ≤ r1 ∧ r1 < 0xDC00 ∧ 0xDC00 ≤ r2 ∧ r2 < 0xE000 then
      (r1 - 0xD800) * 1024 + (r2 - 0xDC00) + 0x10000
    else 0xFFFD
  | none => 0xFFFD

/-- The byte a one-letter escape stands for. -/
def json.unescape (e : Nat) : Option Nat :=
  if e = 0x22 ∨ e = 0x5C ∨ e = 0x2F ∨ e = 0x27 then some e
  else if e = 0x62 then some 0x08
  else if e = 0x66 then some 0x0C
  else if e = 0x6E then some 0x0A
  else if e = 0x72 then some 0x0D
  else if e = 0x74 then some 0x09
  else none

/-- The loop of `unquoteBytes` over the bytes between the quotes: escapes are
resolved, a byte that begins no valid encoding becomes `U+FFFD`, and every
encoded rune is copied.  `none` where Go gives up: a quote or a control
character, an escape it does not know. -/
def json.unquoteAux : Nat → Bytes → Option Bytes
  | 0, s => if s.isEmpty then some [] else none
  | _ + 1, [] => some []
  | fuel + 1, c :: rest =>
    if c = 0x5C then
      match rest with
      | [] => none
      | e :: rest1 =>
        if e = 0x75 then
          match json.getu4 (c :: e :: rest1) with
          | none => none
          | some rr =>
            if 0xD800 ≤ rr ∧ rr < 0xE000 then
              if utf16.DecodeRune rr (json.getu4 (rest1.drop 4)) ≠ 0xFFFD then
                (json.unquoteAux fuel (rest1.drop 10)).map fun t =>
                  utf8.EncodeRune (utf16.DecodeRune rr (json.getu4 (rest1.drop 4))) ++ t
              else (json.unquoteAux fuel (rest1.drop 4)).map fun t => utf8.RuneError ++ t
            else (json.unquoteAux fuel (rest1.drop 4)).map fun t => utf8.EncodeRune rr ++ t
        else
          match json.unescape e with
          | none => none
          | some b => (json.unquoteAux fuel rest1).map fun t => b :: t
    else if c = 0x22 ∨ c < 0x20 then none
    else if c < 0x80 then (json.unquoteAux fuel rest).map fun t => c :: t
    else if utf8.runeLen (c :: rest) = 0 then
      (json.unquoteAux fuel rest).map fun t => utf8.RuneError ++ t
    else
      (json.unquoteAux fuel (rest.drop (utf8.runeLen (c :: rest) - 1))).map fun t =>
        (c :: rest).take (utf8.runeLen (c :: rest)) ++ t

/-- Go `unquoteBytes` on the bytes between the quotes of a string literal. -/
def json.unquote (s : Bytes) : Option Bytes :=
  json.unquoteAux s.length s

/-- The loop of `utf8.coerce`. -/
def utf8.coerceAux : Nat → Bytes → Bytes
  | 0, _ => []
  | _ + 1, [] => []
  | fuel + 1, b :: rest =>
    if utf8.runeLen (b :: rest) = 0 then utf8.RuneError ++ utf8.coerceAux fuel rest
    else
      (b :: rest).take (utf8.runeLen (b :: rest)) ++
        utf8.coerceAux fuel (rest.drop (utf8.runeLen (b :: rest) - 1))

/-- A Go string with every byte that begins no valid encoding replaced by
`U+FFFD`. -/
def utf8.coerce (s : Bytes) : Bytes :=
  utf8.coerceAux s.length s

/-! ## JSON texts (`encoding/json`: `scanner.go`, `checkValid`)

The scanner of `encoding/json` as a descent over the bytes of a text.  It
accepts what `checkValid` accepts and, on a text that is not JSON, ends with
the message of the `SyntaxError` that `checkValid` returns: the scanner stops
at the first byte that cannot continue a JSON text, and at the end of the
text it is fed one space. -/

/-- A JSON value as the decoder meets it: a number with its literal, a string
unquoted, the members of an object in the order of the text. -/
inductive json.Value where
  | null
  | bool (b : Bool)
  | number (literal : Bytes)
  | string (s : Bytes)
  | array (items : List json.Value)
  | object (members : List (Bytes × json.Value))

/-- The name `encoding/json` gives the kind of a value in an
`UnmarshalTypeError`. -/
def json.Value.kind : json.Value → String
  | .null => "null"
  | .bool _ => "bool"
  | .number _ => "number"
  | .string _ => "string"
  | .array _ => "array"
  | .object _ => "object"

/-- Go `strconv.IsPrint` on a rune below 256. -/
def strconv.IsPrint (r : Nat) : Bool :=
  decide ((0x20 ≤ r ∧ r ≤ 0x7E) ∨ (0xA1 ≤ r ∧ r ≤ 0xFF ∧ r ≠ 0xAD))

/-- The two hexadecimal digits of a byte, as text. -/
def json.hexText (b : Nat) : String :=
  String.mk [Char.ofNat (json.hex (b / 16)), Char.ofNat (json.hex (b % 16))]

/-- The text of one character. -/
def charText (c : Nat) : String :=
  String.singleton (Char.ofNat c)

/-- What `strconv.Quote(string(c))` writes between its quotes for a byte `c`,
except for the double quote (which `quoteChar` handles itself). -/
def strconv.quotedByte (c : Nat) : String :=
  if c = 0x5C then charText 0x5C ++ charText 0x5C
  else if strconv.IsPrint c then charText c
  else if c = 0x07 then charText 0x5C ++ "a"
  else if c = 0x08 then charText 0x5C ++ "b"
  else if c = 0x0C then charText 0x5C ++ "f"
  else if c = 0x0A then charText 0x5C ++ "n"
  else if c = 0x0D then charText 0x5C ++ "r"
  else if c = 0x09 then charText 0x5C ++ "t"
  else if c = 0x0B then charText 0x5C ++ "v"
  else if c < 0x20 ∨ c = 0x7F then charText 0x5C ++ "x" ++ json.hexText c
  else charText 0x5C ++ "u00" ++ json.hexText c

/-- Go `quoteChar(c)` of `encoding/json`: the byte as the messages show it. -/
def json.quoteChar (c : Nat) : String :=
  if c = 0x27 then charText 0x27 ++ charText 0x5C ++ charText 0x27 ++ charText 0x27
  else if c = 0x22 then charText 0x27 ++ charText 0x22 ++ charText 0x27
  else charText 0x27 ++ strconv.quotedByte c ++ charText 0x27

/-- Message of the `SyntaxError` at the end of a text that is not complete. -/
def json.eofText : String :=
  "unexpected end of JSON input"

/-- Message of the `SyntaxError` of `scanner.error(c, context)`. -/
def json.scanError (c : Nat) (context : String) : String :=
  "invalid character " ++ json.quoteChar c ++ " " ++ context

/-- Go `isSpace`. -/
def json.isSpace (c : Nat) : Bool :=
  decide (c = 0x20 ∨ c = 0x09 ∨ c = 0x0D ∨ c = 0x0A)

/-- The bytes behind the white space at the head. -/
def json.skipSpace : Bytes → Bytes
  | [] => []
  | c :: rest => if json.isSpace c then json.skipSpace rest else c :: rest

/-- A scanned byte is kept in front of what the scan of the rest returns. -/
def json.keep (c : Nat) : Except String (Bytes × Bytes) → Except String (Bytes × Bytes)
  | .ok (lit, rest) => .ok (c :: lit, rest)
  | .error e => .error e

/-- States of the scanner inside a string literal: `stateInString`,
`stateInStringEsc`, `stateInStringEscU`, `stateInStringEscU1`,
`stateInStringEscU12`, `stateInStringEscU123`. -/
inductive json.StringState where
  | inString
  | esc
  | escU
  | escU1
  | escU12
  | escU123
  deriving DecidableEq, Repr

/-- Whether a byte is a hexadecimal digit. -/
def json.isHexDigit (c : Nat) : Bool :=
  (json.hexVal c).isSome

/-- The message for a byte that is no hexadecimal digit of a `\u` escape. -/
def json.escUError (c : Nat) : String :=
  json.scanError c ("in " ++ charText 0x5C ++ "u hexadecimal character escape")

/-- The scanner from behind the opening quote of a string literal: the bytes
up to the closing quote, and the bytes behind it. -/
def json.scanString : json.StringState → Bytes → Except String (Bytes × Bytes)
  | .inString, [] => .error json.eofText
  | .esc, [] => .error (json.scanError 0x20 "in string escape code")
  | .escU, [] => .error (json.escUError 0x20)
  | .escU1, [] => .error (json.escUError 0x20)
  | .escU12, [] => .error (json.escUError 0x20)
  | .escU123, [] => .error (json.escUError 0x20)
  | .inString, c :: rest =>
    if c = 0x22 then .ok ([], rest)
    else if c = 0x5C then json.keep c (json.scanString .esc rest)
    else if c < 0x20 then .error (json.scanError c "in string literal")
    else json.keep c (json.scanString .inString rest)
  | .esc, c :: rest =>
    if c = 0x62 ∨ c = 0x66 ∨ c = 0x6E ∨ c = 0x72 ∨ c = 0x74 ∨ c = 0x5C ∨ c = 0x2F ∨ c = 0x22 then
      json.keep c (json.scanString .inString rest)
    else if c = 0x75 then json.keep c (json.scanString .escU rest)
    else .error (json.scanError c "in string escape code")
  | .escU, c :: rest =>
    if json.isHexDigit c then json.keep c (json.scanString .escU1 rest)
    else .error (json.escUError c)
  | .escU1, c :: rest =>
    if json.isHexDigit c then json.keep c (json.scanString .escU12 rest)
    else .error (json.escUError c)
  | .escU12, c :: rest =>
    if json.isHexDigit c then json.keep c (json.scanString .escU123 rest)
    else .error (json.escUError c)
  | .escU123, c :: rest =>
    if json.isHexDigit c then json.keep c (json.scanString .inString rest)
    else .error (json.escUError c)

/-- States of the scanner inside a number: `stateNeg`, `state0`, `state1`,
`stateDot`, `stateDot0`, `stateE`, `stateESign`, `stateE0`. -/
inductive json.NumberState where
  | neg
  | zero
  | int
  | dot
  | dot0
  | exp
  | expSign
  | exp0
  deriving DecidableEq, Repr

/-- A decimal digit. -/
def json.isDigit (c : Nat) : Bool :=
  decide (0x30 ≤ c ∧ c ≤ 0x39)

/-- The scanner from behind the first byte of a number: the rest of the
literal, and the bytes from the first one that does not belong to it. -/
def json.scanNumber : json.NumberState → Bytes → Except String (Bytes × Bytes)
  | .neg, [] => .error (json.scanError 0x20 "in numeric literal")
  | .dot, [] => .error (json.scanError 0x20 "after decimal point in numeric literal")
  | .exp, [] => .error (json.scanError 0x20 "in exponent of numeric literal")
  | .expSign, [] => .error (json.scanError 0x20 "in exponent of numeric literal")
  | .zero, [] => .ok ([], [])
  | .int, [] => .ok ([], [])
  | .dot0, [] => .ok ([], [])
  | .exp0, [] => .ok ([], [])
  | .neg, c :: rest =>
    if c = 0x30 then json.keep c (json.scanNumber .zero rest)
    else if 0x31 ≤ c ∧ c ≤ 0x39 then json.keep c (json.scanNumber .int rest)
    else .error (json.scanError c "in numeric literal")
  | .int, c :: rest =>
    if json.isDigit c then json.keep c (json.scanNumber .int rest)
    else if c = 0x2E then json.keep c (json.scanNumber .dot rest)
    else if c = 0x65 ∨ c = 0x45 then json.keep c (json.scanNumber .exp rest)
    else .ok ([], c :: rest)
  | .zero, c :: rest =>
    if c = 0x2E then json.keep c (json.scanNumber .dot rest)
    else if c = 0x65 ∨ c = 0x45 then json.keep c (json.scanNumber .exp rest)
    else .ok ([], c :: rest)
  | .dot, c :: rest =>
    if json.isDigit c then json.keep c (json.scanNumber .dot0 rest)
    else .error (json.scanError c "after decimal point in numeric literal")
  | .dot0, c :: rest =>
    if json.isDigit c then json.keep c (json.scanNumber .dot0 rest)
    else if c = 0x65 ∨ c = 0x45 then json.keep c (json.scanNumber .exp rest)
    else .ok ([], c :: rest)
  | .exp, c :: rest =>
    if c = 0x2B ∨ c = 0x2D then json.keep c (json.scanNumber .expSign rest)
    else if json.isDigit c then json.keep c (json.scanNumber .exp0 rest)
    else .error (json.scanError c "in exponent of numeric literal")
  | .expSign, c :: rest =>
    if json.isDigit c then json.keep c (json.scanNumber .exp0 rest)
    else .error (json.scanError c "in exponent of numeric literal")
  | .exp0, c :: rest =>
    if json.isDigit c then json.keep c (json.scanNumber .exp0 rest)
    else .ok ([], c :: rest)

/-- The scanner from behind the first letter of `true`, `false` or `null`:
the letters still expected, then the bytes behind the literal. -/
def json.scanLiteral (name : String) : Bytes → Bytes → Except String Bytes
  | [], rest => .ok rest
  | e :: _, [] =>
    .error (json.scanError 0x20
      ("in literal " ++ name ++ " (expecting " ++ json.quoteChar e ++ ")"))
  | e :: expected, c :: rest =>
    if c = e then json.scanLiteral name expected rest
    else
      .error (json.scanError c
        ("in literal " ++ name ++ " (expecting " ++ json.quoteChar e ++ ")"))

/-- Go `maxNestingDepth`. -/
def json.maxNestingDepth : Nat := 10000

/-- Message of the panic of the decoder on a literal it cannot unquote, which
a literal the scanner accepted never is. -/
def json.phasePanicMsg : String :=
  "JSON decoder out of sync - data changing underfoot?"

mutual
/-- The scanner at the beginning of a value that `depth` arrays and objects
enclose: the value and the bytes behind it.  Two calls in a row read a byte
at least, so a `fuel` of twice the length of the text does not run out
(`parse_fuel`). -/
def json.parseValue : Nat → Nat → Bytes → Except String (json.Value × Bytes)
  | 0, _, _ => .error json.eofText
  | fuel + 1, depth, input =>
    match json.skipSpace input with
    | [] => .error json.eofText
    | c :: rest =>
      if c = 0x7B then
        if json.maxNestingDepth < depth + 1 then
          .error (json.scanError c "exceeded max depth")
        else
          match json.skipSpace rest with
          | [] => .error json.eofText
          | c1 :: rest1 =>
            if c1 = 0x7D then .ok (.object [], rest1)
            else
              match json.parseMembers fuel (depth + 1) (c1 :: rest1) with
              | .error e => .error e
              | .ok (members, rest2) => .ok (.object members, rest2)
      else if c = 0x5B then
        if json.maxNestingDepth < depth + 1 then
          .error (json.scanError c "exceeded max depth")
        else
          match json.skipSpace rest with
          | [] => .error json.eofText
          | c1 :: rest1 =>
            if c1 = 0x5D then .ok (.array [], rest1)
            else
              match json.parseItems fuel (depth + 1) (c1 :: rest1) with
              | .error e => .error e
              | .ok (items, rest2) => .ok (.array items, rest2)
      else if c = 0x22 then
        match json.scanString .inString rest with
        | .error e => .error e
        | .ok (raw, rest1) =>
          match json.unquote raw with
          | none => .error json.phasePanicMsg
          | some s => .ok (.string s, rest1)
      else if c = 0x2D then
        match json.scanNumber .neg rest with
        | .error e => .error e
        | .ok (lit, rest1) => .ok (.number (c :: lit), rest1)
      else if c = 0x30 then
        match json.scanNumber .zero rest with
        | .error e => .error e
        | .ok (lit, rest1) => .ok (.number (c :: lit), rest1)
      else if 0x31 ≤ c ∧ c ≤ 0x39 then
        match json.scanNumber .int rest with
        | .error e => .error e
        | .ok (lit, rest1) => .ok (.number (c :: lit), rest1)
      else if c = 0x74 then
        match json.scanLiteral "true" [0x72, 0x75, 0x65] rest with
        | .error e => .error e
        | .ok rest1 => .ok (.bool true, rest1)
      else if c = 0x66 then
        match json.scanLiteral "false" [0x61, 0x6C, 0x73, 0x65] rest with
        | .error e => .error e
        | .ok rest1 => .ok (.bool false, rest1)
      else if c = 0x6E then
        match json.scanLiteral "null" [0x75, 0x6C, 0x6C] rest with
        | .error e => .error e
        | .ok rest1 => .ok (.null, rest1)
      else .error (json.scanError c "looking for beginning of value")
/-- The scanner at the beginning of an object key: the members up to the
closing brace, and the bytes behind it. -/
def json.parseMembers : Nat → Nat → Bytes →
    Except String (List (Bytes × json.Value) × Bytes)
  | 0, _, _ => .error json.eofText
  | fuel + 1, depth, input =>
    match json.skipSpace input with
    | [] => .error json.eofText
    | c :: rest =>
      if c = 0x22 then
        match json.scanString .inString rest with
        | .error e => .error e
        | .ok (raw, rest1) =>
          match json.skipSpace rest1 with
          | [] => .error json.eofText
          | c1 :: rest2 =>
            if c1 = 0x3A then
              match json.parseValue fuel depth rest2 with
              | .error e => .error e
              | .ok (v, rest3) =>
                match json.unquote raw with
                | none => .error json.phasePanicMsg
                | some key =>
                  match json.skipSpace rest3 with
                  | [] => .error json.eofText
                  | c2 :: rest4 =>
                    if c2 = 0x2C then
                      match json.parseMembers fuel depth rest4 with
                      | .error e => .error e
                      | .ok (members, rest5) => .ok ((key, v) :: members, rest5)
                    else if c2 = 0x7D then .ok ([(key, v)], rest4)
                    else .error (json.scanError c2 "after object key:value pair")
            else .error (json.scanError c1 "after object key")
      else .error (json.scanError c "looking for beginning of object key string")
/-- The scanner at the beginning of an array element: the elements up to the
closing bracket, and the bytes behind it. -/
def json.parseItems : Nat → Nat → Bytes → Except String (List json.Value × Bytes)
  | 0, _, _ => .error json.eofText
  | fuel + 1, depth, input =>
    match json.parseValue fuel depth input with
    | .error e => .error e
    | .ok (v, rest) =>
      match json.skipSpace rest with
      | [] => .error json.eofText
      | c :: rest1 =>
        if c = 0x2C then
          match json.parseItems fuel depth rest1 with
          | .error e => .error e
          | .ok (items, rest2) => .ok (v :: items, rest2)
        else if c = 0x5D then .ok ([v], rest1)
        else .error (json.scanError c "after array element")
end

/-- Go `checkValid(data, scan)` together with the one value the decoder then
reads: the value of a text that is JSON, the message of the `SyntaxError` of a
text that is not. -/
def json.parse (data : Bytes) : Except String json.Value :=
  match json.parseValue (2 * data.length + 2) 0 data with
  | .error e => .error e
  | .ok (v, rest) =>
    match json.skipSpace rest with
    | [] => .ok v
    | c :: _ => .error (json.scanError c "after top-level value")

/-! ## Integers as text (`strconv`) -/

/-- The decimal digits of `n` in front of `acc`. -/
def strconv.digits : Nat → Nat → Bytes → Bytes
  | 0, _, acc => acc
  | fuel + 1, n, acc =>
    if n < 10 then (0x30 + n) :: acc
    else strconv.digits fuel (n / 10) ((0x30 + n % 10) :: acc)

/-- Go `strconv.AppendInt(dst, n, 10)`. -/
def strconv.FormatInt (n : Int) : Bytes :=
  if n < 0 then 0x2D :: strconv.digits (n.natAbs + 1) n.natAbs []
  else strconv.digits (n.toNat + 1) n.toNat []

/-- The number a sequence of decimal digits stands for, read behind `acc`. -/
def strconv.parseDigits : Nat → Bytes → Option Nat
  | acc, [] => some acc
  | acc, d :: ds =>
    if 0x30 ≤ d ∧ d ≤ 0x39 then strconv.parseDigits (acc * 10 + (d - 0x30)) ds else none

/-- Go `strconv.ParseInt(s, 10, 64)`: `none` on a syntax error and on a value
out of the range of `int64`. -/
def strconv.ParseInt (s : Bytes) : Option Int :=
  match s with
  | [] => none
  | c :: rest =>
    if c = 0x2D then
      match rest with
      | [] => none
      | _ :: _ =>
        match strconv.parseDigits 0 rest with
        | some n => if n ≤ 2 ^ 63 then some (-(n : Int)) else none
        | none => none
    else if c = 0x2B then
      match rest with
      | [] => none
      | _ :: _ =>
        match strconv.parseDigits 0 rest with
        | some n => if n < 2 ^ 63 then some (n : Int) else none
        | none => none
    else
      match strconv.parseDigits 0 (c :: rest) with
      | some n => if n < 2 ^ 63 then some (n : Int) else none
      | none => none

/-- The range of a Go `int` on a 64-bit platform. -/
def isInt64 (n : Int) : Prop :=
  -(2 ^ 63 : Int) ≤ n ∧ n < 2 ^ 63

instance instDecidableIsInt64 (n : Int) : Decidable (isInt64 n) := by
  unfold isInt64
  infer_instance

/-- Scanned bytes kept in front of what the scan of the rest returns. -/
def json.keepAll (p : Bytes) (r : Except String (Bytes × Bytes)) : Except String (Bytes × Bytes) :=
  p.foldr json.keep r

/-- The scanner, inside a string literal, reads the bytes `p` and is inside
the string literal behind them. -/
def json.scansThrough (p : Bytes) : Prop :=
  ∀ t, json.scanString .inString (p ++ t) = json.keepAll p (json.scanString .inString t)

/-! ## Keys and struct fields (`encoding/json`: `foldName`) -/

/-- The fold of one encoded rune outside ASCII: `U+017F` and `U+212A` are the
two whose orbit under `unicode.SimpleFold` holds an ASCII letter.  The fold
of any other rune is a rune outside ASCII; it is kept here as it is, which
does not change whether a key folds to the same bytes as an ASCII name. -/
def json.foldRune (r : Bytes) : Bytes :=
  if r = [0xC5, 0xBF] then [0x53]
  else if r = [0xE2, 0x84, 0xAA] then [0x4B]
  else r

/-- The loop of `foldName`. -/
def json.foldNameAux : Nat → Bytes → Bytes
  | 0, _ => []
  | _ + 1, [] => []
  | fuel + 1, c :: rest =>
    if c < 0x80 then
      (if 0x61 ≤ c ∧ c ≤ 0x7A then c - 0x20 else c) :: json.foldNameAux fuel rest
    else if utf8.runeLen (c :: rest) = 0 then utf8.RuneError ++ json.foldNameAux fuel rest
    else
      json.foldRune ((c :: rest).take (utf8.runeLen (c :: rest))) ++
        json.foldNameAux fuel (rest.drop (utf8.runeLen (c :: rest) - 1))

/-- Go `foldName` of `encoding/json`: two keys have the same fold when they
are equal under Unicode simple case folding. -/
def json.foldName (s : Bytes) : Bytes :=
  json.foldNameAux s.length s

/-- Whether a JSON key selects the struct field of the given name: the names
are equal, or equal under case folding. -/
def json.fieldIs (key : Bytes) (name : String) : Bool :=
  decide (key = utf8.bytes name) || decide (json.foldName key = json.foldName (utf8.bytes name))

/-! ## Wire data (`raft/fsm/version_fsm.go`, HTTP between nodes) -/

/-- Go `fsm.Command`, the unit of replication. -/
structure Command where
  Operation : String
  Version : Option Version
  Id : String
  ExamineSize : Int
  Peer : Option Peer
  deriving DecidableEq, Repr

/-- Bytes of a log entry (or of a `cmd` query parameter).  `json cmd` is the
text `json.Marshal` writes for `cmd`, a command whose strings are Unicode
texts (decoding it yields `cmd` again, see `jsonMarshalCommand`);
`malformed s` is a text that is not JSON. -/
inductive LogData where
  | json (cmd : Command)
  | malformed (s : String)
  deriving DecidableEq, Repr

/-- A JSON value as far as the response decoders look at it: `num` is an
integer literal in the range of `int`, `number` any other number with its
literal; of an array and of an object only the kind is kept. -/
inductive JVal where
  | null
  | num (n : Int)
  | str (s : String)
  | bool (b : Bool)
  | number (literal : String)
  | array
  | object
  deriving DecidableEq, Repr

/-- The name `encoding/json` gives the kind of a value in an
`UnmarshalTypeError`. -/
def JVal.kind : JVal → String
  | .null => "null"
  | .num _ => "number"
  | .str _ => "string"
  | .bool _ => "bool"
  | .number _ => "number"
  | .array => "array"
  | .object => "object"

/-- The kinds of JSON value that are neither `null` nor an object. -/
inductive JKind where
  | string
  | number
  | bool
  | array
  deriving DecidableEq, Repr

/-- The name `encoding/json` gives the kind in an `UnmarshalTypeError`. -/
def JKind.name : JKind → String
  | .string => "string"
  | .number => "number"
  | .bool => "bool"
  | .array => "array"

/-- Body of an HTTP response: no bytes at all, a text that is not JSON, the
JSON `null`, a JSON value of another kind that is no object, or a JSON object
with its members in the order of the text. -/
inductive Body where
  | empty
  | malformed (s : String)
  | null
  | nonObject (kind : JKind)
  | object (fields : List (String × JVal))
  deriving DecidableEq, Repr

/-- Outcome of `http.Get(url)` followed by `io.ReadAll(resp.Body)`.  The
status code is never looked at by the callers. -/
inductive Reply where
  | failed (msg : String)
  | unread (msg : String)
  | ok (b : Body)
  deriving DecidableEq, Repr

/-- The URLs the service requests, all on `http://localhost:<port>`:
`/GetLeaderAddress`,
`/DeleteWrongPeer?PeerID=..&PeerAddress=..&PeerPortAddress=..` and
`/LeaderHandleCommand?cmd=..`. -/
inductive Request where
  | getLeaderAddress (port : String)
  | deleteWrongPeer (port : String) (peer : Peer)
  | leaderHandleCommand (port : String) (data : LogData)
  deriving DecidableEq, Repr

/-! ## Stores and the fault oracle -/

/-- The surroundings of a call.  `redisErr n` is the driver error of the
`n`-th command sent to Redis, `mysqlErr n` that of the `n`-th statement sent
to MySQL, `raftErr n` that of the `n`-th request to the consensus engine;
`net` is what the network answers to a request while the call runs;
`cmdText` is the text of the bytes `json.Marshal` writes for a command,
which the service only quotes inside messages. -/
structure Env where
  redisErr : Nat → Option String
  mysqlErr : Nat → Option String
  raftErr : Nat → Option String
  net : Request → Reply
  cmdText : Command → String

/-- Both stores answer every command. -/
def Env.storesReachable (env : Env) : Prop :=
  (∀ n, env.redisErr n = none) ∧ (∀ n, env.mysqlErr n = none)

/-- An environment in which nothing fails and no peer listens. -/
def Env.quiet : Env :=
  { redisErr := fun _ => none
    mysqlErr := fun _ => none
    raftErr := fun _ => none
    net := fun _ => .failed "dial tcp: connect: connection refused"
    cmdText := fun _ => "" }

/-- A string stored in Redis.  `json v` is the text `json.Marshal` writes for
the record `v` (decoding it yields `v` again); `text s` is a stored string
that is not JSON, such as the lock marker `"locked"`. -/
inductive RedisVal where
  | json (v : Version)
  | text (s : String)
  deriving DecidableEq, Repr

/-- The two shared stores, with the number of commands each has received. -/
structure World where
  db : List Version
  redis : List (String × RedisVal)
  redisCalls : Nat
  mysqlCalls : Nat
  deriving DecidableEq, Repr

/-- Value stored under a key. -/
def kvGet : List (String × RedisVal) → String → Option RedisVal
  | [], _ => none
  | (k, x) :: r, key => if k = key then some x else kvGet r key

/-- Store a value under a key, replacing the value already there. -/
def kvSet : List (String × RedisVal) → String → RedisVal → List (String × RedisVal)
  | [], key, x => [(key, x)]
  | (k, y) :: r, key, x => if k = key then (k, x) :: r else (k, y) :: kvSet r key x

/-- Remove a key. -/
def kvDel : List (String × RedisVal) → String → List (String × RedisVal)
  | [], _ => []
  | (k, x) :: r, key => if k = key then kvDel r key else (k, x) :: kvDel r key

/-- Answer of a Redis `GET`. -/
inductive GetReply where
  | val (x : RedisVal)
  | nil
  | err (msg : String)
  deriving DecidableEq, Repr

/-- Count one more command sent to Redis. -/
def World.tickRedis (w : World) : World :=
  { w with redisCalls := w.redisCalls + 1 }

/-- Count one more statement sent to MySQL. -/
def World.tickMysql (w : World) : World :=
  { w with mysqlCalls := w.mysqlCalls + 1 }

/-- Redis `GET key`; `GetReply.nil` is the driver's `redis.Nil`. -/
def redisGet (env : Env) (w : World) (key : String) : GetReply × World :=
  match env.redisErr w.redisCalls with
  | some e => (.err e, w.tickRedis)
  | none =>
    match kvGet w.redis key with
    | some x => (.val x, w.tickRedis)
    | none => (.nil, w.tickRedis)

/-- Redis `SET key value`. -/
def redisSet (env : Env) (w : World) (key : String) (x : RedisVal) : Option String × World :=
  match env.redisErr w.redisCalls with
  | some e => (some e, w.tickRedis)
  | none => (none, { w.tickRedis with redis := kvSet w.redis key x })

/-- Redis `DEL key`: the number of keys removed, or the driver error. -/
def redisDel (env : Env) (w : World) (key : String) : Except String Nat × World :=
  match env.redisErr w.redisCalls with
  | some e => (.error e, w.tickRedis)
  | none =>
    (.ok (if (kvGet w.redis key).isSome then 1 else 0),
      { w.tickRedis with redis := kvDel w.redis key })

/-- Redis `SET key value NX`: whether the key was set, or the driver error. -/
def redisSetNX (env : Env) (w : World) (key : String) (x : RedisVal) :
    Except String Bool × World :=
  match env.redisErr w.redisCalls with
  | some e => (.error e, w.tickRedis)
  | none =>
    match kvGet w.redis key with
    | some _ => (.ok false, w.tickRedis)
    | none => (.ok true, { w.tickRedis with redis := kvSet w.redis key x })

/-- Error text of `json.Unmarshal` on a text that is not JSON: the message of
the `SyntaxError` that the scan of its bytes ends with.  (On a text that is
JSON, which no value of the model holds in this place, the empty text.) -/
def jsonSyntaxError (s : String) : String :=
  match json.parse (utf8.bytes s) with
  | .error e => e
  | .ok _ => ""

/-- Go `json.Unmarshal` of a stored string into a `model.Version`. -/
def jsonUnmarshalVersion : RedisVal → Except String Version
  | .json v => .ok v
  | .text s => .error (jsonSyntaxError s)

/-! ## Lock primitives (`redis/redis.go`) -/

/-- Go `redis.AcquireLock(key, expiration)`. -/
def redis.AcquireLock (env : Env) (w : World) (key : String) : Except String Bool × World :=
  match redisSetNX env w key (.text "locked") with
  | (.error err, w1) => (.error err, w1)
  | (.ok ok, w1) => (.ok ok, w1)

/-- Go `redis.ReleaseLock(key)`. -/
def redis.ReleaseLock (env : Env) (w : World) (key : String) : Except String Bool × World :=
  match redisDel env w key with
  | (.error err, w1) => (.error err, w1)
  | (.ok deleted, w1) => (.ok (decide (deleted > 0)), w1)

/-! ## Cache adapter (`dao/version_redis_dao.go`) -/

/-- Key of a record in the cache: `fmt.Sprintf("version:%s", id)`. -/
def versionKey (id : String) : String :=
  "version:" ++ id

/-- Go `VersionRedisDao.AddVersion`. -/
def VersionRedisDao.AddVersion (env : Env) (w : World) (version : Version) :
    Option String × World :=
  match redisSet env w (versionKey version.ID) (.json version) with
  | (some err, w1) => (some ("VersionRedisDao.AddVersion 方法发生错误: " ++ err), w1)
  | (none, w1) => (none, w1)

/-- Go `VersionRedisDao.DeleteVersion`. -/
def VersionRedisDao.DeleteVersion (env : Env) (w : World) (id : String) :
    Option String × World :=
  match redisDel env w (versionKey id) with
  | (.error err, w1) => (some ("VersionRedisDao.DeleteVersion 方法发生错误: " ++ err), w1)
  | (.ok _, w1) => (none, w1)

/-- Go `VersionRedisDao.UpdateVersion`. -/
def VersionRedisDao.UpdateVersion (env : Env) (w : World) (version : Version) :
    Option String × World :=
  match redisSet env w (versionKey version.ID) (.json version) with
  | (some err, w1) => (some ("VersionRedisDao.UpdateVersion 方法发生错误:" ++ err), w1)
  | (none, w1) => (none, w1)

/-- Go `VersionRedisDao.GetVersionByID`: an absent key gives `(nil, nil)`. -/
def VersionRedisDao.GetVersionByID (env : Env) (w : World) (id : String) :
    Except String (Option Version) × World :=
  match redisGet env w (versionKey id) with
  | (.err e, w1) => (.error ("VersionRedisDao.GetVersionByID 方法发生错误: " ++ e), w1)
  | (.nil, w1) => (.ok none, w1)
  | (.val data, w1) =>
    match jsonUnmarshalVersion data with
    | .error e => (.error ("VersionRedisDao.GetVersionByID 方法发生错误: " ++ e), w1)
    | .ok version => (.ok (some version), w1)

/-! ## Cache service (`service/version_redis_service.go`) -/

/-- Go `VersionRedisService.VersionExists`: the error of the lookup, if any. -/
def VersionRedisService.VersionExists (env : Env) (w : World) (id : String) :
    Option String × World :=
  match VersionRedisDao.GetVersionByID env w id with
  | (.error err, w1) => (some err, w1)
  | (.ok _, w1) => (none, w1)

/-- Go `VersionRedisService.AddVersion`. -/
def VersionRedisService.AddVersion (env : Env) (w : World) (version : Version) :
    Option String × World :=
  VersionRedisDao.AddVersion env w version

/-- Go `VersionRedisService.DeleteVersion`: the existence check looks up the
id formatted with `%d`. -/
def VersionRedisService.DeleteVersion (env : Env) (w : World) (id : String) :
    Option String × World :=
  match VersionRedisService.VersionExists env w (sprintfD id) with
  | (some _, w1) => (some "版本号不存在", w1)
  | (none, w1) => VersionRedisDao.DeleteVersion env w1 id

/-- Go `VersionRedisService.UpdateVersion`. -/
def VersionRedisService.UpdateVersion (env : Env) (w : World) (version : Version) :
    Option String × World :=
  match VersionRedisService.VersionExists env w version.ID with
  | (some _, w1) => (some "版本号不存在", w1)
  | (none, w1) => VersionRedisDao.UpdateVersion env w1 version

/-- Go `VersionRedisService.GetVersionByID`. -/
def VersionRedisService.GetVersionByID (env : Env) (w : World) (id : String) :
    Except String (Option Version) × World :=
  match VersionRedisService.VersionExists env w id with
  | (some _, w1) => (.error "版本号不存在", w1)
  | (none, w1) => VersionRedisDao.GetVersionByID env w1 id

/-! ## Durable store (`gorm` over MySQL) -/

/-- A transaction handle returned by `DB.Begin()`: the table as the
transaction has rewritten it (if it has written at all), and whether the
transaction is over. -/
structure Tx where
  staged : Option (List Version)
  done : Bool
  deriving DecidableEq, Repr

/-- Go `DB.Begin()`: the handle and its `Error` field. -/
def dbBegin (env : Env) (w : World) : (Tx × Option String) × World :=
  match env.mysqlErr w.mysqlCalls with
  | some e => (({ staged := none, done := true }, some e), w.tickMysql)
  | none => (({ staged := none, done := false }, none), w.tickMysql)

/-- Go `tx.Rollback()`; its error is ignored by every caller.  A finished
transaction is not sent to the server again. -/
def txRollback (w : World) (tx : Tx) : Tx × World :=
  if tx.done then (tx, w) else ({ staged := none, done := true }, w.tickMysql)

/-- Go `tx.Commit().Error`: on success the staged table becomes the table. -/
def txCommit (env : Env) (w : World) (tx : Tx) : Option String × World :=
  if tx.done then (some "sql: transaction has already been committed or rolled back", w)
  else
    match env.mysqlErr w.mysqlCalls with
    | some e => (some e, w.tickMysql)
    | none => (none, { w.tickMysql with db := tx.staged.getD w.db })

/-- Row with the given primary key. -/
def rowOf (rows : List Version) (id : String) : Option Version :=
  rows.find? fun r => decide (r.ID = id)

/-- Go `DB.Where("id = ?", id).First(&version).Error`, outside any transaction. -/
def dbFirst (env : Env) (w : World) (id : String) : Except String Version × World :=
  match env.mysqlErr w.mysqlCalls with
  | some e => (.error e, w.tickMysql)
  | none =>
    match rowOf w.db id with
    | some r => (.ok r, w.tickMysql)
    | none => (.error "record not found", w.tickMysql)

/-- Go `DB.Create(version).Error`, outside any transaction: the row is
inserted and committed at once; a taken primary key is refused. -/
def dbCreate (env : Env) (w : World) (version : Version) : Option String × World :=
  match env.mysqlErr w.mysqlCalls with
  | some e => (some e, w.tickMysql)
  | none =>
    match rowOf w.db version.ID with
    | some _ =>
      (some ("Error 1062 (23000): Duplicate entry '" ++ version.ID ++
        "' for key 'versions.PRIMARY'"), w.tickMysql)
    | none => (none, { w.tickMysql with db := w.db ++ [version] })

/-- Go `DB.Delete(&model.Version{ID: id}).Error`, outside any transaction:
the row is removed and the removal committed at once. -/
def dbDelete (env : Env) (w : World) (id : String) : Option String × World :=
  match env.mysqlErr w.mysqlCalls with
  | some e => (some e, w.tickMysql)
  | none => (none, { w.tickMysql with db := w.db.filter fun r => decide (r.ID ≠ id) })

/-- Go `DB.Find(&versions).Error`. -/
def dbFind (env : Env) (w : World) : Except String (List Version) × World :=
  match env.mysqlErr w.mysqlCalls with
  | some e => (.error e, w.tickMysql)
  | none => (.ok w.db, w.tickMysql)

/-- The `UPDATE versions SET version_no = IF(COALESCE(?, '') != '', ?, version_no),
platform = IF(COALESCE(?, '') != '', ?, platform) WHERE id = ?` statement on a table. -/
def sqlUpdate (version : Version) (rows : List Version) : List Version :=
  rows.map fun r =>
    if r.ID = version.ID then
      { ID := r.ID,
        VersionNo := if version.VersionNo ≠ "" then version.VersionNo else r.VersionNo,
        Platform := if version.Platform ≠ "" then version.Platform else r.Platform }
    else r

/-- Go `tx.Exec(sqlStmt, ...).Error`: the update is staged in the transaction. -/
def txExecUpdate (env : Env) (w : World) (tx : Tx) (version : Version) :
    (Tx × Option String) × World :=
  if tx.done then ((tx, some "sql: transaction has already been committed or rolled back"), w)
  else
    match env.mysqlErr w.mysqlCalls with
    | some e => ((tx, some e), w.tickMysql)
    | none =>
      (({ tx with staged := some (sqlUpdate version (tx.staged.getD w.db)) }, none), w.tickMysql)

/-! ## Record store adapter (`dao/version_mysql_dao.go`) -/

/-- Go `VersionMysqlDao.AddVersion`. -/
def VersionMysqlDao.AddVersion (env : Env) (w : World) (version : Version) :
    Option String × World :=
  match dbCreate env w version with
  | (some err, w1) => (some ("VersionMysqlDao.AddVersion 方法发生错误:" ++ err), w1)
  | (none, w1) => (none, w1)

/-- Go `VersionMysqlDao.DeleteVersion`. -/
def VersionMysqlDao.DeleteVersion (env : Env) (w : World) (id : String) :
    Option String × World :=
  if id = "" then (some "传入了空的版本ID", w)
  else
    match dbDelete env w id with
    | (some err, w1) => (some ("VersionMysqlDao.DeleteVersion 方法发生错误:" ++ err), w1)
    | (none, w1) => (none, w1)

/-- Go `VersionMysqlDao.UpdateVersion`. -/
def VersionMysqlDao.UpdateVersion (env : Env) (w : World) (tx : Tx) (version : Version) :
    (Tx × Option String) × World :=
  match txExecUpdate env w tx version with
  | ((tx1, some err), w1) => ((tx1, some ("StudentMysqlDao.UpdateStudent 方法发生错误:" ++ err)), w1)
  | ((tx1, none), w1) => ((tx1, none), w1)

/-- Go `VersionMysqlDao.GetVersionByID`. -/
def VersionMysqlDao.GetVersionByID (env : Env) (w : World) (id : String) :
    Except String Version × World :=
  match dbFirst env w id with
  | (.error err, w1) => (.error ("VersionMysqlDao.GetVersionByID 方法发生错误:" ++ err), w1)
  | (.ok version, w1) => (.ok version, w1)

/-- Go `VersionMysqlDao.GetAllVersions`. -/
def VersionMysqlDao.GetAllVersions (env : Env) (w : World) :
    Except String (List Version) × World :=
  match dbFind env w with
  | (.error err, w1) => (.error ("VersionMysqlDao.GetAllVersions 方法发生错误:" ++ err), w1)
  | (.ok versions, w1) => (.ok versions, w1)

/-! ## Record store service (`service/version_mysql_service.go`) -/

/-- Go `VersionMysqlService.ConvertToVersion` on a non-nil row. -/
def VersionMysqlService.ConvertToVersion (versionDB : Version) : Version :=
  { ID := versionDB.ID, Platform := versionDB.Platform, VersionNo := versionDB.VersionNo }

/-- Go `VersionMysqlService.VersionExists`. -/
def VersionMysqlService.VersionExists (env : Env) (w : World) (id : String) :
    Option String × World :=
  match VersionMysqlDao.GetVersionByID env w id with
  | (.error err, w1) =>
    (some ("VersionMysqlService.VersionExists 版本号：" ++ id ++ "不存在：" ++ err), w1)
  | (.ok _, w1) => (none, w1)

/-- Go `VersionMysqlService.AddVersionToMysql`. -/
def VersionMysqlService.AddVersionToMysql (env : Env) (w : World) (version : Version) :
    Option String × World :=
  match VersionMysqlDao.AddVersion env w version with
  | (some err, w1) =>
    (some ("VersionMysqlService.AddVersionToMysql 添加版本：" ++ version.ID ++ "失败：" ++ err), w1)
  | (none, w1) => (none, w1)

/-- Go `VersionMysqlService.GetVersionFromMysql`. -/
def VersionMysqlService.GetVersionFromMysql (env : Env) (w : World) (id : String) :
    Except String Version × World :=
  match VersionMysqlDao.GetVersionByID env w id with
  | (.error err, w1) =>
    (.error ("VersionMysqlService.GetVersionFromMysql 获取版本：" ++ id ++ "失败：" ++ err), w1)
  | (.ok versionDB, w1) => (.ok (VersionMysqlService.ConvertToVersion versionDB), w1)

/-- Go `VersionMysqlService.UpdateVersion`: on each failure it rolls the
transaction back itself. -/
def VersionMysqlService.UpdateVersion (env : Env) (w : World) (tx : Tx) (version : Version) :
    (Tx × Option String) × World :=
  match VersionMysqlService.VersionExists env w version.ID with
  | (some err, w1) =>
    let (tx1, w2) := txRollback w1 tx
    ((tx1, some ("VersionMysqlService.UpdateVersion 更新学生：" ++ version.ID ++ "失败：" ++ err)), w2)
  | (none, w1) =>
    match VersionMysqlDao.UpdateVersion env w1 tx version with
    | ((tx1, some err), w2) =>
      let (tx2, w3) := txRollback w2 tx1
      ((tx2, some ("VersionMysqlService.UpdateVersion 在数据库更新学生：" ++ version.ID ++
        "失败：" ++ err)), w3)
    | ((tx1, none), w2) => ((tx1, none), w2)

/-- Go `VersionMysqlService.DeleteVersion`. -/
def VersionMysqlService.DeleteVersion (env : Env) (w : World) (id : String) :
    Option String × World :=
  match VersionMysqlService.VersionExists env w id with
  | (some err, w1) =>
    (some ("VersionMysqlService.DeleteVersion 删除版本：" ++ id ++ "失败：" ++ err), w1)
  | (none, w1) =>
    match VersionMysqlDao.DeleteVersion env w1 id with
    | (some err, w2) =>
      (some ("VersionMysqlService.DeleteVersion 删除版本：" ++ id ++ "失败：" ++ err), w2)
    | (none, w2) => (none, w2)

/-- Go `VersionMysqlService.GetAllVersions`. -/
def VersionMysqlService.GetAllVersions (env : Env) (w : World) :
    Except String (List Version) × World :=
  match VersionMysqlDao.GetAllVersions env w with
  | (.error err, w1) =>
    (.error ("VersionMysqlService.GetAllVersions 获取所有版本失败：" ++ err), w1)
  | (.ok versionsDB, w1) => (.ok (versionsDB.map VersionMysqlService.ConvertToVersion), w1)

/-! ## Consistency orchestrator (`service/version_service.go`) -/

/-- Go `VersionService.VersionNotFoundErr`. -/
def VersionService.VersionNotFoundErr (err : String) : Bool :=
  strings.Contains err "不存在版本"

/-- Body of `AddVersionInternal` once the lock is held.  The insert goes
through the plain handle, not through `tx`.  A nil `version` makes
`AddVersionToMysql` panic on `version.ID`; the deferred `recover` rolls back
and the call returns nil. -/
def VersionService.addVersionLocked (env : Env) (w : World) (version : Option Version) :
    Option String × World :=
  match dbBegin env w with
  | ((_, some e), w1) => (some ("未能开始 MySQL 事务: " ++ e), w1)
  | ((tx, none), w1) =>
    match version with
    | none => (none, (txRollback w1 tx).2)
    | some v =>
      match VersionMysqlService.AddVersionToMysql env w1 v with
      | (some err, w2) => (some ("无法向mysql中添加版本信息: " ++ err), (txRollback w2 tx).2)
      | (none, w2) =>
        match VersionRedisService.AddVersion env w2 v with
        | (some err, w3) => (some ("无法向redis中添加版本信息: " ++ err), (txRollback w3 tx).2)
        | (none, w3) =>
          match txCommit env w3 tx with
          | (some err, w4) => (some ("提交MySQL事务失败: " ++ err), w4)
          | (none, w4) => (none, w4)

/-- Go `VersionService.AddVersionInternal`. -/
def VersionService.AddVersionInternal (env : Env) (w : World) (version : Option Version) :
    Option String × World :=
  match redis.AcquireLock env w "add_version_lock" with
  | (.error err, w1) => (some ("获取分布式锁失败: " ++ err), w1)
  | (.ok false, w1) => (some "无法获取锁，另一个进程正在持有它。", w1)
  | (.ok true, w1) =>
    let (result, w2) := VersionService.addVersionLocked env w1 version
    (result, (redis.ReleaseLock env w2 "add_version_lock").2)

/-- Go `VersionService.GetVersionByID`. -/
def VersionService.GetVersionByID (env : Env) (w : World) (id : String) :
    Except String (Option Version) × World :=
  match VersionRedisService.GetVersionByID env w id with
  | (.ok version, w1) => (.ok version, w1)
  | (.error err, w1) =>
    if VersionService.VersionNotFoundErr err then
      match VersionMysqlService.GetVersionFromMysql env w1 id with
      | (.error e, w2) => (.error ("从mysql获取版本失败: " ++ e), w2)
      | (.ok version, w2) =>
        match VersionRedisService.AddVersion env w2 version with
        | (some e, w3) => (.error ("向redis添加版本失败: " ++ e), w3)
        | (none, w3) => (.ok (some version), w3)
    else (.error err, w1)

/-- Go `VersionService.UpdateVersionInternal`; it takes no lock.  A nil
`version` makes the first `version.ID` panic; the deferred `recover` rolls
back and the call returns nil. -/
def VersionService.UpdateVersionInternal (env : Env) (w : World) (version : Option Version) :
    Option String × World :=
  match dbBegin env w with
  | ((_, some e), w1) => (some ("启动MySQL事务失败: " ++ e), w1)
  | ((tx, none), w1) =>
    match version with
    | none => (none, (txRollback w1 tx).2)
    | some v =>
      match VersionMysqlService.VersionExists env w1 v.ID with
      | (some err, w2) =>
        (some ("VersionMysqlService.UpdateVersion 更新版本：" ++ v.ID ++ "失败：" ++ err),
          (txRollback w2 tx).2)
      | (none, w2) =>
        match VersionRedisService.VersionExists env w2 v.ID with
        | (some err, w3) =>
          (some ("Redis 中版本号：" ++ v.ID ++ " 不存在：" ++ err), (txRollback w3 tx).2)
        | (none, w3) =>
          match VersionMysqlService.UpdateVersion env w3 tx v with
          | ((tx1, some err), w4) => (some ("更新版本号失败：" ++ err), (txRollback w4 tx1).2)
          | ((tx1, none), w4) =>
            match VersionRedisService.UpdateVersion env w4 v with
            | (some err, w5) => (some ("更新版本到redis失败: " ++ err), (txRollback w5 tx1).2)
            | (none, w5) =>
              match txCommit env w5 tx1 with
              | (some err, w6) => (some ("提交MySQL事务失败: " ++ err), w6)
              | (none, w6) => (none, w6)

/-- The error on which `DeleteVersionInternal` gives up after a store step:
`if err != nil { if !vs.VersionNotFoundErr(err) { ... return } }`. -/
def VersionService.fatalErr : Option String → Option String
  | some err => if VersionService.VersionNotFoundErr err then none else some err
  | none => none

/-- Body of `DeleteVersionInternal` once the lock is held.  The delete goes
through the plain handle, not through `tx`. -/
def VersionService.deleteVersionLocked (env : Env) (w : World) (id : String) :
    Option String × World :=
  match dbBegin env w with
  | ((_, some e), w1) => (some ("启动MySQL事务失败: " ++ e), w1)
  | ((tx, none), w1) =>
    let (r1, w2) := VersionMysqlService.DeleteVersion env w1 id
    match VersionService.fatalErr r1 with
    | some err => (some ("从mysql中删除版本失败: " ++ err), (txRollback w2 tx).2)
    | none =>
      let (r2, w3) := VersionRedisService.DeleteVersion env w2 id
      match VersionService.fatalErr r2 with
      | some err => (some ("从redis删除版本失败: " ++ err), (txRollback w3 tx).2)
      | none =>
        match txCommit env w3 tx with
        | (some err, w4) => (some ("提交MySQL事务失败: " ++ err), w4)
        | (none, w4) => (none, w4)

/-- Go `VersionService.DeleteVersionInternal`. -/
def VersionService.DeleteVersionInternal (env : Env) (w : World) (id : String) :
    Option String × World :=
  match redis.AcquireLock env w "delete_version_lock" with
  | (.error err, w1) => (some ("获取锁失败: " ++ err), w1)
  | (.ok false, w1) => (some "获取锁失败，另一个进程持有该锁", w1)
  | (.ok true, w1) =>
    let (result, w2) := VersionService.deleteVersionLocked env w1 id
    (result, (redis.ReleaseLock env w2 "delete_version_lock").2)

/-- The loop of `ReLoadCacheDataInternal`: add each record to the cache,
stopping at the first failure. -/
def VersionService.reloadEach (env : Env) : World → List Version → Option String × World
  | w, [] => (none, w)
  | w, version :: rest =>
    match VersionRedisService.AddVersion env w version with
    | (some err, w1) => (some err, w1)
    | (none, w1) => VersionService.reloadEach env w1 rest

/-- Body of `ReLoadCacheDataInternal` once the lock is held. -/
def VersionService.reloadLocked (env : Env) (w : World) : Option String × World :=
  match VersionMysqlService.GetAllVersions env w with
  | (.error err, w1) => (some err, w1)
  | (.ok versions, w1) => VersionService.reloadEach env w1 versions

/-- Go `VersionService.ReLoadCacheDataInternal`. -/
def VersionService.ReLoadCacheDataInternal (env : Env) (w : World) : Option String × World :=
  match redis.AcquireLock env w "reload_redis_lock" with
  | (.error err, w1) => (some err, w1)
  | (.ok false, w1) => (some "无法获取锁，另一个进程正在持有它。", w1)
  | (.ok true, w1) =>
    let (result, w2) := VersionService.reloadLocked env w1
    (result, (redis.ReleaseLock env w2 "reload_redis_lock").2)

/-! ## Response decoding (`encoding/json` into the anonymous result structs) -/

/-- Whether a JSON key selects the struct field tagged `name`: the two are
equal under Unicode simple case folding. -/
def keyIs (key name : String) : Bool :=
  json.fieldIs (utf8.bytes key) name

/-- Error text of `json.Unmarshal` for a member whose value does not fit the
field of an anonymous struct: `value` names the kind of the JSON value; the
struct has no name. -/
def typeError (value field type : String) : String :=
  "json: cannot unmarshal " ++ value ++ " into Go struct field ." ++ field ++ " of type " ++ type

/-- What `encoding/json` calls a value that does not fit an `int` field: a
number that is no integer in range is named with its literal. -/
def JVal.intErrorName : JVal → String
  | .number literal => "number " ++ literal
  | v => v.kind

/-- The text of a struct tag inside the text of a struct type, as
`reflect.Type.String` writes it. -/
def tagText (name : String) : String :=
  charText 0x22 ++ "json:" ++ charText 0x5C ++ charText 0x22 ++ name ++ charText 0x5C ++
    charText 0x22 ++ charText 0x22

/-- Error text of `json.Unmarshal` for a body that is a JSON value of another
kind than the struct it is decoded into. -/
def valueError (kind : JKind) (type : String) : String :=
  "json: cannot unmarshal " ++ kind.name ++ " into Go value of type " ++ type

/-- The Go type `struct { Code int; Data interface{} }` with its tags, as
`reflect.Type.String` writes it. -/
def leaderAnswerType : String :=
  "struct \x7b Code int " ++ tagText "code" ++ "; Data interface \x7b\x7d " ++ tagText "data" ++
    " \x7d"

/-- The Go type `struct { Code int; Message string }` with its tags, as
`reflect.Type.String` writes it. -/
def commandAnswerType : String :=
  "struct \x7b Code int " ++ tagText "code" ++ "; Message string " ++ tagText "message" ++
    " \x7d"

/-- The decoder keeps the first type error it meets and goes on. -/
def keepFirst (saved : Option String) (e : String) : Option String :=
  match saved with
  | some e0 => some e0
  | none => some e

/-- Go `struct { Code int; Data interface{} }` while being decoded, with the
first type error met so far. -/
structure LeaderAnswer where
  Code : Int
  Data : JVal
  bad : Option String
  deriving DecidableEq, Repr

/-- Decode the members of a JSON object, in order, into a `LeaderAnswer`. -/
def decodeLeaderFields : List (String × JVal) → LeaderAnswer → LeaderAnswer
  | [], acc => acc
  | (k, v) :: rest, acc =>
    if keyIs k "code" then
      match v with
      | .num n => decodeLeaderFields rest { acc with Code := n }
      | .null => decodeLeaderFields rest acc
      | _ =>
        decodeLeaderFields rest
          { acc with bad := keepFirst acc.bad (typeError v.intErrorName "code" "int") }
    else if keyIs k "data" then decodeLeaderFields rest { acc with Data := v }
    else decodeLeaderFields rest acc

/-- Go `json.Unmarshal(body, &result)` for `result struct { Code int; Data interface{} }`. -/
def decodeLeaderAnswer : Body → Except String LeaderAnswer
  | .empty => .error "unexpected end of JSON input"
  | .malformed s => .error (jsonSyntaxError s)
  | .null => .ok { Code := 0, Data := .null, bad := none }
  | .nonObject kind => .error (valueError kind leaderAnswerType)
  | .object fields =>
    let r := decodeLeaderFields fields { Code := 0, Data := .null, bad := none }
    match r.bad with
    | some e => .error e
    | none => .ok r

/-- Go `struct { Code int; Message string }` while being decoded. -/
structure CommandAnswer where
  Code : Int
  Message : String
  bad : Option String
  deriving DecidableEq, Repr

/-- Decode the members of a JSON object, in order, into a `CommandAnswer`. -/
def decodeCommandFields : List (String × JVal) → CommandAnswer → CommandAnswer
  | [], acc => acc
  | (k, v) :: rest, acc =>
    if keyIs k "code" then
      match v with
      | .num n => decodeCommandFields rest { acc with Code := n }
      | .null => decodeCommandFields rest acc
      | _ =>
        decodeCommandFields rest
          { acc with bad := keepFirst acc.bad (typeError v.intErrorName "code" "int") }
    else if keyIs k "message" then
      match v with
      | .str s => decodeCommandFields rest { acc with Message := s }
      | .null => decodeCommandFields rest acc
      | _ =>
        decodeCommandFields rest
          { acc with bad := keepFirst acc.bad (typeError v.kind "message" "string") }
    else decodeCommandFields rest acc

/-- Go `json.Unmarshal(body, &result)` for `result struct { Code int; Message string }`. -/
def decodeCommandAnswer : Body → Except String CommandAnswer
  | .empty => .error "unexpected end of JSON input"
  | .malformed s => .error (jsonSyntaxError s)
  | .null => .ok { Code := 0, Message := "", bad := none }
  | .nonObject kind => .error (valueError kind commandAnswerType)
  | .object fields =>
    let r := decodeCommandFields fields { Code := 0, Message := "", bad := none }
    match r.bad with
    | some e => .error e
    | none => .ok r

/-! ## Cluster coordinator (`service/version_service.go`) -/

/-- A request to the consensus engine that the engine accepted. -/
inductive RaftCall where
  | addVoter (id : String) (address : String)
  | removeServer (id : String)
  | apply (data : LogData)
  deriving DecidableEq, Repr

/-- Go `service.VersionService` on one node: its own identity, its peer
address book, whether `RaftNodes.State()` is `Leader`, the shared stores,
and what it has asked of the consensus engine and of the network so far. -/
structure VersionService where
  node : Node
  peers : List Peer
  leader : Bool
  world : World
  raftCalls : Nat
  raftLog : List RaftCall
  sent : List Request
  deriving DecidableEq, Repr

/-- A value returned by a call, or the crash of the process on a panic that
nothing recovers. -/
inductive Outcome (α : Type) where
  | ret (a : α)
  | crash
  deriving DecidableEq, Repr

/-- Go `VersionService.UpdatePeersInternal` on a non-nil peer. -/
def VersionService.UpdatePeersInternal (vs : VersionService) (peer : Peer) : VersionService :=
  if vs.node.ID ≠ peer.ID then { vs with peers := vs.peers ++ [peer] } else vs

/-- The loop of `DeleteWrongPeerInternal`: drop the first entry with the id. -/
def removeFirstID : List Peer → String → List Peer
  | [], _ => []
  | peer :: rest, id => if peer.ID = id then rest else peer :: removeFirstID rest id

/-- Go `VersionService.DeleteWrongPeerInternal` on a non-nil peer. -/
def VersionService.DeleteWrongPeerInternal (vs : VersionService) (wrongPeer : Peer) :
    VersionService :=
  { vs with peers := removeFirstID vs.peers wrongPeer.ID }

/-- Results of `GetLeaderPortAddr`, with the peers it sent a request to. -/
structure LeaderLookup where
  addr : String
  err : Option String
  wrongNode : Option Peer
  contacted : List Peer
  deriving DecidableEq, Repr

/-- The marker by which `GetLeaderPortAddr` recognises a refused connection. -/
def refusedMarker : String :=
  "No connection could be made because the target machine actively refused it"

/-- The loop of `GetLeaderPortAddr` over the remaining peers; `wrongNode` is
the record the loop overwrites, `seen` the peers already asked. -/
def VersionService.scanPeers (env : Env) : List Peer → Peer → List Peer → LeaderLookup
  | [], wrongNode, seen =>
    { addr := "", err := some "遍历结束仍没有找到领导者", wrongNode := some wrongNode,
      contacted := seen }
  | node :: rest, wrongNode, seen =>
    match env.net (.getLeaderAddress node.Port) with
    | .failed msg =>
      if strings.Contains msg refusedMarker then
        VersionService.scanPeers env rest
          { ID := node.ID, Address := node.Address, Port := node.Port } (seen ++ [node])
      else
        { addr := "", err := some ("请求出错：" ++ msg), wrongNode := some wrongNode,
          contacted := seen ++ [node] }
    | .unread msg =>
      { addr := "", err := some ("读取响应体出错：" ++ msg), wrongNode := some wrongNode,
        contacted := seen ++ [node] }
    | .ok b =>
      if b = .empty then VersionService.scanPeers env rest wrongNode (seen ++ [node])
      else
        match decodeLeaderAnswer b with
        | .error e =>
          { addr := "", err := some ("解析 JSON 数据出错: " ++ e), wrongNode := some wrongNode,
            contacted := seen ++ [node] }
        | .ok result =>
          match result.Data with
          | .str leaderPortAddr =>
            { addr := leaderPortAddr, err := none, wrongNode := some wrongNode,
              contacted := seen ++ [node] }
          | _ =>
            { addr := "", err := some "领导者地址 类型断言失败", wrongNode := some wrongNode,
              contacted := seen ++ [node] }

/-- Go `VersionService.GetLeaderPortAddr`; `wrongNode` starts as a pointer to
an empty `config.Peer`. -/
def VersionService.GetLeaderPortAddr (env : Env) (vs : VersionService) : LeaderLookup :=
  if vs.leader then { addr := vs.node.Port, err := none, wrongNode := none, contacted := [] }
  else VersionService.scanPeers env vs.peers { ID := "", Address := "", Port := "" } []

/-- Go `VersionService.HandleGetLeaderPortAddressRequest`. -/
def VersionService.HandleGetLeaderPortAddressRequest (vs : VersionService) : String :=
  if vs.leader then vs.node.Port else ""

/-! ## Replicated state machine (`raft/fsm/version_fsm.go`) -/

/-- Go `VersionFSM.Apply` on the node `vs`.  A nil `cmd.Peer` makes
`UpdatePeersInternal` panic, and makes `DeleteWrongPeerInternal` panic as soon
as its loop has an entry to compare; nothing recovers these panics. -/
def VersionFSM.Apply (env : Env) (vs : VersionService) (data : LogData) :
    Outcome (Option String) × VersionService :=
  match data with
  | .malformed s => (.ret (some ("解析 JSON 绑定失败: " ++ jsonSyntaxError s)), vs)
  | .json cmd =>
    if cmd.Operation = "add" then
      let (r, w) := VersionService.AddVersionInternal env vs.world cmd.Version
      (.ret r, { vs with world := w })
    else if cmd.Operation = "update" then
      let (r, w) := VersionService.UpdateVersionInternal env vs.world cmd.Version
      (.ret r, { vs with world := w })
    else if cmd.Operation = "delete" then
      let (r, w) := VersionService.DeleteVersionInternal env vs.world cmd.Id
      (.ret r, { vs with world := w })
    else if cmd.Operation = "reloadCacheData" then
      match VersionService.ReLoadCacheDataInternal env vs.world with
      | (some err, w) => (.ret (some ("重新加载 Redis 数据失败: " ++ err)), { vs with world := w })
      | (none, w) => (.ret none, { vs with world := w })
    else if cmd.Operation = "updatePeers" then
      match cmd.Peer with
      | some peer => (.ret none, VersionService.UpdatePeersInternal vs peer)
      | none => (.crash, vs)
    else if cmd.Operation = "deleteFatalPeer" then
      match cmd.Peer with
      | some peer => (.ret none, VersionService.DeleteWrongPeerInternal vs peer)
      | none => if vs.peers = [] then (.ret none, vs) else (.crash, vs)
    else (.ret (some ("未知操作: " ++ cmd.Operation)), vs)

/-! ## Consensus handle (`github.com/hashicorp/raft`, at its boundary) -/

/-- Count one more request to the consensus engine. -/
def VersionService.tickRaft (vs : VersionService) : VersionService :=
  { vs with raftCalls := vs.raftCalls + 1 }

/-- Go `RaftNodes.AddVoter(id, address, 0, 0).Error()`. -/
def raftAddVoter (env : Env) (vs : VersionService) (id address : String) :
    Option String × VersionService :=
  if vs.leader = false then (some "node is not the leader", vs.tickRaft)
  else
    match env.raftErr vs.raftCalls with
    | some e => (some e, vs.tickRaft)
    | none => (none, { vs.tickRaft with raftLog := vs.raftLog ++ [.addVoter id address] })

/-- Go `RaftNodes.RemoveServer(id, 0, 0).Error()`. -/
def raftRemoveServer (env : Env) (vs : VersionService) (id : String) :
    Option String × VersionService :=
  if vs.leader = false then (some "node is not the leader", vs.tickRaft)
  else
    match env.raftErr vs.raftCalls with
    | some e => (some e, vs.tickRaft)
    | none => (none, { vs.tickRaft with raftLog := vs.raftLog ++ [.removeServer id] })

/-- The two results of an apply future: `Error()` and, as an error or nil,
`Response()`. -/
structure ApplyFuture where
  err : Option String
  response : Option String
  deriving DecidableEq, Repr

/-- Go `RaftNodes.Apply(data, timeout)` awaited: once the engine has accepted
the entry, the local state machine applies it and its result is the
response. -/
def raftApply (env : Env) (vs : VersionService) (data : LogData) :
    Outcome ApplyFuture × VersionService :=
  if vs.leader = false then
    (.ret { err := some "node is not the leader", response := none }, vs.tickRaft)
  else
    match env.raftErr vs.raftCalls with
    | some e => (.ret { err := some e, response := none }, vs.tickRaft)
    | none =>
      match VersionFSM.Apply env { vs.tickRaft with raftLog := vs.raftLog ++ [.apply data] } data with
      | (.ret r, vs1) => (.ret { err := none, response := r }, vs1)
      | (.crash, vs1) => (.crash, vs1)

/-! ## Command forwarding and membership (`service/version_service.go`) -/

/-- The requests of one leader lookup. -/
def LeaderLookup.requests (look : LeaderLookup) : List Request :=
  look.contacted.map fun p => Request.getLeaderAddress p.Port

/-- Go `VersionService.DeleteWrongPeer`: a failed lookup is only logged, and
the request then goes to the empty port. -/
def VersionService.DeleteWrongPeer (env : Env) (vs : VersionService) (wrongNode : Peer) :
    Option String × VersionService :=
  let look := VersionService.GetLeaderPortAddr env vs
  let req := Request.deleteWrongPeer look.addr wrongNode
  let vs1 := { vs with sent := vs.sent ++ look.requests ++ [req] }
  match env.net req with
  | .failed msg => (some ("StudentService.DeleteWrongPeer 发生错误:" ++ msg), vs1)
  | _ => (none, vs1)

/-- Go `VersionService.applyRaftCommand`.  On the leader only `future.Error()`
is looked at.  What the remote leader does with a forwarded command is
outside the embedding: its reply comes from `env.net`. -/
def VersionService.applyRaftCommand (env : Env) (vs : VersionService) (operation : String)
    (version : Option Version) (id : String) (examineSize : Int) (peer : Option Peer) :
    Outcome (Option String) × VersionService :=
  let cmd : Command :=
    { Operation := operation, Version := version, Id := id, ExamineSize := examineSize,
      Peer := peer }
  let data := LogData.json cmd
  if vs.leader then
    match raftApply env vs data with
    | (.crash, vs1) => (.crash, vs1)
    | (.ret future, vs1) =>
      match future.err with
      | some err => (.ret (some ("向领导者节点发送请求失败，节点号 " ++ id ++ ": " ++ err)), vs1)
      | none => (.ret none, vs1)
  else
    let look := VersionService.GetLeaderPortAddr env vs
    let vs1 := { vs with sent := vs.sent ++ look.requests }
    let evicted :=
      match look.wrongNode with
      | some wrongNode => VersionService.DeleteWrongPeer env vs1 wrongNode
      | none => (none, vs1)
    match evicted with
    | (some err, vs2) => (.ret (some err), vs2)
    | (none, vs2) =>
      match look.err with
      | some err => (.ret (some ("获取领导者地址失败：" ++ err)), vs2)
      | none =>
        let req := Request.leaderHandleCommand look.addr data
        let vs3 := { vs2 with sent := vs2.sent ++ [req] }
        match env.net req with
        | .failed msg =>
          (.ret (some ("将命令 " ++ env.cmdText cmd ++ " 发送给领导者失败：" ++ msg)), vs3)
        | .unread msg => (.ret (some msg), vs3)
        | .ok b =>
          match decodeCommandAnswer b with
          | .error e => (.ret (some e), vs3)
          | .ok result =>
            if result.Code ≠ 1 then
              (.ret (some ("领导者节点处理命令失败：" ++ result.Message)), vs3)
            else (.ret none, vs3)

/-- Go `VersionService.JoinRaftCluster`. -/
def VersionService.JoinRaftCluster (env : Env) (vs : VersionService)
    (ID Address Port : String) : Outcome (Option String) × VersionService :=
  if vs.leader then
    match raftAddVoter env vs ID (Address ++ ":" ++ Port) with
    | (some err, vs1) => (.ret (some ("向Raft中添加选举者失败: " ++ err)), vs1)
    | (none, vs1) =>
      let nPeer : Peer := { ID := ID, Address := Address, Port := Port }
      match VersionService.applyRaftCommand env vs1 "update" none "" 0 (some nPeer) with
      | (.ret (some err), vs2) => (.ret (some ("更新Peers失败: " ++ err)), vs2)
      | (.ret none, vs2) => (.ret none, vs2)
      | (.crash, vs2) => (.crash, vs2)
  else (.ret none, vs)

/-- Go `VersionService.HandleDeletePeerRequest`. -/
def VersionService.HandleDeletePeerRequest (env : Env) (vs : VersionService)
    (peerID peerAddr port : String) : Outcome (Option String) × VersionService :=
  if vs.leader then
    let wrongPeer : Peer := { ID := peerID, Address := peerAddr, Port := port }
    match raftRemoveServer env vs peerID with
    | (some err, vs1) => (.ret (some err), vs1)
    | (none, vs1) =>
      VersionService.applyRaftCommand env vs1 "deleteWrongPeer" none "" 0 (some wrongPeer)
  else (.ret none, vs)

/-- Go `VersionService.LeaderHandleCommand`: here `future.Response()` is
looked at as well. -/
def VersionService.LeaderHandleCommand (env : Env) (vs : VersionService) (cmd : LogData) :
    Outcome (Option String) × VersionService :=
  match raftApply env vs cmd with
  | (.crash, vs1) => (.crash, vs1)
  | (.ret future, vs1) =>
    match future.err with
    | some err => (.ret (some ("处理命令发生错误: " ++ err)), vs1)
    | none =>
      match future.response with
      | some resultErr => (.ret (some resultErr), vs1)
      | none => (.ret none, vs1)

/-- Go `VersionService.AddVersion`. -/
def VersionService.AddVersion (env : Env) (vs : VersionService) (version : Version) :
    Outcome (Option String) × VersionService :=
  VersionService.applyRaftCommand env vs "add" (some version) "" 0 none

/-- Go `VersionService.UpdateVersion`. -/
def VersionService.UpdateVersion (env : Env) (vs : VersionService) (version : Version) :
    Outcome (Option String) × VersionService :=
  VersionService.applyRaftCommand env vs "update" (some version) "" 0 none

/-- Go `VersionService.DeleteVersion`. -/
def VersionService.DeleteVersion (env : Env) (vs : VersionService) (id : String) :
    Outcome (Option String) × VersionService :=
  VersionService.applyRaftCommand env vs "delete" none id 0 none

/-! ## Observations on a call

What the properties below say about the inside of a call: the error of its
durable-store mutation, and how a peer answers a leader lookup. -/

/-- Error returned by the durable-store mutation of `AddVersionInternal`
(`AddVersionToMysql`), when the call gets that far. -/
def VersionService.addDurableErr (env : Env) (w : World) (version : Version) : Option String :=
  match redis.AcquireLock env w "add_version_lock" with
  | (.ok true, w1) =>
    match dbBegin env w1 with
    | ((_, none), w2) => (VersionMysqlService.AddVersionToMysql env w2 version).1
    | _ => none
  | _ => none

/-- Error returned by the durable-store mutation of `UpdateVersionInternal`
(`VersionMysqlService.UpdateVersion`), when the call gets that far. -/
def VersionService.updateDurableErr (env : Env) (w : World) (version : Version) :
    Option String :=
  match dbBegin env w with
  | ((tx, none), w1) =>
    match VersionMysqlService.VersionExists env w1 version.ID with
    | (none, w2) =>
      match VersionRedisService.VersionExists env w2 version.ID with
      | (none, w3) => (VersionMysqlService.UpdateVersion env w3 tx version).1.2
      | _ => none
    | _ => none
  | _ => none

/-- Error returned by the durable-store mutation of `DeleteVersionInternal`
(`VersionMysqlService.DeleteVersion`), when the call gets that far. -/
def VersionService.deleteDurableErr (env : Env) (w : World) (id : String) : Option String :=
  match redis.AcquireLock env w "delete_version_lock" with
  | (.ok true, w1) =>
    match dbBegin env w1 with
    | ((_, none), w2) => (VersionMysqlService.DeleteVersion env w2 id).1
    | _ => none
  | _ => none

/-- The test by which `GetLeaderPortAddr` takes a peer for one that refuses
the connection: the request fails and the error text contains
`refusedMarker`.  The marker is the text Windows gives to a refused
connection; a connection refused on another system fails with another text
and does not pass the test (see `refusesConnection`). -/
def seenRefusing (env : Env) (p : Peer) : Bool :=
  match env.net (.getLeaderAddress p.Port) with
  | .failed msg => strings.Contains msg refusedMarker
  | _ => false

/-- The loop of `GetLeaderPortAddr` passes over the peer and goes on with the
next one: the request passes the test `seenRefusing`, or the body is empty. -/
def passedOver (env : Env) (p : Peer) : Bool :=
  seenRefusing env p || decide (env.net (.getLeaderAddress p.Port) = Reply.ok .empty)

/-- The string a peer answers with in the member `data`, the empty string
included: its body is not empty and decodes to a result whose `data` is a
string. -/
def answeredString (env : Env) (p : Peer) : Option String :=
  match env.net (.getLeaderAddress p.Port) with
  | .ok b =>
    if b = .empty then none
    else
      match decodeLeaderAnswer b with
      | .ok r =>
        match r.Data with
        | .str s => some s
        | _ => none
      | .error _ => none
  | _ => none

/-- The leader address a peer answers with: the string in `data` when it is
not empty.  The empty string is what `HandleGetLeaderPortAddressRequest`
returns on a node that is not the leader. -/
def leaderAddress (env : Env) (p : Peer) : Option String :=
  match answeredString env p with
  | some s => if s = "" then none else some s
  | none => none

/-- The last peer of a list that passes the test `seenRefusing`, `init` if
none does. -/
def lastSeenRefusing (env : Env) (l : List Peer) (init : Peer) : Peer :=
  l.foldl (fun acc q => if seenRefusing env q then q else acc) init

/-- Whether an error text of `http.Get` is that of a refused connection
(`ECONNREFUSED`): the Go runtime words it `connection refused` on Linux and
the other Unix systems, and as `refusedMarker` on Windows. -/
def refusalText (msg : String) : Bool :=
  strings.Contains msg "connection refused" || strings.Contains msg refusedMarker

/-- The peer refuses the connection: the request fails with the error of a
refused connection, on whatever system. -/
def refusesConnection (env : Env) (p : Peer) : Bool :=
  match env.net (.getLeaderAddress p.Port) with
  | .failed msg => refusalText msg
  | _ => false

/-- The first peer of a list that refuses the connection. -/
def firstRefusing (env : Env) (l : List Peer) : Option Peer :=
  l.find? fun q => refusesConnection env q

/-! ## Concrete inputs -/

/-- The record of the specification's scenarios. -/
def exV1 : Version := { ID := "v1", VersionNo := "1.0.0", Platform := "ios" }

/-- A later state of the same record. -/
def exV1b : Version := { ID := "v1", VersionNo := "2.0.0", Platform := "android" }

/-- Both stores empty. -/
def exEmptyWorld : World := { db := [], redis := [], redisCalls := 0, mysqlCalls := 0 }

/-- The record in the durable store only. -/
def exColdWorld : World := { db := [exV1], redis := [], redisCalls := 0, mysqlCalls := 0 }

/-- The record in both stores. -/
def exWarmWorld : World :=
  { db := [exV1], redis := [(versionKey "v1", .json exV1)], redisCalls := 0, mysqlCalls := 0 }

/-- The record in the cache only. -/
def exStaleWorld : World :=
  { db := [], redis := [(versionKey "v1", .json exV1)], redisCalls := 0, mysqlCalls := 0 }

/-- The record in both stores, and every lock key held. -/
def exLockedWorld : World :=
  { db := [exV1]
    redis := [(versionKey "v1", .json exV1), ("add_version_lock", .text "locked"),
      ("update_version_lock", .text "locked"), ("delete_version_lock", .text "locked"),
      ("reload_redis_lock", .text "locked")]
    redisCalls := 0
    mysqlCalls := 0 }

/-- A record whose id contains the text that `VersionNotFoundErr` looks for. -/
def exOddV : Version := { ID := "不存在版本", VersionNo := "1.0.0", Platform := "ios" }

/-- The odd record in the cache only. -/
def exOddWorld : World :=
  { db := [], redis := [(versionKey "不存在版本", .json exOddV)], redisCalls := 0, mysqlCalls := 0 }

/-- Nothing fails except the `n`-th command sent to Redis. -/
def Env.failRedisAt (n : Nat) : Env :=
  { Env.quiet with redisErr := fun k => if k = n then some "i/o timeout" else none }

/-- Nothing fails except the `n`-th statement sent to MySQL. -/
def Env.failMysqlAt (n : Nat) : Env :=
  { Env.quiet with mysqlErr := fun k => if k = n then some "invalid connection" else none }

/-- Three peers. -/
def exA : Peer := { ID := "A", Address := "127.0.0.1", Port := "8081" }

/-- Second peer. -/
def exB : Peer := { ID := "B", Address := "127.0.0.1", Port := "8082" }

/-- Third peer. -/
def exC : Peer := { ID := "C", Address := "127.0.0.1", Port := "8083" }

/-- Error text of `http.Get` on a refused connection, on Windows. -/
def exRefused : String :=
  "dial tcp [::1]:8081: connectex: " ++ refusedMarker ++ "."

/-- Error text of `http.Get` on a refused connection, on Linux. -/
def exRefusedLinux : String :=
  "dial tcp 127.0.0.1:8081: connect: connection refused"

/-- Peer `A` refuses the connection with the text Windows gives, peer `B`
answers with the leader address `"8085"`, nobody else listens. -/
def exNetAB : Request → Reply
  | .getLeaderAddress port =>
    if port = "8081" then .failed exRefused
    else if port = "8082" then Reply.ok (.object [("code", .num 1), ("data", .str "8085")])
    else .failed "i/o timeout"
  | _ => .failed "i/o timeout"

/-- Peer `A` answers as a follower does, with an object that has no `data`
member; peer `B` answers with the leader address `"8085"`. -/
def exNetFollowerFirst : Request → Reply
  | .getLeaderAddress port =>
    if port = "8081" then Reply.ok (.object [("错误", .str "获取领导者端口地址失败")])
    else if port = "8082" then Reply.ok (.object [("code", .num 1), ("data", .str "8085")])
    else .failed "i/o timeout"
  | _ => .failed "i/o timeout"

/-- Peer `A` refuses the connection with the text Linux gives, peer `B`
answers with the leader address `"8085"`. -/
def exNetLinuxAB : Request → Reply
  | .getLeaderAddress port =>
    if port = "8081" then .failed exRefusedLinux
    else if port = "8082" then Reply.ok (.object [("code", .num 1), ("data", .str "8085")])
    else .failed "i/o timeout"
  | _ => .failed "i/o timeout"

/-- Peers `A` and `B` both refuse the connection with the text Linux gives. -/
def exNetLinuxRefuse : Request → Reply
  | .getLeaderAddress port =>
    if port = "8081" then .failed exRefusedLinux
    else if port = "8082" then .failed exRefusedLinux
    else .failed "i/o timeout"
  | _ => .failed "i/o timeout"

/-- Peers `A` and `B` both refuse the connection, with the text Windows
gives. -/
def exNetRefuse : Request → Reply
  | .getLeaderAddress port =>
    if port = "8081" then .failed exRefused
    else if port = "8082" then .failed exRefused
    else .failed "i/o timeout"
  | _ => .failed "i/o timeout"

/-- A follower whose address book is `[A, B, C]`. -/
def exFollower : VersionService :=
  { node := { ID := "n0", Address := "127.0.0.1", Port := "8080" }
    peers := [exA, exB, exC]
    leader := false
    world := exEmptyWorld
    raftCalls := 0
    raftLog := []
    sent := [] }

/-- A leader with an empty address book over empty stores. -/
def exLeader : VersionService :=
  { node := { ID := "n0", Address := "127.0.0.1", Port := "8080" }
    peers := []
    leader := true
    world := exEmptyWorld
    raftCalls := 0
    raftLog := []
    sent := [] }

/-- A leader whose address book holds peer `A`. -/
def exLeaderA : VersionService := { exLeader with peers := [exA] }

/-- Another node, `n1`, whose address book holds peer `A`. -/
def exNodeN1 : VersionService :=
  { exLeader with node := { ID := "n1", Address := "127.0.0.1", Port := "8084" }
                  peers := [exA]
                  leader := false }

/-- Error of `UpdateVersionInternal` for the record `v1` absent from the
durable store. -/
def exUpdateNotFound : String :=
  "VersionMysqlService.UpdateVersion 更新版本：v1失败：" ++
    "VersionMysqlService.VersionExists 版本号：v1不存在：" ++
    "VersionMysqlDao.GetVersionByID 方法发生错误:record not found"

/-- The command `UpdateVersion(v1)` submits. -/
def exUpdateCmd : Command :=
  { Operation := "update", Version := some exV1, Id := "", ExamineSize := 0, Peer := none }

/-- The command `JoinRaftCluster("n2", "127.0.0.1", "8086")` submits. -/
def exJoinCmd : Command :=
  { Operation := "update", Version := none, Id := "", ExamineSize := 0,
    Peer := some { ID := "n2", Address := "127.0.0.1", Port := "8086" } }

/-- The command `HandleDeletePeerRequest("A", "127.0.0.1", "8081")` submits. -/
def exEvictCmd : Command :=
  { Operation := "deleteWrongPeer", Version := none, Id := "", ExamineSize := 0,
    Peer := some exA }

/-! ## Replay of committed entries -/

/-- The consensus engine hands the committed entries to the state machine in
log order.  A panic that nothing recovers ends the process, and with it the
replay. -/
def VersionFSM.replay (env : Env) : VersionService → List LogData → Outcome Unit × VersionService
  | vs, [] => (.ret (), vs)
  | vs, data :: rest =>
    match VersionFSM.Apply env vs data with
    | (.ret _, vs1) => VersionFSM.replay env vs1 rest
    | (.crash, vs1) => (.crash, vs1)

/-- The command that announces peer `A`. -/
def exAddPeerA : LogData :=
  .json { Operation := "updatePeers", Version := none, Id := "", ExamineSize := 0,
          Peer := some exA }

/-- The command that evicts peer `A`. -/
def exDropPeerA : LogData :=
  .json { Operation := "deleteFatalPeer", Version := none, Id := "", ExamineSize := 0,
          Peer := some exA }

/-- Peer `A` refuses the connection with the text Windows gives; peers `B`
and `C` answer as followers are meant to, with an empty leader address. -/
def exNetNoLeader : Request → Reply
  | .getLeaderAddress port =>
    if port = "8081" then .failed exRefused
    else Reply.ok (.object [("code", .num 1), ("data", .str "")])
  | _ => .failed "i/o timeout"

/-- Equality of Go result pairs is decidable. -/
instance instDecidableEqResult {ε α : Type} [DecidableEq ε] [DecidableEq α] :
    DecidableEq (Except ε α)
  | .ok a, .ok b => if h : a = b then isTrue (by rw [h]) else isFalse (fun e => h (by cases e; rfl))
  | .error a, .error b =>
    if h : a = b then isTrue (by rw [h]) else isFalse (fun e => h (by cases e; rfl))
  | .ok _, .error _ => isFalse (fun e => by cases e)
  | .error _, .ok _ => isFalse (fun e => by cases e)

/-- Redis stops answering from its `n`-th command on. -/
def Env.redisDownFrom (n : Nat) : Env :=
  { Env.quiet with redisErr := fun k => if n ≤ k then some "i/o timeout" else none }

/-- Error of `VersionMysqlService.VersionExists` for an id that the reachable
durable store does not hold. -/
def notFoundText (id : String) : String :=
  "VersionMysqlService.VersionExists 版本号：" ++ id ++ "不存在：" ++
    ("VersionMysqlDao.GetVersionByID 方法发生错误:" ++ "record not found")

/-- Error of `VersionMysqlService.DeleteVersion` for such an id. -/
def deleteNotFoundText (id : String) : String :=
  "VersionMysqlService.DeleteVersion 删除版本：" ++ id ++ "失败：" ++ notFoundText id

/-! ## Wire format of a command (`encoding/json` on `fsm.Command`)

`applyRaftCommand` writes a command with `json.Marshal` and `VersionFSM.Apply`
reads it with `json.Unmarshal`.  Here the strings of a command are what Go
holds, sequences of bytes: `Command`, `Version` and `Peer` above are the
commands, records and peers whose strings are Unicode texts. -/

/-- Go `model.Version`, its strings as bytes. -/
structure model.Version where
  ID : Bytes
  VersionNo : Bytes
  Platform : Bytes
  deriving DecidableEq, Repr

/-- Go `config.Peer`, its strings as bytes. -/
structure config.Peer where
  ID : Bytes
  Address : Bytes
  Port : Bytes
  deriving DecidableEq, Repr

/-- Go `fsm.Command`, its strings as bytes. -/
structure fsm.Command where
  Operation : Bytes
  Version : Option model.Version
  Id : Bytes
  ExamineSize : Int
  Peer : Option config.Peer
  deriving DecidableEq, Repr

/-- The bytes of a record whose strings are texts. -/
def Version.bytes (v : Version) : model.Version :=
  { ID := utf8.bytes v.ID, VersionNo := utf8.bytes v.VersionNo,
    Platform := utf8.bytes v.Platform }

/-- The bytes of a peer whose strings are texts. -/
def Peer.bytes (p : Peer) : config.Peer :=
  { ID := utf8.bytes p.ID, Address := utf8.bytes p.Address, Port := utf8.bytes p.Port }

/-- The bytes of a command whose strings are texts. -/
def Command.bytes (c : Command) : fsm.Command :=
  { Operation := utf8.bytes c.Operation, Version := c.Version.map Version.bytes,
    Id := utf8.bytes c.Id, ExamineSize := c.ExamineSize, Peer := c.Peer.map Peer.bytes }

/-- Every string of a record is valid UTF-8. -/
def model.Version.valid (v : model.Version) : Bool :=
  utf8.ValidString v.ID && utf8.ValidString v.VersionNo && utf8.ValidString v.Platform

/-- Every string of a peer is valid UTF-8. -/
def config.Peer.valid (p : config.Peer) : Bool :=
  utf8.ValidString p.ID && utf8.ValidString p.Address && utf8.ValidString p.Port

/-- Every string of a command is valid UTF-8. -/
def fsm.Command.valid (c : fsm.Command) : Bool :=
  utf8.ValidString c.Operation && utf8.ValidString c.Id &&
    (match c.Version with
      | some v => v.valid
      | none => true) &&
    (match c.Peer with
      | some p => p.valid
      | none => true)

/-- An object member as `json.Marshal` writes it: the name between quotes, a
colon, the value. -/
def json.member (name : String) (value : Bytes) : Bytes :=
  [0x22] ++ utf8.bytes name ++ [0x22, 0x3A] ++ value

/-- Go `json.Marshal` of a `model.Version`: the fields have no tag, their
names are the keys. -/
def jsonMarshalVersion (v : model.Version) : Bytes :=
  [0x7B] ++ json.member "ID" (json.appendString v.ID) ++ [0x2C] ++
    json.member "VersionNo" (json.appendString v.VersionNo) ++ [0x2C] ++
    json.member "Platform" (json.appendString v.Platform) ++ [0x7D]

/-- Go `json.Marshal` of a `config.Peer`: the fields have no tag, their names
are the keys. -/
def jsonMarshalPeer (p : config.Peer) : Bytes :=
  [0x7B] ++ json.member "ID" (json.appendString p.ID) ++ [0x2C] ++
    json.member "Address" (json.appendString p.Address) ++ [0x2C] ++
    json.member "Port" (json.appendString p.Port) ++ [0x7D]

/-- The `version` member with the comma in front of it: the tag says
`omitempty`, a nil pointer is left out. -/
def jsonMarshalVersionMember : Option model.Version → Bytes
  | some v => [0x2C] ++ json.member "version" (jsonMarshalVersion v)
  | none => []

/-- The value of the `peer` member: a nil pointer is written `null`. -/
def jsonMarshalPeerValue : Option config.Peer → Bytes
  | some p => jsonMarshalPeer p
  | none => [0x6E, 0x75, 0x6C, 0x6C]

/-- Go `json.Marshal(cmd)` for an `fsm.Command`, as `applyRaftCommand` calls
it: the members in the order of the struct fields, under their tags, with no
white space. -/
def jsonMarshalCommand (c : fsm.Command) : Bytes :=
  [0x7B] ++ json.member "operation" (json.appendString c.Operation) ++
    jsonMarshalVersionMember c.Version ++ [0x2C] ++
    json.member "id" (json.appendString c.Id) ++ [0x2C] ++
    json.member "examine_size" (strconv.FormatInt c.ExamineSize) ++ [0x2C] ++
    json.member "peer" (jsonMarshalPeerValue c.Peer) ++ [0x7D]

/-- The text of bytes that are ASCII. -/
def asciiText (s : Bytes) : String :=
  String.mk (s.map Char.ofNat)

/-- Text of an `UnmarshalTypeError` inside a struct: the kind of the JSON
value, the struct that holds the field, the path of the field from the root,
the Go type of the field. -/
def typeErrorIn (value struct field type : String) : String :=
  "json: cannot unmarshal " ++ value ++ " into Go struct field " ++ struct ++ "." ++ field ++
    " of type " ++ type

/-- Decode a value into a string field: a string sets it, `null` leaves it,
anything else is a type error. -/
def decodeStringInto (struct field : String) (old : Bytes) (bad : Option String) :
    json.Value → Bytes × Option String
  | .string s => (s, bad)
  | .null => (old, bad)
  | x => (old, keepFirst bad (typeErrorIn x.kind struct field "string"))

/-- Decode the members of an object, in order, into a `model.Version` that
the field `version` of a command points to. -/
def decodeVersionMembers : List (Bytes × json.Value) → model.Version × Option String →
    model.Version × Option String
  | [], acc => acc
  | (k, x) :: rest, (v, bad) =>
    if json.fieldIs k "ID" then
      decodeVersionMembers rest
        ({ v with ID := (decodeStringInto "Version" "version.ID" v.ID bad x).1 },
          (decodeStringInto "Version" "version.ID" v.ID bad x).2)
    else if json.fieldIs k "VersionNo" then
      decodeVersionMembers rest
        ({ v with VersionNo :=
            (decodeStringInto "Version" "version.VersionNo" v.VersionNo bad x).1 },
          (decodeStringInto "Version" "version.VersionNo" v.VersionNo bad x).2)
    else if json.fieldIs k "Platform" then
      decodeVersionMembers rest
        ({ v with Platform :=
            (decodeStringInto "Version" "version.Platform" v.Platform bad x).1 },
          (decodeStringInto "Version" "version.Platform" v.Platform bad x).2)
    else decodeVersionMembers rest (v, bad)

/-- Decode the members of an object, in order, into a `config.Peer` that the
field `peer` of a command points to. -/
def decodePeerMembers : List (Bytes × json.Value) → config.Peer × Option String →
    config.Peer × Option String
  | [], acc => acc
  | (k, x) :: rest, (p, bad) =>
    if json.fieldIs k "ID" then
      decodePeerMembers rest
        ({ p with ID := (decodeStringInto "Peer" "peer.ID" p.ID bad x).1 },
          (decodeStringInto "Peer" "peer.ID" p.ID bad x).2)
    else if json.fieldIs k "Address" then
      decodePeerMembers rest
        ({ p with Address := (decodeStringInto "Peer" "peer.Address" p.Address bad x).1 },
          (decodeStringInto "Peer" "peer.Address" p.Address bad x).2)
    else if json.fieldIs k "Port" then
      decodePeerMembers rest
        ({ p with Port := (decodeStringInto "Peer" "peer.Port" p.Port bad x).1 },
          (decodeStringInto "Peer" "peer.Port" p.Port bad x).2)
    else decodePeerMembers rest (p, bad)

/-- Decode a value into the field `Operation`. -/
def decodeOperation (c : fsm.Command) (bad : Option String) :
    json.Value → fsm.Command × Option String
  | .string s => ({ c with Operation := s }, bad)
  | .null => (c, bad)
  | x => (c, keepFirst bad (typeErrorIn x.kind "Command" "operation" "string"))

/-- Decode a value into the field `Version`: an object is decoded into the
struct the pointer already points to, or into a fresh one; `null` makes the
pointer nil. -/
def decodeVersion (c : fsm.Command) (bad : Option String) :
    json.Value → fsm.Command × Option String
  | .object ms =>
    ({ c with Version := some (decodeVersionMembers ms
        (c.Version.getD { ID := [], VersionNo := [], Platform := [] }, bad)).1 },
      (decodeVersionMembers ms
        (c.Version.getD { ID := [], VersionNo := [], Platform := [] }, bad)).2)
  | .null => ({ c with Version := none }, bad)
  | x => (c, keepFirst bad (typeErrorIn x.kind "Command" "version" "model.Version"))

/-- Decode a value into the field `Id`. -/
def decodeId (c : fsm.Command) (bad : Option String) :
    json.Value → fsm.Command × Option String
  | .string s => ({ c with Id := s }, bad)
  | .null => (c, bad)
  | x => (c, keepFirst bad (typeErrorIn x.kind "Command" "id" "string"))

/-- Decode a value into the field `ExamineSize`: a number is read by
`strconv.ParseInt`. -/
def decodeExamineSize (c : fsm.Command) (bad : Option String) :
    json.Value → fsm.Command × Option String
  | .number lit =>
    match strconv.ParseInt lit with
    | some n => ({ c with ExamineSize := n }, bad)
    | none =>
      (c, keepFirst bad
        (typeErrorIn ("number " ++ asciiText lit) "Command" "examine_size" "int"))
  | .null => (c, bad)
  | x => (c, keepFirst bad (typeErrorIn x.kind "Command" "examine_size" "int"))

/-- Decode a value into the field `Peer`, as for `Version`. -/
def decodePeer (c : fsm.Command) (bad : Option String) :
    json.Value → fsm.Command × Option String
  | .object ms =>
    ({ c with Peer := some (decodePeerMembers ms
        (c.Peer.getD { ID := [], Address := [], Port := [] }, bad)).1 },
      (decodePeerMembers ms (c.Peer.getD { ID := [], Address := [], Port := [] }, bad)).2)
  | .null => ({ c with Peer := none }, bad)
  | x => (c, keepFirst bad (typeErrorIn x.kind "Command" "peer" "config.Peer"))

/-- Decode one member of the command object into the command: the key picks
the field, an unknown key is skipped. -/
def decodeCommandMember (k : Bytes) (x : json.Value) (c : fsm.Command) (bad : Option String) :
    fsm.Command × Option String :=
  if json.fieldIs k "operation" then decodeOperation c bad x
  else if json.fieldIs k "version" then decodeVersion c bad x
  else if json.fieldIs k "id" then decodeId c bad x
  else if json.fieldIs k "examine_size" then decodeExamineSize c bad x
  else if json.fieldIs k "peer" then decodePeer c bad x
  else (c, bad)

/-- Decode the members of the command object, in order. -/
def decodeCommandMembers : List (Bytes × json.Value) → fsm.Command × Option String →
    fsm.Command × Option String
  | [], acc => acc
  | (k, x) :: rest, (c, bad) => decodeCommandMembers rest (decodeCommandMember k x c bad)

/-- The zero value of `fsm.Command`. -/
def fsm.Command.zero : fsm.Command :=
  { Operation := [], Version := none, Id := [], ExamineSize := 0, Peer := none }

/-- Go `json.Unmarshal(log.Data, &cmd)`, as `VersionFSM.Apply` calls it on a
zero `Command`: the command, or the text of the error.  The decoder keeps the
first type error it meets and goes on; a text that is not JSON is refused
before anything is decoded. -/
def jsonUnmarshalCommand (data : Bytes) : Except String fsm.Command :=
  match json.parse data with
  | .error e => .error e
  | .ok (.object members) =>
    match decodeCommandMembers members (fsm.Command.zero, none) with
    | (_, some e) => .error e
    | (c, none) => .ok c
  | .ok .null => .ok fsm.Command.zero
  | .ok x => .error ("json: cannot unmarshal " ++ x.kind ++ " into Go value of type fsm.Command")

/-- The keys of the object a text holds, in the order of the text. -/
def json.objectKeys (data : Bytes) : Option (List Bytes) :=
  match json.parse data with
  | .ok (.object members) => some (members.map Prod.fst)
  | _ => none

/-- The command `DeleteVersion` submits for the id that the request
`DELETE /delete_versions/%FF` carries: the one byte `0xFF`. -/
def exDeleteFF : fsm.Command :=
  { Operation := utf8.bytes "delete", Version := none, Id := [0xFF], ExamineSize := 0,
    Peer := none }

/-- A key made of ASCII bytes that a string literal holds as they are. -/
def json.plainKey (k : Bytes) : Bool :=
  k.all fun c => decide (0x20 ≤ c ∧ c < 0x80 ∧ c ≠ 0x22 ∧ c ≠ 0x5C)

/-- A record with every string coerced to valid UTF-8. -/
def model.Version.coerce (v : model.Version) : model.Version :=
  { ID := utf8.coerce v.ID, VersionNo := utf8.coerce v.VersionNo,
    Platform := utf8.coerce v.Platform }

/-- A peer with every string coerced to valid UTF-8. -/
def config.Peer.coerce (p : config.Peer) : config.Peer :=
  { ID := utf8.coerce p.ID, Address := utf8.coerce p.Address, Port := utf8.coerce p.Port }

/-- A command with every string coerced to valid UTF-8: each byte that begins
no valid encoding is replaced by `U+FFFD`. -/
def fsm.Command.coerce (c : fsm.Command) : fsm.Command :=
  { Operation := utf8.coerce c.Operation, Version := c.Version.map model.Version.coerce,
    Id := utf8.coerce c.Id, ExamineSize := c.ExamineSize,
    Peer := c.Peer.map config.Peer.coerce }

/-- The members of the object `json.Marshal` writes for a record, as the
decoder meets them. -/
def versionMembers (v : model.Version) : List (Bytes × json.Value) :=
  [(utf8.bytes "ID", .string (utf8.coerce v.ID)),
    (utf8.bytes "VersionNo", .string (utf8.coerce v.VersionNo)),
    (utf8.bytes "Platform", .string (utf8.coerce v.Platform))]

/-- The members of the object `json.Marshal` writes for a peer, as the decoder
meets them. -/
def peerMembers (p : config.Peer) : List (Bytes × json.Value) :=
  [(utf8.bytes "ID", .string (utf8.coerce p.ID)),
    (utf8.bytes "Address", .string (utf8.coerce p.Address)),
    (utf8.bytes "Port", .string (utf8.coerce p.Port))]

/-- The value of the member `peer`, as the decoder meets it. -/
def peerValue : Option config.Peer → json.Value
  | some p => .object (peerMembers p)
  | none => .null

/-- The members behind `operation` and `version`, as the decoder meets
them. -/
def commandTail (c : fsm.Command) : List (Bytes × json.Value) :=
  [(utf8.bytes "id", .string (utf8.coerce c.Id)),
    (utf8.bytes "examine_size", .number (strconv.FormatInt c.ExamineSize)),
    (utf8.bytes "peer", peerValue c.Peer)]

/-- The members of the object `json.Marshal` writes for a command, as the
decoder meets them. -/
def commandMembers (c : fsm.Command) : List (Bytes × json.Value) :=
  match c.Version with
  | some v =>
    (utf8.bytes "operation", .string (utf8.coerce c.Operation)) ::
      (utf8.bytes "version", .object (versionMembers v)) :: commandTail c
  | none => (utf8.bytes "operation", .string (utf8.coerce c.Operation)) :: commandTail c

/-- The keys of the object `json.Marshal` writes for a command: `version` is
there when the pointer is not nil. -/
def commandKeys (c : fsm.Command) : List Bytes :=
  if c.Version.isSome then
    [utf8.bytes "operation", utf8.bytes "version", utf8.bytes "id", utf8.bytes "examine_size",
      utf8.bytes "peer"]
  else [utf8.bytes "operation", utf8.bytes "id", utf8.bytes "examine_size", utf8.bytes "peer"]

/-- A command with texts outside ASCII, a negative number and both pointers
set. -/
def exWireCmd : fsm.Command :=
  Command.bytes
    { Operation := "add", Version := some { ID := "v1", VersionNo := "1.0.0", Platform := "苹果" },
      Id := "é<b>", ExamineSize := -9223372036854775808,
      Peer := some { ID := "A", Address := "127.0.0.1", Port := "8081" } }

/-! ## Replay on two nodes -/

/-- Two states of the stores that hold the same rows and the same keys; the
numbers of commands received may differ. -/
def World.sameStores (a b : World) : Prop :=
  a.db = b.db ∧ a.redis = b.redis

/-- Two calls gave the same result and left the same rows and keys. -/
def agree {α : Type} (x y : α × World) : Prop :=
  x.1 = y.1 ∧ World.sameStores x.2 y.2

/-- Whether an entry that changes the address book names the peer. -/
def LogData.namesPeer : LogData → Bool
  | .malformed _ => true
  | .json cmd =>
    if cmd.Operation = "updatePeers" ∨ cmd.Operation = "deleteFatalPeer" then cmd.Peer.isSome
    else true

/-- The entry whose only member is the operation tag `deleteFatalPeer`: an
eviction that names no peer (`cmd.Peer` decodes to nil). -/
def exDropNobody : LogData :=
  .json { Operation := "deleteFatalPeer", Version := none, Id := "", ExamineSize := 0,
          Peer := none }

/-- The entry that adds the record `v1`. -/
def exAddV1 : LogData :=
  .json { Operation := "add", Version := some exV1, Id := "", ExamineSize := 0, Peer := none }

/-- The entry that deletes the record `v1`. -/
def exDeleteV1 : LogData :=
  .json { Operation := "delete", Version := none, Id := "v1", ExamineSize := 0, Peer := none }

/-- The entry that reloads the cache. -/
def exReload : LogData :=
  .json { Operation := "reloadCacheData", Version := none, Id := "", ExamineSize := 0,
          Peer := none }

/-- A log that adds `v1`, announces `A`, rewrites `v1`, reloads the cache,
evicts `A`, deletes `v1`, adds it again and ends with an entry that is not JSON. -/
def exLog : List LogData :=
  [exAddV1, exAddPeerA, .json { exUpdateCmd with Version := some exV1b }, exReload, exDropPeerA,
    exDeleteV1, exAddV1, .malformed "x"]


/-! ## HTTP handlers (`controller/version_controller.go`, `routers/version_router.go`) -/

/-- What a handler writes with `c.JSON(status, gin.H\x7b...\x7d)`: the status
code and the JSON object, its members in the order `json.Marshal` writes the
keys of a map (sorted). -/
structure Response where
  status : Nat
  body : Body
  deriving DecidableEq, Repr

/-- Go `VersionController.LeaderHandleCommand`; `cmdData` is the `cmd` query
parameter. -/
def VersionController.LeaderHandleCommand (env : Env) (vs : VersionService)
    (cmdData : LogData) : Outcome Response × VersionService :=
  match VersionService.LeaderHandleCommand env vs cmdData with
  | (.crash, vs1) => (.crash, vs1)
  | (.ret (some err), vs1) =>
    (.ret { status := 500, body := .object [("错误", .str err)] }, vs1)
  | (.ret none, vs1) =>
    (.ret { status := 200, body := .object [("消息", .str "领导者节点已处理命令")] }, vs1)

/-- Go `VersionController.GetLeaderPortAddress`. -/
def VersionController.GetLeaderPortAddress (vs : VersionService) : Response :=
  let leaderAddr := VersionService.HandleGetLeaderPortAddressRequest vs
  if leaderAddr ≠ "" then
    { status := 200,
      body := .object [("消息", .str "成功获取领导者端口地址"), ("领导者端口地址", .str leaderAddr)] }
  else { status := 500, body := .object [("错误", .str "获取领导者端口地址失败")] }

/-- The routes registered by `routers.SetUpVersionRouter`, method and path. -/
def routers.SetUpVersionRouter : List (String × String) :=
  [("POST", "/add_versions"), ("DELETE", "/delete_versions/:id"),
    ("PUT", "/update_versions/:id"), ("GET", "/get_versions/:id"),
    ("GET", "/join_raft_cluster"), ("GET", "/leader_handle_command"),
    ("GET", "/get_leader_port_address"), ("GET", "/delete_fatal_peer")]

/-- Path of the URL a node requests from a peer. -/
def Request.path : Request → String
  | .getLeaderAddress _ => "/GetLeaderAddress"
  | .deleteWrongPeer _ _ => "/DeleteWrongPeer"
  | .leaderHandleCommand _ _ => "/LeaderHandleCommand"

/-- The empty record `&config.Peer\x7b\x7d`. -/
def emptyPeer : Peer := { ID := "", Address := "", Port := "" }

/-- The leader the peers forward to: it listens on port `8085`, over empty
stores. -/
def exLeader8085 : VersionService :=
  { node := { ID := "n9", Address := "127.0.0.1", Port := "8085" }
    peers := []
    leader := true
    world := exEmptyWorld
    raftCalls := 0
    raftLog := []
    sent := [] }

/-- A network on which every lookup is answered with the address `8085` in the
form the lookup decodes, every eviction request with an empty body, and every
forwarded command with the body that the handler
`VersionController.LeaderHandleCommand` of the leader `exLeader8085` writes
for it. -/
def exNetHandlers : Request → Reply
  | .getLeaderAddress _ => Reply.ok (.object [("code", .num 1), ("data", .str "8085")])
  | .deleteWrongPeer _ _ => Reply.ok .empty
  | .leaderHandleCommand _ data =>
    match (VersionController.LeaderHandleCommand Env.quiet exLeader8085 data).1 with
    | .ret resp => Reply.ok resp.body
    | .crash => .failed "EOF"

/-- A network on which every lookup is answered with the body that the handler
`VersionController.GetLeaderPortAddress` of the leader `exLeader8085` writes. -/
def exNetLeaderHandler : Request → Reply
  | .getLeaderAddress _ => Reply.ok (VersionController.GetLeaderPortAddress exLeader8085).body
  | _ => .failed "i/o timeout"


/-- What the `UPDATE` statement of `VersionMysqlDao.UpdateVersion` makes of a
row: an empty new value keeps the old one. -/
def mergedRow (version old : Version) : Version :=
  { ID := old.ID,
    VersionNo := if version.VersionNo ≠ "" then version.VersionNo else old.VersionNo,
    Platform := if version.Platform ≠ "" then version.Platform else old.Platform }

/-- The record `v1` with a new platform and no version number. -/
def exV1c : Version := { ID := "v1", VersionNo := "", Platform := "android" }

/-- The invariant "every record id present in the cache is present in the
durable store". -/
def World.cacheDerived (w : World) : Prop :=
  ∀ id, (kvGet w.redis (versionKey id)).isSome = true → (rowOf w.db id).isSome = true


/-! ## In-process store (`dao/version_db_dao.go`)

Every method takes `accessLock`, so the calls on one store follow one another.
An instant (`time.Time`) is a number of nanoseconds, a `time.Duration` too;
each call reads the clock once, `now`.  A Go map is an association list with
distinct keys.  `lruCacheList` is the list of the keys, most recently used
first; `lruCacheMap`, the index of its elements by key, is not kept apart. -/

/-- A finite Go `float64`: the value `mant / 2 ^ scale`, negated when `neg`.
NaN and the infinities are outside the embedding. -/
structure Float64 where
  neg : Bool
  mant : Nat
  scale : Nat
  deriving DecidableEq, Repr

/-- Go `x < 0`. -/
def Float64.ltZero (x : Float64) : Bool :=
  x.neg && decide (x.mant ≠ 0)

/-- Go `x > 1`. -/
def Float64.gtOne (x : Float64) : Bool :=
  !x.neg && decide (2 ^ x.scale < x.mant)

/-- Number of binary digits of `n`, counted in at most `fuel` halvings. -/
def bitLengthAux : Nat → Nat → Nat
  | 0, _ => 0
  | fuel + 1, n => if n = 0 then 0 else bitLengthAux fuel (n / 2) + 1

/-- Number of binary digits of a natural number. -/
def bitLength (n : Nat) : Nat :=
  bitLengthAux n n

/-- The integer nearest to `n / 2 ^ s`, a tie going to the even one. -/
def roundShift (n s : Nat) : Nat :=
  if 2 * (n % 2 ^ s) < 2 ^ s then n / 2 ^ s
  else if 2 ^ s < 2 * (n % 2 ^ s) then n / 2 ^ s + 1
  else if (n / 2 ^ s) % 2 = 0 then n / 2 ^ s
  else n / 2 ^ s + 1

/-- Magnitude of `int(float64(capacity) * ratio)`: the capacity is converted
(rounded to 53 binary digits), the product is rounded to 53 binary digits (to
a multiple of `2 ^ -1074` where it is subnormal) and then truncated. -/
def truncProduct (capacity : Nat) (ratio : Float64) : Nat :=
  let c := bitLength capacity - 53
  let a := roundShift capacity c * 2 ^ c
  let n := a * ratio.mant
  let s := max (bitLength n - 53) (ratio.scale - 1074)
  roundShift n s * 2 ^ s / 2 ^ ratio.scale

/-- Go `int(float64(capacity) * ratio)`. -/
def intOfProduct (capacity : Int) (ratio : Float64) : Int :=
  if decide (capacity < 0) = ratio.neg then (truncProduct capacity.natAbs ratio : Int)
  else -(truncProduct capacity.natAbs ratio : Int)

/-- Value under a key of a Go map. -/
def mapGet {β : Type} : List (String × β) → String → Option β
  | [], _ => none
  | (k, x) :: m, key => if k = key then some x else mapGet m key

/-- Go `m[key] = x`. -/
def mapSet {β : Type} : List (String × β) → String → β → List (String × β)
  | [], key, x => [(key, x)]
  | (k, y) :: m, key, x => if k = key then (k, x) :: m else (k, y) :: mapSet m key x

/-- Go `delete(m, key)`. -/
def mapDelete {β : Type} : List (String × β) → String → List (String × β)
  | [], _ => []
  | (k, x) :: m, key => if k = key then mapDelete m key else (k, x) :: mapDelete m key

/-- The keys of a Go map. -/
def mapKeys {β : Type} (m : List (String × β)) : List String :=
  m.map Prod.fst

/-- Go `dao.InMemoryDB`, values of type `α`. -/
structure InMemoryDB (α : Type) where
  keyValueStore : List (String × α)
  expirationTimes : List (String × Int)
  maxCapacity : Int
  lruCacheList : List String
  evictionRatio : Float64
  deriving DecidableEq, Repr

/-- Go `time.Hour`, the `defaultExpiration`. -/
def defaultExpiration : Int := 3600000000000

/-- The value of an `int64` after overflow. -/
def wrapInt64 (x : Int) : Int :=
  (x + 2 ^ 63) % 2 ^ 64 - 2 ^ 63

/-- Go `dao.NewInMemoryDBDao`. -/
def NewInMemoryDBDao (α : Type) (capacity : Int) (ratio : Float64) :
    Except String (InMemoryDB α) :=
  if capacity ≤ 0 then .error "内存数据库容量必须大于 0"
  else if ratio.ltZero || ratio.gtOne then .error "缓存淘汰比例必须在 0 到 1 之间"
  else
    .ok { keyValueStore := [], expirationTimes := [], maxCapacity := capacity,
          lruCacheList := [], evictionRatio := ratio }

/-- Go `InMemoryDB.removeKey`. -/
def InMemoryDB.removeKey {α : Type} (db : InMemoryDB α) (key : String) : InMemoryDB α :=
  { db with
    keyValueStore := mapDelete db.keyValueStore key
    expirationTimes := mapDelete db.expirationTimes key
    lruCacheList := db.lruCacheList.erase key }

/-- Go `InMemoryDB.moveToFront`. -/
def InMemoryDB.moveToFront {α : Type} (db : InMemoryDB α) (key : String) : InMemoryDB α :=
  if key ∈ db.lruCacheList then { db with lruCacheList := key :: db.lruCacheList.erase key }
  else { db with lruCacheList := key :: db.lruCacheList }

/-- The `evictionCount` of `performEviction`. -/
def InMemoryDB.evictionCount {α : Type} (db : InMemoryDB α) : Nat :=
  if intOfProduct db.maxCapacity db.evictionRatio < 1 then 1
  else (intOfProduct db.maxCapacity db.evictionRatio).toNat

/-- The loop of `performEviction`: up to `n` times, while the list is not
empty, remove the key at its back. -/
def InMemoryDB.evictLoop {α : Type} : Nat → InMemoryDB α → InMemoryDB α
  | 0, db => db
  | n + 1, db =>
    match db.lruCacheList.getLast? with
    | none => db
    | some key => InMemoryDB.evictLoop n (db.removeKey key)

/-- Go `InMemoryDB.performEviction`; the error it can return needs a nil back
element of a list that is not empty, which `container/list` never gives. -/
def InMemoryDB.performEviction {α : Type} (db : InMemoryDB α) :
    Option String × InMemoryDB α :=
  (none, InMemoryDB.evictLoop db.evictionCount db)

/-- Go `InMemoryDB.SetValue`. -/
def InMemoryDB.SetValue {α : Type} (db : InMemoryDB α) (now : Int) (key : String) (value : α)
    (expirationSeconds : Int) : Option String × InMemoryDB α :=
  if key = "" then (some "键不能为空", db)
  else
    let expirationDuration := wrapInt64 (expirationSeconds * 1000000000)
    let evicted :=
      if (db.keyValueStore.length : Int) ≥ db.maxCapacity then db.performEviction
      else (none, db)
    match evicted with
    | (some err, db1) => (some err, db1)
    | (none, db1) =>
      let db2 := db1.moveToFront key
      if expirationSeconds > 0 then
        (none,
          { db2 with
            expirationTimes := mapSet db2.expirationTimes key (now + expirationDuration)
            keyValueStore := mapSet db2.keyValueStore key value })
      else (none, { db2 with keyValueStore := mapSet db2.keyValueStore key value })

/-- Go `InMemoryDB.GetValue`: the value, whether the key exists, the error. -/
def InMemoryDB.GetValue {α : Type} (db : InMemoryDB α) (now : Int) (key : String) :
    (Option α × Bool × Option String) × InMemoryDB α :=
  if key = "" then ((none, false, some "键不能为空"), db)
  else
    match mapGet db.expirationTimes key with
    | some expireTime =>
      if now > expireTime then ((none, false, none), db.removeKey key)
      else
        let db1 :=
          { db with expirationTimes := mapSet db.expirationTimes key (now + defaultExpiration) }
        let db2 := db1.moveToFront key
        ((mapGet db2.keyValueStore key, true, none), db2)
    | none =>
      match mapGet db.keyValueStore key with
      | some value => ((some value, true, none), db.moveToFront key)
      | none => ((none, false, none), db)

/-- Go `InMemoryDB.UpdateValue`. -/
def InMemoryDB.UpdateValue {α : Type} (db : InMemoryDB α) (now : Int) (key : String)
    (value : α) : (Bool × Option String) × InMemoryDB α :=
  if key = "" then ((false, some "键不能为空"), db)
  else
    match mapGet db.expirationTimes key with
    | some expireTime =>
      if now > expireTime then ((false, none), db.removeKey key)
      else
        let db1 :=
          { db with
            expirationTimes := mapSet db.expirationTimes key (now + defaultExpiration)
            keyValueStore := mapSet db.keyValueStore key value }
        ((true, none), db1.moveToFront key)
    | none =>
      match mapGet db.keyValueStore key with
      | some _ =>
        ((true, none),
          InMemoryDB.moveToFront { db with keyValueStore := mapSet db.keyValueStore key value }
            key)
      | none => ((false, none), db)

/-- Go `InMemoryDB.DeleteValue`. -/
def InMemoryDB.DeleteValue {α : Type} (db : InMemoryDB α) (key : String) :
    Option String × InMemoryDB α :=
  if key = "" then (some "键不能为空", db)
  else
    match mapGet db.keyValueStore key with
    | some _ => (none, db.removeKey key)
    | none => (none, db)

/-- Go `InMemoryDB.GetKeyCount`. -/
def InMemoryDB.GetKeyCount {α : Type} (db : InMemoryDB α) : Int :=
  db.keyValueStore.length

/-- The keys whose expiry time has passed: `time.Now().After(expireTime)`. -/
def InMemoryDB.expiredKeys {α : Type} (db : InMemoryDB α) (now : Int) : List String :=
  mapKeys (db.expirationTimes.filter fun e => decide (now > e.2))

/-- Go `InMemoryDB.PeriodicCleanup`.  `shuffle` is the order in which the
iteration over the map and `rand.Shuffle` leave the expired keys. -/
def InMemoryDB.PeriodicCleanup {α : Type} (db : InMemoryDB α) (now : Int) (checkSize : Int)
    (shuffle : List String → List String) : Option String × InMemoryDB α :=
  if checkSize < 0 then (some "检查数量不能为负数", db)
  else
    let keys := db.expiredKeys now
    if keys.length > 0 then
      let checkSize1 := if (keys.length : Int) < checkSize then (keys.length : Int) else checkSize
      (none, ((shuffle keys).take checkSize1.toNat).foldl InMemoryDB.removeKey db)
    else (none, db)

/-- A call on a store. -/
inductive StoreCall (α : Type) where
  | setValue (now : Int) (key : String) (value : α) (expirationSeconds : Int)
  | getValue (now : Int) (key : String)
  | updateValue (now : Int) (key : String) (value : α)
  | deleteValue (key : String)
  | periodicCleanup (now : Int) (checkSize : Int) (shuffle : List String → List String)

/-- The store after a call. -/
def StoreCall.run {α : Type} (db : InMemoryDB α) : StoreCall α → InMemoryDB α
  | .setValue now key value expirationSeconds => (db.SetValue now key value expirationSeconds).2
  | .getValue now key => (db.GetValue now key).2
  | .updateValue now key value => (db.UpdateValue now key value).2
  | .deleteValue key => (db.DeleteValue key).2
  | .periodicCleanup now checkSize shuffle => (db.PeriodicCleanup now checkSize shuffle).2

/-- The store after a sequence of calls. -/
def runCalls {α : Type} (db : InMemoryDB α) (calls : List (StoreCall α)) : InMemoryDB α :=
  calls.foldl StoreCall.run db

/-- The invariants of a store: the keys of each map are distinct, so are the
keys of the list; a key with an expiry time has a value; the list holds the
keys that have a value. -/
def InMemoryDB.wf {α : Type} (db : InMemoryDB α) : Prop :=
  (mapKeys db.keyValueStore).Nodup ∧ (mapKeys db.expirationTimes).Nodup ∧
    db.lruCacheList.Nodup ∧
    (∀ k, k ∈ mapKeys db.expirationTimes → k ∈ mapKeys db.keyValueStore) ∧
    (∀ k, k ∈ db.lruCacheList ↔ k ∈ mapKeys db.keyValueStore)

/-- The ratio `0.5`. -/
def exHalf : Float64 := { neg := false, mant := 1, scale := 1 }

/-- The ratio `0.3`, as a `float64`: `5404319552844595 / 2 ^ 54`. -/
def exThreeTenths : Float64 := { neg := false, mant := 5404319552844595, scale := 54 }

/-- The store `NewInMemoryDBDao(3, 0.5)` creates. -/
def exEmptyStore : InMemoryDB String :=
  { keyValueStore := [], expirationTimes := [], maxCapacity := 3, lruCacheList := [],
    evictionRatio := exHalf }

/-- A store of capacity 3 and ratio 0.5 after `SetValue` of `a`, `b`, `c`, in
this order, none with an expiry. -/
def exFullStore : InMemoryDB String :=
  { keyValueStore := [("a", "1"), ("b", "2"), ("c", "3")], expirationTimes := [],
    maxCapacity := 3, lruCacheList := ["c", "b", "a"], evictionRatio := exHalf }

/-- The calls that fill the store: `a`, `b`, `c` are set in this order. -/
def exFillCalls : List (StoreCall String) :=
  [.setValue 0 "a" "1" 0, .setValue 0 "b" "2" 0, .setValue 0 "c" "3" 0]

/-- Calls of every kind on a store of capacity 3: five keys are set, the
last two after the store is full. -/
def exMixedCalls : List (StoreCall String) :=
  [.setValue 0 "a" "1" 0, .setValue 0 "b" "2" 1, .setValue 0 "c" "3" 0,
    .getValue 5 "a", .setValue 6 "d" "4" 0, .updateValue 7 "c" "33", .deleteValue "zz",
    .periodicCleanup 2000000000 5 List.reverse, .setValue 8 "e" "5" 0,
    .setValue 9 "f" "6" 0, .setValue 9 "g" "7" 0]

/-- The calls that set `a` and `b` with an expiry of one second and `c` with an
expiry of one hundred seconds, at time 0. -/
def exAgingCalls : List (StoreCall String) :=
  [.setValue 0 "a" "1" 1, .setValue 0 "b" "2" 1, .setValue 0 "c" "3" 100]

/-- The store after `exAgingCalls`: `a` and `b` expire one second after time
0, `c` one hundred seconds after it. -/
def exAgingStore : InMemoryDB String :=
  { keyValueStore := [("a", "1"), ("b", "2"), ("c", "3")],
    expirationTimes := [("a", 1000000000), ("b", 1000000000), ("c", 100000000000)],
    maxCapacity := 3, lruCacheList := ["c", "b", "a"], evictionRatio := exHalf }


/-! ## Lemmas on the stores -/

theorem kvGet_kvSet_ne (r : List (String × RedisVal)) (key k : String) (x : RedisVal)
    (h : key ≠ k) : kvGet (kvSet r key x) k = kvGet r k := by
  induction r with
  | nil => simp [kvSet, kvGet, h]
  | cons e r ih =>
    obtain ⟨k0, y⟩ := e
    by_cases h0 : k0 = key
    · subst h0
      simp [kvSet, kvGet, h]
    · simp [kvSet, kvGet, h0, ih]

theorem kvGet_kvSet_self (r : List (String × RedisVal)) (key : String) (x : RedisVal) :
    kvGet (kvSet r key x) key = some x := by
  induction r with
  | nil => simp [kvSet, kvGet]
  | cons e r ih =>
    obtain ⟨k0, y⟩ := e
    by_cases h0 : k0 = key
    · simp [kvSet, kvGet, h0]
    · simp [kvSet, kvGet, h0, ih]

theorem kvGet_kvDel_ne (r : List (String × RedisVal)) (key k : String) (h : key ≠ k) :
    kvGet (kvDel r key) k = kvGet r k := by
  induction r with
  | nil => simp [kvDel, kvGet]
  | cons e r ih =>
    obtain ⟨k0, y⟩ := e
    by_cases h0 : k0 = key
    · subst h0
      simp [kvDel, kvGet, h, ih]
    · simp [kvDel, kvGet, h0, ih]

theorem kvGet_kvDel_self (r : List (String × RedisVal)) (key : String) :
    kvGet (kvDel r key) key = none := by
  induction r with
  | nil => simp [kvDel, kvGet]
  | cons e r ih =>
    obtain ⟨k0, y⟩ := e
    by_cases h0 : k0 = key
    · simp [kvDel, h0, ih]
    · simp [kvDel, kvGet, h0, ih]

theorem quiet_stores_reachable : Env.quiet.storesReachable :=
  ⟨fun _ => rfl, fun _ => rfl⟩

/-! ## Read path -/

/-- C1 (the code departs from the claim).  With both stores reachable, a read
of an id whose record is in the durable store but not in the cache returns a
nil record with a nil error; the durable store is not consulted and the cache
still has no entry for the id. -/
theorem C1_read_miss_returns_nil_without_fallback (env : Env) (w : World) (id : String)
    (v : Version) (hreach : env.storesReachable)
    (hmiss : kvGet w.redis (versionKey id) = none) (hrow : rowOf w.db id = some v) :
    (VersionService.GetVersionByID env w id).1 = .ok none ∧
      kvGet (VersionService.GetVersionByID env w id).2.redis (versionKey id) = none ∧
      (VersionService.GetVersionByID env w id).2.mysqlCalls = w.mysqlCalls ∧
      rowOf (VersionService.GetVersionByID env w id).2.db id = some v := by
  simp [VersionService.GetVersionByID, VersionRedisService.GetVersionByID,
    VersionRedisService.VersionExists, VersionRedisDao.GetVersionByID, redisGet, hreach.1,
    hmiss, hrow, World.tickRedis]

/-- C1, at the failing input: record `v1` in the durable store, empty cache. -/
theorem C1_read_miss_witness :
    kvGet exColdWorld.redis (versionKey "v1") = none ∧
      rowOf exColdWorld.db "v1" = some exV1 ∧
      (VersionService.GetVersionByID Env.quiet exColdWorld "v1").1 = .ok none ∧
      kvGet (VersionService.GetVersionByID Env.quiet exColdWorld "v1").2.redis
        (versionKey "v1") = none ∧
      (VersionService.GetVersionByID Env.quiet exColdWorld "v1").2.mysqlCalls
        = exColdWorld.mysqlCalls ∧
      rowOf (VersionService.GetVersionByID Env.quiet exColdWorld "v1").2.db "v1" = some exV1 :=
  ⟨by decide, by decide,
    C1_read_miss_returns_nil_without_fallback Env.quiet exColdWorld "v1" exV1
      quiet_stores_reachable (by decide) (by decide)⟩

/-- C9 (the code departs from the claim).  With both stores reachable, a read
of an id that is in neither store returns a nil record with a nil error, not
an error. -/
theorem C9_read_unknown_returns_nil_nil (env : Env) (w : World) (id : String)
    (hreach : env.storesReachable)
    (hcache : kvGet w.redis (versionKey id) = none) (hdb : rowOf w.db id = none) :
    (VersionService.GetVersionByID env w id).1 = .ok none ∧
      rowOf (VersionService.GetVersionByID env w id).2.db id = none := by
  simp [VersionService.GetVersionByID, VersionRedisService.GetVersionByID,
    VersionRedisService.VersionExists, VersionRedisDao.GetVersionByID, redisGet, hreach.1,
    hcache, hdb, World.tickRedis]

/-- C9, at the failing input: id `v1` over two empty stores. -/
theorem C9_read_unknown_witness :
    kvGet exEmptyWorld.redis (versionKey "v1") = none ∧
      rowOf exEmptyWorld.db "v1" = none ∧
      (VersionService.GetVersionByID Env.quiet exEmptyWorld "v1").1 = .ok none ∧
      rowOf (VersionService.GetVersionByID Env.quiet exEmptyWorld "v1").2.db "v1" = none :=
  ⟨by decide, by decide,
    C9_read_unknown_returns_nil_nil Env.quiet exEmptyWorld "v1" quiet_stores_reachable
      (by decide) (by decide)⟩

/-! ## Write path -/

/-- C2 (the code departs from the claim).  `AddVersionInternal` whose cache
write fails after the insert returns an error and leaves the inserted row in
the durable store; `DeleteVersionInternal` whose cache delete fails after the
durable delete returns an error and leaves the row deleted.  Only
`UpdateVersionInternal`, whose statement runs inside the transaction, leaves
the durable store as it was. -/
theorem C2_add_and_delete_keep_the_durable_write :
    ((VersionService.AddVersionInternal (Env.failRedisAt 1) exEmptyWorld (some exV1)).1
        = some "无法向redis中添加版本信息: VersionRedisDao.AddVersion 方法发生错误: i/o timeout" ∧
      exEmptyWorld.db = [] ∧
      (VersionService.AddVersionInternal (Env.failRedisAt 1) exEmptyWorld (some exV1)).2.db
        = [exV1]) ∧
    ((VersionService.DeleteVersionInternal (Env.failRedisAt 2) exWarmWorld "v1").1
        = some "从redis删除版本失败: VersionRedisDao.DeleteVersion 方法发生错误: i/o timeout" ∧
      exWarmWorld.db = [exV1] ∧
      (VersionService.DeleteVersionInternal (Env.failRedisAt 2) exWarmWorld "v1").2.db = []) ∧
    ((VersionService.UpdateVersionInternal (Env.failRedisAt 2) exWarmWorld (some exV1b)).1
        = some "更新版本到redis失败: VersionRedisDao.UpdateVersion 方法发生错误:i/o timeout" ∧
      (VersionService.UpdateVersionInternal (Env.failRedisAt 2) exWarmWorld (some exV1b)).2.db
        = exWarmWorld.db) := by
  decide

/-- C3 (the code departs from the claim).  `UpdateVersionInternal` takes no
lock: with every lock key held it returns nil and rewrites the record in both
stores. -/
theorem C3_update_runs_while_locks_are_held :
    kvGet exLockedWorld.redis "add_version_lock" = some (.text "locked") ∧
      kvGet exLockedWorld.redis "update_version_lock" = some (.text "locked") ∧
      kvGet exLockedWorld.redis "delete_version_lock" = some (.text "locked") ∧
      kvGet exLockedWorld.redis "reload_redis_lock" = some (.text "locked") ∧
      (VersionService.UpdateVersionInternal Env.quiet exLockedWorld (some exV1b)).1 = none ∧
      (VersionService.UpdateVersionInternal Env.quiet exLockedWorld (some exV1b)).2.db
        = [exV1b] ∧
      kvGet (VersionService.UpdateVersionInternal Env.quiet exLockedWorld (some exV1b)).2.redis
        (versionKey "v1") = some (.json exV1b) ∧
      exLockedWorld.db = [exV1] ∧
      kvGet exLockedWorld.redis (versionKey "v1") = some (.json exV1) := by
  decide

/-! ## Leader discovery -/

theorem lastSeenRefusing_append_one (env : Env) (l : List Peer) (q init : Peer) :
    lastSeenRefusing env (l ++ [q]) init
      = if seenRefusing env q then q else lastSeenRefusing env l init := by
  simp [lastSeenRefusing, List.foldl_append]

theorem lastSeenRefusing_cons (env : Env) (l : List Peer) (q init : Peer) :
    lastSeenRefusing env (q :: l) init
      = lastSeenRefusing env l (if seenRefusing env q then q else init) := by
  simp [lastSeenRefusing]

/-- Peers that are passed over: the scan goes on behind them, remembering the
last of them that passed the test `seenRefusing`. -/
theorem scanPeers_skip (env : Env) (pre rest : List Peer) (wn : Peer) (seen : List Peer)
    (hpre : ∀ q ∈ pre, passedOver env q = true) :
    VersionService.scanPeers env (pre ++ rest) wn seen
      = VersionService.scanPeers env rest (lastSeenRefusing env pre wn) (seen ++ pre) := by
  induction pre generalizing wn seen with
  | nil => simp [lastSeenRefusing]
  | cons q pre ih =>
    have hq := hpre q (List.mem_cons_self q pre)
    have hrest : ∀ x ∈ pre, passedOver env x = true :=
      fun x hx => hpre x (List.mem_cons_of_mem q hx)
    rw [lastSeenRefusing_cons, List.cons_append]
    cases hnet : env.net (.getLeaderAddress q.Port) with
    | failed msg =>
      by_cases hc : strings.Contains msg refusedMarker = true
      · simp only [VersionService.scanPeers, hnet, hc, if_true]
        rw [ih _ _ hrest]
        simp [seenRefusing, hnet, hc]
      · simp [passedOver, seenRefusing, hnet, hc] at hq
    | unread msg => simp [passedOver, seenRefusing, hnet] at hq
    | ok b =>
      have hb : b = Body.empty := by simpa [passedOver, seenRefusing, hnet] using hq
      subst hb
      simp only [VersionService.scanPeers, hnet, if_true]
      rw [ih _ _ hrest]
      simp [seenRefusing, hnet]

/-- The scan stops at a peer that answers with a string in `data`. -/
theorem scanPeers_answer (env : Env) (p : Peer) (post : List Peer) (wn : Peer)
    (seen : List Peer) (L : String) (hp : answeredString env p = some L) :
    VersionService.scanPeers env (p :: post) wn seen
      = { addr := L, err := none, wrongNode := some wn, contacted := seen ++ [p] } := by
  unfold answeredString at hp
  cases hnet : env.net (.getLeaderAddress p.Port) with
  | failed msg => simp [hnet] at hp
  | unread msg => simp [hnet] at hp
  | ok b =>
    rw [hnet] at hp
    by_cases hb : b = Body.empty
    · simp [hb] at hp
    · simp only [hb, if_false] at hp
      cases hdec : decodeLeaderAnswer b with
      | error e => simp [hdec] at hp
      | ok r =>
        rw [hdec] at hp
        cases hdata : r.Data with
        | str s =>
          simp only [hdata, Option.some.injEq] at hp
          subst hp
          simp [VersionService.scanPeers, hnet, hb, hdec, hdata]
        | null => simp [hdata] at hp
        | num n => simp [hdata] at hp
        | bool b => simp [hdata] at hp
        | number literal => simp [hdata] at hp
        | array => simp [hdata] at hp
        | object => simp [hdata] at hp

/-- The record the scan reports is the last asked peer that passed the test
`seenRefusing`, and the peers asked are an initial part of the list. -/
theorem scanPeers_reports_last (env : Env) (l : List Peer) (wn : Peer) (seen : List Peer)
    (init : Peer) (hwn : wn = lastSeenRefusing env seen init) :
    (VersionService.scanPeers env l wn seen).wrongNode
        = some (lastSeenRefusing env (VersionService.scanPeers env l wn seen).contacted init) ∧
      ∃ k, (VersionService.scanPeers env l wn seen).contacted = seen ++ l.take k := by
  induction l generalizing wn seen with
  | nil => exact ⟨by simp [VersionService.scanPeers, hwn], 0, by simp [VersionService.scanPeers]⟩
  | cons q rest ih =>
    cases hnet : env.net (.getLeaderAddress q.Port) with
    | failed msg =>
      by_cases hc : strings.Contains msg refusedMarker = true
      · have hq : seenRefusing env q = true := by simp [seenRefusing, hnet, hc]
        have step := ih q (seen ++ [q]) (by rw [lastSeenRefusing_append_one, hq]; simp)
        simp only [VersionService.scanPeers, hnet, hc, if_true]
        refine ⟨step.1, ?_⟩
        obtain ⟨k, hk⟩ := step.2
        exact ⟨k + 1, by rw [hk]; simp⟩
      · have hq : seenRefusing env q = false := by simp [seenRefusing, hnet, hc]
        simp only [VersionService.scanPeers, hnet, hc]
        exact ⟨by simp [lastSeenRefusing_append_one, hq, hwn], 1, by simp⟩
    | unread msg =>
      have hq : seenRefusing env q = false := by simp [seenRefusing, hnet]
      simp only [VersionService.scanPeers, hnet]
      exact ⟨by simp [lastSeenRefusing_append_one, hq, hwn], 1, by simp⟩
    | ok b =>
      have hq : seenRefusing env q = false := by simp [seenRefusing, hnet]
      by_cases hb : b = Body.empty
      · have step := ih wn (seen ++ [q]) (by rw [lastSeenRefusing_append_one, hq]; simp [hwn])
        simp only [VersionService.scanPeers, hnet, hb, if_true]
        refine ⟨step.1, ?_⟩
        obtain ⟨k, hk⟩ := step.2
        exact ⟨k + 1, by rw [hk]; simp⟩
      · simp only [VersionService.scanPeers, hnet, hb, if_false]
        cases hdec : decodeLeaderAnswer b with
        | error e => exact ⟨by simp [lastSeenRefusing_append_one, hq, hwn], 1, by simp⟩
        | ok r =>
          cases hdata : r.Data <;>
            exact ⟨by simp [hdata, lastSeenRefusing_append_one, hq, hwn], 1, by simp [hdata]⟩

/-- A request that fails with a text the loop does not take for a refusal ends
the scan with that error. -/
theorem scanPeers_failure (env : Env) (p : Peer) (post : List Peer) (wn : Peer)
    (seen : List Peer) (msg : String)
    (hnet : env.net (.getLeaderAddress p.Port) = .failed msg)
    (hmsg : strings.Contains msg refusedMarker = false) :
    VersionService.scanPeers env (p :: post) wn seen
      = { addr := "", err := some ("请求出错：" ++ msg), wrongNode := some wn,
          contacted := seen ++ [p] } := by
  simp [VersionService.scanPeers, hnet, hmsg]

/-- A peer the loop takes for one that refuses the connection does refuse it. -/
theorem seenRefusing_refuses (env : Env) (p : Peer) (h : seenRefusing env p = true) :
    refusesConnection env p = true := by
  unfold seenRefusing at h
  unfold refusesConnection
  cases hnet : env.net (.getLeaderAddress p.Port) with
  | failed msg =>
    rw [hnet] at h
    simp only [refusalText, Bool.or_eq_true]
    exact Or.inr h
  | unread msg => rw [hnet] at h; cases h
  | ok b => rw [hnet] at h; cases h

/-- The last peer of a list that passes the test, as the last element of the
sublist of those that pass it. -/
theorem lastSeenRefusing_eq_getLast (env : Env) (l : List Peer) (init : Peer) :
    lastSeenRefusing env l init = ((l.filter (seenRefusing env)).getLast?).getD init := by
  induction l generalizing init with
  | nil => rfl
  | cons q l ih =>
    rw [lastSeenRefusing_cons, ih]
    by_cases hq : seenRefusing env q = true
    · rw [if_pos hq, List.filter_cons_of_pos hq, List.getLast?_cons]
      rfl
    · rw [if_neg hq, List.filter_cons_of_neg hq]

/-- What holds of the scan on a node that is not leader: when the peers in
front of `p` are all passed over and `p` answers with a string `L` in `data`,
`GetLeaderPortAddr` returns `L` with a nil error after asking those peers and
`p`, and no peer behind `p`. -/
theorem lookup_stops_at_first_string (env : Env) (vs : VersionService)
    (pre : List Peer) (p : Peer) (post : List Peer) (L : String)
    (hrole : vs.leader = false) (hbook : vs.peers = pre ++ p :: post)
    (hpre : ∀ q ∈ pre, passedOver env q = true) (hp : answeredString env p = some L) :
    VersionService.GetLeaderPortAddr env vs
      = { addr := L, err := none,
          wrongNode := some (lastSeenRefusing env pre { ID := "", Address := "", Port := "" }),
          contacted := pre ++ [p] } := by
  unfold VersionService.GetLeaderPortAddr
  rw [hbook, scanPeers_skip env pre (p :: post) _ _ hpre, scanPeers_answer env p post _ _ L hp]
  simp [hrole]

/-- On a node that is not leader: when the peers in front of `p` are all
passed over and the request to `p` fails with a text that does not contain
the marker, `GetLeaderPortAddr` returns that failure after asking those peers
and `p`, and no peer behind `p`. -/
theorem lookup_stops_at_other_failure (env : Env) (vs : VersionService)
    (pre : List Peer) (p : Peer) (post : List Peer) (msg : String)
    (hrole : vs.leader = false) (hbook : vs.peers = pre ++ p :: post)
    (hpre : ∀ q ∈ pre, passedOver env q = true)
    (hnet : env.net (.getLeaderAddress p.Port) = .failed msg)
    (hmsg : strings.Contains msg refusedMarker = false) :
    VersionService.GetLeaderPortAddr env vs
      = { addr := "", err := some ("请求出错：" ++ msg),
          wrongNode := some (lastSeenRefusing env pre { ID := "", Address := "", Port := "" }),
          contacted := pre ++ [p] } := by
  unfold VersionService.GetLeaderPortAddr
  rw [hbook, scanPeers_skip env pre (p :: post) _ _ hpre,
    scanPeers_failure env p post _ _ msg hnet hmsg]
  simp [hrole]

/-- Over `[A, B, C]` where `A` refuses the connection with the text Windows
gives and `B` answers with `"8085"`, the result is `("8085", faulty peer A,
nil)` and `C` is not asked. -/
theorem lookup_on_the_marker_text :
    VersionService.GetLeaderPortAddr { Env.quiet with net := exNetAB } exFollower
      = { addr := "8085", err := none, wrongNode := some exA, contacted := [exA, exB] } := by
  decide

/-- Over `[A, B, C]` where `A` answers as a node that is not the leader does,
with an object that has no `data` string, and `B` answers with `"8085"`,
`GetLeaderPortAddr` returns an error after asking `A` alone. -/
theorem lookup_ends_at_a_follower :
    answeredString { Env.quiet with net := exNetFollowerFirst } exA = none ∧
      leaderAddress { Env.quiet with net := exNetFollowerFirst } exB = some "8085" ∧
      VersionService.GetLeaderPortAddr { Env.quiet with net := exNetFollowerFirst } exFollower
        = { addr := "", err := some "领导者地址 类型断言失败", wrongNode := some emptyPeer,
            contacted := [exA] } := by
  decide

/-- C4 (the code departs from the claim).  The scenario of the claim, on a
system where a refused connection fails with the text `connection refused`:
over `[A, B, C]`, `A` refuses the connection and `B` answers with the leader
address `"8085"`.  The text does not contain the marker `GetLeaderPortAddr`
looks for, so the call ends at `A`: it returns the error of the request and no
address, the peer record it reports is the empty one, and `B` is never
asked. -/
theorem C4_refused_connection_ends_the_scan :
    exFollower.leader = false ∧ exFollower.peers = [exA, exB, exC] ∧
      refusesConnection { Env.quiet with net := exNetLinuxAB } exA = true ∧
      seenRefusing { Env.quiet with net := exNetLinuxAB } exA = false ∧
      leaderAddress { Env.quiet with net := exNetLinuxAB } exB = some "8085" ∧
      VersionService.GetLeaderPortAddr { Env.quiet with net := exNetLinuxAB } exFollower
        = { addr := "",
            err := some "请求出错：dial tcp 127.0.0.1:8081: connect: connection refused",
            wrongNode := some emptyPeer, contacted := [exA] } := by
  decide

/-- C5 as stated fails.  Over `[A, B, C]` where `A` and `B` both refuse the
connection, the first unreachable peer is `A`.  When they refuse it with the
text Windows gives, the faulty peer reported is `B`; when they refuse it with
the text Linux gives, the call ends at `A` and the record reported is the
empty one. -/
theorem C5_reported_peer_is_not_the_first :
    firstRefusing { Env.quiet with net := exNetRefuse } exFollower.peers = some exA ∧
      (VersionService.GetLeaderPortAddr { Env.quiet with net := exNetRefuse }
        exFollower).wrongNode = some exB ∧
      (VersionService.GetLeaderPortAddr { Env.quiet with net := exNetRefuse }
        exFollower).wrongNode
        ≠ firstRefusing { Env.quiet with net := exNetRefuse } exFollower.peers ∧
      firstRefusing { Env.quiet with net := exNetLinuxRefuse } exFollower.peers = some exA ∧
      refusesConnection { Env.quiet with net := exNetLinuxRefuse } exB = true ∧
      (VersionService.GetLeaderPortAddr { Env.quiet with net := exNetLinuxRefuse }
        exFollower).wrongNode = some emptyPeer ∧
      (VersionService.GetLeaderPortAddr { Env.quiet with net := exNetLinuxRefuse }
        exFollower).contacted = [exA] := by
  decide

/-- C5, amended.  On a node that is not leader, for every address book and
every behaviour of the peers, the peers `GetLeaderPortAddr` asks are an initial
part of the address book, and if `p` is the last of them whose request failed
with the text the code takes for a refused connection, the one peer record the
call reports is `p`. -/
theorem C5_reported_peer_is_the_last_seen_refusing (env : Env) (vs : VersionService)
    (p : Peer) (hrole : vs.leader = false)
    (hlast : (((VersionService.GetLeaderPortAddr env vs).contacted).filter
      (seenRefusing env)).getLast? = some p) :
    (VersionService.GetLeaderPortAddr env vs).wrongNode = some p ∧
      ∃ k, (VersionService.GetLeaderPortAddr env vs).contacted = vs.peers.take k := by
  have h := scanPeers_reports_last env vs.peers { ID := "", Address := "", Port := "" } []
    { ID := "", Address := "", Port := "" } (by simp [lastSeenRefusing])
  have h2 : (VersionService.GetLeaderPortAddr env vs).wrongNode
        = some (lastSeenRefusing env (VersionService.GetLeaderPortAddr env vs).contacted
            { ID := "", Address := "", Port := "" }) ∧
      ∃ k, (VersionService.GetLeaderPortAddr env vs).contacted = vs.peers.take k := by
    simpa [VersionService.GetLeaderPortAddr, hrole] using h
  refine ⟨?_, h2.2⟩
  rw [h2.1, lastSeenRefusing_eq_getLast, hlast]
  rfl

/-- C5 amended, where `A` and `B` both refuse the connection with the text the
code looks for and `C` does not answer in time: the peers asked are `A`, `B`
and `C`, the last of them that failed with that text is `B`, and `B` is
reported. -/
theorem C5_reported_peer_witness :
    exFollower.leader = false ∧
      (VersionService.GetLeaderPortAddr { Env.quiet with net := exNetRefuse }
        exFollower).contacted = [exA, exB, exC] ∧
      ([exA, exB, exC].filter (seenRefusing { Env.quiet with net := exNetRefuse })).getLast?
        = some exB ∧
      (VersionService.GetLeaderPortAddr { Env.quiet with net := exNetRefuse }
        exFollower).wrongNode = some exB :=
  ⟨by decide, by decide, by decide,
    (C5_reported_peer_is_the_last_seen_refusing { Env.quiet with net := exNetRefuse }
      exFollower exB (by decide) (by decide)).1⟩

/-! ## Membership commands and error propagation -/

/-- C6 (the code departs from the claim).  On a leader,
`JoinRaftCluster("n2", "127.0.0.1", "8086")` succeeds and the command it
submits carries the tag `"update"`, which `VersionFSM.Apply` gives to
`UpdateVersionInternal`: applied on node `n1` it returns nil and leaves the
address book as it was.  The tag that reaches `UpdatePeersInternal` is
`"updatePeers"`: the same command under that tag appends the peer. -/
theorem C6_join_submits_update_not_updatePeers :
    (VersionService.JoinRaftCluster Env.quiet exLeader "n2" "127.0.0.1" "8086").1 = .ret none ∧
      (VersionService.JoinRaftCluster Env.quiet exLeader "n2" "127.0.0.1" "8086").2.raftLog
        = [.addVoter "n2" "127.0.0.1:8086", .apply (.json exJoinCmd)] ∧
      exJoinCmd.Operation = "update" ∧
      exNodeN1.node.ID ≠ "n2" ∧
      (VersionFSM.Apply Env.quiet exNodeN1 (.json exJoinCmd)).1 = .ret none ∧
      (VersionFSM.Apply Env.quiet exNodeN1 (.json exJoinCmd)).2.peers = exNodeN1.peers ∧
      (VersionFSM.Apply Env.quiet exNodeN1
        (.json { exJoinCmd with Operation := "updatePeers" })).2.peers
        = exNodeN1.peers ++ [{ ID := "n2", Address := "127.0.0.1", Port := "8086" }] := by
  decide

/-- C7 (the code departs from the claim).  On a leader,
`HandleDeletePeerRequest("A", "127.0.0.1", "8081")` succeeds and the command
it submits carries the tag `"deleteWrongPeer"`, which `VersionFSM.Apply` does
not know: applied on a node whose address book holds `A` it returns an error
and leaves `A` in the book, on the leader as well.  The tag that reaches
`DeleteWrongPeerInternal` is `"deleteFatalPeer"`. -/
theorem C7_evict_submits_an_unknown_tag :
    (VersionService.HandleDeletePeerRequest Env.quiet exLeaderA "A" "127.0.0.1" "8081").1
        = .ret none ∧
      (VersionService.HandleDeletePeerRequest Env.quiet exLeaderA "A" "127.0.0.1" "8081").2.raftLog
        = [.removeServer "A", .apply (.json exEvictCmd)] ∧
      (VersionService.HandleDeletePeerRequest Env.quiet exLeaderA "A" "127.0.0.1" "8081").2.peers
        = [exA] ∧
      exEvictCmd.Operation = "deleteWrongPeer" ∧
      VersionFSM.Apply Env.quiet exNodeN1 (.json exEvictCmd)
        = (.ret (some "未知操作: deleteWrongPeer"), exNodeN1) ∧
      exNodeN1.peers = [exA] ∧
      (VersionFSM.Apply Env.quiet exNodeN1
        (.json { exEvictCmd with Operation := "deleteFatalPeer" })).2.peers = [] := by
  decide

/-- C8 (the code departs from the claim).  On the leader, when the consensus
engine accepts the entry and the state machine answers it with an error `e`,
`applyRaftCommand` returns nil: it reads `future.Error()` only, never
`future.Response()`. -/
theorem C8_leader_drops_the_fsm_error (env : Env) (vs vs1 : VersionService)
    (operation : String) (version : Option Version) (id : String) (examineSize : Int)
    (peer : Option Peer) (e : String) (hrole : vs.leader = true)
    (hfsm : raftApply env vs (.json (Command.mk operation version id examineSize peer))
      = (.ret { err := none, response := some e }, vs1)) :
    VersionService.applyRaftCommand env vs operation version id examineSize peer
      = (.ret none, vs1) := by
  simp [VersionService.applyRaftCommand, hrole, hfsm]

/-- C8, at the failing input: `UpdateVersion` of an absent id on a leader.
The state machine answers "not found"; `UpdateVersion` returns nil. -/
theorem C8_leader_drops_the_fsm_error_witness :
    exLeader.leader = true ∧
      (raftApply Env.quiet exLeader (.json exUpdateCmd)).1
        = .ret { err := none, response := some exUpdateNotFound } ∧
      (VersionService.UpdateVersion Env.quiet exLeader exV1).1 = .ret none :=
  ⟨by decide, by decide,
    congrArg Prod.fst
      (C8_leader_drops_the_fsm_error Env.quiet exLeader
        (raftApply Env.quiet exLeader (.json exUpdateCmd)).2
        "update" (some exV1) "" 0 none exUpdateNotFound (by decide) (by decide))⟩

/-! ## Frame lemmas: statements sent to MySQL leave the cache alone -/

theorem dbBegin_redis (env : Env) (w : World) : (dbBegin env w).2.redis = w.redis := by
  unfold dbBegin
  split <;> rfl

theorem txRollback_redis (w : World) (tx : Tx) : (txRollback w tx).2.redis = w.redis := by
  unfold txRollback
  split <;> rfl

theorem txCommit_redis (env : Env) (w : World) (tx : Tx) :
    (txCommit env w tx).2.redis = w.redis := by
  unfold txCommit
  split
  · rfl
  · split <;> rfl

theorem dbFirst_redis (env : Env) (w : World) (id : String) :
    (dbFirst env w id).2.redis = w.redis := by
  unfold dbFirst
  split
  · rfl
  · split <;> rfl

theorem dbCreate_redis (env : Env) (w : World) (version : Version) :
    (dbCreate env w version).2.redis = w.redis := by
  unfold dbCreate
  split
  · rfl
  · split <;> rfl

theorem dbDelete_redis (env : Env) (w : World) (id : String) :
    (dbDelete env w id).2.redis = w.redis := by
  unfold dbDelete
  split <;> rfl

theorem txExecUpdate_redis (env : Env) (w : World) (tx : Tx) (version : Version) :
    (txExecUpdate env w tx version).2.redis = w.redis := by
  unfold txExecUpdate
  split
  · rfl
  · split <;> rfl

theorem mysqlDaoGet_keeps_redis (env : Env) (w : World) (id : String) :
    (VersionMysqlDao.GetVersionByID env w id).2.redis = w.redis := by
  have h := dbFirst_redis env w id
  unfold VersionMysqlDao.GetVersionByID
  rcases hx : dbFirst env w id with ⟨_ | _, w1⟩ <;> simp_all

theorem mysqlDaoAdd_keeps_redis (env : Env) (w : World) (version : Version) :
    (VersionMysqlDao.AddVersion env w version).2.redis = w.redis := by
  have h := dbCreate_redis env w version
  unfold VersionMysqlDao.AddVersion
  rcases hx : dbCreate env w version with ⟨_ | _, w1⟩ <;> simp_all

theorem mysqlDaoDelete_keeps_redis (env : Env) (w : World) (id : String) :
    (VersionMysqlDao.DeleteVersion env w id).2.redis = w.redis := by
  have h := dbDelete_redis env w id
  unfold VersionMysqlDao.DeleteVersion
  split
  · rfl
  · rcases hx : dbDelete env w id with ⟨_ | _, w1⟩ <;> simp_all

theorem mysqlDaoUpdate_keeps_redis (env : Env) (w : World) (tx : Tx)
    (version : Version) :
    (VersionMysqlDao.UpdateVersion env w tx version).2.redis = w.redis := by
  have h := txExecUpdate_redis env w tx version
  unfold VersionMysqlDao.UpdateVersion
  rcases hx : txExecUpdate env w tx version with ⟨⟨tx1, _ | _⟩, w1⟩ <;> simp_all

theorem mysqlExists_keeps_redis (env : Env) (w : World) (id : String) :
    (VersionMysqlService.VersionExists env w id).2.redis = w.redis := by
  have h := mysqlDaoGet_keeps_redis env w id
  unfold VersionMysqlService.VersionExists
  rcases hx : VersionMysqlDao.GetVersionByID env w id with ⟨_ | _, w1⟩ <;> simp_all

theorem mysqlAdd_keeps_redis (env : Env) (w : World)
    (version : Version) :
    (VersionMysqlService.AddVersionToMysql env w version).2.redis = w.redis := by
  have h := mysqlDaoAdd_keeps_redis env w version
  unfold VersionMysqlService.AddVersionToMysql
  rcases hx : VersionMysqlDao.AddVersion env w version with ⟨_ | _, w1⟩ <;> simp_all

theorem mysqlDelete_keeps_redis (env : Env) (w : World) (id : String) :
    (VersionMysqlService.DeleteVersion env w id).2.redis = w.redis := by
  have h1 := mysqlExists_keeps_redis env w id
  unfold VersionMysqlService.DeleteVersion
  rcases hx : VersionMysqlService.VersionExists env w id with ⟨_ | _, w1⟩
  · have h2 := mysqlDaoDelete_keeps_redis env w1 id
    rcases hy : VersionMysqlDao.DeleteVersion env w1 id with ⟨_ | _, w2⟩ <;> simp_all
  · simp_all

theorem mysqlUpdate_keeps_redis (env : Env) (w : World) (tx : Tx)
    (version : Version) :
    (VersionMysqlService.UpdateVersion env w tx version).2.redis = w.redis := by
  have h1 := mysqlExists_keeps_redis env w version.ID
  unfold VersionMysqlService.UpdateVersion
  rcases hx : VersionMysqlService.VersionExists env w version.ID with ⟨_ | _, w1⟩
  · have h2 := mysqlDaoUpdate_keeps_redis env w1 tx version
    rcases hy : VersionMysqlDao.UpdateVersion env w1 tx version with ⟨⟨tx1, _ | _⟩, w2⟩ <;>
      simp_all [txRollback_redis]
  · simp_all [txRollback_redis]

/-! ## Frame lemmas: the lock and cache reads -/

theorem redisSetNX_other_keys (env : Env) (w : World) (key k : String) (x : RedisVal)
    (h : key ≠ k) : kvGet (redisSetNX env w key x).2.redis k = kvGet w.redis k := by
  unfold redisSetNX
  cases env.redisErr w.redisCalls with
  | some e => rfl
  | none =>
    cases kvGet w.redis key with
    | some y => rfl
    | none => simp [World.tickRedis, kvGet_kvSet_ne _ _ _ _ h]

theorem redisDel_other_keys (env : Env) (w : World) (key k : String) (h : key ≠ k) :
    kvGet (redisDel env w key).2.redis k = kvGet w.redis k := by
  unfold redisDel
  cases env.redisErr w.redisCalls with
  | some e => rfl
  | none => simp [World.tickRedis, kvGet_kvDel_ne _ _ _ h]

theorem redisGet_redis (env : Env) (w : World) (key : String) :
    (redisGet env w key).2.redis = w.redis := by
  unfold redisGet
  cases env.redisErr w.redisCalls with
  | some e => rfl
  | none => cases kvGet w.redis key <;> rfl

theorem AcquireLock_other_keys (env : Env) (w : World) (key k : String) (h : key ≠ k) :
    kvGet (redis.AcquireLock env w key).2.redis k = kvGet w.redis k := by
  have h1 := redisSetNX_other_keys env w key k (.text "locked") h
  unfold redis.AcquireLock
  rcases hx : redisSetNX env w key (.text "locked") with ⟨_ | _, w1⟩ <;> simp_all

theorem ReleaseLock_other_keys (env : Env) (w : World) (key k : String) (h : key ≠ k) :
    kvGet (redis.ReleaseLock env w key).2.redis k = kvGet w.redis k := by
  have h1 := redisDel_other_keys env w key k h
  unfold redis.ReleaseLock
  rcases hx : redisDel env w key with ⟨_ | _, w1⟩ <;> simp_all

theorem redisDaoGet_keeps_redis (env : Env) (w : World) (id : String) :
    (VersionRedisDao.GetVersionByID env w id).2.redis = w.redis := by
  have h1 := redisGet_redis env w (versionKey id)
  unfold VersionRedisDao.GetVersionByID
  rcases hx : redisGet env w (versionKey id) with ⟨_ | _ | _, w1⟩
  · simp only []
    split <;> simp_all
  · simp_all
  · simp_all

theorem redisExists_keeps_redis (env : Env) (w : World) (id : String) :
    (VersionRedisService.VersionExists env w id).2.redis = w.redis := by
  have h1 := redisDaoGet_keeps_redis env w id
  unfold VersionRedisService.VersionExists
  rcases hx : VersionRedisDao.GetVersionByID env w id with ⟨_ | _, w1⟩ <;> simp_all

/-! ## The lock guard of the three locked operations -/

/-- With Redis answering and the lock key of the operation held,
`AddVersionInternal`, `DeleteVersionInternal` and `ReLoadCacheDataInternal`
return the "busy" error after one `SETNX`, having changed neither store. -/
theorem held_lock_aborts (env : Env) (w : World) (x : RedisVal)
    (hok : env.redisErr w.redisCalls = none) :
    (kvGet w.redis "add_version_lock" = some x →
      ∀ version, VersionService.AddVersionInternal env w version
        = (some "无法获取锁，另一个进程正在持有它。", w.tickRedis)) ∧
    (kvGet w.redis "delete_version_lock" = some x →
      ∀ id, VersionService.DeleteVersionInternal env w id
        = (some "获取锁失败，另一个进程持有该锁", w.tickRedis)) ∧
    (kvGet w.redis "reload_redis_lock" = some x →
      VersionService.ReLoadCacheDataInternal env w
        = (some "无法获取锁，另一个进程正在持有它。", w.tickRedis)) := by
  refine ⟨?_, ?_, ?_⟩
  · intro h version
    simp [VersionService.AddVersionInternal, redis.AcquireLock, redisSetNX, hok, h]
  · intro h id
    simp [VersionService.DeleteVersionInternal, redis.AcquireLock, redisSetNX, hok, h]
  · intro h
    simp [VersionService.ReLoadCacheDataInternal, redis.AcquireLock, redisSetNX, hok, h]

/-! ## Durable-store failure and the cache -/

/-- C10 as stated fails: `DeleteVersionInternal("不存在版本")` over a durable
store without that id.  The durable-store step fails, the text of its error
contains the id and so is classified "not found", the call goes on, deletes
the cache entry and returns nil. -/
theorem C10_delete_with_odd_id_changes_the_cache :
    (VersionService.deleteDurableErr Env.quiet exOddWorld "不存在版本").isSome = true ∧
      kvGet exOddWorld.redis (versionKey "不存在版本") = some (.json exOddV) ∧
      kvGet (VersionService.DeleteVersionInternal Env.quiet exOddWorld "不存在版本").2.redis
        (versionKey "不存在版本") = none ∧
      (VersionService.DeleteVersionInternal Env.quiet exOddWorld "不存在版本").2.redis
        ≠ exOddWorld.redis ∧
      (VersionService.DeleteVersionInternal Env.quiet exOddWorld "不存在版本").1 = none := by
  decide

/-- C10, amended.  For every record, every id and every behaviour of the
stores: if the durable-store mutation of `AddVersionInternal` or of
`UpdateVersionInternal` fails, the call returns that error and the cache is
as before the call (every key other than the lock key of the call holds what
it held); the same holds for `DeleteVersionInternal` when the error of its
durable-store step is not classified "not found" by `VersionNotFoundErr`. -/
theorem C10_durable_failure_leaves_the_cache (env : Env) (w : World) (version : Version)
    (id err : String) :
    (VersionService.addDurableErr env w version = some err →
      (VersionService.AddVersionInternal env w (some version)).1
          = some ("无法向mysql中添加版本信息: " ++ err) ∧
        ∀ k, "add_version_lock" ≠ k →
          kvGet (VersionService.AddVersionInternal env w (some version)).2.redis k
            = kvGet w.redis k) ∧
    (VersionService.updateDurableErr env w version = some err →
      (VersionService.UpdateVersionInternal env w (some version)).1
          = some ("更新版本号失败：" ++ err) ∧
        (VersionService.UpdateVersionInternal env w (some version)).2.redis = w.redis) ∧
    (VersionService.deleteDurableErr env w id = some err →
      VersionService.VersionNotFoundErr err = false →
      (VersionService.DeleteVersionInternal env w id).1
          = some ("从mysql中删除版本失败: " ++ err) ∧
        ∀ k, "delete_version_lock" ≠ k →
          kvGet (VersionService.DeleteVersionInternal env w id).2.redis k
            = kvGet w.redis k) := by
  refine ⟨?_, ?_, ?_⟩
  · intro h
    unfold VersionService.addDurableErr at h
    rcases hacq : redis.AcquireLock env w "add_version_lock" with ⟨_ | _ | _, w1⟩
    · simp [hacq] at h
    · simp [hacq] at h
    · rcases hbeg : dbBegin env w1 with ⟨⟨tx, _ | e⟩, w2⟩
      · rcases hadd : VersionMysqlService.AddVersionToMysql env w2 version with ⟨r, w3⟩
        simp only [hacq, hbeg, hadd] at h
        subst h
        have hw2 : w2.redis = w1.redis := by simpa [hbeg] using dbBegin_redis env w1
        have hw3 : w3.redis = w2.redis := by
          simpa [hadd] using mysqlAdd_keeps_redis env w2 version
        simp only [VersionService.AddVersionInternal, hacq, VersionService.addVersionLocked,
          hbeg, hadd, true_and]
        intro k hk
        have hw1 : kvGet w1.redis k = kvGet w.redis k := by
          simpa [hacq] using AcquireLock_other_keys env w "add_version_lock" k hk
        rw [ReleaseLock_other_keys env _ "add_version_lock" k hk, txRollback_redis, hw3, hw2,
          hw1]
      · simp [hacq, hbeg] at h
  · intro h
    unfold VersionService.updateDurableErr at h
    rcases hbeg : dbBegin env w with ⟨⟨tx, _ | e⟩, w1⟩
    · rcases hex : VersionMysqlService.VersionExists env w1 version.ID with ⟨_ | e, w2⟩
      · rcases hrx : VersionRedisService.VersionExists env w2 version.ID with ⟨_ | e, w3⟩
        · rcases hup : VersionMysqlService.UpdateVersion env w3 tx version with ⟨⟨tx1, r⟩, w4⟩
          simp only [hbeg, hex, hrx, hup] at h
          subst h
          have hw1 : w1.redis = w.redis := by simpa [hbeg] using dbBegin_redis env w
          have hw2 : w2.redis = w1.redis := by
            simpa [hex] using mysqlExists_keeps_redis env w1 version.ID
          have hw3 : w3.redis = w2.redis := by
            simpa [hrx] using redisExists_keeps_redis env w2 version.ID
          have hw4 : w4.redis = w3.redis := by
            simpa [hup] using mysqlUpdate_keeps_redis env w3 tx version
          simp only [VersionService.UpdateVersionInternal, hbeg, hex, hrx, hup, true_and]
          rw [txRollback_redis, hw4, hw3, hw2, hw1]
        · simp [hbeg, hex, hrx] at h
      · simp [hbeg, hex] at h
    · simp [hbeg] at h
  · intro h hclass
    unfold VersionService.deleteDurableErr at h
    rcases hacq : redis.AcquireLock env w "delete_version_lock" with ⟨_ | _ | _, w1⟩
    · simp [hacq] at h
    · simp [hacq] at h
    · rcases hbeg : dbBegin env w1 with ⟨⟨tx, _ | e⟩, w2⟩
      · rcases hdel : VersionMysqlService.DeleteVersion env w2 id with ⟨r, w3⟩
        simp only [hacq, hbeg, hdel] at h
        subst h
        have hw2 : w2.redis = w1.redis := by simpa [hbeg] using dbBegin_redis env w1
        have hw3 : w3.redis = w2.redis := by
          simpa [hdel] using mysqlDelete_keeps_redis env w2 id
        simp only [VersionService.DeleteVersionInternal, hacq,
          VersionService.deleteVersionLocked, hbeg, hdel, VersionService.fatalErr, hclass,
          Bool.false_eq_true, if_false, true_and]
        intro k hk
        have hw1 : kvGet w1.redis k = kvGet w.redis k := by
          simpa [hacq] using AcquireLock_other_keys env w "delete_version_lock" k hk
        rw [ReleaseLock_other_keys env _ "delete_version_lock" k hk, txRollback_redis, hw3,
          hw2, hw1]
      · simp [hacq, hbeg] at h

/-- C10 amended, on three failing durable-store steps: an insert of a taken
id, an update whose statement fails, a delete of an id that is not there. -/
theorem C10_durable_failure_witness :
    (VersionService.addDurableErr Env.quiet exWarmWorld exV1).isSome = true ∧
      (∀ k, "add_version_lock" ≠ k →
        kvGet (VersionService.AddVersionInternal Env.quiet exWarmWorld (some exV1)).2.redis k
          = kvGet exWarmWorld.redis k) ∧
      (VersionService.updateDurableErr (Env.failMysqlAt 3) exWarmWorld exV1b).isSome = true ∧
      (VersionService.UpdateVersionInternal (Env.failMysqlAt 3) exWarmWorld
        (some exV1b)).2.redis = exWarmWorld.redis ∧
      (VersionService.deleteDurableErr Env.quiet exStaleWorld "v1").isSome = true ∧
      (∀ k, "delete_version_lock" ≠ k →
        kvGet (VersionService.DeleteVersionInternal Env.quiet exStaleWorld "v1").2.redis k
          = kvGet exStaleWorld.redis k) :=
  ⟨by decide,
    ((C10_durable_failure_leaves_the_cache Env.quiet exWarmWorld exV1 "v1"
      ((VersionService.addDurableErr Env.quiet exWarmWorld exV1).getD "")).1 (by decide)).2,
    by decide,
    ((C10_durable_failure_leaves_the_cache (Env.failMysqlAt 3) exWarmWorld exV1b "v1"
      ((VersionService.updateDurableErr (Env.failMysqlAt 3) exWarmWorld exV1b).getD "")).2.1
        (by decide)).2,
    by decide,
    ((C10_durable_failure_leaves_the_cache Env.quiet exStaleWorld exV1 "v1"
      ((VersionService.deleteDurableErr Env.quiet exStaleWorld "v1").getD "")).2.2
        (by decide) (by decide)).2⟩

/-! ## The peer address book -/

theorem removeFirstID_of_absent (l : List Peer) (id : String) (h : ∀ q ∈ l, q.ID ≠ id) :
    removeFirstID l id = l := by
  induction l with
  | nil => rfl
  | cons p l ih =>
    have hp : p.ID ≠ id := h p (List.mem_cons_self p l)
    have hl : ∀ q ∈ l, q.ID ≠ id := fun q hq => h q (List.mem_cons_of_mem p hq)
    simp [removeFirstID, hp, ih hl]

theorem removeFirstID_split (pre : List Peer) (e : Peer) (post : List Peer) (id : String)
    (hpre : ∀ q ∈ pre, q.ID ≠ id) (he : e.ID = id) :
    removeFirstID (pre ++ e :: post) id = pre ++ post := by
  induction pre with
  | nil => simp [removeFirstID, he]
  | cons p pre ih =>
    have hp : p.ID ≠ id := hpre p (List.mem_cons_self p pre)
    have hl : ∀ q ∈ pre, q.ID ≠ id := fun q hq => hpre q (List.mem_cons_of_mem p hq)
    simp [removeFirstID, hp, ih hl]

theorem removeFirstID_clears (l : List Peer) (id : String)
    (h : l.countP (fun p => decide (p.ID = id)) ≤ 1) :
    ∀ q ∈ removeFirstID l id, q.ID ≠ id := by
  induction l with
  | nil => simp [removeFirstID]
  | cons p l ih =>
    by_cases hp : p.ID = id
    · have hzero : l.countP (fun p => decide (p.ID = id)) = 0 := by
        simp [List.countP_cons, hp] at h
        simpa using h
      intro q hq
      simp only [removeFirstID, hp, if_true] at hq
      have := (List.countP_eq_zero.mp hzero) q hq
      simpa using this
    · have hl : l.countP (fun p => decide (p.ID = id)) ≤ 1 := by
        simpa [List.countP_cons, hp] using h
      intro q hq
      simp only [removeFirstID, hp, if_false, List.mem_cons] at hq
      rcases hq with rfl | hq
      · exact hp
      · exact ih hl q hq

/-- C13 as stated fails: the address book reached from the empty book by
applying the `updatePeers` command of peer `A` twice is `[A, A]`; applying the
`deleteFatalPeer` command of `A` once leaves `[A]`, applying it twice leaves
the empty book. -/
theorem C13_second_delete_removes_a_duplicate :
    exLeader.peers = [] ∧
      (VersionFSM.replay Env.quiet exLeader [exAddPeerA, exAddPeerA]).2.peers = [exA, exA] ∧
      (VersionFSM.replay Env.quiet exLeader [exAddPeerA, exAddPeerA, exDropPeerA]).2.peers
        = [exA] ∧
      (VersionFSM.replay Env.quiet exLeader
        [exAddPeerA, exAddPeerA, exDropPeerA, exDropPeerA]).2.peers = [] := by
  decide

/-- C13, amended.  For every address book in which at most one entry has the
id of peer `X`, applying the `deleteFatalPeer` command of `X` leaves a book
without entry of that id, and applying it a second time changes nothing. -/
theorem C13_delete_twice_without_duplicates (env : Env) (vs : VersionService) (X : Peer)
    (v : Option Version) (id : String) (n : Int)
    (hone : vs.peers.countP (fun p => decide (p.ID = X.ID)) ≤ 1) :
    (∀ q ∈ (VersionFSM.Apply env vs
        (.json (Command.mk "deleteFatalPeer" v id n (some X)))).2.peers, q.ID ≠ X.ID) ∧
      (VersionFSM.Apply env
        (VersionFSM.Apply env vs (.json (Command.mk "deleteFatalPeer" v id n (some X)))).2
        (.json (Command.mk "deleteFatalPeer" v id n (some X)))).2.peers
        = (VersionFSM.Apply env vs
            (.json (Command.mk "deleteFatalPeer" v id n (some X)))).2.peers := by
  have hclear := removeFirstID_clears vs.peers X.ID hone
  simp only [VersionFSM.Apply, VersionService.DeleteWrongPeerInternal]
  simp only [show ("deleteFatalPeer" = "add") = False by decide,
    show ("deleteFatalPeer" = "update") = False by decide,
    show ("deleteFatalPeer" = "delete") = False by decide,
    show ("deleteFatalPeer" = "reloadCacheData") = False by decide,
    show ("deleteFatalPeer" = "updatePeers") = False by decide, if_false, if_true]
  exact ⟨hclear, removeFirstID_of_absent _ _ hclear⟩

/-- C13 amended, on the book `[A, B]`: one application leaves `[B]`, and so
does a second one. -/
theorem C13_delete_twice_witness :
    [exA, exB].countP (fun p => decide (p.ID = exA.ID)) ≤ 1 ∧
      (VersionFSM.Apply Env.quiet
        (VersionFSM.Apply Env.quiet { exLeader with peers := [exA, exB] } exDropPeerA).2
        exDropPeerA).2.peers
        = (VersionFSM.Apply Env.quiet { exLeader with peers := [exA, exB] } exDropPeerA).2.peers ∧
      (VersionFSM.Apply Env.quiet { exLeader with peers := [exA, exB] } exDropPeerA).2.peers
        = [exB] :=
  ⟨by decide,
    (C13_delete_twice_without_duplicates Env.quiet { exLeader with peers := [exA, exB] } exA
      none "" 0 (by decide)).2,
    by decide⟩

/-- C14.  For every node, address book and peer `P`, applying an `updatePeers`
command of `P` returns nil; it leaves the book unchanged when the id of `P` is
the id of the node itself, and otherwise yields the old book with `P` appended
at the end.  Nothing else of the node changes. -/
theorem C14_updatePeers_appends_unless_self (env : Env) (vs : VersionService) (P : Peer)
    (v : Option Version) (id : String) (n : Int) :
    VersionFSM.Apply env vs (.json (Command.mk "updatePeers" v id n (some P)))
      = (.ret none,
          { vs with peers := if P.ID = vs.node.ID then vs.peers else vs.peers ++ [P] }) := by
  by_cases h : P.ID = vs.node.ID
  · have h2 : ¬ vs.node.ID ≠ P.ID := by simp [h]
    simp [VersionFSM.Apply, VersionService.UpdatePeersInternal, h]
  · have h2 : vs.node.ID ≠ P.ID := fun e => h e.symm
    simp [VersionFSM.Apply, VersionService.UpdatePeersInternal, h, h2]

/-- C15.  For every node, address book and peer `X`, applying a
`deleteFatalPeer` command of `X` returns nil and changes only the book: when
the book is `pre ++ e :: post` with `e` the first entry whose id is the id of
`X`, the new book is `pre ++ post`; when no entry has that id, the book is
unchanged. -/
theorem C15_deleteFatalPeer_removes_the_first_match (env : Env) (vs : VersionService)
    (X : Peer) (v : Option Version) (id : String) (n : Int) :
    (∃ book, VersionFSM.Apply env vs (.json (Command.mk "deleteFatalPeer" v id n (some X)))
        = (.ret none, { vs with peers := book })) ∧
      (∀ pre e post, vs.peers = pre ++ e :: post → (∀ q ∈ pre, q.ID ≠ X.ID) → e.ID = X.ID →
        (VersionFSM.Apply env vs
          (.json (Command.mk "deleteFatalPeer" v id n (some X)))).2.peers = pre ++ post) ∧
      ((∀ q ∈ vs.peers, q.ID ≠ X.ID) →
        (VersionFSM.Apply env vs
          (.json (Command.mk "deleteFatalPeer" v id n (some X)))).2.peers = vs.peers) := by
  have hstep : VersionFSM.Apply env vs (.json (Command.mk "deleteFatalPeer" v id n (some X)))
      = (.ret none, { vs with peers := removeFirstID vs.peers X.ID }) := by
    simp [VersionFSM.Apply, VersionService.DeleteWrongPeerInternal]
  refine ⟨⟨_, hstep⟩, ?_, ?_⟩
  · intro pre e post hbook hpre he
    rw [hstep]
    simp only []
    rw [hbook]
    exact removeFirstID_split pre e post X.ID hpre he
  · intro habsent
    rw [hstep]
    exact removeFirstID_of_absent vs.peers X.ID habsent

/-- C15, on the book `[B, A, C, A]`: the first `A` goes, the second stays; on
the book `[B, C]` nothing changes. -/
theorem C15_deleteFatalPeer_witness :
    (VersionFSM.Apply Env.quiet { exLeader with peers := [exB, exA, exC, exA] }
        exDropPeerA).2.peers = [exB] ++ [exC, exA] ∧
      (VersionFSM.Apply Env.quiet { exLeader with peers := [exB, exC] } exDropPeerA).2.peers
        = [exB, exC] :=
  ⟨(C15_deleteFatalPeer_removes_the_first_match Env.quiet
      { exLeader with peers := [exB, exA, exC, exA] } exA none "" 0).2.1
      [exB] exA [exC, exA] rfl (by decide) rfl,
    (C15_deleteFatalPeer_removes_the_first_match Env.quiet
      { exLeader with peers := [exB, exC] } exA none "" 0).2.2 (by decide)⟩

/-- C16.  For every log entry whose payload does not decode, or whose decoded
operation tag is none of `add`, `update`, `delete`, `reloadCacheData`,
`updatePeers`, `deleteFatalPeer`, `VersionFSM.Apply` returns an error and the
node is exactly as before: stores, address book, and the number of commands
sent to each store. -/
theorem C16_unknown_entry_is_refused (env : Env) (vs : VersionService) (data : LogData)
    (hbad : (∃ s, data = .malformed s) ∨
      ∃ cmd, data = .json cmd ∧
        cmd.Operation ∉
          ["add", "update", "delete", "reloadCacheData", "updatePeers", "deleteFatalPeer"]) :
    (∃ err, (VersionFSM.Apply env vs data).1 = .ret (some err)) ∧
      (VersionFSM.Apply env vs data).2 = vs := by
  rcases hbad with ⟨s, rfl⟩ | ⟨cmd, rfl, hop⟩
  · exact ⟨⟨_, rfl⟩, rfl⟩
  · simp only [List.mem_cons, List.mem_singleton, List.not_mem_nil, or_false, not_or] at hop
    obtain ⟨h1, h2, h3, h4, h5, h6⟩ := hop
    simp [VersionFSM.Apply, h1, h2, h3, h4, h5, h6]

/-- C16, on an entry that is not JSON and on the tag `"deleteWrongPeer"`. -/
theorem C16_unknown_entry_witness :
    ((∃ err, (VersionFSM.Apply Env.quiet exNodeN1 (.malformed "add")).1 = .ret (some err)) ∧
        (VersionFSM.Apply Env.quiet exNodeN1 (.malformed "add")).2 = exNodeN1) ∧
      ((∃ err, (VersionFSM.Apply Env.quiet exNodeN1 (.json exEvictCmd)).1 = .ret (some err)) ∧
        (VersionFSM.Apply Env.quiet exNodeN1 (.json exEvictCmd)).2 = exNodeN1) :=
  ⟨C16_unknown_entry_is_refused Env.quiet exNodeN1 (.malformed "add") (Or.inl ⟨"add", rfl⟩),
    C16_unknown_entry_is_refused Env.quiet exNodeN1 (.json exEvictCmd)
      (Or.inr ⟨exEvictCmd, rfl, by decide⟩)⟩

/-! ## Leader discovery without a leader -/

/-- C20 (the code departs from the claim).  Over `[A, B, C]` where `A` refuses
the connection, with the text the code looks for, and `B` and `C` answer with
the empty leader address,
`GetLeaderPortAddr` stops at `B`: it returns the empty address with a nil
error and never asks `C`. -/
theorem C20_empty_address_stops_the_scan :
    exFollower.leader = false ∧ exFollower.peers = [exA, exB, exC] ∧
      seenRefusing { Env.quiet with net := exNetNoLeader } exA = true ∧
      answeredString { Env.quiet with net := exNetNoLeader } exB = some "" ∧
      answeredString { Env.quiet with net := exNetNoLeader } exC = some "" ∧
      VersionService.GetLeaderPortAddr { Env.quiet with net := exNetNoLeader } exFollower
        = { addr := "", err := none, wrongNode := some exA, contacted := [exA, exB] } := by
  decide

/-! ## Add, then read -/

theorem versionKey_ne_add_lock (id : String) : "add_version_lock" ≠ versionKey id := by
  intro h
  have h2 : ("add_version_lock" : String).data.head? = (versionKey id).data.head? := by rw [h]
  have h3 : (versionKey id).data.head? = some 'v' := by
    simp [versionKey, String.data_append]
  rw [h3] at h2
  exact absurd h2 (by decide)

/-- C18.  With both stores reachable and the add lock free, for every record
`v` whose id is not in the durable store: applying the `add` command of `v`
returns nil, and `GetVersionByID(v.ID)` on the stores it leaves returns a
record equal to `v`, with a nil error. -/
theorem C18_add_then_read (env : Env) (vs : VersionService) (v : Version) (id : String)
    (n : Int) (peer : Option Peer) (hreach : env.storesReachable)
    (hfree : kvGet vs.world.redis "add_version_lock" = none)
    (hnew : rowOf vs.world.db v.ID = none) :
    (VersionFSM.Apply env vs (.json (Command.mk "add" (some v) id n peer))).1 = .ret none ∧
      (VersionService.GetVersionByID env
        (VersionFSM.Apply env vs (.json (Command.mk "add" (some v) id n peer))).2.world
        v.ID).1 = .ok (some v) := by
  have hkey := versionKey_ne_add_lock v.ID
  simp [VersionFSM.Apply, VersionService.AddVersionInternal, redis.AcquireLock, redisSetNX,
    hreach.1, hreach.2, hfree, VersionService.addVersionLocked, dbBegin,
    VersionMysqlService.AddVersionToMysql, VersionMysqlDao.AddVersion, dbCreate, hnew,
    VersionRedisService.AddVersion, VersionRedisDao.AddVersion, redisSet, txCommit,
    redis.ReleaseLock, redisDel, World.tickRedis, World.tickMysql,
    VersionService.GetVersionByID, VersionRedisService.GetVersionByID,
    VersionRedisService.VersionExists, VersionRedisDao.GetVersionByID, redisGet,
    kvGet_kvDel_ne _ _ _ hkey, kvGet_kvSet_self, jsonUnmarshalVersion]

/-- C18, on the scenario of the specification: `Add` of record `v1` over empty
stores, then `GetVersionByID("v1")`. -/
theorem C18_add_then_read_witness :
    kvGet exLeader.world.redis "add_version_lock" = none ∧
      rowOf exLeader.world.db exV1.ID = none ∧
      (VersionFSM.Apply Env.quiet exLeader
        (.json (Command.mk "add" (some exV1) "" 0 none))).1 = .ret none ∧
      (VersionService.GetVersionByID Env.quiet
        (VersionFSM.Apply Env.quiet exLeader
          (.json (Command.mk "add" (some exV1) "" 0 none))).2.world "v1").1
        = .ok (some { ID := "v1", VersionNo := "1.0.0", Platform := "ios" }) :=
  ⟨by decide, by decide,
    C18_add_then_read Env.quiet exLeader exV1 "" 0 none quiet_stores_reachable
      (by decide) (by decide)⟩

/-! ## Release of the lock -/

theorem ReleaseLock_counts_one (env : Env) (w : World) (key : String) :
    (redis.ReleaseLock env w key).2.redisCalls = w.redisCalls + 1 := by
  unfold redis.ReleaseLock redisDel
  cases env.redisErr w.redisCalls <;> rfl

/-- A release whose `DEL` is answered leaves the key free. -/
theorem ReleaseLock_frees (env : Env) (w : World) (key : String)
    (h : env.redisErr ((redis.ReleaseLock env w key).2.redisCalls - 1) = none) :
    kvGet (redis.ReleaseLock env w key).2.redis key = none := by
  rw [ReleaseLock_counts_one, Nat.add_sub_cancel] at h
  simp [redis.ReleaseLock, redisDel, h, World.tickRedis, kvGet_kvDel_self]

/-- C12 as stated fails: `AddVersionInternal` over empty stores, where Redis
stops answering after the lock is taken (the cache write fails, and so does
the release), returns with the lock key still held; so does a call that
succeeds and whose release alone fails. -/
theorem C12_failed_release_keeps_the_lock :
    (redis.AcquireLock (Env.redisDownFrom 1) exEmptyWorld "add_version_lock").1 = .ok true ∧
      (VersionService.AddVersionInternal (Env.redisDownFrom 1) exEmptyWorld (some exV1)).1
        = some "无法向redis中添加版本信息: VersionRedisDao.AddVersion 方法发生错误: i/o timeout" ∧
      kvGet (VersionService.AddVersionInternal (Env.redisDownFrom 1) exEmptyWorld
        (some exV1)).2.redis "add_version_lock" = some (.text "locked") ∧
      (VersionService.AddVersionInternal (Env.redisDownFrom 2) exEmptyWorld (some exV1)).1
        = none ∧
      kvGet (VersionService.AddVersionInternal (Env.redisDownFrom 2) exEmptyWorld
        (some exV1)).2.redis "add_version_lock" = some (.text "locked") := by
  decide

/-- C12, amended.  For `AddVersionInternal`, `DeleteVersionInternal` and
`ReLoadCacheDataInternal`, for every argument and every behaviour of the
stores: whenever the call acquired its lock, its last Redis command is the
release of the lock, and if that command is answered the lock key is not held
when the call returns, whatever the outcome of the call. -/
theorem C12_lock_released_when_release_is_answered (env : Env) (w : World)
    (version : Option Version) (id : String) :
    ((redis.AcquireLock env w "add_version_lock").1 = .ok true →
      env.redisErr ((VersionService.AddVersionInternal env w version).2.redisCalls - 1)
        = none →
      kvGet (VersionService.AddVersionInternal env w version).2.redis "add_version_lock"
        = none) ∧
    ((redis.AcquireLock env w "delete_version_lock").1 = .ok true →
      env.redisErr ((VersionService.DeleteVersionInternal env w id).2.redisCalls - 1)
        = none →
      kvGet (VersionService.DeleteVersionInternal env w id).2.redis "delete_version_lock"
        = none) ∧
    ((redis.AcquireLock env w "reload_redis_lock").1 = .ok true →
      env.redisErr ((VersionService.ReLoadCacheDataInternal env w).2.redisCalls - 1)
        = none →
      kvGet (VersionService.ReLoadCacheDataInternal env w).2.redis "reload_redis_lock"
        = none) := by
  refine ⟨?_, ?_, ?_⟩
  · intro hacq
    rcases hx : redis.AcquireLock env w "add_version_lock" with ⟨r, w1⟩
    rw [hx] at hacq
    simp only at hacq
    subst hacq
    simp only [VersionService.AddVersionInternal, hx]
    exact ReleaseLock_frees env _ "add_version_lock"
  · intro hacq
    rcases hx : redis.AcquireLock env w "delete_version_lock" with ⟨r, w1⟩
    rw [hx] at hacq
    simp only at hacq
    subst hacq
    simp only [VersionService.DeleteVersionInternal, hx]
    exact ReleaseLock_frees env _ "delete_version_lock"
  · intro hacq
    rcases hx : redis.AcquireLock env w "reload_redis_lock" with ⟨r, w1⟩
    rw [hx] at hacq
    simp only at hacq
    subst hacq
    simp only [VersionService.ReLoadCacheDataInternal, hx]
    exact ReleaseLock_frees env _ "reload_redis_lock"

/-- C12 amended, on three outcomes: an add whose cache write fails, a delete of
an id that is not there, a resync that succeeds. -/
theorem C12_lock_released_witness :
    kvGet (VersionService.AddVersionInternal (Env.failRedisAt 1) exEmptyWorld
        (some exV1)).2.redis "add_version_lock" = none ∧
      kvGet (VersionService.DeleteVersionInternal Env.quiet exStaleWorld "v1").2.redis
        "delete_version_lock" = none ∧
      kvGet (VersionService.ReLoadCacheDataInternal Env.quiet exColdWorld).2.redis
        "reload_redis_lock" = none :=
  ⟨(C12_lock_released_when_release_is_answered (Env.failRedisAt 1) exEmptyWorld (some exV1)
      "v1").1 (by decide) (by decide),
    (C12_lock_released_when_release_is_answered Env.quiet exStaleWorld (some exV1)
      "v1").2.1 (by decide) (by decide),
    (C12_lock_released_when_release_is_answered Env.quiet exColdWorld (some exV1)
      "v1").2.2 (by decide) (by decide)⟩

/-! ## Substrings of composed error texts -/

theorem containsChars_skip (a : Char) (n t rest : List Char) (h : ∀ c ∈ t, c ≠ a) :
    containsChars (t ++ rest) (a :: n) = containsChars rest (a :: n) := by
  induction t with
  | nil => rfl
  | cons c t ih =>
    have hc : ¬ a = c := fun e => h c (List.mem_cons_self c t) e.symm
    have ht : ∀ x ∈ t, x ≠ a := fun x hx => h x (List.mem_cons_of_mem c hx)
    simp [containsChars, startsWithChars, hc, ih ht]

theorem startsWithChars_seam (p x T : List Char) (hx : startsWithChars p x = false)
    (hT : ∀ k, k < p.length → startsWithChars (p.drop k) T = false) :
    startsWithChars p (x ++ T) = false := by
  induction p generalizing x with
  | nil => simp [startsWithChars] at hx
  | cons a p ih =>
    cases x with
    | nil => simpa using hT 0 (by simp)
    | cons b x =>
      by_cases hab : a = b
      · have hx2 : startsWithChars p x = false := by simpa [startsWithChars, hab] using hx
        have hT2 : ∀ k, k < p.length → startsWithChars (p.drop k) T = false := by
          intro k hk
          simpa using hT (k + 1) (by simpa using hk)
        simp [startsWithChars, hab, ih x hx2 hT2]
      · simp [startsWithChars, hab]

theorem containsChars_seam (s T n : List Char) (hs : containsChars s n = false)
    (hT : ∀ k, k < n.length → startsWithChars (n.drop k) T = false) :
    containsChars (s ++ T) n = containsChars T n := by
  induction s with
  | nil => rfl
  | cons c s ih =>
    simp only [containsChars, Bool.or_eq_false_iff] at hs
    have h1 := startsWithChars_seam n (c :: s) T hs.1 hT
    simp only [List.cons_append] at h1
    simp [containsChars, h1, ih hs.2]

/-- The "not found" error of the durable delete is classified "not found" by
`VersionNotFoundErr` only through the text of the id. -/
theorem deleteNotFoundText_unclassified (id : String)
    (h : strings.Contains id "不存在版本" = false) :
    VersionService.VersionNotFoundErr (deleteNotFoundText id) = false := by
  unfold strings.Contains at h
  have hn : ("不存在版本" : String).data = '不' :: ['存', '在', '版', '本'] := by decide
  rw [hn] at h
  have e1 : ("失败：" : String).data = '失' :: ['败', '：'] := by decide
  have s1 : ∀ c ∈ ("VersionMysqlService.DeleteVersion 删除版本：" : String).data, c ≠ '不' := by
    decide
  have s2 : ∀ c ∈ ("失败：" : String).data, c ≠ '不' := by decide
  have s3 : ∀ c ∈ ("VersionMysqlService.VersionExists 版本号：" : String).data, c ≠ '不' := by
    decide
  have tailFree : containsChars
      (("不存在：" : String).data ++
        (("VersionMysqlDao.GetVersionByID 方法发生错误:" : String).data ++
          ("record not found" : String).data))
      ('不' :: ['存', '在', '版', '本']) = false := by decide
  have seamTail : ∀ k, k < ('不' :: ['存', '在', '版', '本']).length →
      startsWithChars (('不' :: ['存', '在', '版', '本']).drop k)
        (("不存在：" : String).data ++
          (("VersionMysqlDao.GetVersionByID 方法发生错误:" : String).data ++
            ("record not found" : String).data)) = false := by decide
  have seamMid : ∀ (X : List Char) (k : Nat), k < ('不' :: ['存', '在', '版', '本']).length →
      startsWithChars (('不' :: ['存', '在', '版', '本']).drop k)
        (("失败：" : String).data ++ X) = false := by
    intro X k hk
    rw [e1]
    simp only [List.length_cons, List.length_nil] at hk
    interval_cases k <;> simp [startsWithChars]
  simp only [VersionService.VersionNotFoundErr, strings.Contains, deleteNotFoundText,
    notFoundText, String.data_append, hn, List.append_assoc]
  rw [containsChars_skip _ _ _ _ s1, containsChars_seam _ _ _ h (seamMid _),
    containsChars_skip _ _ _ _ s2, containsChars_skip _ _ _ _ s3,
    containsChars_seam _ _ _ h seamTail]
  exact tailFree

/-! ## Existence check of update and delete -/

theorem kvDel_kvSet_fresh (r : List (String × RedisVal)) (key : String) (x : RedisVal)
    (h : kvGet r key = none) : kvDel (kvSet r key x) key = r := by
  induction r with
  | nil => simp [kvSet, kvDel]
  | cons e r ih =>
    obtain ⟨k0, y⟩ := e
    by_cases h0 : k0 = key
    · simp [kvGet, h0] at h
    · have hr : kvGet r key = none := by simpa [kvGet, h0] using h
      simp [kvSet, kvDel, h0, ih hr]

/-- C11 as stated fails: the id `"不存在版本"` is absent from the durable
store, and `DeleteVersionInternal` of it returns nil, not an error, after
deleting the cache entry of that id. -/
theorem C11_delete_of_absent_odd_id_returns_nil :
    rowOf exOddWorld.db "不存在版本" = none ∧
      (VersionService.DeleteVersionInternal Env.quiet exOddWorld "不存在版本").1 = none ∧
      kvGet exOddWorld.redis (versionKey "不存在版本") = some (.json exOddV) ∧
      kvGet (VersionService.DeleteVersionInternal Env.quiet exOddWorld "不存在版本").2.redis
        (versionKey "不存在版本") = none := by
  decide

/-- C11, amended.  With both stores reachable, for every id absent from the
durable store: `UpdateVersionInternal` of a record of that id returns the
"not found" error of the existence check and leaves the durable store and the
cache unchanged; so does `DeleteVersionInternal(id)` when the delete lock is
free and the id does not contain the text `不存在版本`. -/
theorem C11_absent_id_is_refused (env : Env) (w : World) (hreach : env.storesReachable) :
    (∀ version : Version, rowOf w.db version.ID = none →
      (VersionService.UpdateVersionInternal env w (some version)).1
          = some ("VersionMysqlService.UpdateVersion 更新版本：" ++ version.ID ++ "失败：" ++
              notFoundText version.ID) ∧
        (VersionService.UpdateVersionInternal env w (some version)).2.db = w.db ∧
        (VersionService.UpdateVersionInternal env w (some version)).2.redis = w.redis) ∧
    (∀ id : String, rowOf w.db id = none → kvGet w.redis "delete_version_lock" = none →
      strings.Contains id "不存在版本" = false →
      (VersionService.DeleteVersionInternal env w id).1
          = some ("从mysql中删除版本失败: " ++ deleteNotFoundText id) ∧
        (VersionService.DeleteVersionInternal env w id).2.db = w.db ∧
        (VersionService.DeleteVersionInternal env w id).2.redis = w.redis) := by
  refine ⟨?_, ?_⟩
  · intro version habsent
    simp [VersionService.UpdateVersionInternal, dbBegin, hreach.2,
      VersionMysqlService.VersionExists, VersionMysqlDao.GetVersionByID, dbFirst, habsent,
      txRollback, World.tickMysql, notFoundText]
  · intro id habsent hfree hid
    have hcls := deleteNotFoundText_unclassified id hid
    unfold deleteNotFoundText notFoundText at hcls
    simp only [VersionService.DeleteVersionInternal, redis.AcquireLock, redisSetNX, hreach.1,
      hfree, VersionService.deleteVersionLocked, dbBegin, hreach.2,
      VersionMysqlService.DeleteVersion, VersionMysqlService.VersionExists,
      VersionMysqlDao.GetVersionByID, dbFirst, World.tickRedis, World.tickMysql, habsent,
      VersionService.fatalErr, hcls, txRollback, redis.ReleaseLock, redisDel,
      deleteNotFoundText, notFoundText]
    simp [kvDel_kvSet_fresh _ _ _ hfree]

/-- C11 amended, on the id `v1` over a durable store that does not hold it. -/
theorem C11_absent_id_witness :
    rowOf exStaleWorld.db "v1" = none ∧
      kvGet exStaleWorld.redis "delete_version_lock" = none ∧
      strings.Contains "v1" "不存在版本" = false ∧
      (VersionService.UpdateVersionInternal Env.quiet exStaleWorld (some exV1b)).2.redis
        = exStaleWorld.redis ∧
      (VersionService.DeleteVersionInternal Env.quiet exStaleWorld "v1").1
        = some ("从mysql中删除版本失败: " ++ deleteNotFoundText "v1") ∧
      (VersionService.DeleteVersionInternal Env.quiet exStaleWorld "v1").2.redis
        = exStaleWorld.redis :=
  ⟨by decide, by decide, by decide,
    ((C11_absent_id_is_refused Env.quiet exStaleWorld quiet_stores_reachable).1 exV1b
      (by decide)).2.2,
    ((C11_absent_id_is_refused Env.quiet exStaleWorld quiet_stores_reachable).2 "v1"
      (by decide) (by decide) (by decide)).1,
    ((C11_absent_id_is_refused Env.quiet exStaleWorld quiet_stores_reachable).2 "v1"
      (by decide) (by decide) (by decide)).2.2⟩

/-! ## UTF-8 and JSON strings -/

theorem runeLen_le_four (s : Bytes) : utf8.runeLen s ≤ 4 := by
  unfold utf8.runeLen
  repeat' split
  all_goals omega

theorem runeLen_take (s : Bytes) (h : utf8.runeLen s ≠ 0) :
    utf8.runeLen s ≤ s.length ∧
      ∀ t, utf8.runeLen (s.take (utf8.runeLen s) ++ t) = utf8.runeLen s := by
  match s with
  | [] => simp [utf8.runeLen] at h
  | b0 :: rest =>
    by_cases h0 : b0 < 0x80
    · simp [utf8.runeLen, h0]
    · cases hf : utf8.first b0 with
      | none => simp [utf8.runeLen, h0, hf] at h
      | some info =>
        obtain ⟨size, lo, hi⟩ := info
        match rest with
        | [] => simp [utf8.runeLen, h0, hf] at h
        | b1 :: rest1 =>
          by_cases h1 : lo ≤ b1 ∧ b1 ≤ hi
          · by_cases h2 : size = 2
            · simp [utf8.runeLen, h0, hf, h1, h2]
            · match rest1 with
              | [] => simp [utf8.runeLen, h0, hf, h1, h2] at h
              | b2 :: rest2 =>
                by_cases hc2 : utf8.isCont b2 = true
                · by_cases h3 : size = 3
                  · simp [utf8.runeLen, h0, hf, h1, h2, hc2, h3]
                  · match rest2 with
                    | [] => simp [utf8.runeLen, h0, hf, h1, h2, hc2, h3] at h
                    | b3 :: rest3 =>
                      by_cases hc3 : utf8.isCont b3 = true
                      · simp [utf8.runeLen, h0, hf, h1, h2, hc2, h3, hc3]
                      · simp [utf8.runeLen, h0, hf, h1, h2, hc2, h3, hc3] at h
                · simp [utf8.runeLen, h0, hf, h1, h2, hc2] at h
          · simp [utf8.runeLen, h0, hf, h1] at h

theorem hexVal_hex (n : Nat) (h : n < 16) : json.hexVal (json.hex n) = some n := by
  interval_cases n <;> decide

theorem getu4_byte (b : Nat) (h : b < 256) (t : Bytes) :
    json.getu4 (0x5C :: 0x75 :: 0x30 :: 0x30 :: json.hex (b / 16) :: json.hex (b % 16) :: t)
      = some b := by
  have h1 : json.hexVal (json.hex (b / 16)) = some (b / 16) := hexVal_hex _ (by omega)
  have h2 : json.hexVal (json.hex (b % 16)) = some (b % 16) := hexVal_hex _ (by omega)
  have h0 : json.hexVal 0x30 = some 0 := by decide
  simp only [json.getu4, h0, h1, h2]
  simp
  omega

theorem unquoteAux_escape_u (fuel : Nat) (rest1 : Bytes) (rr : Nat)
    (hg : json.getu4 (0x5C :: 0x75 :: rest1) = some rr) (hn : ¬ (0xD800 ≤ rr ∧ rr < 0xE000)) :
    json.unquoteAux (fuel + 1) (0x5C :: 0x75 :: rest1)
      = (json.unquoteAux fuel (rest1.drop 4)).map fun u => utf8.EncodeRune rr ++ u := by
  simp only [json.unquoteAux, if_true, hg, hn, if_false]

/-- Reading back what `appendString` writes for an ASCII byte. -/
theorem unquoteAux_escapeByte (b : Nat) (hb : b < 0x80) (fuel : Nat) (t : Bytes) :
    json.unquoteAux (fuel + 1) (json.escapeByte b ++ t)
      = (json.unquoteAux fuel t).map fun u => b :: u := by
  unfold json.escapeByte
  by_cases hs : json.htmlSafe b = true
  · have hs2 := hs
    simp only [json.htmlSafe, decide_eq_true_eq] at hs2
    have c1 : ¬ b = 0x5C := by omega
    have c2 : ¬ (b = 0x22 ∨ b < 0x20) := by omega
    simp [hs, json.unquoteAux, c1, c2, hb]
  · simp only [hs, if_false]
    by_cases h1 : b = 0x5C ∨ b = 0x22
    · rcases h1 with h1 | h1 <;> subst h1 <;> simp [json.unquoteAux, json.unescape]
    · simp only [h1, if_false]
      by_cases h2 : b = 0x08
      · subst h2; simp [json.unquoteAux, json.unescape]
      · simp only [h2, if_false]
        by_cases h3 : b = 0x0C
        · subst h3; simp [json.unquoteAux, json.unescape]
        · simp only [h3, if_false]
          by_cases h4 : b = 0x0A
          · subst h4; simp [json.unquoteAux, json.unescape]
          · simp only [h4, if_false]
            by_cases h5 : b = 0x0D
            · subst h5; simp [json.unquoteAux, json.unescape]
            · simp only [h5, if_false]
              by_cases h6 : b = 0x09
              · subst h6; simp [json.unquoteAux, json.unescape]
              · simp only [h6, if_false]
                have hg := getu4_byte b (by omega) t
                have hnot : ¬ (0xD800 ≤ b ∧ b < 0xE000) := by omega
                have henc : utf8.EncodeRune b = [b] := by simp [utf8.EncodeRune, hb]
                show json.unquoteAux (fuel + 1)
                  (0x5C :: 0x75 :: (0x30 :: 0x30 :: json.hex (b / 16) :: json.hex (b % 16) :: t))
                    = _
                rw [unquoteAux_escape_u fuel _ b hg hnot, henc]
                rfl

theorem escapeByte_length_pos (b : Nat) : 1 ≤ (json.escapeByte b).length := by
  unfold json.escapeByte
  repeat' split
  all_goals simp

theorem unquoteAux_rune (fuel c : Nat) (rest : Bytes) (hc : 0x80 ≤ c)
    (hn : utf8.runeLen (c :: rest) ≠ 0) :
    json.unquoteAux (fuel + 1) (c :: rest)
      = (json.unquoteAux fuel (rest.drop (utf8.runeLen (c :: rest) - 1))).map fun u =>
          (c :: rest).take (utf8.runeLen (c :: rest)) ++ u := by
  have c1 : ¬ c = 0x5C := by omega
  have c2 : ¬ (c = 0x22 ∨ c < 0x20) := by omega
  have c3 : ¬ c < 0x80 := by omega
  simp only [json.unquoteAux, c1, c2, c3, hn, if_false]

theorem unquoteAux_bad_byte (fuel c : Nat) (rest : Bytes) (hc : 0x80 ≤ c)
    (hn : utf8.runeLen (c :: rest) = 0) :
    json.unquoteAux (fuel + 1) (c :: rest)
      = (json.unquoteAux fuel rest).map fun u => utf8.RuneError ++ u := by
  have c1 : ¬ c = 0x5C := by omega
  have c2 : ¬ (c = 0x22 ∨ c < 0x20) := by omega
  have c3 : ¬ c < 0x80 := by omega
  simp only [json.unquoteAux, c1, c2, c3, hn, if_false, if_true]

/-- A rune at the head of a string, split off. -/
theorem rune_split (b : Nat) (rest : Bytes) (hn : utf8.runeLen (b :: rest) ≠ 0) (t : Bytes) :
    (b :: rest).take (utf8.runeLen (b :: rest)) ++ t
        = b :: (rest.take (utf8.runeLen (b :: rest) - 1) ++ t) ∧
      utf8.runeLen (b :: (rest.take (utf8.runeLen (b :: rest) - 1) ++ t))
        = utf8.runeLen (b :: rest) ∧
      (rest.take (utf8.runeLen (b :: rest) - 1)).length = utf8.runeLen (b :: rest) - 1 := by
  obtain ⟨hle, hpre⟩ := runeLen_take (b :: rest) hn
  have h1 : utf8.runeLen (b :: rest) = (utf8.runeLen (b :: rest) - 1) + 1 := by omega
  have h2 : (b :: rest).take (utf8.runeLen (b :: rest))
      = b :: rest.take (utf8.runeLen (b :: rest) - 1) := by
    conv_lhs => rw [h1]
    rfl
  refine ⟨by rw [h2]; rfl, ?_, ?_⟩
  · have := hpre t
    rw [h2] at this
    exact this
  · simp only [List.length_cons] at hle
    rw [List.length_take]
    omega

/-- Reading back the bytes `appendString` writes between the quotes gives the
string with every byte that begins no valid encoding replaced by `U+FFFD`. -/
theorem unquoteAux_appendStringAux (f1 : Nat) :
    ∀ (s : Bytes), s.length ≤ f1 → ∀ f2, (json.appendStringAux f1 s).length ≤ f2 →
      json.unquoteAux f2 (json.appendStringAux f1 s) = some (utf8.coerceAux f1 s) := by
  induction f1 with
  | zero =>
    intro s hs f2 _
    cases f2 <;> simp [json.appendStringAux, json.unquoteAux, utf8.coerceAux]
  | succ f1 ih =>
    intro s hs f2 hf2
    match s with
    | [] => cases f2 <;> simp [json.appendStringAux, json.unquoteAux, utf8.coerceAux]
    | b :: rest =>
      have hrest : rest.length ≤ f1 := by simpa using hs
      by_cases hb : b < 0x80
      · have hout : json.appendStringAux (f1 + 1) (b :: rest)
            = json.escapeByte b ++ json.appendStringAux f1 rest := by
          simp [json.appendStringAux, hb]
        have hco : utf8.coerceAux (f1 + 1) (b :: rest) = b :: utf8.coerceAux f1 rest := by
          simp [utf8.coerceAux, utf8.runeLen, hb]
        rw [hout] at hf2 ⊢
        rw [hco]
        have hpos := escapeByte_length_pos b
        rw [List.length_append] at hf2
        obtain ⟨f, rfl⟩ : ∃ f, f2 = f + 1 := ⟨f2 - 1, by omega⟩
        rw [unquoteAux_escapeByte b hb, ih rest hrest f (by omega)]
        rfl
      · by_cases hn : utf8.runeLen (b :: rest) = 0
        · have hout : json.appendStringAux (f1 + 1) (b :: rest)
              = 0x5C :: 0x75 :: (0x66 :: 0x66 :: 0x66 :: 0x64 :: json.appendStringAux f1 rest) := by
            simp [json.appendStringAux, hb, hn]
          have hco : utf8.coerceAux (f1 + 1) (b :: rest)
              = utf8.RuneError ++ utf8.coerceAux f1 rest := by
            simp [utf8.coerceAux, hn]
          rw [hout] at hf2 ⊢
          rw [hco]
          simp only [List.length_cons] at hf2
          obtain ⟨f, rfl⟩ : ∃ f, f2 = f + 1 := ⟨f2 - 1, by omega⟩
          rw [unquoteAux_escape_u f _ 0xFFFD (by rfl) (by omega)]
          simp only [List.drop_succ_cons, List.drop_zero]
          rw [ih rest hrest f (by omega)]
          rfl
        · by_cases h28 : (b :: rest).take 3 = [0xE2, 0x80, 0xA8]
          · obtain ⟨r, hr⟩ : ∃ r, b :: rest = 0xE2 :: 0x80 :: 0xA8 :: r := by
              match rest, h28 with
              | b1 :: b2 :: r, h => exact ⟨r, by simp at h; simp [h]⟩
            have hb0 : b = 0xE2 := by simp at hr; exact hr.1
            have hr2 : rest = 0x80 :: 0xA8 :: r := by simp at hr; exact hr.2
            subst hb0
            subst hr2
            have hlen : utf8.runeLen (0xE2 :: 0x80 :: 0xA8 :: r) = 3 := by
              simp [utf8.runeLen, utf8.first, utf8.isCont]
            have hout : json.appendStringAux (f1 + 1) (0xE2 :: 0x80 :: 0xA8 :: r)
                = 0x5C :: 0x75 :: (0x32 :: 0x30 :: 0x32 :: 0x38 :: json.appendStringAux f1 r) := by
              simp [json.appendStringAux, hlen]
            have hco : utf8.coerceAux (f1 + 1) (0xE2 :: 0x80 :: 0xA8 :: r)
                = [0xE2, 0x80, 0xA8] ++ utf8.coerceAux f1 r := by
              simp [utf8.coerceAux, hlen]
            rw [hout] at hf2 ⊢
            rw [hco]
            simp only [List.length_cons] at hf2 hrest
            obtain ⟨f, rfl⟩ : ∃ f, f2 = f + 1 := ⟨f2 - 1, by omega⟩
            rw [unquoteAux_escape_u f _ 0x2028 (by rfl) (by omega)]
            simp only [List.drop_succ_cons, List.drop_zero]
            rw [ih r (by omega) f (by omega)]
            rfl
          · by_cases h29 : (b :: rest).take 3 = [0xE2, 0x80, 0xA9]
            · obtain ⟨r, hr⟩ : ∃ r, b :: rest = 0xE2 :: 0x80 :: 0xA9 :: r := by
                match rest, h29 with
                | b1 :: b2 :: r, h => exact ⟨r, by simp at h; simp [h]⟩
              have hb0 : b = 0xE2 := by simp at hr; exact hr.1
              have hr2 : rest = 0x80 :: 0xA9 :: r := by simp at hr; exact hr.2
              subst hb0
              subst hr2
              have hlen : utf8.runeLen (0xE2 :: 0x80 :: 0xA9 :: r) = 3 := by
                simp [utf8.runeLen, utf8.first, utf8.isCont]
              have hout : json.appendStringAux (f1 + 1) (0xE2 :: 0x80 :: 0xA9 :: r)
                  = 0x5C :: 0x75 :: (0x32 :: 0x30 :: 0x32 :: 0x39 :: json.appendStringAux f1 r) := by
                simp [json.appendStringAux, hlen]
              have hco : utf8.coerceAux (f1 + 1) (0xE2 :: 0x80 :: 0xA9 :: r)
                  = [0xE2, 0x80, 0xA9] ++ utf8.coerceAux f1 r := by
                simp [utf8.coerceAux, hlen]
              rw [hout] at hf2 ⊢
              rw [hco]
              simp only [List.length_cons] at hf2 hrest
              obtain ⟨f, rfl⟩ : ∃ f, f2 = f + 1 := ⟨f2 - 1, by omega⟩
              rw [unquoteAux_escape_u f _ 0x2029 (by rfl) (by omega)]
              simp only [List.drop_succ_cons, List.drop_zero]
              rw [ih r (by omega) f (by omega)]
              rfl
            · have hout : json.appendStringAux (f1 + 1) (b :: rest)
                  = (b :: rest).take (utf8.runeLen (b :: rest)) ++
                      json.appendStringAux f1 (rest.drop (utf8.runeLen (b :: rest) - 1)) := by
                simp only [json.appendStringAux, hb, hn, h28, h29, if_false]
              have hco : utf8.coerceAux (f1 + 1) (b :: rest)
                  = (b :: rest).take (utf8.runeLen (b :: rest)) ++
                      utf8.coerceAux f1 (rest.drop (utf8.runeLen (b :: rest) - 1)) := by
                simp only [utf8.coerceAux, hn, if_false]
              obtain ⟨hsplit, hlen, htl⟩ := rune_split b rest hn
                (json.appendStringAux f1 (rest.drop (utf8.runeLen (b :: rest) - 1)))
              rw [hout] at hf2 ⊢
              rw [hco]
              rw [hsplit] at hf2 ⊢
              simp only [List.length_cons] at hf2
              obtain ⟨f, rfl⟩ : ∃ f, f2 = f + 1 := ⟨f2 - 1, by omega⟩
              rw [unquoteAux_rune f b _ (by omega) (by rw [hlen]; exact hn), hlen]
              have hdrop : (rest.take (utf8.runeLen (b :: rest) - 1) ++
                    json.appendStringAux f1 (rest.drop (utf8.runeLen (b :: rest) - 1))).drop
                      (utf8.runeLen (b :: rest) - 1)
                  = json.appendStringAux f1 (rest.drop (utf8.runeLen (b :: rest) - 1)) := by
                rw [List.drop_append_of_le_length (by omega)]
                rw [List.drop_of_length_le (by omega)]
                rfl
              rw [hdrop, ih _ (by rw [List.length_drop]; omega) f
                (by rw [List.length_append] at hf2; omega)]
              have htake : (b :: (rest.take (utf8.runeLen (b :: rest) - 1) ++
                    json.appendStringAux f1 (rest.drop (utf8.runeLen (b :: rest) - 1)))).take
                      (utf8.runeLen (b :: rest))
                  = (b :: rest).take (utf8.runeLen (b :: rest)) := by
                rw [← hsplit]
                rw [List.take_append_of_le_length (by
                  rw [List.length_take]
                  have := (runeLen_take (b :: rest) hn).1
                  omega)]
                rw [List.take_take]
                simp
              rw [htake]
              rfl

theorem coerceAux_of_valid (fuel : Nat) :
    ∀ (s : Bytes), utf8.validAux fuel s = true → utf8.coerceAux fuel s = s := by
  induction fuel with
  | zero =>
    intro s h
    cases s with
    | nil => rfl
    | cons b rest => simp [utf8.validAux] at h
  | succ fuel ih =>
    intro s h
    match s with
    | [] => rfl
    | b :: rest =>
      by_cases hn : utf8.runeLen (b :: rest) = 0
      · simp [utf8.validAux, hn] at h
      · simp only [utf8.validAux, hn, if_false] at h
        simp only [utf8.coerceAux, hn, if_false]
        rw [ih _ h]
        obtain ⟨hsplit, _, _⟩ := rune_split b rest hn
          (rest.drop (utf8.runeLen (b :: rest) - 1))
        rw [hsplit, List.take_append_drop]

/-- A valid UTF-8 string is left as it is. -/
theorem coerce_of_valid (s : Bytes) (h : utf8.ValidString s = true) : utf8.coerce s = s :=
  coerceAux_of_valid s.length s h

/-- Reading back the string literal of `s`. -/
theorem unquote_appendString (s : Bytes) :
    json.unquote (json.appendStringAux s.length s) = some (utf8.coerce s) :=
  unquoteAux_appendStringAux s.length s (Nat.le_refl _) _ (Nat.le_refl _)

/-! ## Scanning what `json.Marshal` writes -/

theorem keepAll_ok (p lit rest : Bytes) :
    json.keepAll p (.ok (lit, rest)) = .ok (p ++ lit, rest) := by
  induction p with
  | nil => rfl
  | cons c p ih => simp [json.keepAll, json.keep] at ih ⊢; rw [ih]

theorem keepAll_append (p q : Bytes) (r : Except String (Bytes × Bytes)) :
    json.keepAll (p ++ q) r = json.keepAll p (json.keepAll q r) := by
  simp [json.keepAll, List.foldr_append]

theorem scansThrough_nil : json.scansThrough [] := fun _ => rfl

theorem scansThrough_append (p q : Bytes) (hp : json.scansThrough p)
    (hq : json.scansThrough q) : json.scansThrough (p ++ q) := by
  intro t
  rw [List.append_assoc, hp, hq, keepAll_append]

theorem scansThrough_plain (c : Nat) (h1 : 0x20 ≤ c) (h2 : c ≠ 0x22) (h3 : c ≠ 0x5C) :
    json.scansThrough [c] := by
  intro t
  have h4 : ¬ c < 0x20 := by omega
  simp [json.scanString, h2, h3, h4, json.keepAll]

theorem scansThrough_plain_list (p : Bytes)
    (h : ∀ c ∈ p, 0x20 ≤ c ∧ c ≠ 0x22 ∧ c ≠ 0x5C) : json.scansThrough p := by
  induction p with
  | nil => exact scansThrough_nil
  | cons c p ih =>
    have hc := h c (List.mem_cons_self c p)
    exact scansThrough_append [c] p (scansThrough_plain c hc.1 hc.2.1 hc.2.2)
      (ih fun x hx => h x (List.mem_cons_of_mem c hx))

theorem isHexDigit_hex (n : Nat) (h : n < 16) : json.isHexDigit (json.hex n) = true := by
  simp [json.isHexDigit, hexVal_hex n h]

theorem scansThrough_escape_u (h1 h2 h3 h4 : Nat) (d1 : json.isHexDigit h1 = true)
    (d2 : json.isHexDigit h2 = true) (d3 : json.isHexDigit h3 = true)
    (d4 : json.isHexDigit h4 = true) :
    json.scansThrough [0x5C, 0x75, h1, h2, h3, h4] := by
  intro t
  simp [json.scanString, d1, d2, d3, d4, json.keepAll]

theorem scansThrough_escapeByte (b : Nat) (hb : b < 0x80) :
    json.scansThrough (json.escapeByte b) := by
  unfold json.escapeByte
  by_cases hs : json.htmlSafe b = true
  · have hs2 := hs
    simp only [json.htmlSafe, decide_eq_true_eq] at hs2
    simp only [hs, if_true]
    exact scansThrough_plain b (by omega) (by omega) (by omega)
  · simp only [hs, if_false]
    by_cases h1 : b = 0x5C ∨ b = 0x22
    · simp only [h1, if_true]
      intro t
      rcases h1 with h1 | h1 <;> subst h1 <;> simp [json.scanString, json.keepAll]
    · simp only [h1, if_false]
      by_cases h2 : b = 0x08
      · subst h2; intro t; simp [json.scanString, json.keepAll]
      · simp only [h2, if_false]
        by_cases h3 : b = 0x0C
        · subst h3; intro t; simp [json.scanString, json.keepAll]
        · simp only [h3, if_false]
          by_cases h4 : b = 0x0A
          · subst h4; intro t; simp [json.scanString, json.keepAll]
          · simp only [h4, if_false]
            by_cases h5 : b = 0x0D
            · subst h5; intro t; simp [json.scanString, json.keepAll]
            · simp only [h5, if_false]
              by_cases h6 : b = 0x09
              · subst h6; intro t; simp [json.scanString, json.keepAll]
              · simp only [h6, if_false]
                exact scansThrough_escape_u 0x30 0x30 (json.hex (b / 16)) (json.hex (b % 16))
                  (by decide) (by decide)
                  (isHexDigit_hex _ (by omega)) (isHexDigit_hex _ (by omega))

theorem first_lo (b size lo hi : Nat) (h : utf8.first b = some (size, lo, hi)) : 0x80 ≤ lo := by
  unfold utf8.first at h
  repeat' split at h
  all_goals simp at h
  all_goals omega

theorem rune_bytes_high (b : Nat) (rest : Bytes) (hn : utf8.runeLen (b :: rest) ≠ 0)
    (hb : 0x80 ≤ b) :
    ∀ x ∈ (b :: rest).take (utf8.runeLen (b :: rest)), 0x80 ≤ x := by
  have h0 : ¬ b < 0x80 := by omega
  cases hf : utf8.first b with
  | none => simp [utf8.runeLen, h0, hf] at hn
  | some info =>
    obtain ⟨size, lo, hi⟩ := info
    have hlo := first_lo b size lo hi hf
    match rest with
    | [] => simp [utf8.runeLen, h0, hf] at hn
    | b1 :: rest1 =>
      by_cases h1 : lo ≤ b1 ∧ b1 ≤ hi
      · by_cases h2 : size = 2
        · simp [utf8.runeLen, h0, hf, h1, h2]
          omega
        · match rest1 with
          | [] => simp [utf8.runeLen, h0, hf, h1, h2] at hn
          | b2 :: rest2 =>
            by_cases hc2 : utf8.isCont b2 = true
            · have hc2b := hc2
              simp only [utf8.isCont, decide_eq_true_eq] at hc2b
              by_cases h3 : size = 3
              · simp [utf8.runeLen, h0, hf, h1, h2, hc2, h3]
                omega
              · match rest2 with
                | [] => simp [utf8.runeLen, h0, hf, h1, h2, hc2, h3] at hn
                | b3 :: rest3 =>
                  by_cases hc3 : utf8.isCont b3 = true
                  · have hc3b := hc3
                    simp only [utf8.isCont, decide_eq_true_eq] at hc3b
                    simp [utf8.runeLen, h0, hf, h1, h2, hc2, h3, hc3]
                    omega
                  · simp [utf8.runeLen, h0, hf, h1, h2, hc2, h3, hc3] at hn
            · simp [utf8.runeLen, h0, hf, h1, h2, hc2] at hn
      · simp [utf8.runeLen, h0, hf, h1] at hn

/-- The scanner reads the bytes `appendString` writes between the quotes and
is still inside the string literal behind them. -/
theorem scansThrough_appendStringAux (f : Nat) :
    ∀ s : Bytes, json.scansThrough (json.appendStringAux f s) := by
  induction f with
  | zero => intro s; exact scansThrough_nil
  | succ f ih =>
    intro s
    match s with
    | [] => exact scansThrough_nil
    | b :: rest =>
      simp only [json.appendStringAux]
      split
      · rename_i hb
        exact scansThrough_append _ _ (scansThrough_escapeByte b hb) (ih _)
      · rename_i hb
        split
        · exact scansThrough_append _ _
            (scansThrough_escape_u _ _ _ _ (by decide) (by decide) (by decide) (by decide)) (ih _)
        · rename_i hn
          split
          · exact scansThrough_append _ _
              (scansThrough_escape_u _ _ _ _ (by decide) (by decide) (by decide) (by decide))
              (ih _)
          · split
            · exact scansThrough_append _ _
                (scansThrough_escape_u _ _ _ _ (by decide) (by decide) (by decide) (by decide))
                (ih _)
            · refine scansThrough_append _ _ (scansThrough_plain_list _ ?_) (ih _)
              intro c hc
              have := rune_bytes_high b rest hn (by omega) c hc
              omega

/-- The scanner, behind the opening quote of the literal `appendString` writes
for `s`, returns the bytes between the quotes and the bytes behind the
literal. -/
theorem scanString_appendString (s rest : Bytes) :
    json.scanString .inString (json.appendStringAux s.length s ++ 0x22 :: rest)
      = .ok (json.appendStringAux s.length s, rest) := by
  rw [scansThrough_appendStringAux s.length s]
  have : json.scanString .inString (0x22 :: rest) = .ok ([], rest) := by
    simp [json.scanString]
  rw [this, keepAll_ok]
  simp

/-! ## Integers as text -/

theorem parseDigits_digits (fuel : Nat) :
    ∀ (n : Nat) (acc : Bytes), n < fuel →
      strconv.parseDigits 0 (strconv.digits fuel n acc) = strconv.parseDigits n acc := by
  induction fuel with
  | zero => intro n acc h; omega
  | succ fuel ih =>
    intro n acc h
    by_cases hn : n < 10
    · have h1 : 0x30 ≤ 0x30 + n ∧ 0x30 + n ≤ 0x39 := by omega
      simp only [strconv.digits, hn, if_true, strconv.parseDigits, h1, and_self]
      have h2 : 0 * 10 + (0x30 + n - 0x30) = n := by omega
      rw [h2]
    · simp only [strconv.digits, hn, if_false]
      rw [ih (n / 10) _ (by omega)]
      have h1 : 0x30 ≤ 0x30 + n % 10 ∧ 0x30 + n % 10 ≤ 0x39 := by omega
      simp only [strconv.parseDigits, h1, and_self, if_true]
      have h2 : n / 10 * 10 + (0x30 + n % 10 - 0x30) = n := by omega
      rw [h2]

theorem parseDigits_digits_top (n : Nat) :
    strconv.parseDigits 0 (strconv.digits (n + 1) n []) = some n := by
  rw [parseDigits_digits (n + 1) n [] (by omega)]
  rfl

/-- The digits of a positive number: a first digit that is not `0`, then
digits. -/
theorem digits_shape (fuel : Nat) :
    ∀ (n : Nat) (acc : Bytes), 1 ≤ n → n < fuel →
      ∃ d ds, strconv.digits fuel n acc = d :: (ds ++ acc) ∧ 0x31 ≤ d ∧ d ≤ 0x39 ∧
        ∀ x ∈ ds, json.isDigit x = true := by
  induction fuel with
  | zero => intro n acc _ h; omega
  | succ fuel ih =>
    intro n acc h1 h
    by_cases hn : n < 10
    · refine ⟨0x30 + n, [], ?_, by omega, by omega, by simp⟩
      simp [strconv.digits, hn]
    · simp only [strconv.digits, hn, if_false]
      obtain ⟨d, ds, hd, hlo, hhi, hall⟩ := ih (n / 10) ((0x30 + n % 10) :: acc) (by omega) (by omega)
      refine ⟨d, ds ++ [0x30 + n % 10], ?_, hlo, hhi, ?_⟩
      · rw [hd]; simp
      · intro x hx
        rcases List.mem_append.mp hx with hx | hx
        · exact hall x hx
        · simp only [List.mem_singleton] at hx
          subst hx
          simp only [json.isDigit, decide_eq_true_eq]
          omega

theorem scanNumber_digits (ds : Bytes) (h : ∀ x ∈ ds, json.isDigit x = true) (t : Bytes) :
    json.scanNumber .int (ds ++ t) = json.keepAll ds (json.scanNumber .int t) := by
  induction ds with
  | nil => rfl
  | cons d ds ih =>
    have hd := h d (List.mem_cons_self d ds)
    have step : json.scanNumber .int (d :: (ds ++ t))
        = json.keep d (json.scanNumber .int (ds ++ t)) := by
      simp only [json.scanNumber, hd, if_true]
    rw [List.cons_append, step, ih fun x hx => h x (List.mem_cons_of_mem d hx)]
    rfl

/-- A byte that ends a number: a comma or a closing brace. -/
theorem scanNumber_end (st : json.NumberState) (t : Nat) (rest : Bytes)
    (hst : st = .int ∨ st = .zero) (ht : t = 0x2C ∨ t = 0x7D) :
    json.scanNumber st (t :: rest) = .ok ([], t :: rest) := by
  rcases hst with h | h <;> subst h <;> rcases ht with h | h <;> subst h <;>
    simp [json.scanNumber, json.isDigit]

theorem skipSpace_of_not_space (c : Nat) (rest : Bytes) (h : json.isSpace c = false) :
    json.skipSpace (c :: rest) = c :: rest := by
  simp [json.skipSpace, h]

/-- The scanner reads the integer `strconv.AppendInt` writes, in front of a
comma or a closing brace, as one number. -/
theorem parseValue_int (f depth : Nat) (n : Int) (t : Nat) (rest : Bytes)
    (ht : t = 0x2C ∨ t = 0x7D) :
    json.parseValue (f + 1) depth (strconv.FormatInt n ++ t :: rest)
      = .ok (.number (strconv.FormatInt n), t :: rest) := by
  unfold strconv.FormatInt
  by_cases hneg : n < 0
  · simp only [hneg, if_true]
    obtain ⟨d, ds, hd, hlo, hhi, hall⟩ :=
      digits_shape (n.natAbs + 1) n.natAbs [] (by omega) (by omega)
    rw [hd]
    simp only [List.append_nil, List.cons_append]
    have hsc : json.scanNumber .neg (d :: (ds ++ t :: rest)) = .ok (d :: ds, t :: rest) := by
      have h0 : ¬ d = 0x30 := by omega
      simp only [json.scanNumber, h0, if_false, hlo, hhi, and_self, if_true]
      rw [scanNumber_digits ds hall, scanNumber_end .int t rest (Or.inl rfl) ht, keepAll_ok]
      simp [json.keep]
    simp [json.parseValue, json.skipSpace, json.isSpace, hsc]
  · simp only [hneg, if_false]
    by_cases hz : n.toNat = 0
    · rw [hz]
      have hsc := scanNumber_end .zero t rest (Or.inr rfl) ht
      simp [strconv.digits, json.parseValue, json.skipSpace, json.isSpace, hsc]
    · obtain ⟨d, ds, hd, hlo, hhi, hall⟩ :=
        digits_shape (n.toNat + 1) n.toNat [] (by omega) (by omega)
      rw [hd]
      simp only [List.append_nil, List.cons_append]
      have hsc : json.scanNumber .int (ds ++ t :: rest) = .ok (ds, t :: rest) := by
        rw [scanNumber_digits ds hall, scanNumber_end .int t rest (Or.inl rfl) ht, keepAll_ok]
        simp
      have hsp : json.skipSpace (d :: (ds ++ t :: rest)) = d :: (ds ++ t :: rest) :=
        skipSpace_of_not_space d _ (by simp [json.isSpace]; omega)
      have c1 : ¬ d = 0x7B := by omega
      have c2 : ¬ d = 0x5B := by omega
      have c3 : ¬ d = 0x22 := by omega
      have c4 : ¬ d = 0x2D := by omega
      have c5 : ¬ d = 0x30 := by omega
      simp only [json.parseValue, hsp, c1, c2, c3, c4, c5, if_false, hlo, hhi, and_self,
        if_true, hsc]

/-- Reading back the integer `strconv.AppendInt` writes. -/
theorem ParseInt_FormatInt (n : Int) (h : isInt64 n) :
    strconv.ParseInt (strconv.FormatInt n) = some n := by
  unfold isInt64 at h
  unfold strconv.FormatInt
  by_cases hneg : n < 0
  · simp only [hneg, if_true]
    obtain ⟨d, ds, hd, hlo, hhi, hall⟩ :=
      digits_shape (n.natAbs + 1) n.natAbs [] (by omega) (by omega)
    have hp := parseDigits_digits_top n.natAbs
    rw [hd] at hp ⊢
    have hle : n.natAbs ≤ 2 ^ 63 := by omega
    simp only [strconv.ParseInt, if_true, hp, hle]
    congr 1
    omega
  · simp only [hneg, if_false]
    have hp := parseDigits_digits_top n.toNat
    have hlt : n.toNat < 2 ^ 63 := by omega
    by_cases hz : n.toNat = 0
    · have hn0 : n = 0 := by omega
      subst hn0
      decide
    · obtain ⟨d, ds, hd, hlo, hhi, hall⟩ :=
        digits_shape (n.toNat + 1) n.toNat [] (by omega) (by omega)
      rw [hd] at hp ⊢
      have c1 : ¬ d = 0x2D := by omega
      have c2 : ¬ d = 0x2B := by omega
      simp only [strconv.ParseInt, c1, c2, if_false, hp, hlt, if_true]
      congr 1
      omega

/-! ## The fuel of the scanner -/

theorem skipSpace_length (s : Bytes) : (json.skipSpace s).length ≤ s.length := by
  induction s with
  | nil => simp [json.skipSpace]
  | cons c s ih =>
    simp only [json.skipSpace]
    split
    · simp only [List.length_cons]; omega
    · exact Nat.le_refl _

theorem keep_eq_ok (c : Nat) (r : Except String (Bytes × Bytes)) (lit rest : Bytes)
    (h : json.keep c r = .ok (lit, rest)) : ∃ l, r = .ok (l, rest) := by
  cases r with
  | error e => simp [json.keep] at h
  | ok p =>
    obtain ⟨l, r2⟩ := p
    simp only [json.keep, Except.ok.injEq, Prod.mk.injEq] at h
    exact ⟨l, by rw [h.2]⟩

theorem scanString_length (s : Bytes) :
    ∀ (st : json.StringState) (raw rest : Bytes),
      json.scanString st s = .ok (raw, rest) → rest.length < s.length := by
  induction s with
  | nil => intro st raw rest h; cases st <;> simp [json.scanString] at h
  | cons c s ih =>
    intro st raw rest h
    cases st <;> simp only [json.scanString] at h
    all_goals repeat' split at h
    all_goals first
      | (simp only [Except.ok.injEq, Prod.mk.injEq] at h
         rw [← h.2]
         simp)
      | (obtain ⟨l, hl⟩ := keep_eq_ok _ _ _ _ h
         have := ih _ _ _ hl
         simp only [List.length_cons]
         omega)
      | simp at h

theorem scanNumber_length (s : Bytes) :
    ∀ (st : json.NumberState) (lit rest : Bytes),
      json.scanNumber st s = .ok (lit, rest) → rest.length ≤ s.length := by
  induction s with
  | nil =>
    intro st lit rest h
    cases st <;> simp [json.scanNumber] at h <;> simp [h]
  | cons c s ih =>
    intro st lit rest h
    cases st <;> simp only [json.scanNumber] at h
    all_goals repeat' split at h
    all_goals first
      | (simp only [Except.ok.injEq, Prod.mk.injEq] at h
         rw [← h.2])
      | (obtain ⟨l, hl⟩ := keep_eq_ok _ _ _ _ h
         have := ih _ _ _ hl
         simp only [List.length_cons]
         omega)
      | simp at h

theorem scanLiteral_length (name : String) (expected : Bytes) :
    ∀ (s rest : Bytes), json.scanLiteral name expected s = .ok rest → rest.length ≤ s.length := by
  induction expected with
  | nil => intro s rest h; simp only [json.scanLiteral, Except.ok.injEq] at h; rw [h]
  | cons e expected ih =>
    intro s rest h
    cases s with
    | nil => simp [json.scanLiteral] at h
    | cons c s =>
      simp only [json.scanLiteral] at h
      split at h
      · have := ih _ _ h
        simp only [List.length_cons]
        omega
      · simp at h

/-- What the scanner returns behind a value, behind the members of an object
and behind the elements of an array is shorter than what it was given. -/
theorem parse_length (fuel : Nat) :
    (∀ depth input v rest, json.parseValue fuel depth input = .ok (v, rest) →
        rest.length < input.length) ∧
      (∀ depth input ms rest, json.parseMembers fuel depth input = .ok (ms, rest) →
        rest.length < input.length) ∧
      (∀ depth input xs rest, json.parseItems fuel depth input = .ok (xs, rest) →
        rest.length < input.length) := by
  induction fuel with
  | zero =>
    refine ⟨?_, ?_, ?_⟩ <;> intro depth input v rest h
    · simp [json.parseValue] at h
    · simp [json.parseMembers] at h
    · simp [json.parseItems] at h
  | succ fuel ih =>
    obtain ⟨ihV, ihM, ihI⟩ := ih
    refine ⟨?_, ?_, ?_⟩
    · intro depth input v rest h
      have hsk := skipSpace_length input
      simp only [json.parseValue] at h
      cases hs : json.skipSpace input with
      | nil => simp [hs] at h
      | cons c rest0 =>
        rw [hs] at h hsk
        simp only [List.length_cons] at hsk
        dsimp only at h
        split at h
        · split at h
          · simp at h
          · have hsk1 := skipSpace_length rest0
            cases hs1 : json.skipSpace rest0 with
            | nil => simp [hs1] at h
            | cons c1 rest1 =>
              rw [hs1] at h hsk1
              simp only [List.length_cons] at hsk1
              dsimp only at h
              split at h
              · simp only [Except.ok.injEq, Prod.mk.injEq] at h
                rw [← h.2]
                omega
              · cases ha : json.parseMembers fuel (depth + 1) (c1 :: rest1) with
                | error e => rw [ha] at h; simp at h
                | ok p =>
                  obtain ⟨a, r2⟩ := p
                  have := ihM _ _ _ _ ha
                  rw [ha] at h
                  simp only [Except.ok.injEq, Prod.mk.injEq] at h
                  rw [← h.2]
                  simp only [List.length_cons] at this
                  omega
        · split at h
          · split at h
            · simp at h
            · have hsk1 := skipSpace_length rest0
              cases hs1 : json.skipSpace rest0 with
              | nil => simp [hs1] at h
              | cons c1 rest1 =>
                rw [hs1] at h hsk1
                simp only [List.length_cons] at hsk1
                dsimp only at h
                split at h
                · simp only [Except.ok.injEq, Prod.mk.injEq] at h
                  rw [← h.2]
                  omega
                · cases ha : json.parseItems fuel (depth + 1) (c1 :: rest1) with
                  | error e => rw [ha] at h; simp at h
                  | ok p =>
                    obtain ⟨a, r2⟩ := p
                    have := ihI _ _ _ _ ha
                    rw [ha] at h
                    simp only [Except.ok.injEq, Prod.mk.injEq] at h
                    rw [← h.2]
                    simp only [List.length_cons] at this
                    omega
          · split at h
            · cases hsc : json.scanString .inString rest0 with
              | error e => simp [hsc] at h
              | ok p =>
                obtain ⟨raw, rest1⟩ := p
                have := scanString_length _ _ _ _ hsc
                rw [hsc] at h
                dsimp only at h
                cases hu : json.unquote raw with
                | none => simp [hu] at h
                | some s =>
                  simp only [hu, Except.ok.injEq, Prod.mk.injEq] at h
                  rw [← h.2]
                  omega
            · split at h
              · cases ha : json.scanNumber .neg rest0 with
                | error e => rw [ha] at h; simp at h
                | ok p =>
                  obtain ⟨a, r2⟩ := p
                  have := scanNumber_length _ _ _ _ ha
                  rw [ha] at h
                  simp only [Except.ok.injEq, Prod.mk.injEq] at h
                  rw [← h.2]
                  omega
              · split at h
                · cases ha : json.scanNumber .zero rest0 with
                  | error e => rw [ha] at h; simp at h
                  | ok p =>
                    obtain ⟨a, r2⟩ := p
                    have := scanNumber_length _ _ _ _ ha
                    rw [ha] at h
                    simp only [Except.ok.injEq, Prod.mk.injEq] at h
                    rw [← h.2]
                    omega
                · split at h
                  · cases ha : json.scanNumber .int rest0 with
                    | error e => rw [ha] at h; simp at h
                    | ok p =>
                      obtain ⟨a, r2⟩ := p
                      have := scanNumber_length _ _ _ _ ha
                      rw [ha] at h
                      simp only [Except.ok.injEq, Prod.mk.injEq] at h
                      rw [← h.2]
                      omega
                  · split at h
                    · cases hl : json.scanLiteral "true" [0x72, 0x75, 0x65] rest0 with
                      | error e => simp [hl] at h
                      | ok r1 =>
                        have := scanLiteral_length _ _ _ _ hl
                        simp only [hl, Except.ok.injEq, Prod.mk.injEq] at h
                        rw [← h.2]
                        omega
                    · split at h
                      · cases hl : json.scanLiteral "false" [0x61, 0x6C, 0x73, 0x65] rest0 with
                        | error e => simp [hl] at h
                        | ok r1 =>
                          have := scanLiteral_length _ _ _ _ hl
                          simp only [hl, Except.ok.injEq, Prod.mk.injEq] at h
                          rw [← h.2]
                          omega
                      · split at h
                        · cases hl : json.scanLiteral "null" [0x75, 0x6C, 0x6C] rest0 with
                          | error e => simp [hl] at h
                          | ok r1 =>
                            have := scanLiteral_length _ _ _ _ hl
                            simp only [hl, Except.ok.injEq, Prod.mk.injEq] at h
                            rw [← h.2]
                            omega
                        · simp at h
    · intro depth input ms rest h
      have hsk := skipSpace_length input
      simp only [json.parseMembers] at h
      cases hs : json.skipSpace input with
      | nil => simp [hs] at h
      | cons c rest0 =>
        rw [hs] at h hsk
        simp only [List.length_cons] at hsk
        dsimp only at h
        split at h
        · cases hsc : json.scanString .inString rest0 with
          | error e => simp [hsc] at h
          | ok p =>
            obtain ⟨raw, rest1⟩ := p
            have hl1 := scanString_length _ _ _ _ hsc
            rw [hsc] at h
            dsimp only at h
            have hsk1 := skipSpace_length rest1
            cases hs1 : json.skipSpace rest1 with
            | nil => simp [hs1] at h
            | cons c1 rest2 =>
              rw [hs1] at h hsk1
              simp only [List.length_cons] at hsk1
              dsimp only at h
              split at h
              · cases hv : json.parseValue fuel depth rest2 with
                | error e => simp [hv] at h
                | ok q =>
                  obtain ⟨v, rest3⟩ := q
                  have hl3 := ihV _ _ _ _ hv
                  rw [hv] at h
                  dsimp only at h
                  cases hu : json.unquote raw with
                  | none => simp [hu] at h
                  | some key =>
                    rw [hu] at h
                    dsimp only at h
                    have hsk3 := skipSpace_length rest3
                    cases hs3 : json.skipSpace rest3 with
                    | nil => simp [hs3] at h
                    | cons c2 rest4 =>
                      rw [hs3] at h hsk3
                      simp only [List.length_cons] at hsk3
                      dsimp only at h
                      split at h
                      · cases ha : json.parseMembers fuel depth rest4 with
                        | error e => rw [ha] at h; simp at h
                        | ok p =>
                          obtain ⟨a, r2⟩ := p
                          have := ihM _ _ _ _ ha
                          rw [ha] at h
                          simp only [Except.ok.injEq, Prod.mk.injEq] at h
                          rw [← h.2]
                          omega
                      · split at h
                        · simp only [Except.ok.injEq, Prod.mk.injEq] at h
                          rw [← h.2]
                          omega
                        · simp at h
              · simp at h
        · simp at h
    · intro depth input xs rest h
      simp only [json.parseItems] at h
      cases hv : json.parseValue fuel depth input with
      | error e => simp [hv] at h
      | ok q =>
        obtain ⟨v, rest1⟩ := q
        have hl1 := ihV _ _ _ _ hv
        rw [hv] at h
        dsimp only at h
        have hsk1 := skipSpace_length rest1
        cases hs1 : json.skipSpace rest1 with
        | nil => simp [hs1] at h
        | cons c rest2 =>
          rw [hs1] at h hsk1
          simp only [List.length_cons] at hsk1
          dsimp only at h
          split at h
          · cases ha : json.parseItems fuel depth rest2 with
            | error e => rw [ha] at h; simp at h
            | ok p =>
              obtain ⟨a, r2⟩ := p
              have := ihI _ _ _ _ ha
              rw [ha] at h
              simp only [Except.ok.injEq, Prod.mk.injEq] at h
              rw [← h.2]
              omega
          · split at h
            · simp only [Except.ok.injEq, Prod.mk.injEq] at h
              rw [← h.2]
              omega
            · simp at h

theorem parseValue_nil (f depth : Nat) : json.parseValue f depth [] = .error json.eofText := by
  cases f <;> simp [json.parseValue, json.skipSpace]

theorem parseMembers_nil (f depth : Nat) :
    json.parseMembers f depth [] = .error json.eofText := by
  cases f <;> simp [json.parseMembers, json.skipSpace]

theorem parseItems_nil (f depth : Nat) : json.parseItems f depth [] = .error json.eofText := by
  cases f <;> simp [json.parseItems, parseValue_nil]

/-- The fuel does not run out: with a fuel of twice the length of the bytes at
hand, and one more at the beginning of an array element, the scanner returns
what it returns with any larger fuel. -/
theorem parse_fuel (n : Nat) :
    (∀ input : Bytes, input.length ≤ n → ∀ depth f1 f2, 2 * input.length ≤ f1 →
        2 * input.length ≤ f2 →
        json.parseValue f1 depth input = json.parseValue f2 depth input) ∧
      (∀ input : Bytes, input.length ≤ n → ∀ depth f1 f2, 2 * input.length ≤ f1 →
        2 * input.length ≤ f2 →
        json.parseMembers f1 depth input = json.parseMembers f2 depth input) ∧
      (∀ input : Bytes, input.length ≤ n → ∀ depth f1 f2, 2 * input.length + 1 ≤ f1 →
        2 * input.length + 1 ≤ f2 →
        json.parseItems f1 depth input = json.parseItems f2 depth input) := by
  induction n with
  | zero =>
    refine ⟨?_, ?_, ?_⟩ <;> intro input hlen depth f1 f2 _ _
    · have : input = [] := List.length_eq_zero.mp (Nat.le_zero.mp hlen)
      subst this
      rw [parseValue_nil, parseValue_nil]
    · have : input = [] := List.length_eq_zero.mp (Nat.le_zero.mp hlen)
      subst this
      rw [parseMembers_nil, parseMembers_nil]
    · have : input = [] := List.length_eq_zero.mp (Nat.le_zero.mp hlen)
      subst this
      rw [parseItems_nil, parseItems_nil]
  | succ n ih =>
    obtain ⟨ihV, ihM, ihI⟩ := ih
    have hV : ∀ input : Bytes, input.length ≤ n + 1 → ∀ depth f1 f2, 2 * input.length ≤ f1 →
        2 * input.length ≤ f2 →
        json.parseValue f1 depth input = json.parseValue f2 depth input := by
      intro input hlen depth f1 f2 h1 h2
      by_cases hsmall : input.length ≤ n
      · exact ihV input hsmall depth f1 f2 h1 h2
      · obtain ⟨g1, rfl⟩ : ∃ g, f1 = g + 1 := ⟨f1 - 1, by omega⟩
        obtain ⟨g2, rfl⟩ : ∃ g, f2 = g + 1 := ⟨f2 - 1, by omega⟩
        have hsk := skipSpace_length input
        simp only [json.parseValue]
        cases hs : json.skipSpace input with
        | nil => rfl
        | cons c rest0 =>
          rw [hs] at hsk
          simp only [List.length_cons] at hsk
          dsimp only
          have hsk1 := skipSpace_length rest0
          split
          · split
            · rfl
            · cases hs1 : json.skipSpace rest0 with
              | nil => rfl
              | cons c1 rest1 =>
                rw [hs1] at hsk1
                dsimp only
                split
                · rfl
                · rw [ihM (c1 :: rest1) (by omega) (depth + 1) g1 g2 (by omega) (by omega)]
          · split
            · split
              · rfl
              · cases hs1 : json.skipSpace rest0 with
                | nil => rfl
                | cons c1 rest1 =>
                  rw [hs1] at hsk1
                  dsimp only
                  split
                  · rfl
                  · rw [ihI (c1 :: rest1) (by omega) (depth + 1) g1 g2 (by omega) (by omega)]
            · rfl
    have hM : ∀ input : Bytes, input.length ≤ n + 1 → ∀ depth f1 f2, 2 * input.length ≤ f1 →
        2 * input.length ≤ f2 →
        json.parseMembers f1 depth input = json.parseMembers f2 depth input := by
      intro input hlen depth f1 f2 h1 h2
      by_cases hsmall : input.length ≤ n
      · exact ihM input hsmall depth f1 f2 h1 h2
      · obtain ⟨g1, rfl⟩ : ∃ g, f1 = g + 1 := ⟨f1 - 1, by omega⟩
        obtain ⟨g2, rfl⟩ : ∃ g, f2 = g + 1 := ⟨f2 - 1, by omega⟩
        have hsk := skipSpace_length input
        simp only [json.parseMembers]
        cases hs : json.skipSpace input with
        | nil => rfl
        | cons c rest0 =>
          rw [hs] at hsk
          simp only [List.length_cons] at hsk
          dsimp only
          split
          · cases hsc : json.scanString .inString rest0 with
            | error e => rfl
            | ok p =>
              obtain ⟨raw, rest1⟩ := p
              have hl1 := scanString_length _ _ _ _ hsc
              dsimp only
              have hsk1 := skipSpace_length rest1
              cases hs1 : json.skipSpace rest1 with
              | nil => rfl
              | cons c1 rest2 =>
                rw [hs1] at hsk1
                simp only [List.length_cons] at hsk1
                dsimp only
                split
                · rw [ihV rest2 (by omega) depth g1 g2 (by omega) (by omega)]
                  cases hv : json.parseValue g2 depth rest2 with
                  | error e => rfl
                  | ok q =>
                    obtain ⟨v, rest3⟩ := q
                    have hl3 := (parse_length g2).1 _ _ _ _ hv
                    dsimp only
                    cases hu : json.unquote raw with
                    | none => rfl
                    | some key =>
                      dsimp only
                      have hsk3 := skipSpace_length rest3
                      cases hs3 : json.skipSpace rest3 with
                      | nil => rfl
                      | cons c2 rest4 =>
                        rw [hs3] at hsk3
                        simp only [List.length_cons] at hsk3
                        dsimp only
                        split
                        · rw [ihM rest4 (by omega) depth g1 g2 (by omega) (by omega)]
                        · rfl
                · rfl
          · rfl
    refine ⟨hV, hM, ?_⟩
    intro input hlen depth f1 f2 h1 h2
    obtain ⟨g1, rfl⟩ : ∃ g, f1 = g + 1 := ⟨f1 - 1, by omega⟩
    obtain ⟨g2, rfl⟩ : ∃ g, f2 = g + 1 := ⟨f2 - 1, by omega⟩
    simp only [json.parseItems]
    rw [hV input hlen depth g1 g2 (by omega) (by omega)]
    cases hv : json.parseValue g2 depth input with
    | error e => rfl
    | ok q =>
      obtain ⟨v, rest1⟩ := q
      have hl1 := (parse_length g2).1 _ _ _ _ hv
      dsimp only
      have hsk1 := skipSpace_length rest1
      cases hs1 : json.skipSpace rest1 with
      | nil => rfl
      | cons c rest2 =>
        rw [hs1] at hsk1
        simp only [List.length_cons] at hsk1
        dsimp only
        split
        · rw [ihI rest2 (by omega) depth g1 g2 (by omega) (by omega)]
        · rfl

/-- The value `json.parse` returns is the one the scanner returns with any
fuel of twice the length of the text or more. -/
theorem parse_any_fuel (data : Bytes) (fuel : Nat) (h : 2 * data.length ≤ fuel) :
    json.parseValue fuel 0 data = json.parseValue (2 * data.length + 2) 0 data :=
  (parse_fuel data.length).1 data (Nat.le_refl _) 0 _ _ h (by omega)

/-! ## Round trip of a command through its wire format -/

theorem unquoteAux_plain (k : Bytes) (h : json.plainKey k = true) :
    ∀ f, k.length ≤ f → json.unquoteAux f k = some k := by
  induction k with
  | nil => intro f _; cases f <;> simp [json.unquoteAux]
  | cons c k ih =>
    intro f hf
    simp only [json.plainKey, List.all_cons, Bool.and_eq_true, decide_eq_true_eq] at h
    obtain ⟨f, rfl⟩ : ∃ g, f = g + 1 := ⟨f - 1, by simp at hf; omega⟩
    have c1 : ¬ c = 0x5C := by omega
    have c2 : ¬ (c = 0x22 ∨ c < 0x20) := by omega
    have c3 : c < 0x80 := by omega
    simp only [json.unquoteAux, c1, c2, c3, if_false, if_true]
    rw [ih h.2 f (by simp at hf; omega)]
    rfl

theorem scanString_plain (k : Bytes) (h : json.plainKey k = true) (rest : Bytes) :
    json.scanString .inString (k ++ 0x22 :: rest) = .ok (k, rest) := by
  have hs : json.scansThrough k := by
    apply scansThrough_plain_list
    intro c hc
    simp only [json.plainKey, List.all_eq_true, decide_eq_true_eq] at h
    have := h c hc
    omega
  rw [hs]
  have : json.scanString .inString (0x22 :: rest) = .ok ([], rest) := by
    simp [json.scanString]
  rw [this, keepAll_ok]
  simp

theorem member_append (name : String) (value rest : Bytes) :
    json.member name value ++ rest
      = 0x22 :: (utf8.bytes name ++ 0x22 :: 0x3A :: (value ++ rest)) := by
  simp [json.member]

/-- A member that is followed by another one. -/
theorem parseMembers_more (f depth : Nat) (name : String) (value more : Bytes)
    (v : json.Value) (hk : json.plainKey (utf8.bytes name) = true)
    (hv : json.parseValue f depth (value ++ 0x2C :: more) = .ok (v, 0x2C :: more)) :
    json.parseMembers (f + 1) depth (json.member name value ++ 0x2C :: more)
      = match json.parseMembers f depth more with
        | .error e => .error e
        | .ok (members, rest) => .ok ((utf8.bytes name, v) :: members, rest) := by
  rw [member_append]
  have hu : json.unquote (utf8.bytes name) = some (utf8.bytes name) :=
    unquoteAux_plain _ hk _ (Nat.le_refl _)
  simp [json.parseMembers, json.skipSpace, json.isSpace, scanString_plain _ hk, hv, hu]

/-- The last member of an object. -/
theorem parseMembers_last (f depth : Nat) (name : String) (value rest : Bytes)
    (v : json.Value) (hk : json.plainKey (utf8.bytes name) = true)
    (hv : json.parseValue f depth (value ++ 0x7D :: rest) = .ok (v, 0x7D :: rest)) :
    json.parseMembers (f + 1) depth (json.member name value ++ 0x7D :: rest)
      = .ok ([(utf8.bytes name, v)], rest) := by
  rw [member_append]
  have hu : json.unquote (utf8.bytes name) = some (utf8.bytes name) :=
    unquoteAux_plain _ hk _ (Nat.le_refl _)
  simp [json.parseMembers, json.skipSpace, json.isSpace, scanString_plain _ hk, hv, hu]

/-- An object that begins with a member. -/
theorem parseValue_object (f depth : Nat) (name : String) (value rest : Bytes)
    (hd : depth + 1 ≤ json.maxNestingDepth) :
    json.parseValue (f + 1) depth (0x7B :: (json.member name value ++ rest))
      = match json.parseMembers f (depth + 1) (json.member name value ++ rest) with
        | .error e => .error e
        | .ok (members, rest2) => .ok (.object members, rest2) := by
  have hd2 : ¬ json.maxNestingDepth < depth + 1 := by omega
  rw [member_append]
  simp [json.parseValue, json.skipSpace, json.isSpace, hd2]

/-- The scanner reads the literal `appendString` writes as a string, the
bytes of the Go string coerced to valid UTF-8. -/
theorem parseValue_string (f depth : Nat) (s rest : Bytes) :
    json.parseValue (f + 1) depth (json.appendString s ++ rest)
      = .ok (.string (utf8.coerce s), rest) := by
  have h1 : json.appendString s ++ rest
      = 0x22 :: (json.appendStringAux s.length s ++ 0x22 :: rest) := by
    simp [json.appendString]
  rw [h1]
  simp [json.parseValue, json.skipSpace, json.isSpace, scanString_appendString,
    unquote_appendString]

theorem parseValue_null (f depth : Nat) (rest : Bytes) :
    json.parseValue (f + 1) depth (0x6E :: 0x75 :: 0x6C :: 0x6C :: rest) = .ok (.null, rest) := by
  simp [json.parseValue, json.skipSpace, json.isSpace, json.scanLiteral]

theorem keys_are_plain :
    json.plainKey (utf8.bytes "operation") = true ∧
      json.plainKey (utf8.bytes "version") = true ∧
      json.plainKey (utf8.bytes "id") = true ∧
      json.plainKey (utf8.bytes "examine_size") = true ∧
      json.plainKey (utf8.bytes "peer") = true ∧
      json.plainKey (utf8.bytes "ID") = true ∧
      json.plainKey (utf8.bytes "VersionNo") = true ∧
      json.plainKey (utf8.bytes "Platform") = true ∧
      json.plainKey (utf8.bytes "Address") = true ∧
      json.plainKey (utf8.bytes "Port") = true := by
  decide

/-- The scanner reads the object `json.Marshal` writes for a record. -/
theorem parseValue_version (f depth : Nat) (v : model.Version) (rest : Bytes)
    (hd : depth + 1 ≤ json.maxNestingDepth) :
    json.parseValue (f + 5) depth (jsonMarshalVersion v ++ rest)
      = .ok (.object (versionMembers v), rest) := by
  obtain ⟨_, _, _, _, _, k1, k2, k3, _, _⟩ := keys_are_plain
  have h1 : jsonMarshalVersion v ++ rest
      = 0x7B :: (json.member "ID" (json.appendString v.ID) ++ 0x2C ::
          (json.member "VersionNo" (json.appendString v.VersionNo) ++ 0x2C ::
            (json.member "Platform" (json.appendString v.Platform) ++ 0x7D :: rest))) := by
    simp [jsonMarshalVersion]
  rw [h1, parseValue_object (f + 4) depth _ _ _ hd,
    parseMembers_more (f + 3) (depth + 1) "ID" _ _ _ k1 (parseValue_string (f + 2) _ _ _),
    parseMembers_more (f + 2) (depth + 1) "VersionNo" _ _ _ k2 (parseValue_string (f + 1) _ _ _),
    parseMembers_last (f + 1) (depth + 1) "Platform" _ _ _ k3 (parseValue_string f _ _ _)]
  rfl

/-- The scanner reads the object `json.Marshal` writes for a peer. -/
theorem parseValue_peer (f depth : Nat) (p : config.Peer) (rest : Bytes)
    (hd : depth + 1 ≤ json.maxNestingDepth) :
    json.parseValue (f + 5) depth (jsonMarshalPeer p ++ rest)
      = .ok (.object (peerMembers p), rest) := by
  obtain ⟨_, _, _, _, _, k1, _, _, k2, k3⟩ := keys_are_plain
  have h1 : jsonMarshalPeer p ++ rest
      = 0x7B :: (json.member "ID" (json.appendString p.ID) ++ 0x2C ::
          (json.member "Address" (json.appendString p.Address) ++ 0x2C ::
            (json.member "Port" (json.appendString p.Port) ++ 0x7D :: rest))) := by
    simp [jsonMarshalPeer]
  rw [h1, parseValue_object (f + 4) depth _ _ _ hd,
    parseMembers_more (f + 3) (depth + 1) "ID" _ _ _ k1 (parseValue_string (f + 2) _ _ _),
    parseMembers_more (f + 2) (depth + 1) "Address" _ _ _ k2 (parseValue_string (f + 1) _ _ _),
    parseMembers_last (f + 1) (depth + 1) "Port" _ _ _ k3 (parseValue_string f _ _ _)]
  rfl

theorem parseValue_peerValue (f depth : Nat) (p : Option config.Peer) (rest : Bytes)
    (hd : depth + 1 ≤ json.maxNestingDepth) :
    json.parseValue (f + 5) depth (jsonMarshalPeerValue p ++ rest)
      = .ok (peerValue p, rest) := by
  cases p with
  | none => exact parseValue_null (f + 4) depth rest
  | some p => exact parseValue_peer f depth p rest hd

/-- The members from `id` on. -/
theorem parseMembers_tail (f : Nat) (c : fsm.Command) :
    json.parseMembers (f + 8) 1
        (json.member "id" (json.appendString c.Id) ++ 0x2C ::
          (json.member "examine_size" (strconv.FormatInt c.ExamineSize) ++ 0x2C ::
            (json.member "peer" (jsonMarshalPeerValue c.Peer) ++ [0x7D])))
      = .ok (commandTail c, []) := by
  obtain ⟨_, _, k1, k2, k3, _, _, _, _, _⟩ := keys_are_plain
  rw [parseMembers_more (f + 7) 1 "id" _ _ _ k1 (parseValue_string (f + 6) _ _ _),
    parseMembers_more (f + 6) 1 "examine_size" _ _ _ k2
      (parseValue_int (f + 5) 1 c.ExamineSize 0x2C _ (Or.inl rfl)),
    parseMembers_last (f + 5) 1 "peer" _ _ _ k3
      (parseValue_peerValue f 1 c.Peer _ (by decide))]
  rfl

/-- The scanner reads the text `json.Marshal` writes for a command as the
object of its members. -/
theorem parseValue_command (f : Nat) (c : fsm.Command) :
    json.parseValue (f + 11) 0 (jsonMarshalCommand c) = .ok (.object (commandMembers c), []) := by
  obtain ⟨k1, k2, _, _, _, _, _, _, _, _⟩ := keys_are_plain
  cases hv : c.Version with
  | none =>
    have h1 : jsonMarshalCommand c
        = 0x7B :: (json.member "operation" (json.appendString c.Operation) ++ 0x2C ::
            (json.member "id" (json.appendString c.Id) ++ 0x2C ::
              (json.member "examine_size" (strconv.FormatInt c.ExamineSize) ++ 0x2C ::
                (json.member "peer" (jsonMarshalPeerValue c.Peer) ++ [0x7D])))) := by
      simp [jsonMarshalCommand, jsonMarshalVersionMember, hv]
    rw [h1, parseValue_object (f + 10) 0 _ _ _ (by decide),
      parseMembers_more (f + 9) 1 "operation" _ _ _ k1 (parseValue_string (f + 8) _ _ _),
      parseMembers_tail (f + 1) c]
    simp [commandMembers, hv]
  | some v =>
    have h1 : jsonMarshalCommand c
        = 0x7B :: (json.member "operation" (json.appendString c.Operation) ++ 0x2C ::
            (json.member "version" (jsonMarshalVersion v) ++ 0x2C ::
              (json.member "id" (json.appendString c.Id) ++ 0x2C ::
                (json.member "examine_size" (strconv.FormatInt c.ExamineSize) ++ 0x2C ::
                  (json.member "peer" (jsonMarshalPeerValue c.Peer) ++ [0x7D]))))) := by
      simp [jsonMarshalCommand, jsonMarshalVersionMember, hv]
    rw [h1, parseValue_object (f + 10) 0 _ _ _ (by decide),
      parseMembers_more (f + 9) 1 "operation" _ _ _ k1 (parseValue_string (f + 8) _ _ _),
      parseMembers_more (f + 8) 1 "version" _ _ _ k2
        (parseValue_version (f + 3) 1 v _ (by decide)),
      parseMembers_tail f c]
    simp [commandMembers, hv]

theorem marshal_length (c : fsm.Command) : 10 ≤ (jsonMarshalCommand c).length := by
  have h : (utf8.bytes "operation").length = 9 := by decide
  simp only [jsonMarshalCommand, json.member, List.length_append, List.length_cons,
    List.length_nil, h]
  omega

/-- The text `json.Marshal` writes for a command is JSON: the object of its
members. -/
theorem parse_marshal (c : fsm.Command) :
    json.parse (jsonMarshalCommand c) = .ok (.object (commandMembers c)) := by
  have hlen := marshal_length c
  obtain ⟨f, hf⟩ : ∃ f, 2 * (jsonMarshalCommand c).length + 2 = f + 11 :=
    ⟨2 * (jsonMarshalCommand c).length + 2 - 11, by omega⟩
  unfold json.parse
  rw [hf, parseValue_command f c]
  rfl

theorem fieldIs_table :
    json.fieldIs (utf8.bytes "operation") "operation" = true ∧
      json.fieldIs (utf8.bytes "version") "operation" = false ∧
      json.fieldIs (utf8.bytes "version") "version" = true ∧
      json.fieldIs (utf8.bytes "id") "operation" = false ∧
      json.fieldIs (utf8.bytes "id") "version" = false ∧
      json.fieldIs (utf8.bytes "id") "id" = true ∧
      json.fieldIs (utf8.bytes "examine_size") "operation" = false ∧
      json.fieldIs (utf8.bytes "examine_size") "version" = false ∧
      json.fieldIs (utf8.bytes "examine_size") "id" = false ∧
      json.fieldIs (utf8.bytes "examine_size") "examine_size" = true ∧
      json.fieldIs (utf8.bytes "peer") "operation" = false ∧
      json.fieldIs (utf8.bytes "peer") "version" = false ∧
      json.fieldIs (utf8.bytes "peer") "id" = false ∧
      json.fieldIs (utf8.bytes "peer") "examine_size" = false ∧
      json.fieldIs (utf8.bytes "peer") "peer" = true ∧
      json.fieldIs (utf8.bytes "ID") "ID" = true ∧
      json.fieldIs (utf8.bytes "VersionNo") "ID" = false ∧
      json.fieldIs (utf8.bytes "VersionNo") "VersionNo" = true ∧
      json.fieldIs (utf8.bytes "Platform") "ID" = false ∧
      json.fieldIs (utf8.bytes "Platform") "VersionNo" = false ∧
      json.fieldIs (utf8.bytes "Platform") "Platform" = true ∧
      json.fieldIs (utf8.bytes "Address") "ID" = false ∧
      json.fieldIs (utf8.bytes "Address") "Address" = true ∧
      json.fieldIs (utf8.bytes "Port") "ID" = false ∧
      json.fieldIs (utf8.bytes "Port") "Address" = false ∧
      json.fieldIs (utf8.bytes "Port") "Port" = true := by
  decide

theorem decode_versionMembers (v old : model.Version) (bad : Option String) :
    decodeVersionMembers (versionMembers v) (old, bad) = (v.coerce, bad) := by
  obtain ⟨_, _, _, _, _, _, _, _, _, _, _, _, _, _, _, i1, i2, i3, i4, i5, i6, _, _, _, _, _⟩ :=
    fieldIs_table
  simp [versionMembers, decodeVersionMembers, decodeStringInto, model.Version.coerce,
    i1, i2, i3, i4, i5, i6]

theorem decode_peerMembers (p old : config.Peer) (bad : Option String) :
    decodePeerMembers (peerMembers p) (old, bad) = (p.coerce, bad) := by
  obtain ⟨_, _, _, _, _, _, _, _, _, _, _, _, _, _, _, i1, _, _, _, _, _, i2, i3, i4, i5, i6⟩ :=
    fieldIs_table
  simp [peerMembers, decodePeerMembers, decodeStringInto, config.Peer.coerce,
    i1, i2, i3, i4, i5, i6]

/-- Decoding the members `json.Marshal` writes for a command gives the command
with its strings coerced to valid UTF-8, and no type error. -/
theorem decode_commandMembers (c : fsm.Command) (h : isInt64 c.ExamineSize) :
    decodeCommandMembers (commandMembers c) (fsm.Command.zero, none) = (c.coerce, none) := by
  obtain ⟨i1, i2, i3, i4, i5, i6, i7, i8, i9, i10, i11, i12, i13, i14, i15, _, _, _, _, _, _, _,
    _, _, _, _⟩ := fieldIs_table
  have hint := ParseInt_FormatInt c.ExamineSize h
  obtain ⟨op, version, id, n, peer⟩ := c
  cases version with
  | none =>
    cases peer with
    | none =>
      simp [commandMembers, commandTail, peerValue, decodeCommandMembers, decodeCommandMember,
        decodeOperation, decodeId, decodeExamineSize, decodePeer, fsm.Command.zero,
        fsm.Command.coerce, i1, i2, i3, i4, i5, i6, i7, i8, i9, i10, i11, i12, i13, i14, i15,
        hint]
    | some p =>
      simp [commandMembers, commandTail, peerValue, decodeCommandMembers, decodeCommandMember,
        decodeOperation, decodeId, decodeExamineSize, decodePeer, fsm.Command.zero,
        fsm.Command.coerce, i1, i2, i3, i4, i5, i6, i7, i8, i9, i10, i11, i12, i13, i14, i15,
        hint, decode_peerMembers]
  | some v =>
    cases peer with
    | none =>
      simp [commandMembers, commandTail, peerValue, decodeCommandMembers, decodeCommandMember,
        decodeOperation, decodeVersion, decodeId, decodeExamineSize, decodePeer,
        fsm.Command.zero, fsm.Command.coerce, i1, i2, i3, i4, i5, i6, i7, i8, i9, i10, i11, i12,
        i13, i14, i15, hint, decode_versionMembers]
    | some p =>
      simp [commandMembers, commandTail, peerValue, decodeCommandMembers, decodeCommandMember,
        decodeOperation, decodeVersion, decodeId, decodeExamineSize, decodePeer,
        fsm.Command.zero, fsm.Command.coerce, i1, i2, i3, i4, i5, i6, i7, i8, i9, i10, i11, i12,
        i13, i14, i15, hint, decode_versionMembers, decode_peerMembers]

/-- Reading back what `json.Marshal` writes for a command gives the command
with each byte that begins no valid encoding replaced by `U+FFFD`. -/
theorem unmarshal_marshal (c : fsm.Command) (h : isInt64 c.ExamineSize) :
    jsonUnmarshalCommand (jsonMarshalCommand c) = .ok c.coerce := by
  unfold jsonUnmarshalCommand
  rw [parse_marshal c]
  simp only [decode_commandMembers c h]

theorem coerce_of_valid_command (c : fsm.Command) (h : c.valid = true) : c.coerce = c := by
  obtain ⟨op, version, id, n, peer⟩ := c
  simp only [fsm.Command.valid, Bool.and_eq_true] at h
  obtain ⟨⟨⟨h1, h2⟩, h3⟩, h4⟩ := h
  simp only [fsm.Command.coerce, fsm.Command.mk.injEq]
  refine ⟨coerce_of_valid _ h1, ?_, coerce_of_valid _ h2, trivial, ?_⟩
  · cases version with
    | none => rfl
    | some v =>
      simp only [model.Version.valid, Bool.and_eq_true] at h3
      obtain ⟨⟨a, b⟩, d⟩ := h3
      obtain ⟨x, y, z⟩ := v
      simp only [Option.map_some', model.Version.coerce, Option.some.injEq,
        model.Version.mk.injEq]
      exact ⟨coerce_of_valid _ a, coerce_of_valid _ b, coerce_of_valid _ d⟩
  · cases peer with
    | none => rfl
    | some p =>
      simp only [config.Peer.valid, Bool.and_eq_true] at h4
      obtain ⟨⟨a, b⟩, d⟩ := h4
      obtain ⟨x, y, z⟩ := p
      simp only [Option.map_some', config.Peer.coerce, Option.some.injEq,
        config.Peer.mk.injEq]
      exact ⟨coerce_of_valid _ a, coerce_of_valid _ b, coerce_of_valid _ d⟩

theorem objectKeys_marshal (c : fsm.Command) :
    json.objectKeys (jsonMarshalCommand c) = some (commandKeys c) := by
  unfold json.objectKeys
  rw [parse_marshal c]
  cases hv : c.Version <;>
    simp [commandMembers, commandTail, commandKeys, hv]

/-! ## Texts are valid UTF-8 -/

theorem char_range (c : Char) :
    c.toNat < 0xD800 ∨ (0xDFFF < c.toNat ∧ c.toNat < 0x110000) := by
  have h := c.valid
  exact h

theorem runeLen_two (b0 b1 : Nat) (t : Bytes) (h0 : 0xC2 ≤ b0 ∧ b0 ≤ 0xDF)
    (h1 : 0x80 ≤ b1 ∧ b1 ≤ 0xBF) : utf8.runeLen (b0 :: b1 :: t) = 2 := by
  have c0 : ¬ b0 < 0x80 := by omega
  simp [utf8.runeLen, utf8.first, c0, h0, h1]

theorem runeLen_three (b0 b1 b2 : Nat) (t : Bytes) (h0 : 0xE0 ≤ b0 ∧ b0 ≤ 0xEF)
    (h1 : 0x80 ≤ b1 ∧ b1 ≤ 0xBF) (h2 : 0x80 ≤ b2 ∧ b2 ≤ 0xBF)
    (hE0 : b0 = 0xE0 → 0xA0 ≤ b1) (hED : b0 = 0xED → b1 ≤ 0x9F) :
    utf8.runeLen (b0 :: b1 :: b2 :: t) = 3 := by
  have c0 : ¬ b0 < 0x80 := by omega
  have c1 : ¬ (0xC2 ≤ b0 ∧ b0 ≤ 0xDF) := by omega
  by_cases e0 : b0 = 0xE0
  · have := hE0 e0
    subst e0
    simp [utf8.runeLen, utf8.first, utf8.isCont, h1, h2, this]
  · by_cases e1 : 0xE1 ≤ b0 ∧ b0 ≤ 0xEC
    · simp [utf8.runeLen, utf8.first, utf8.isCont, c0, c1, e0, e1, h1, h2]
    · by_cases e2 : b0 = 0xED
      · have := hED e2
        subst e2
        simp [utf8.runeLen, utf8.first, utf8.isCont, h1, h2, this]
      · have e3 : 0xEE ≤ b0 ∧ b0 ≤ 0xEF := by omega
        simp [utf8.runeLen, utf8.first, utf8.isCont, c0, c1, e0, e1, e2, e3, h1, h2]

theorem runeLen_four (b0 b1 b2 b3 : Nat) (t : Bytes) (h0 : 0xF0 ≤ b0 ∧ b0 ≤ 0xF4)
    (h1 : 0x80 ≤ b1 ∧ b1 ≤ 0xBF) (h2 : 0x80 ≤ b2 ∧ b2 ≤ 0xBF) (h3 : 0x80 ≤ b3 ∧ b3 ≤ 0xBF)
    (hF0 : b0 = 0xF0 → 0x90 ≤ b1) (hF4 : b0 = 0xF4 → b1 ≤ 0x8F) :
    utf8.runeLen (b0 :: b1 :: b2 :: b3 :: t) = 4 := by
  have c0 : ¬ b0 < 0x80 := by omega
  have c1 : ¬ (0xC2 ≤ b0 ∧ b0 ≤ 0xDF) := by omega
  have c2 : ¬ b0 = 0xE0 := by omega
  have c3 : ¬ (0xE1 ≤ b0 ∧ b0 ≤ 0xEC) := by omega
  have c4 : ¬ b0 = 0xED := by omega
  have c5 : ¬ (0xEE ≤ b0 ∧ b0 ≤ 0xEF) := by omega
  by_cases e0 : b0 = 0xF0
  · have := hF0 e0
    subst e0
    simp [utf8.runeLen, utf8.first, utf8.isCont, h1, h2, h3, this]
  · by_cases e1 : 0xF1 ≤ b0 ∧ b0 ≤ 0xF3
    · simp [utf8.runeLen, utf8.first, utf8.isCont, c0, c1, c2, c3, c4, c5, e0, e1, h1, h2, h3]
    · have e2 : b0 = 0xF4 := by omega
      have := hF4 e2
      subst e2
      simp [utf8.runeLen, utf8.first, utf8.isCont, h1, h2, h3, this]

/-- The encoding of a character is one valid rune. -/
theorem runeLen_EncodeRune (c : Char) (t : Bytes) :
    utf8.runeLen (utf8.EncodeRune c.toNat ++ t) = (utf8.EncodeRune c.toNat).length ∧
      1 ≤ (utf8.EncodeRune c.toNat).length := by
  have hr := char_range c
  generalize c.toNat = r at hr
  unfold utf8.EncodeRune
  by_cases h1 : r < 0x80
  · simp [h1, utf8.runeLen]
  · by_cases h2 : r < 0x800
    · simp only [h1, h2, if_false, if_true]
      exact ⟨runeLen_two _ _ t (by omega) (by omega), by simp⟩
    · have h3 : ¬ (0x10FFFF < r ∨ (0xD800 ≤ r ∧ r ≤ 0xDFFF)) := by omega
      by_cases h4 : r < 0x10000
      · simp only [h1, h2, h3, h4, if_false, if_true]
        exact ⟨runeLen_three _ _ _ t (by omega) (by omega) (by omega) (by omega) (by omega),
          by simp⟩
      · simp only [h1, h2, h3, h4, if_false]
        exact ⟨runeLen_four _ _ _ _ t (by omega) (by omega) (by omega) (by omega) (by omega)
          (by omega), by simp⟩

theorem validAux_chars (cs : List Char) :
    ∀ f, (cs.flatMap fun c => utf8.EncodeRune c.toNat).length ≤ f →
      utf8.validAux f (cs.flatMap fun c => utf8.EncodeRune c.toNat) = true := by
  induction cs with
  | nil => intro f _; cases f <;> rfl
  | cons c cs ih =>
    intro f hf
    obtain ⟨hlen, hpos⟩ := runeLen_EncodeRune c (cs.flatMap fun c => utf8.EncodeRune c.toNat)
    simp only [List.flatMap_cons, List.length_append] at hf ⊢
    obtain ⟨b, e, he⟩ : ∃ b e, utf8.EncodeRune c.toNat = b :: e := by
      cases h : utf8.EncodeRune c.toNat with
      | nil => rw [h] at hpos; simp at hpos
      | cons b e => exact ⟨b, e, rfl⟩
    rw [he] at hlen hf ⊢
    obtain ⟨g, rfl⟩ : ∃ g, f = g + 1 :=
      ⟨f - 1, by simp only [List.length_cons] at hf; omega⟩
    simp only [List.cons_append] at hlen ⊢
    simp only [utf8.validAux, hlen, List.length_cons]
    simp only [Nat.add_one_ne_zero, if_false, Nat.add_sub_cancel]
    rw [List.drop_append_of_le_length (Nat.le_refl _), List.drop_length, List.nil_append]
    exact ih g (by simp only [List.length_cons] at hf; omega)

/-- The bytes of a text are valid UTF-8. -/
theorem ValidString_bytes (s : String) : utf8.ValidString (utf8.bytes s) = true :=
  validAux_chars s.data _ (Nat.le_refl _)

/-- The bytes of a command whose strings are texts are valid UTF-8. -/
theorem bytes_valid (c : Command) : c.bytes.valid = true := by
  obtain ⟨op, version, id, n, peer⟩ := c
  cases version <;> cases peer <;>
    simp [fsm.Command.valid, Command.bytes, Version.bytes, Peer.bytes, model.Version.valid,
      config.Peer.valid, ValidString_bytes]

/-- A command whose strings are texts comes back from its wire format as it
went in: the text `json.Marshal` writes for it decodes to it. -/
theorem text_command_round_trip (c : Command) (h : isInt64 c.ExamineSize) :
    jsonUnmarshalCommand (jsonMarshalCommand c.bytes) = .ok c.bytes := by
  rw [unmarshal_marshal c.bytes h, coerce_of_valid_command c.bytes (bytes_valid c)]
theorem runeLen_RuneError (t : Bytes) : utf8.runeLen (0xEF :: 0xBF :: 0xBD :: t) = 3 :=
  runeLen_three 0xEF 0xBF 0xBD t (by omega) (by omega) (by omega) (by omega) (by omega)

/-- A coerced string is valid UTF-8. -/
theorem validAux_coerceAux (f : Nat) :
    ∀ (s : Bytes), s.length ≤ f → ∀ f2, (utf8.coerceAux f s).length ≤ f2 →
      utf8.validAux f2 (utf8.coerceAux f s) = true := by
  induction f with
  | zero =>
    intro s _ f2 _
    cases f2 <;> simp [utf8.coerceAux, utf8.validAux]
  | succ f ih =>
    intro s hs f2 hf2
    match s with
    | [] => cases f2 <;> simp [utf8.coerceAux, utf8.validAux]
    | b :: rest =>
      have hrest : rest.length ≤ f := by simpa using hs
      by_cases hn : utf8.runeLen (b :: rest) = 0
      · have hco : utf8.coerceAux (f + 1) (b :: rest)
            = 0xEF :: 0xBF :: 0xBD :: utf8.coerceAux f rest := by
          simp [utf8.coerceAux, hn, utf8.RuneError]
        rw [hco] at hf2 ⊢
        simp only [List.length_cons] at hf2
        obtain ⟨g, rfl⟩ : ∃ g, f2 = g + 1 := ⟨f2 - 1, by omega⟩
        simp only [utf8.validAux, runeLen_RuneError]
        simp only [Nat.reduceEqDiff, if_false, Nat.add_one_sub_one, List.drop_succ_cons,
          List.drop_zero]
        exact ih rest hrest g (by omega)
      · have hco : utf8.coerceAux (f + 1) (b :: rest)
            = (b :: rest).take (utf8.runeLen (b :: rest)) ++
                utf8.coerceAux f (rest.drop (utf8.runeLen (b :: rest) - 1)) := by
          simp only [utf8.coerceAux, hn, if_false]
        obtain ⟨hsplit, hlen, htl⟩ := rune_split b rest hn
          (utf8.coerceAux f (rest.drop (utf8.runeLen (b :: rest) - 1)))
        rw [hco, hsplit] at hf2 ⊢
        simp only [List.length_cons, List.length_append] at hf2
        obtain ⟨g, rfl⟩ : ∃ g, f2 = g + 1 := ⟨f2 - 1, by omega⟩
        simp only [utf8.validAux, hlen, hn, if_false]
        rw [List.drop_append_of_le_length (by omega), List.drop_of_length_le (by omega)]
        exact ih _ (by rw [List.length_drop]; omega) g (by omega)

/-- A string that coercion leaves as it is was valid UTF-8. -/
theorem valid_of_coerce_eq (s : Bytes) (h : utf8.coerce s = s) : utf8.ValidString s = true := by
  have h2 := validAux_coerceAux s.length s (Nat.le_refl _) s.length
    (by
      have : (utf8.coerceAux s.length s).length = s.length := by
        have := congrArg List.length h
        exact this
      omega)
  have h3 : utf8.coerceAux s.length s = s := h
  rw [h3] at h2
  exact h2

theorem valid_of_coerce_eq_command (c : fsm.Command) (h : c.coerce = c) : c.valid = true := by
  obtain ⟨op, version, id, n, peer⟩ := c
  simp only [fsm.Command.coerce, fsm.Command.mk.injEq] at h
  obtain ⟨h1, h2, h3, _, h4⟩ := h
  simp only [fsm.Command.valid, Bool.and_eq_true]
  refine ⟨⟨⟨valid_of_coerce_eq _ h1, valid_of_coerce_eq _ h3⟩, ?_⟩, ?_⟩
  · cases version with
    | none => rfl
    | some v =>
      obtain ⟨x, y, z⟩ := v
      simp only [Option.map_some', model.Version.coerce, Option.some.injEq,
        model.Version.mk.injEq] at h2
      simp only [model.Version.valid, Bool.and_eq_true]
      exact ⟨⟨valid_of_coerce_eq _ h2.1, valid_of_coerce_eq _ h2.2.1⟩,
        valid_of_coerce_eq _ h2.2.2⟩
  · cases peer with
    | none => rfl
    | some p =>
      obtain ⟨x, y, z⟩ := p
      simp only [Option.map_some', config.Peer.coerce, Option.some.injEq,
        config.Peer.mk.injEq] at h4
      simp only [config.Peer.valid, Bool.and_eq_true]
      exact ⟨⟨valid_of_coerce_eq _ h4.1, valid_of_coerce_eq _ h4.2.1⟩,
        valid_of_coerce_eq _ h4.2.2⟩

/-- C19 as stated fails.  The command `DeleteVersion` submits for the id that
the request `DELETE /delete_versions/%FF` carries, the one byte `0xFF`, is
written with the id as the escape of `U+FFFD`, and read back with the id
`U+FFFD`: the command decoded is not the command encoded. -/
theorem C19_invalid_utf8_id_is_rewritten :
    utf8.ValidString exDeleteFF.Id = false ∧
      asciiText (jsonMarshalCommand exDeleteFF)
        = "\x7b\"operation\":\"delete\",\"id\":\"\\ufffd\",\"examine_size\":0,\"peer\":null\x7d" ∧
      jsonUnmarshalCommand (jsonMarshalCommand exDeleteFF)
        = .ok { exDeleteFF with Id := [0xEF, 0xBF, 0xBD] } ∧
      jsonUnmarshalCommand (jsonMarshalCommand exDeleteFF) ≠ .ok exDeleteFF := by
  decide

/-- C19, amended.  For every command whose `examine_size` is an `int` (any
operation tag, `Version` and `Peer` present or absent, any strings): decoding,
as `VersionFSM.Apply` does, the text `applyRaftCommand` encodes it to yields
the command with each byte of its strings that begins no valid UTF-8 encoding
replaced by `U+FFFD`; so the command comes back equal to itself when its
strings are all valid UTF-8, and only then.  The encoded object has the keys
`operation`, `version` (when `Version` is not nil), `id`, `examine_size`,
`peer`, in this order. -/
theorem C19_command_wire_round_trip (c : fsm.Command) (hint : isInt64 c.ExamineSize) :
    jsonUnmarshalCommand (jsonMarshalCommand c) = .ok c.coerce ∧
      (jsonUnmarshalCommand (jsonMarshalCommand c) = .ok c ↔ c.valid = true) ∧
      json.objectKeys (jsonMarshalCommand c) = some (commandKeys c) := by
  refine ⟨unmarshal_marshal c hint, ⟨?_, ?_⟩, objectKeys_marshal c⟩
  · intro h
    rw [unmarshal_marshal c hint] at h
    exact valid_of_coerce_eq_command c (Except.ok.inj h)
  · intro hv
    rw [unmarshal_marshal c hint, coerce_of_valid_command c hv]

/-- C19 amended, on a command with texts outside ASCII, the least `int` and
both pointers set: it comes back equal to itself. -/
theorem C19_command_wire_witness :
    isInt64 exWireCmd.ExamineSize ∧ exWireCmd.valid = true ∧
      jsonUnmarshalCommand (jsonMarshalCommand exWireCmd) = .ok exWireCmd ∧
      json.objectKeys (jsonMarshalCommand exWireCmd)
        = some [utf8.bytes "operation", utf8.bytes "version", utf8.bytes "id",
            utf8.bytes "examine_size", utf8.bytes "peer"] :=
  ⟨by decide, by decide,
    (C19_command_wire_round_trip exWireCmd (by decide)).2.1.mpr (by decide),
    (C19_command_wire_round_trip exWireCmd (by decide)).2.2⟩

/-! ## Agreement of two replays -/

theorem agree_pair {α : Type} (a b : α) (u v : World) :
    agree (a, u) (b, v) ↔ a = b ∧ u.db = v.db ∧ u.redis = v.redis :=
  Iff.rfl

theorem AcquireLock_agree (env1 env2 : Env) (w1 w2 : World) (key : String)
    (h1 : env1.storesReachable) (h2 : env2.storesReachable) (hs : w1.sameStores w2) :
    agree (redis.AcquireLock env1 w1 key) (redis.AcquireLock env2 w2 key) := by
  obtain ⟨hdb, hr⟩ := hs
  simp only [redis.AcquireLock, redisSetNX, h1.1, h2.1, hr, World.tickRedis]
  cases kvGet w2.redis key <;> simp [agree, World.sameStores, hdb, hr]

theorem ReleaseLock_agree (env1 env2 : Env) (w1 w2 : World) (key : String)
    (h1 : env1.storesReachable) (h2 : env2.storesReachable) (hs : w1.sameStores w2) :
    agree (redis.ReleaseLock env1 w1 key) (redis.ReleaseLock env2 w2 key) := by
  obtain ⟨hdb, hr⟩ := hs
  simp [redis.ReleaseLock, redisDel, h1.1, h2.1, hr, hdb, World.tickRedis, agree,
    World.sameStores]

theorem dbBegin_agree (env1 env2 : Env) (w1 w2 : World)
    (h1 : env1.storesReachable) (h2 : env2.storesReachable) (hs : w1.sameStores w2) :
    agree (dbBegin env1 w1) (dbBegin env2 w2) := by
  obtain ⟨hdb, hr⟩ := hs
  simp [dbBegin, h1.2, h2.2, hr, hdb, World.tickMysql, agree, World.sameStores]

theorem txRollback_agree (w1 w2 : World) (tx : Tx) (hs : w1.sameStores w2) :
    agree (txRollback w1 tx) (txRollback w2 tx) := by
  obtain ⟨hdb, hr⟩ := hs
  unfold txRollback
  split <;> simp [hr, hdb, World.tickMysql, agree, World.sameStores]

theorem txCommit_agree (env1 env2 : Env) (w1 w2 : World) (tx : Tx)
    (h1 : env1.storesReachable) (h2 : env2.storesReachable) (hs : w1.sameStores w2) :
    agree (txCommit env1 w1 tx) (txCommit env2 w2 tx) := by
  obtain ⟨hdb, hr⟩ := hs
  unfold txCommit
  split <;> simp [h1.2, h2.2, hr, hdb, World.tickMysql, agree, World.sameStores]

theorem mysqlDelete_agree (env1 env2 : Env) (w1 w2 : World) (id : String)
    (h1 : env1.storesReachable) (h2 : env2.storesReachable) (hs : w1.sameStores w2) :
    agree (VersionMysqlService.DeleteVersion env1 w1 id)
      (VersionMysqlService.DeleteVersion env2 w2 id) := by
  obtain ⟨hdb, hr⟩ := hs
  simp only [VersionMysqlService.DeleteVersion, VersionMysqlService.VersionExists,
    VersionMysqlDao.GetVersionByID, dbFirst, VersionMysqlDao.DeleteVersion, dbDelete,
    h1.2, h2.2, hdb, World.tickMysql]
  rcases hrow : rowOf w2.db id with _ | r
  · simp [agree, World.sameStores, hdb, hr]
  · by_cases hid : id = "" <;> simp [agree, World.sameStores, hdb, hr, hid]

theorem redisAdd_agree (env1 env2 : Env) (w1 w2 : World) (version : Version)
    (h1 : env1.storesReachable) (h2 : env2.storesReachable) (hs : w1.sameStores w2) :
    agree (VersionRedisService.AddVersion env1 w1 version)
      (VersionRedisService.AddVersion env2 w2 version) := by
  obtain ⟨hdb, hr⟩ := hs
  simp [VersionRedisService.AddVersion, VersionRedisDao.AddVersion, redisSet, h1.1, h2.1,
    hdb, hr, World.tickRedis, agree, World.sameStores]

theorem redisDelete_agree (env1 env2 : Env) (w1 w2 : World) (id : String)
    (h1 : env1.storesReachable) (h2 : env2.storesReachable) (hs : w1.sameStores w2) :
    agree (VersionRedisService.DeleteVersion env1 w1 id)
      (VersionRedisService.DeleteVersion env2 w2 id) := by
  obtain ⟨hdb, hr⟩ := hs
  simp only [VersionRedisService.DeleteVersion, VersionRedisService.VersionExists,
    VersionRedisDao.GetVersionByID, redisGet, VersionRedisDao.DeleteVersion, redisDel,
    h1.1, h2.1, hr, World.tickRedis]
  rcases hg : kvGet w2.redis (versionKey (sprintfD id)) with _ | y
  · simp [agree, World.sameStores, hdb, hr]
  · rcases y with u | s <;> simp [agree, World.sameStores, hdb, hr, jsonUnmarshalVersion]

theorem mysqlGetAll_agree (env1 env2 : Env) (w1 w2 : World)
    (h1 : env1.storesReachable) (h2 : env2.storesReachable) (hs : w1.sameStores w2) :
    agree (VersionMysqlService.GetAllVersions env1 w1)
      (VersionMysqlService.GetAllVersions env2 w2) := by
  obtain ⟨hdb, hr⟩ := hs
  simp [VersionMysqlService.GetAllVersions, VersionMysqlDao.GetAllVersions, dbFind, h1.2, h2.2,
    hdb, hr, World.tickMysql, agree, World.sameStores]

theorem deleteVersionLocked_agree (env1 env2 : Env) (w1 w2 : World) (id : String)
    (h1 : env1.storesReachable) (h2 : env2.storesReachable) (hs : w1.sameStores w2) :
    agree (VersionService.deleteVersionLocked env1 w1 id)
      (VersionService.deleteVersionLocked env2 w2 id) := by
  have hb := dbBegin_agree env1 env2 w1 w2 h1 h2 hs
  unfold VersionService.deleteVersionLocked
  rcases hx : dbBegin env1 w1 with ⟨⟨tx, e⟩, u1⟩
  rcases hy : dbBegin env2 w2 with ⟨⟨tx2, e2⟩, u2⟩
  rw [hx, hy] at hb
  obtain ⟨hr, hu⟩ := hb
  replace hr : (tx, e) = (tx2, e2) := hr
  simp only [Prod.mk.injEq] at hr
  obtain ⟨rfl, rfl⟩ := hr
  rcases e with _ | e
  · dsimp only
    have hm := mysqlDelete_agree env1 env2 u1 u2 id h1 h2 hu
    rcases hx1 : VersionMysqlService.DeleteVersion env1 u1 id with ⟨r1, v1⟩
    rcases hy1 : VersionMysqlService.DeleteVersion env2 u2 id with ⟨r2, v2⟩
    rw [hx1, hy1] at hm
    obtain ⟨hr, hv⟩ := hm
    replace hr : r1 = r2 := hr
    subst hr
    dsimp only
    rcases hf : VersionService.fatalErr r1 with _ | err
    · dsimp only
      have hd := redisDelete_agree env1 env2 v1 v2 id h1 h2 hv
      rcases hx2 : VersionRedisService.DeleteVersion env1 v1 id with ⟨r3, v3⟩
      rcases hy2 : VersionRedisService.DeleteVersion env2 v2 id with ⟨r4, v4⟩
      rw [hx2, hy2] at hd
      obtain ⟨hr, hv3⟩ := hd
      replace hr : r3 = r4 := hr
      subst hr
      dsimp only
      rcases hf2 : VersionService.fatalErr r3 with _ | err
      · dsimp only
        have hc := txCommit_agree env1 env2 v3 v4 tx h1 h2 hv3
        rcases hx3 : txCommit env1 v3 tx with ⟨r5, v5⟩
        rcases hy3 : txCommit env2 v4 tx with ⟨r6, v6⟩
        rw [hx3, hy3] at hc
        obtain ⟨hr, hv5⟩ := hc
        replace hr : r5 = r6 := hr
        subst hr
        rcases r5 with _ | err <;> exact ⟨rfl, hv5⟩
      · exact ⟨rfl, (txRollback_agree v3 v4 tx hv3).2⟩
    · exact ⟨rfl, (txRollback_agree v1 v2 tx hv).2⟩
  · exact ⟨rfl, hu⟩

theorem DeleteVersionInternal_agree (env1 env2 : Env) (w1 w2 : World) (id : String)
    (h1 : env1.storesReachable) (h2 : env2.storesReachable) (hs : w1.sameStores w2) :
    agree (VersionService.DeleteVersionInternal env1 w1 id)
      (VersionService.DeleteVersionInternal env2 w2 id) := by
  have ha := AcquireLock_agree env1 env2 w1 w2 "delete_version_lock" h1 h2 hs
  unfold VersionService.DeleteVersionInternal
  rcases hx : redis.AcquireLock env1 w1 "delete_version_lock" with ⟨r1, u1⟩
  rcases hy : redis.AcquireLock env2 w2 "delete_version_lock" with ⟨r2, u2⟩
  rw [hx, hy] at ha
  obtain ⟨hr, hu⟩ := ha
  replace hr : r1 = r2 := hr
  subst hr
  rcases r1 with err | ok
  · exact ⟨rfl, hu⟩
  · cases ok
    · exact ⟨rfl, hu⟩
    · have hl := deleteVersionLocked_agree env1 env2 u1 u2 id h1 h2 hu
      exact ⟨hl.1, (ReleaseLock_agree env1 env2 _ _ "delete_version_lock" h1 h2 hl.2).2⟩

theorem reloadEach_agree (env1 env2 : Env) (h1 : env1.storesReachable)
    (h2 : env2.storesReachable) (versions : List Version) :
    ∀ w1 w2 : World, w1.sameStores w2 →
      agree (VersionService.reloadEach env1 w1 versions)
        (VersionService.reloadEach env2 w2 versions) := by
  induction versions with
  | nil => intro w1 w2 hs; exact ⟨rfl, hs⟩
  | cons v rest ih =>
    intro w1 w2 hs
    have ha := redisAdd_agree env1 env2 w1 w2 v h1 h2 hs
    unfold VersionService.reloadEach
    rcases hx : VersionRedisService.AddVersion env1 w1 v with ⟨r1, u1⟩
    rcases hy : VersionRedisService.AddVersion env2 w2 v with ⟨r2, u2⟩
    rw [hx, hy] at ha
    obtain ⟨hr, hu⟩ := ha
    replace hr : r1 = r2 := hr
    subst hr
    rcases r1 with _ | err
    · exact ih u1 u2 hu
    · exact ⟨rfl, hu⟩

theorem ReLoadCacheDataInternal_agree (env1 env2 : Env) (w1 w2 : World)
    (h1 : env1.storesReachable) (h2 : env2.storesReachable) (hs : w1.sameStores w2) :
    agree (VersionService.ReLoadCacheDataInternal env1 w1)
      (VersionService.ReLoadCacheDataInternal env2 w2) := by
  have ha := AcquireLock_agree env1 env2 w1 w2 "reload_redis_lock" h1 h2 hs
  unfold VersionService.ReLoadCacheDataInternal
  rcases hx : redis.AcquireLock env1 w1 "reload_redis_lock" with ⟨r1, u1⟩
  rcases hy : redis.AcquireLock env2 w2 "reload_redis_lock" with ⟨r2, u2⟩
  rw [hx, hy] at ha
  obtain ⟨hr, hu⟩ := ha
  replace hr : r1 = r2 := hr
  subst hr
  rcases r1 with err | ok
  · exact ⟨rfl, hu⟩
  · cases ok
    · exact ⟨rfl, hu⟩
    · have hl : agree (VersionService.reloadLocked env1 u1)
          (VersionService.reloadLocked env2 u2) := by
        have hg := mysqlGetAll_agree env1 env2 u1 u2 h1 h2 hu
        unfold VersionService.reloadLocked
        rcases hx1 : VersionMysqlService.GetAllVersions env1 u1 with ⟨r3, v3⟩
        rcases hy1 : VersionMysqlService.GetAllVersions env2 u2 with ⟨r4, v4⟩
        rw [hx1, hy1] at hg
        obtain ⟨hr, hv⟩ := hg
        replace hr : r3 = r4 := hr
        subst hr
        rcases r3 with err | versions
        · exact ⟨rfl, hv⟩
        · exact reloadEach_agree env1 env2 h1 h2 versions v3 v4 hv
      exact ⟨hl.1, (ReleaseLock_agree env1 env2 _ _ "reload_redis_lock" h1 h2 hl.2).2⟩

theorem AddVersionInternal_agree (env1 env2 : Env) (w1 w2 : World) (version : Option Version)
    (h1 : env1.storesReachable) (h2 : env2.storesReachable) (hs : w1.sameStores w2) :
    agree (VersionService.AddVersionInternal env1 w1 version)
      (VersionService.AddVersionInternal env2 w2 version) := by
  obtain ⟨hdb, hr⟩ := hs
  simp only [agree, World.sameStores, VersionService.AddVersionInternal, redis.AcquireLock,
    redisSetNX, h1.1, h2.1,
    hdb, hr, VersionService.addVersionLocked, dbBegin, h1.2, h2.2,
    VersionMysqlService.AddVersionToMysql, VersionMysqlDao.AddVersion, dbCreate,
    VersionRedisService.AddVersion, VersionRedisDao.AddVersion, redisSet, txCommit,
    txRollback, redis.ReleaseLock, redisDel, World.tickRedis, World.tickMysql]
  rcases hk : kvGet w2.redis "add_version_lock" with _ | x
  · rcases version with _ | v
    · simp
    · rcases hrow : rowOf w2.db v.ID with _ | r <;> simp [hrow]
  · simp

theorem UpdateVersionInternal_agree (env1 env2 : Env) (w1 w2 : World)
    (version : Option Version)
    (h1 : env1.storesReachable) (h2 : env2.storesReachable) (hs : w1.sameStores w2) :
    agree (VersionService.UpdateVersionInternal env1 w1 version)
      (VersionService.UpdateVersionInternal env2 w2 version) := by
  obtain ⟨hdb, hr⟩ := hs
  simp only [agree, World.sameStores, VersionService.UpdateVersionInternal, dbBegin, h1.1, h2.1,
    h1.2, h2.2, hdb, hr,
    VersionMysqlService.VersionExists, VersionMysqlDao.GetVersionByID, dbFirst,
    VersionRedisService.VersionExists, VersionRedisDao.GetVersionByID, redisGet,
    VersionMysqlService.UpdateVersion, VersionMysqlDao.UpdateVersion, txExecUpdate,
    VersionRedisService.UpdateVersion, VersionRedisDao.UpdateVersion, redisSet, txCommit,
    txRollback, World.tickRedis, World.tickMysql]
  rcases version with _ | v
  · simp
  · rcases hrow : rowOf w2.db v.ID with _ | r
    · simp [hrow]
    · rcases hk : kvGet w2.redis (versionKey v.ID) with _ | x
      · simp [hrow, hk]
      · rcases x with u | s <;> simp [hrow, hk, jsonUnmarshalVersion]

theorem Apply_keeps_agreement (env1 env2 : Env) (n1 n2 : VersionService) (data : LogData)
    (h1 : env1.storesReachable) (h2 : env2.storesReachable)
    (hs : n1.world.sameStores n2.world) :
    (VersionFSM.Apply env1 n1 data).2.world.sameStores (VersionFSM.Apply env2 n2 data).2.world := by
  rcases data with ⟨op, version, id, size, peer⟩ | s
  · simp only [VersionFSM.Apply]
    split_ifs
    · exact (AddVersionInternal_agree env1 env2 _ _ version h1 h2 hs).2
    · exact (UpdateVersionInternal_agree env1 env2 _ _ version h1 h2 hs).2
    · exact (DeleteVersionInternal_agree env1 env2 _ _ id h1 h2 hs).2
    · have hl := ReLoadCacheDataInternal_agree env1 env2 _ _ h1 h2 hs
      rcases hx : VersionService.ReLoadCacheDataInternal env1 n1.world with ⟨r1, u1⟩
      rcases hy : VersionService.ReLoadCacheDataInternal env2 n2.world with ⟨r2, u2⟩
      rw [hx, hy] at hl
      obtain ⟨hr, hv⟩ := hl
      replace hr : r1 = r2 := hr
      subst hr
      cases r1 <;> exact hv
    all_goals cases peer
    all_goals first
      | exact hs
      | (simp only [VersionService.UpdatePeersInternal]; split_ifs <;> exact hs)
  · exact hs

theorem replay_agrees_when_both_complete (env1 env2 : Env) (h1 : env1.storesReachable)
    (h2 : env2.storesReachable) (entries : List LogData) :
    ∀ n1 n2 : VersionService, n1.world.sameStores n2.world →
      (VersionFSM.replay env1 n1 entries).1 = .ret () →
      (VersionFSM.replay env2 n2 entries).1 = .ret () →
      (VersionFSM.replay env1 n1 entries).2.world.sameStores
        (VersionFSM.replay env2 n2 entries).2.world := by
  induction entries with
  | nil => intro n1 n2 hs _ _; exact hs
  | cons data rest ih =>
    intro n1 n2 hs hc1 hc2
    have ha := Apply_keeps_agreement env1 env2 n1 n2 data h1 h2 hs
    unfold VersionFSM.replay at hc1 hc2 ⊢
    rcases hx : VersionFSM.Apply env1 n1 data with ⟨o1, m1⟩
    rcases hy : VersionFSM.Apply env2 n2 data with ⟨o2, m2⟩
    rw [hx] at hc1 ha
    rw [hy] at hc2 ha
    cases o1 with
    | crash => simp at hc1
    | ret r1 =>
      cases o2 with
      | crash => simp at hc2
      | ret r2 => exact ih m1 m2 ha hc1 hc2

theorem Apply_returns_when_peer_named (env : Env) (vs : VersionService) (data : LogData)
    (h : data.namesPeer = true) : ∃ r, (VersionFSM.Apply env vs data).1 = .ret r := by
  rcases data with ⟨op, version, id, size, peer⟩ | s
  · simp only [LogData.namesPeer] at h
    simp only [VersionFSM.Apply]
    split_ifs with ha hu hd hr hp hq
    · exact ⟨_, rfl⟩
    · exact ⟨_, rfl⟩
    · exact ⟨_, rfl⟩
    · rcases VersionService.ReLoadCacheDataInternal env vs.world with ⟨_ | e, w⟩ <;>
        exact ⟨_, rfl⟩
    all_goals cases peer
    all_goals first
      | exact ⟨_, rfl⟩
      | simp_all
  · exact ⟨_, rfl⟩

theorem replay_completes_when_peers_named (env : Env) (entries : List LogData) :
    ∀ vs : VersionService, (∀ d ∈ entries, d.namesPeer = true) →
      (VersionFSM.replay env vs entries).1 = .ret () := by
  induction entries with
  | nil => intro vs _; rfl
  | cons data rest ih =>
    intro vs h
    obtain ⟨r, hr⟩ := Apply_returns_when_peer_named env vs data (h data (List.mem_cons_self _ _))
    unfold VersionFSM.replay
    rcases hx : VersionFSM.Apply env vs data with ⟨o, m⟩
    rw [hx] at hr
    replace hr : o = .ret r := hr
    subst hr
    exact ih m (fun d hd => h d (List.mem_cons_of_mem _ hd))

/-- Replay determinism on two nodes: from stores that hold the same rows and
keys, with both store pairs reachable, a sequence of committed entries in
which every address-book entry names its peer is applied to the end on both
nodes and leaves the same rows in the durable stores and the same keys in the
caches, whatever the two nodes' identities and address books are. -/
theorem replay_is_deterministic (env1 env2 : Env) (n1 n2 : VersionService)
    (entries : List LogData)
    (h1 : env1.storesReachable) (h2 : env2.storesReachable)
    (hdb : n1.world.db = n2.world.db) (hredis : n1.world.redis = n2.world.redis)
    (hpeers : ∀ d ∈ entries, d.namesPeer = true) :
    (VersionFSM.replay env1 n1 entries).1 = .ret () ∧
      (VersionFSM.replay env2 n2 entries).1 = .ret () ∧
      (VersionFSM.replay env1 n1 entries).2.world.db
        = (VersionFSM.replay env2 n2 entries).2.world.db ∧
      (VersionFSM.replay env1 n1 entries).2.world.redis
        = (VersionFSM.replay env2 n2 entries).2.world.redis := by
  have c1 := replay_completes_when_peers_named env1 entries n1 hpeers
  have c2 := replay_completes_when_peers_named env2 entries n2 hpeers
  exact ⟨c1, c2, replay_agrees_when_both_complete env1 env2 h1 h2 entries n1 n2 ⟨hdb, hredis⟩ c1 c2⟩

theorem replay_is_deterministic_witness :
    (VersionFSM.replay Env.quiet exLeader exLog).1 = .ret () ∧
      (VersionFSM.replay Env.quiet exNodeN1 exLog).1 = .ret () ∧
      (VersionFSM.replay Env.quiet exLeader exLog).2.world.db
        = (VersionFSM.replay Env.quiet exNodeN1 exLog).2.world.db ∧
      (VersionFSM.replay Env.quiet exLeader exLog).2.world.redis
        = (VersionFSM.replay Env.quiet exNodeN1 exLog).2.world.redis :=
  replay_is_deterministic Env.quiet Env.quiet exLeader exNodeN1 exLog
    quiet_stores_reachable quiet_stores_reachable rfl rfl (by decide)

/-! ## Replay of an eviction that names no peer -/

/-- C17: replay is not deterministic across nodes.  The committed entries
`deleteFatalPeer` without a peer, then `add v1`, are replayed on two nodes
whose stores are equal and empty, with free locks and reachable stores.  The
node with an empty address book applies both entries and ends with `v1` in
its durable store and cache; the node whose address book holds `A` panics in
`DeleteWrongPeerInternal` on the first entry, and its stores stay empty. -/
theorem C17_replay_diverges_on_a_peerless_eviction :
    exLeader.world = exNodeN1.world ∧
      exLeader.world.redis = [] ∧
      (VersionFSM.replay Env.quiet exLeader [exDropNobody, exAddV1]).1 = .ret () ∧
      (VersionFSM.replay Env.quiet exLeader [exDropNobody, exAddV1]).2.world.db = [exV1] ∧
      (VersionFSM.replay Env.quiet exLeader [exDropNobody, exAddV1]).2.world.redis
        = [("version:v1", .json exV1)] ∧
      (VersionFSM.replay Env.quiet exNodeN1 [exDropNobody, exAddV1]).1 = .crash ∧
      (VersionFSM.replay Env.quiet exNodeN1 [exDropNobody, exAddV1]).2.world.db = [] ∧
      (VersionFSM.replay Env.quiet exNodeN1 [exDropNobody, exAddV1]).2.world.redis = [] := by
  decide

/-! ## Membership requests on a node that is not leader -/

/-- C25.  On a node that is not leader, `JoinRaftCluster` and
`HandleDeletePeerRequest` return nil and leave the node exactly as it was: no
request to the consensus engine (no voter-set change proposed, no command
submitted), no request to a peer, the address book unchanged. -/
theorem C25_non_leader_membership_requests_do_nothing (env : Env) (vs : VersionService)
    (ID Address Port : String) (hrole : vs.leader = false) :
    VersionService.JoinRaftCluster env vs ID Address Port = (.ret none, vs) ∧
      VersionService.HandleDeletePeerRequest env vs ID Address Port = (.ret none, vs) := by
  simp [VersionService.JoinRaftCluster, VersionService.HandleDeletePeerRequest, hrole]

/-- C25, on the follower with address book `[A, B, C]`. -/
theorem C25_non_leader_membership_witness :
    exFollower.leader = false ∧
      VersionService.JoinRaftCluster Env.quiet exFollower "n2" "127.0.0.1" "8086"
        = (.ret none, exFollower) ∧
      VersionService.HandleDeletePeerRequest Env.quiet exFollower "n2" "127.0.0.1" "8086"
        = (.ret none, exFollower) :=
  ⟨by decide,
    C25_non_leader_membership_requests_do_nothing Env.quiet exFollower "n2" "127.0.0.1" "8086"
      (by decide)⟩

/-! ## The faulty peer of a leader lookup -/

theorem lastSeenRefusing_of_none (env : Env) (l : List Peer) (init : Peer)
    (h : ∀ q ∈ l, seenRefusing env q = false) : lastSeenRefusing env l init = init := by
  induction l with
  | nil => rfl
  | cons q l ih =>
    rw [lastSeenRefusing_cons, h q (List.mem_cons_self q l)]
    exact ih (fun x hx => h x (List.mem_cons_of_mem q hx))

theorem lookup_reports_a_record (env : Env) (vs : VersionService) (hrole : vs.leader = false) :
    (VersionService.GetLeaderPortAddr env vs).wrongNode
      = some (lastSeenRefusing env (VersionService.GetLeaderPortAddr env vs).contacted emptyPeer) := by
  have h := scanPeers_reports_last env vs.peers emptyPeer [] emptyPeer (by simp [lastSeenRefusing])
  simpa [VersionService.GetLeaderPortAddr, hrole] using h.1

theorem lookup_contacts_book_peers (env : Env) (vs : VersionService)
    (hrole : vs.leader = false) :
    ∀ q ∈ (VersionService.GetLeaderPortAddr env vs).contacted, q ∈ vs.peers := by
  have h := scanPeers_reports_last env vs.peers emptyPeer [] emptyPeer (by simp [lastSeenRefusing])
  obtain ⟨k, hk⟩ := h.2
  intro q hq
  have hq2 : q ∈ (VersionService.scanPeers env vs.peers emptyPeer []).contacted := by
    simpa [VersionService.GetLeaderPortAddr, hrole, emptyPeer] using hq
  rw [hk] at hq2
  exact List.mem_of_mem_take (by simpa using hq2)

theorem lookup_ignores_sent (env : Env) (vs : VersionService) (sent : List Request) :
    VersionService.GetLeaderPortAddr env { vs with sent := sent }
      = VersionService.GetLeaderPortAddr env vs :=
  rfl

theorem DeleteWrongPeer_sent (env : Env) (vs : VersionService) (p : Peer) :
    (VersionService.DeleteWrongPeer env vs p).2.sent
      = vs.sent ++ (VersionService.GetLeaderPortAddr env vs).requests ++
          [Request.deleteWrongPeer (VersionService.GetLeaderPortAddr env vs).addr p] := by
  unfold VersionService.DeleteWrongPeer
  dsimp only
  split <;> rfl

theorem DeleteWrongPeer_keeps_role (env : Env) (vs : VersionService) (p : Peer) :
    (VersionService.DeleteWrongPeer env vs p).2.leader = vs.leader := by
  unfold VersionService.DeleteWrongPeer
  dsimp only
  split <;> rfl

/-- C21 (the code departs from the claim).  On a node that is not leader,
`GetLeaderPortAddr` always reports a peer record: when no request to a peer of
the address book fails with the text the code takes for a refused connection
(so also when no peer refuses the connection) it is the empty record, not
nil.  So
`applyRaftCommand`, for whatever command it is called, looks the leader up a
second time and sends an eviction request for that record before anything
else. -/
theorem C21_faulty_peer_is_never_absent (env : Env) (vs : VersionService)
    (hrole : vs.leader = false) :
    (∃ p, (VersionService.GetLeaderPortAddr env vs).wrongNode = some p) ∧
      ((∀ q ∈ vs.peers, seenRefusing env q = false) →
        (VersionService.GetLeaderPortAddr env vs).wrongNode = some emptyPeer) ∧
      ∀ (operation : String) (version : Option Version) (id : String) (examineSize : Int)
        (peer : Option Peer),
        ∃ p rest, (VersionService.GetLeaderPortAddr env vs).wrongNode = some p ∧
          (VersionService.applyRaftCommand env vs operation version id examineSize peer).2.sent
            = vs.sent ++ (VersionService.GetLeaderPortAddr env vs).requests ++
                (VersionService.GetLeaderPortAddr env vs).requests ++
                [Request.deleteWrongPeer (VersionService.GetLeaderPortAddr env vs).addr p] ++
                rest := by
  have hrec := lookup_reports_a_record env vs hrole
  refine ⟨⟨_, hrec⟩, ?_, ?_⟩
  · intro hnone
    rw [hrec, lastSeenRefusing_of_none env _ _
      (fun q hq => hnone q (lookup_contacts_book_peers env vs hrole q hq))]
  · intro operation version id examineSize peer
    have hsent : (VersionService.DeleteWrongPeer env
          { vs with sent := vs.sent ++ (VersionService.GetLeaderPortAddr env vs).requests }
          (lastSeenRefusing env (VersionService.GetLeaderPortAddr env vs).contacted
            emptyPeer)).2.sent
        = vs.sent ++ (VersionService.GetLeaderPortAddr env vs).requests ++
            (VersionService.GetLeaderPortAddr env vs).requests ++
            [Request.deleteWrongPeer (VersionService.GetLeaderPortAddr env vs).addr
              (lastSeenRefusing env (VersionService.GetLeaderPortAddr env vs).contacted
                emptyPeer)] :=
      DeleteWrongPeer_sent env
        { vs with sent := vs.sent ++ (VersionService.GetLeaderPortAddr env vs).requests }
        (lastSeenRefusing env (VersionService.GetLeaderPortAddr env vs).contacted emptyPeer)
    refine ⟨lastSeenRefusing env (VersionService.GetLeaderPortAddr env vs).contacted emptyPeer,
      ?_⟩
    simp only [VersionService.applyRaftCommand]
    rw [if_neg (by simp [hrole])]
    simp only [hrec]
    rcases hev : VersionService.DeleteWrongPeer env
      { vs with sent := vs.sent ++ (VersionService.GetLeaderPortAddr env vs).requests }
      (lastSeenRefusing env (VersionService.GetLeaderPortAddr env vs).contacted emptyPeer)
      with ⟨_ | err, vs2⟩
    · rw [hev] at hsent
      dsimp only at hsent ⊢
      rcases (VersionService.GetLeaderPortAddr env vs).err with _ | e
      · dsimp only
        rcases env.net (Request.leaderHandleCommand (VersionService.GetLeaderPortAddr env vs).addr
          (LogData.json (Command.mk operation version id examineSize peer))) with m | m | b
        · exact ⟨_, trivial, by rw [hsent]⟩
        · exact ⟨_, trivial, by rw [hsent]⟩
        · dsimp only
          rcases decodeCommandAnswer b with e | r
          · exact ⟨_, trivial, by rw [hsent]⟩
          · dsimp only
            split <;> exact ⟨_, trivial, by rw [hsent]⟩
      · exact ⟨[], trivial, by rw [hsent]; simp⟩
    · rw [hev] at hsent
      exact ⟨[], trivial, by rw [hsent]; simp⟩

/-- C21, at the failing input: a follower whose three peers all answer the
lookup, asked to add `v1`.  No peer refuses the connection; the lookup reports
the empty peer record and the node sends an eviction request for it before it
forwards the command. -/
theorem C21_faulty_peer_witness :
    exFollower.leader = false ∧
      (∀ q ∈ exFollower.peers, seenRefusing { Env.quiet with net := exNetHandlers } q = false) ∧
      (VersionService.GetLeaderPortAddr { Env.quiet with net := exNetHandlers }
        exFollower).wrongNode = some emptyPeer ∧
      (VersionService.AddVersion { Env.quiet with net := exNetHandlers } exFollower exV1).2.sent
        = [.getLeaderAddress "8081", .getLeaderAddress "8081",
            .deleteWrongPeer "8085" emptyPeer,
            .leaderHandleCommand "8085" (.json (Command.mk "add" (some exV1) "" 0 none))] :=
  ⟨by decide, by decide,
    (C21_faulty_peer_is_never_absent { Env.quiet with net := exNetHandlers } exFollower
      (by decide)).2.1 (by decide),
    by decide⟩

/-! ## Bodies written by the handlers, read by the peers -/

/-- None of the keys the handlers write selects a field of the structs the
peers decode into. -/
theorem handler_keys_select_no_field :
    keyIs "消息" "code" = false ∧ keyIs "消息" "data" = false ∧
      keyIs "消息" "message" = false ∧
      keyIs "错误" "code" = false ∧ keyIs "错误" "data" = false ∧
      keyIs "错误" "message" = false ∧
      keyIs "领导者端口地址" "code" = false ∧ keyIs "领导者端口地址" "data" = false := by
  decide

/-- None of the paths a node requests from a peer is registered by the router. -/
theorem client_paths_are_not_routed (r : Request) (method : String) :
    (method, r.path) ∉ routers.SetUpVersionRouter := by
  cases r <;> simp [Request.path, routers.SetUpVersionRouter]

theorem lookup_body_decodes_without_data (vs : VersionService) :
    (VersionController.GetLeaderPortAddress vs).body ≠ .empty ∧
      decodeLeaderAnswer (VersionController.GetLeaderPortAddress vs).body
        = .ok { Code := 0, Data := .null, bad := none } := by
  obtain ⟨h1, h2, h3, h4, h5, h6, h7, h8⟩ := handler_keys_select_no_field
  unfold VersionController.GetLeaderPortAddress
  dsimp only
  split <;>
    simp [decodeLeaderAnswer, decodeLeaderFields, h1, h2, h4, h5, h7, h8]

/-- C23 (the code departs from the claim).  The body that the handler
`GetLeaderPortAddress` writes has no `data` member, on a leader and on any
other node: decoded as `GetLeaderPortAddr` decodes it, its `Data` is nil.  So
a lookup that reaches a peer answering with this body, a leader included,
ends with the error of the failed type assertion and no address. -/
theorem C23_leader_answer_is_not_understood (env : Env) (vs answering : VersionService)
    (pre : List Peer) (p : Peer) (post : List Peer)
    (hrole : vs.leader = false) (hbook : vs.peers = pre ++ p :: post)
    (hpre : ∀ q ∈ pre, passedOver env q = true)
    (hp : env.net (.getLeaderAddress p.Port)
      = Reply.ok (VersionController.GetLeaderPortAddress answering).body) :
    decodeLeaderAnswer (VersionController.GetLeaderPortAddress answering).body
        = .ok { Code := 0, Data := .null, bad := none } ∧
      (VersionService.GetLeaderPortAddr env vs).addr = "" ∧
      (VersionService.GetLeaderPortAddr env vs).err = some "领导者地址 类型断言失败" ∧
      (VersionService.GetLeaderPortAddr env vs).contacted = pre ++ [p] := by
  obtain ⟨hne, hdec⟩ := lookup_body_decodes_without_data answering
  refine ⟨hdec, ?_⟩
  unfold VersionService.GetLeaderPortAddr
  rw [hbook, scanPeers_skip env pre (p :: post) _ _ hpre]
  simp [hrole, VersionService.scanPeers, hp, hne, hdec]

/-- C23, at the failing input: the three peers of a follower answer the lookup
with the body a leader on port `8085` writes. -/
theorem C23_leader_answer_witness :
    exLeader8085.leader = true ∧
      (VersionController.GetLeaderPortAddress exLeader8085).body
        = .object [("消息", .str "成功获取领导者端口地址"), ("领导者端口地址", .str "8085")] ∧
      (VersionService.GetLeaderPortAddr { Env.quiet with net := exNetLeaderHandler }
        exFollower).addr = "" ∧
      (VersionService.GetLeaderPortAddr { Env.quiet with net := exNetLeaderHandler }
        exFollower).err = some "领导者地址 类型断言失败" :=
  ⟨by decide, by decide,
    ((C23_leader_answer_is_not_understood { Env.quiet with net := exNetLeaderHandler }
      exFollower exLeader8085 [] exA [exB, exC] (by decide) (by decide)
      (by decide) (by decide)).2.1),
    ((C23_leader_answer_is_not_understood { Env.quiet with net := exNetLeaderHandler }
      exFollower exLeader8085 [] exA [exB, exC] (by decide) (by decide)
      (by decide) (by decide)).2.2.1)⟩

theorem command_body_decodes_to_code_zero (env : Env) (vs vs1 : VersionService)
    (cmdData : LogData) (resp : Response)
    (h : VersionController.LeaderHandleCommand env vs cmdData = (.ret resp, vs1)) :
    decodeCommandAnswer resp.body = .ok { Code := 0, Message := "", bad := none } := by
  unfold VersionController.LeaderHandleCommand at h
  rcases hx : VersionService.LeaderHandleCommand env vs cmdData with ⟨_ | _, vs2⟩
  · rename_i r
    rw [hx] at h
    rcases r with _ | err
    · simp only [Prod.mk.injEq, Outcome.ret.injEq] at h
      rw [← h.1]
      rfl
    · simp only [Prod.mk.injEq, Outcome.ret.injEq] at h
      rw [← h.1]
      rfl
  · rw [hx] at h
    simp at h

/-- C22 (the code departs from the claim).  Whatever the leader did with a
forwarded command, applied it or failed, the body its handler writes decodes
on the forwarding node to code 0 and an empty message.  So when the lookup
succeeded and the request reached the handler, `applyRaftCommand` returns the
error "领导者节点处理命令失败：" with no message behind it, also when the
leader applied the command. -/
theorem C22_leader_reply_is_read_as_failure (env envL : Env) (vs leaderVs vsL : VersionService)
    (cmd : Command) (resp : Response)
    (hrole : vs.leader = false)
    (hlook : (VersionService.GetLeaderPortAddr env vs).err = none)
    (hevict : ∀ port peer msg, env.net (.deleteWrongPeer port peer) ≠ .failed msg)
    (hleader : VersionController.LeaderHandleCommand envL leaderVs (.json cmd) = (.ret resp, vsL))
    (hnet : env.net (.leaderHandleCommand (VersionService.GetLeaderPortAddr env vs).addr
      (.json cmd)) = Reply.ok resp.body) :
    decodeCommandAnswer resp.body = .ok { Code := 0, Message := "", bad := none } ∧
      (VersionService.applyRaftCommand env vs cmd.Operation cmd.Version cmd.Id cmd.ExamineSize
        cmd.Peer).1 = .ret (some "领导者节点处理命令失败：") := by
  have hdec := command_body_decodes_to_code_zero envL leaderVs vsL (.json cmd) resp hleader
  have hrec := lookup_reports_a_record env vs hrole
  refine ⟨hdec, ?_⟩
  simp only [VersionService.applyRaftCommand]
  rw [if_neg (by simp [hrole])]
  simp only [hrec, hlook]
  rcases hev : VersionService.DeleteWrongPeer env
    { vs with sent := vs.sent ++ (VersionService.GetLeaderPortAddr env vs).requests }
    (lastSeenRefusing env (VersionService.GetLeaderPortAddr env vs).contacted emptyPeer)
    with ⟨r, vs2⟩
  have hr : r = none := by
    have : (VersionService.DeleteWrongPeer env
      { vs with sent := vs.sent ++ (VersionService.GetLeaderPortAddr env vs).requests }
      (lastSeenRefusing env (VersionService.GetLeaderPortAddr env vs).contacted emptyPeer)).1
        = none := by
      unfold VersionService.DeleteWrongPeer
      dsimp only
      split
      · rename_i msg hm
        exact absurd hm (hevict _ _ msg)
      · rfl
    rw [hev] at this
    exact this
  subst hr
  obtain ⟨op, version, id, n, peer⟩ := cmd
  dsimp only at hnet ⊢
  rw [hnet]
  simp [hdec]

/-- C22, at the failing input: a follower forwards `add v1`; the leader applies
it (its handler answers 200, and `v1` is in its durable store) and the
follower returns an error. -/
theorem C22_leader_reply_witness :
    (VersionController.LeaderHandleCommand Env.quiet exLeader8085
      (.json (Command.mk "add" (some exV1) "" 0 none))).1
        = .ret { status := 200, body := .object [("消息", .str "领导者节点已处理命令")] } ∧
      (VersionController.LeaderHandleCommand Env.quiet exLeader8085
        (.json (Command.mk "add" (some exV1) "" 0 none))).2.world.db = [exV1] ∧
      (VersionService.AddVersion { Env.quiet with net := exNetHandlers } exFollower exV1).1
        = .ret (some "领导者节点处理命令失败：") :=
  ⟨by decide, by decide,
    (C22_leader_reply_is_read_as_failure { Env.quiet with net := exNetHandlers } Env.quiet
      exFollower exLeader8085
      (VersionController.LeaderHandleCommand Env.quiet exLeader8085
        (.json (Command.mk "add" (some exV1) "" 0 none))).2
      (Command.mk "add" (some exV1) "" 0 none)
      { status := 200, body := .object [("消息", .str "领导者节点已处理命令")] }
      (by decide) (by decide) (by intro port peer msg; simp [exNetHandlers])
      (by decide) (by decide)).2⟩

/-! ## Resync of the cache -/

theorem versionKey_injective (a b : String) (h : versionKey a = versionKey b) : a = b := by
  unfold versionKey at h
  have h2 := congrArg String.data h
  simp only [String.data_append, List.append_cancel_left_eq] at h2
  exact String.ext h2

theorem versionKey_ne_reload_lock (id : String) : "reload_redis_lock" ≠ versionKey id := by
  intro h
  have h2 : ("reload_redis_lock" : String).data.head? = (versionKey id).data.head? := by rw [h]
  have h3 : (versionKey id).data.head? = some 'v' := by
    simp [versionKey, String.data_append]
  rw [h3] at h2
  exact absurd h2 (by decide)

theorem ReleaseLock_keeps_db (env : Env) (w : World) (key : String) :
    (redis.ReleaseLock env w key).2.db = w.db := by
  unfold redis.ReleaseLock redisDel
  cases env.redisErr w.redisCalls <;> rfl

theorem ConvertToVersion_id (l : List Version) :
    l.map VersionMysqlService.ConvertToVersion = l := by
  induction l with
  | nil => rfl
  | cons v l ih => simp [VersionMysqlService.ConvertToVersion, ih]

theorem redisAdd_effect (env : Env) (w : World) (v : Version) :
    (VersionRedisService.AddVersion env w v).2.db = w.db ∧
      ((VersionRedisService.AddVersion env w v).1 = none →
        kvGet (VersionRedisService.AddVersion env w v).2.redis (versionKey v.ID)
          = some (.json v)) ∧
      ∀ key, versionKey v.ID ≠ key →
        kvGet (VersionRedisService.AddVersion env w v).2.redis key = kvGet w.redis key := by
  simp only [VersionRedisService.AddVersion, VersionRedisDao.AddVersion, redisSet]
  rcases h : env.redisErr w.redisCalls with _ | e
  · refine ⟨rfl, fun _ => kvGet_kvSet_self _ _ _, fun key hk => ?_⟩
    exact kvGet_kvSet_ne _ _ _ _ hk
  · exact ⟨rfl, fun hn => by simp at hn, fun key _ => rfl⟩

theorem reloadEach_frame (env : Env) (versions : List Version) :
    ∀ w : World, (VersionService.reloadEach env w versions).2.db = w.db ∧
      ∀ key, (∀ r ∈ versions, versionKey r.ID ≠ key) →
        kvGet (VersionService.reloadEach env w versions).2.redis key = kvGet w.redis key := by
  induction versions with
  | nil => intro w; exact ⟨rfl, fun _ _ => rfl⟩
  | cons v rest ih =>
    intro w
    obtain ⟨hdb, _, hother⟩ := redisAdd_effect env w v
    unfold VersionService.reloadEach
    rcases hx : VersionRedisService.AddVersion env w v with ⟨_ | e, w1⟩
    · rw [hx] at hdb hother
      dsimp only at hdb hother ⊢
      obtain ⟨ihdb, ihkeys⟩ := ih w1
      refine ⟨by rw [ihdb, hdb], fun key hk => ?_⟩
      rw [ihkeys key (fun r hr => hk r (List.mem_cons_of_mem v hr))]
      exact hother key (hk v (List.mem_cons_self v rest))
    · rw [hx] at hdb hother
      dsimp only at hdb hother ⊢
      exact ⟨hdb, fun key hk => hother key (hk v (List.mem_cons_self v rest))⟩

theorem reloadEach_fills (env : Env) (versions : List Version) :
    ∀ w : World, (versions.map (fun r => r.ID)).Nodup →
      (VersionService.reloadEach env w versions).1 = none →
      ∀ r ∈ versions,
        kvGet (VersionService.reloadEach env w versions).2.redis (versionKey r.ID)
          = some (.json r) := by
  induction versions with
  | nil => intro w _ _ r hr; simp at hr
  | cons v rest ih =>
    intro w hnodup hok r hr
    obtain ⟨_, hself, _⟩ := redisAdd_effect env w v
    rw [List.map_cons] at hnodup
    have hnd := List.nodup_cons.mp hnodup
    unfold VersionService.reloadEach at hok ⊢
    rcases hx : VersionRedisService.AddVersion env w v with ⟨_ | e, w1⟩
    · rw [hx] at hok hself
      dsimp only at hok hself ⊢
      rcases List.mem_cons.mp hr with rfl | hrest
      · rw [(reloadEach_frame env rest w1).2 (versionKey r.ID) (fun x hx2 hkey => by
          have := versionKey_injective _ _ hkey
          exact hnd.1 (List.mem_map.mpr ⟨x, hx2, this⟩))]
        exact hself rfl
      · exact ih w1 hnd.2 hok r hrest
    · rw [hx] at hok
      simp at hok

/-- C24.  For every behaviour of the stores and every state in which the ids
of the durable store are distinct (the primary key): when
`ReLoadCacheDataInternal` returns nil, the durable store is as before and,
for every record of the durable store, the cache holds that record under the
key of its id. -/
theorem C24_reload_fills_the_cache (env : Env) (w : World)
    (hkey : (w.db.map (fun r => r.ID)).Nodup)
    (hok : (VersionService.ReLoadCacheDataInternal env w).1 = none) :
    (VersionService.ReLoadCacheDataInternal env w).2.db = w.db ∧
      ∀ r ∈ w.db,
        kvGet (VersionService.ReLoadCacheDataInternal env w).2.redis (versionKey r.ID)
          = some (.json r) := by
  unfold VersionService.ReLoadCacheDataInternal at hok ⊢
  simp only [redis.AcquireLock, redisSetNX] at hok ⊢
  rcases hq : env.redisErr w.redisCalls with _ | e
  · simp only [hq] at hok ⊢
    rcases hl : kvGet w.redis "reload_redis_lock" with _ | x
    · simp only [hl] at hok ⊢
      simp only [VersionService.reloadLocked, VersionMysqlService.GetAllVersions,
        VersionMysqlDao.GetAllVersions, dbFind, World.tickRedis] at hok ⊢
      rcases hm : env.mysqlErr w.mysqlCalls with _ | e
      · simp only [hm, ConvertToVersion_id, World.tickMysql] at hok ⊢
        obtain ⟨hdb, hframe⟩ := reloadEach_frame env w.db
          { db := w.db, redis := kvSet w.redis "reload_redis_lock" (RedisVal.text "locked"),
            redisCalls := w.redisCalls + 1, mysqlCalls := w.mysqlCalls + 1 }
        have hfill := reloadEach_fills env w.db
          { db := w.db, redis := kvSet w.redis "reload_redis_lock" (RedisVal.text "locked"),
            redisCalls := w.redisCalls + 1, mysqlCalls := w.mysqlCalls + 1 } hkey hok
        refine ⟨?_, fun r hr => ?_⟩
        · rw [ReleaseLock_keeps_db]
          exact hdb
        · rw [ReleaseLock_other_keys _ _ _ _ (versionKey_ne_reload_lock r.ID)]
          exact hfill r hr
      · simp [hm] at hok
    · simp [hl] at hok
  · simp [hq] at hok

/-- C24, over a durable store that holds `v1` and an empty cache. -/
theorem C24_reload_witness :
    (exColdWorld.db.map (fun r => r.ID)).Nodup ∧
      (VersionService.ReLoadCacheDataInternal Env.quiet exColdWorld).1 = none ∧
      (VersionService.ReLoadCacheDataInternal Env.quiet exColdWorld).2.db = [exV1] ∧
      kvGet (VersionService.ReLoadCacheDataInternal Env.quiet exColdWorld).2.redis
        (versionKey "v1") = some (.json exV1) :=
  ⟨by decide, by decide,
    (C24_reload_fills_the_cache Env.quiet exColdWorld (by decide) (by decide)).1,
    (C24_reload_fills_the_cache Env.quiet exColdWorld (by decide) (by decide)).2 exV1
      (by decide)⟩

/-! ## Update and the two stores -/

theorem rowOf_sqlUpdate (version : Version) (rows : List Version) :
    rowOf (sqlUpdate version rows) version.ID
      = (rowOf rows version.ID).map (mergedRow version) := by
  induction rows with
  | nil => rfl
  | cons r rows ih =>
    unfold rowOf sqlUpdate at ih ⊢
    by_cases h : r.ID = version.ID
    · simp only [List.map_cons, h, if_true, List.find?_cons, decide_True, Option.map_some']
      rw [← h]
      rfl
    · simp only [List.map_cons, h, if_false, List.find?_cons, decide_False]
      exact ih

theorem update_of_present_id (env : Env) (w : World) (v old : Version)
    (hreach : env.storesReachable) (hrow : rowOf w.db v.ID = some old)
    (hcache : ∀ s, kvGet w.redis (versionKey v.ID) ≠ some (.text s)) :
    (VersionService.UpdateVersionInternal env w (some v)).1 = none ∧
      (VersionService.UpdateVersionInternal env w (some v)).2.db = sqlUpdate v w.db ∧
      (VersionService.UpdateVersionInternal env w (some v)).2.redis
        = kvSet w.redis (versionKey v.ID) (.json v) := by
  simp only [VersionService.UpdateVersionInternal, dbBegin, hreach.1, hreach.2,
    VersionMysqlService.VersionExists, VersionMysqlDao.GetVersionByID, dbFirst,
    VersionRedisService.VersionExists, VersionRedisDao.GetVersionByID, redisGet,
    VersionMysqlService.UpdateVersion, VersionMysqlDao.UpdateVersion, txExecUpdate,
    VersionRedisService.UpdateVersion, VersionRedisDao.UpdateVersion, redisSet, txCommit,
    txRollback, World.tickRedis, World.tickMysql, hrow]
  rcases hk : kvGet w.redis (versionKey v.ID) with _ | x
  · simp [hk, hrow]
  · rcases x with u | s
    · simp [hk, hrow, jsonUnmarshalVersion]
    · exact absurd hk (hcache s)

/-- C26 (the code departs from the claim).  With both stores reachable, for
every record `v` whose id is in the durable store (and whose cache entry, if
there is one, decodes): `UpdateVersionInternal(v)` returns nil, the cache
entry of `v.ID` is `v` as given, and the durable-store record of `v.ID` is the
old record in which only the non-empty fields of `v` are replaced.  The two
agree exactly when no empty field of `v` stands against a different old
value. -/
theorem C26_update_keeps_old_values_in_one_store_only (env : Env) (w : World) (v old : Version)
    (hreach : env.storesReachable) (hrow : rowOf w.db v.ID = some old)
    (hcache : ∀ s, kvGet w.redis (versionKey v.ID) ≠ some (.text s)) :
    (VersionService.UpdateVersionInternal env w (some v)).1 = none ∧
      kvGet (VersionService.UpdateVersionInternal env w (some v)).2.redis (versionKey v.ID)
        = some (.json v) ∧
      rowOf (VersionService.UpdateVersionInternal env w (some v)).2.db v.ID
        = some (mergedRow v old) ∧
      (v = mergedRow v old ↔
        (v.VersionNo = "" → old.VersionNo = "") ∧ (v.Platform = "" → old.Platform = "")) := by
  obtain ⟨h1, h2, h3⟩ := update_of_present_id env w v old hreach hrow hcache
  have hid : old.ID = v.ID := by
    have := List.find?_some hrow
    simpa using this
  refine ⟨h1, ?_, ?_, ?_⟩
  · rw [h3, kvGet_kvSet_self]
  · rw [h2, rowOf_sqlUpdate, hrow]
    rfl
  · obtain ⟨vid, vno, vp⟩ := v
    obtain ⟨oid, ono, op⟩ := old
    simp only [mergedRow, Version.mk.injEq] at hid ⊢
    subst hid
    by_cases hn : vno = "" <;> by_cases hp : vp = "" <;> simp [hn, hp, eq_comm]

/-- C26, at the failing input: `v1` is `1.0.0 / ios` in both stores and is
updated with an empty version number and the platform `android`.  The call
returns nil; the cache then holds the empty version number, the durable store
still `1.0.0`. -/
theorem C26_update_witness :
    rowOf exWarmWorld.db "v1" = some exV1 ∧
      kvGet exWarmWorld.redis (versionKey "v1") = some (.json exV1) ∧
      (VersionService.UpdateVersionInternal Env.quiet exWarmWorld (some exV1c)).1 = none ∧
      kvGet (VersionService.UpdateVersionInternal Env.quiet exWarmWorld (some exV1c)).2.redis
        (versionKey "v1") = some (.json { ID := "v1", VersionNo := "", Platform := "android" }) ∧
      rowOf (VersionService.UpdateVersionInternal Env.quiet exWarmWorld (some exV1c)).2.db "v1"
        = some { ID := "v1", VersionNo := "1.0.0", Platform := "android" } :=
  ⟨by decide, by decide,
    (C26_update_keeps_old_values_in_one_store_only Env.quiet exWarmWorld exV1c exV1
      quiet_stores_reachable (by decide)
      (by intro s h; rw [show kvGet exWarmWorld.redis (versionKey exV1c.ID) = some (.json exV1) from by decide] at h; cases h)).1,
    (C26_update_keeps_old_values_in_one_store_only Env.quiet exWarmWorld exV1c exV1
      quiet_stores_reachable (by decide)
      (by intro s h; rw [show kvGet exWarmWorld.redis (versionKey exV1c.ID) = some (.json exV1) from by decide] at h; cases h)).2.1,
    (C26_update_keeps_old_values_in_one_store_only Env.quiet exWarmWorld exV1c exV1
      quiet_stores_reachable (by decide)
      (by intro s h; rw [show kvGet exWarmWorld.redis (versionKey exV1c.ID) = some (.json exV1) from by decide] at h; cases h)).2.2.1⟩

/-! ## The cache as a part of the durable store -/

/-- C27 (the code departs from the claim).  `v1` is in both stores, so every
id of the cache is in the durable store.  `DeleteVersionInternal("v1")`, with
the `DEL` of the cache entry failing, returns an error after the row is gone
from the durable store for good (the delete does not run in the transaction
that is rolled back): the cache then holds `v1` and the durable store does
not. -/
theorem C27_failed_cache_delete_leaves_an_orphan :
    exWarmWorld.cacheDerived ∧
      (VersionService.DeleteVersionInternal (Env.failRedisAt 2) exWarmWorld "v1").1
        = some ("从redis删除版本失败: VersionRedisDao.DeleteVersion 方法发生错误: " ++
            "i/o timeout") ∧
      (VersionService.DeleteVersionInternal (Env.failRedisAt 2) exWarmWorld "v1").2.db = [] ∧
      (VersionService.DeleteVersionInternal (Env.failRedisAt 2) exWarmWorld "v1").2.redis
        = [(versionKey "v1", .json exV1)] ∧
      ¬ (VersionService.DeleteVersionInternal (Env.failRedisAt 2)
          exWarmWorld "v1").2.cacheDerived := by
  refine ⟨?_, by decide, by decide, by decide, ?_⟩
  · intro id h
    have hid : id = "v1" := by
      by_cases hk : versionKey "v1" = versionKey id
      · exact (versionKey_injective _ _ hk).symm
      · simp [exWarmWorld, kvGet, hk] at h
    subst hid
    decide
  · intro h
    exact absurd (h "v1" (by decide)) (by decide)

/-! ## Go maps as association lists -/

theorem mapGet_eq_none_iff {β : Type} (m : List (String × β)) (key : String) :
    mapGet m key = none ↔ key ∉ mapKeys m := by
  induction m with
  | nil => simp [mapGet, mapKeys]
  | cons e m ih =>
    obtain ⟨k, x⟩ := e
    by_cases h : k = key
    · simp [mapGet, mapKeys, h]
    · have h2 : ¬ key = k := fun e => h e.symm
      simpa [mapGet, mapKeys, h, h2] using ih

theorem mapGet_isSome_iff {β : Type} (m : List (String × β)) (key : String) :
    (mapGet m key).isSome = true ↔ key ∈ mapKeys m := by
  rw [← not_iff_not, Bool.not_eq_true, Option.not_isSome, Option.isNone_iff_eq_none]
  exact mapGet_eq_none_iff m key

theorem mapGet_mapSet_self {β : Type} (m : List (String × β)) (key : String) (x : β) :
    mapGet (mapSet m key x) key = some x := by
  induction m with
  | nil => simp [mapSet, mapGet]
  | cons e m ih =>
    obtain ⟨k, y⟩ := e
    by_cases h : k = key
    · simp [mapSet, mapGet, h]
    · simp [mapSet, mapGet, h, ih]

theorem mapGet_mapSet_ne {β : Type} (m : List (String × β)) (key k : String) (x : β)
    (h : key ≠ k) : mapGet (mapSet m key x) k = mapGet m k := by
  induction m with
  | nil => simp [mapSet, mapGet, h]
  | cons e m ih =>
    obtain ⟨k0, y⟩ := e
    by_cases h0 : k0 = key
    · subst h0
      simp [mapSet, mapGet, h]
    · by_cases h1 : k0 = k
      · subst h1
        simp [mapSet, mapGet, h0]
      · simp [mapSet, mapGet, h0, h1, ih]

theorem mapGet_mapDelete_self {β : Type} (m : List (String × β)) (key : String) :
    mapGet (mapDelete m key) key = none := by
  induction m with
  | nil => rfl
  | cons e m ih =>
    obtain ⟨k, y⟩ := e
    by_cases h : k = key
    · simp [mapDelete, h, ih]
    · simp [mapDelete, mapGet, h, ih]

theorem mapGet_mapDelete_ne {β : Type} (m : List (String × β)) (key k : String)
    (h : key ≠ k) : mapGet (mapDelete m key) k = mapGet m k := by
  induction m with
  | nil => rfl
  | cons e m ih =>
    obtain ⟨k0, y⟩ := e
    by_cases h0 : k0 = key
    · subst h0
      simp [mapDelete, mapGet, h, ih]
    · by_cases h1 : k0 = k
      · subst h1
        simp [mapDelete, mapGet, h0]
      · simp [mapDelete, mapGet, h0, h1, ih]

theorem mapKeys_mapSet_of_mem {β : Type} (m : List (String × β)) (key : String) (x : β)
    (h : key ∈ mapKeys m) : mapKeys (mapSet m key x) = mapKeys m := by
  induction m with
  | nil => simp [mapKeys] at h
  | cons e m ih =>
    obtain ⟨k, y⟩ := e
    by_cases h0 : k = key
    · simp [mapSet, mapKeys, h0]
    · have hm : key ∈ mapKeys m := by
        have h2 : ¬ key = k := fun e => h0 e.symm
        simpa [mapKeys, h2] using h
      have := ih hm
      simp only [mapKeys] at this ⊢
      simp [mapSet, h0, this]

theorem mapKeys_mapSet_of_not_mem {β : Type} (m : List (String × β)) (key : String) (x : β)
    (h : key ∉ mapKeys m) : mapKeys (mapSet m key x) = mapKeys m ++ [key] := by
  induction m with
  | nil => simp [mapSet, mapKeys]
  | cons e m ih =>
    obtain ⟨k, y⟩ := e
    have h0 : ¬ k = key := by
      intro e
      apply h
      simp [mapKeys, e]
    have hm : key ∉ mapKeys m := by
      intro hk
      apply h
      simp only [mapKeys, List.map_cons, List.mem_cons]
      exact Or.inr hk
    have := ih hm
    simp only [mapKeys] at this ⊢
    simp [mapSet, h0, this]

theorem mem_mapKeys_mapSet {β : Type} (m : List (String × β)) (key k : String) (x : β) :
    k ∈ mapKeys (mapSet m key x) ↔ k = key ∨ k ∈ mapKeys m := by
  by_cases h : key ∈ mapKeys m
  · rw [mapKeys_mapSet_of_mem m key x h]
    constructor
    · exact Or.inr
    · rintro (rfl | hk)
      · exact h
      · exact hk
  · rw [mapKeys_mapSet_of_not_mem m key x h]
    simp [or_comm]

theorem nodup_mapKeys_mapSet {β : Type} (m : List (String × β)) (key : String) (x : β)
    (h : (mapKeys m).Nodup) : (mapKeys (mapSet m key x)).Nodup := by
  by_cases hk : key ∈ mapKeys m
  · rw [mapKeys_mapSet_of_mem m key x hk]
    exact h
  · rw [mapKeys_mapSet_of_not_mem m key x hk]
    exact List.Nodup.append h (List.nodup_singleton key) (by simpa using hk)

theorem length_mapSet_le {β : Type} (m : List (String × β)) (key : String) (x : β) :
    (mapSet m key x).length ≤ m.length + 1 := by
  have h1 : (mapSet m key x).length = (mapKeys (mapSet m key x)).length := by simp [mapKeys]
  have h2 : m.length = (mapKeys m).length := by simp [mapKeys]
  by_cases hk : key ∈ mapKeys m
  · rw [h1, mapKeys_mapSet_of_mem m key x hk, ← h2]
    exact Nat.le_succ _
  · rw [h1, mapKeys_mapSet_of_not_mem m key x hk, h2]
    simp

theorem length_mapSet_of_mem {β : Type} (m : List (String × β)) (key : String) (x : β)
    (hk : key ∈ mapKeys m) : (mapSet m key x).length = m.length := by
  have h1 : (mapSet m key x).length = (mapKeys (mapSet m key x)).length := by simp [mapKeys]
  have h2 : m.length = (mapKeys m).length := by simp [mapKeys]
  rw [h1, mapKeys_mapSet_of_mem m key x hk, ← h2]

theorem mem_mapKeys_mapDelete {β : Type} (m : List (String × β)) (key k : String) :
    k ∈ mapKeys (mapDelete m key) ↔ k ≠ key ∧ k ∈ mapKeys m := by
  rw [← mapGet_isSome_iff, ← mapGet_isSome_iff]
  by_cases h : key = k
  · subst h
    simp [mapGet_mapDelete_self]
  · have h2 : k ≠ key := fun e => h e.symm
    simp [mapGet_mapDelete_ne m key k h, h2]

theorem mapKeys_mapDelete_sublist {β : Type} (m : List (String × β)) (key : String) :
    (mapKeys (mapDelete m key)).Sublist (mapKeys m) := by
  induction m with
  | nil => exact List.Sublist.refl _
  | cons e m ih =>
    obtain ⟨k, y⟩ := e
    by_cases h : k = key
    · simp only [mapDelete, h, if_true, mapKeys, List.map_cons]
      exact List.Sublist.cons _ ih
    · simp only [mapDelete, h, if_false, mapKeys, List.map_cons]
      exact List.Sublist.cons₂ _ ih

theorem nodup_mapKeys_mapDelete {β : Type} (m : List (String × β)) (key : String)
    (h : (mapKeys m).Nodup) : (mapKeys (mapDelete m key)).Nodup :=
  List.Nodup.sublist (mapKeys_mapDelete_sublist m key) h

theorem length_mapDelete_le {β : Type} (m : List (String × β)) (key : String) :
    (mapDelete m key).length ≤ m.length := by
  have := (mapKeys_mapDelete_sublist m key).length_le
  simpa [mapKeys] using this

theorem length_mapDelete_of_mem {β : Type} (m : List (String × β)) (key : String)
    (hn : (mapKeys m).Nodup) (hk : key ∈ mapKeys m) :
    (mapDelete m key).length + 1 = m.length := by
  induction m with
  | nil => simp [mapKeys] at hk
  | cons e m ih =>
    obtain ⟨k, y⟩ := e
    have hn2 : k ∉ mapKeys m ∧ (mapKeys m).Nodup := by
      simpa [mapKeys] using hn
    by_cases h : k = key
    · subst h
      have hfix : mapDelete m k = m := by
        have hnot := hn2.1
        clear ih hn hk hn2
        induction m with
        | nil => rfl
        | cons e2 m ih2 =>
          obtain ⟨k2, y2⟩ := e2
          have h3 : ¬ k2 = k := by
            intro e
            apply hnot
            simp [mapKeys, e]
          have h4 : k ∉ mapKeys m := by
            intro hm
            apply hnot
            simp only [mapKeys, List.map_cons, List.mem_cons]
            exact Or.inr hm
          simp [mapDelete, h3, ih2 h4]
      simp [mapDelete, hfix]
    · have hm : key ∈ mapKeys m := by
        have h2 : ¬ key = k := fun e => h e.symm
        simpa [mapKeys, h2] using hk
      have := ih hn2.2 hm
      simp only [mapDelete, h, if_false, List.length_cons]
      omega

theorem mem_iff_mapGet {β : Type} (m : List (String × β)) (key : String) (x : β)
    (hn : (mapKeys m).Nodup) : (key, x) ∈ m ↔ mapGet m key = some x := by
  induction m with
  | nil => simp [mapGet]
  | cons e m ih =>
    obtain ⟨k, y⟩ := e
    have hn2 : k ∉ mapKeys m ∧ (mapKeys m).Nodup := by
      simpa [mapKeys] using hn
    by_cases h : k = key
    · subst h
      have hnot : ∀ z, (k, z) ∉ m := by
        intro z hz
        apply hn2.1
        exact List.mem_map.mpr ⟨(k, z), hz, rfl⟩
      simp [mapGet, hnot, eq_comm]
    · have h2 : ¬ key = k := fun e => h e.symm
      simp [mapGet, h, h2, ih hn2.2]

/-! ## Invariants of the in-process store -/

theorem moveToFront_eq {α : Type} (db : InMemoryDB α) (key : String) :
    db.moveToFront key = { db with lruCacheList := key :: db.lruCacheList.erase key } := by
  unfold InMemoryDB.moveToFront
  split
  · rfl
  · rename_i h
    rw [List.erase_of_not_mem h]

theorem removeKey_wf {α : Type} (db : InMemoryDB α) (key : String) (h : db.wf) :
    (db.removeKey key).wf := by
  obtain ⟨h1, h2, h3, h4, h5⟩ := h
  refine ⟨nodup_mapKeys_mapDelete _ _ h1, nodup_mapKeys_mapDelete _ _ h2, h3.erase key, ?_, ?_⟩
  · intro k hk
    simp only [InMemoryDB.removeKey, mem_mapKeys_mapDelete] at hk ⊢
    exact ⟨hk.1, h4 k hk.2⟩
  · intro k
    simp only [InMemoryDB.removeKey, mem_mapKeys_mapDelete]
    rw [List.Nodup.mem_erase_iff h3, h5 k]

theorem removeKey_length_le {α : Type} (db : InMemoryDB α) (key : String) :
    (db.removeKey key).keyValueStore.length ≤ db.keyValueStore.length :=
  length_mapDelete_le _ _

theorem wf_of_touch {α : Type} (db : InMemoryDB α) (key : String)
    (store : List (String × α)) (expiry : List (String × Int)) (h : db.wf)
    (hs : (mapKeys store).Nodup)
    (hsm : ∀ k, k ∈ mapKeys store ↔ k = key ∨ k ∈ mapKeys db.keyValueStore)
    (he : (mapKeys expiry).Nodup)
    (hem : ∀ k, k ∈ mapKeys expiry → k = key ∨ k ∈ mapKeys db.expirationTimes) :
    InMemoryDB.wf
      { keyValueStore := store, expirationTimes := expiry, maxCapacity := db.maxCapacity,
        lruCacheList := key :: db.lruCacheList.erase key,
        evictionRatio := db.evictionRatio } := by
  obtain ⟨h1, h2, h3, h4, h5⟩ := h
  refine ⟨hs, he, ?_, ?_, ?_⟩
  · exact List.nodup_cons.mpr ⟨List.Nodup.not_mem_erase h3, h3.erase key⟩
  · intro k hk
    rcases hem k hk with rfl | hk2
    · exact (hsm k).mpr (Or.inl rfl)
    · exact (hsm k).mpr (Or.inr (h4 k hk2))
  · intro k
    simp only [List.mem_cons, hsm k]
    by_cases hk : k = key
    · simp [hk]
    · simp [hk, List.Nodup.mem_erase_iff h3, h5 k]

theorem evictLoop_wf {α : Type} (n : Nat) :
    ∀ db : InMemoryDB α, db.wf → (InMemoryDB.evictLoop n db).wf := by
  induction n with
  | zero => intro db h; exact h
  | succ n ih =>
    intro db h
    unfold InMemoryDB.evictLoop
    rcases hl : db.lruCacheList.getLast? with _ | key
    · exact h
    · exact ih _ (removeKey_wf db key h)

theorem evictLoop_fields {α : Type} (n : Nat) :
    ∀ db : InMemoryDB α, (InMemoryDB.evictLoop n db).maxCapacity = db.maxCapacity ∧
      (InMemoryDB.evictLoop n db).evictionRatio = db.evictionRatio := by
  induction n with
  | zero => intro db; exact ⟨rfl, rfl⟩
  | succ n ih =>
    intro db
    unfold InMemoryDB.evictLoop
    rcases hl : db.lruCacheList.getLast? with _ | key
    · exact ⟨rfl, rfl⟩
    · exact ih _

theorem evictLoop_length_le {α : Type} (n : Nat) :
    ∀ db : InMemoryDB α,
      (InMemoryDB.evictLoop n db).keyValueStore.length ≤ db.keyValueStore.length := by
  induction n with
  | zero => intro db; exact Nat.le_refl _
  | succ n ih =>
    intro db
    unfold InMemoryDB.evictLoop
    rcases hl : db.lruCacheList.getLast? with _ | key
    · exact Nat.le_refl _
    · exact Nat.le_trans (ih _) (removeKey_length_le db key)

theorem evictLoop_length_lt {α : Type} (n : Nat) (db : InMemoryDB α) (h : db.wf)
    (hn : 0 < n) (hne : 0 < db.keyValueStore.length) :
    (InMemoryDB.evictLoop n db).keyValueStore.length < db.keyValueStore.length := by
  obtain ⟨m, rfl⟩ : ∃ m, n = m + 1 := ⟨n - 1, by omega⟩
  obtain ⟨h1, h2, h3, h4, h5⟩ := h
  unfold InMemoryDB.evictLoop
  rcases hl : db.lruCacheList.getLast? with _ | key
  · exfalso
    rw [List.getLast?_eq_none_iff] at hl
    rcases hs : db.keyValueStore with _ | ⟨e, rest⟩
    · rw [hs] at hne
      simp at hne
    · have : e.1 ∈ db.lruCacheList := (h5 e.1).mpr (by simp [hs, mapKeys])
      rw [hl] at this
      simp at this
  · have hmem : key ∈ mapKeys db.keyValueStore :=
      (h5 key).mp (List.mem_of_getLast?_eq_some hl)
    have hdel := length_mapDelete_of_mem db.keyValueStore key h1 hmem
    have hle := evictLoop_length_le m (db.removeKey key)
    have hrm : (db.removeKey key).keyValueStore.length + 1 = db.keyValueStore.length := hdel
    dsimp only
    omega

theorem evictionCount_pos {α : Type} (db : InMemoryDB α) : 0 < db.evictionCount := by
  unfold InMemoryDB.evictionCount
  split
  · exact Nat.one_pos
  · rename_i h
    omega

theorem SetValue_inv {α : Type} (db : InMemoryDB α) (now : Int) (key : String) (value : α)
    (expirationSeconds : Int) (h : db.wf)
    (hcap : (db.keyValueStore.length : Int) ≤ db.maxCapacity) (hpos : 0 < db.maxCapacity) :
    (db.SetValue now key value expirationSeconds).2.wf ∧
      ((db.SetValue now key value expirationSeconds).2.keyValueStore.length : Int)
        ≤ db.maxCapacity ∧
      (db.SetValue now key value expirationSeconds).2.maxCapacity = db.maxCapacity := by
  unfold InMemoryDB.SetValue
  by_cases hk : key = ""
  · rw [if_pos hk]
    exact ⟨h, hcap, rfl⟩
  · rw [if_neg hk]
    -- the store after the eviction step
    have hstep : ∃ db1 : InMemoryDB α,
        (if (db.keyValueStore.length : Int) ≥ db.maxCapacity then db.performEviction
          else (none, db)) = (none, db1) ∧ db1.wf ∧
          (db1.keyValueStore.length : Int) + 1 ≤ db.maxCapacity ∧
          db1.maxCapacity = db.maxCapacity := by
      by_cases hfull : (db.keyValueStore.length : Int) ≥ db.maxCapacity
      · refine ⟨InMemoryDB.evictLoop db.evictionCount db, ?_, evictLoop_wf _ db h, ?_,
          (evictLoop_fields _ db).1⟩
        · simp [hfull, InMemoryDB.performEviction]
        · have hlen : 0 < db.keyValueStore.length := by omega
          have := evictLoop_length_lt db.evictionCount db h (evictionCount_pos db) hlen
          omega
      · exact ⟨db, by simp [hfull], h, by omega, rfl⟩
    obtain ⟨db1, heq, hwf1, hlen1, hcap1⟩ := hstep
    rw [heq]
    dsimp only
    rw [moveToFront_eq]
    have hlen2 := length_mapSet_le db1.keyValueStore key value
    by_cases hexp : expirationSeconds > 0
    · simp only [hexp, if_true]
      refine ⟨?_, ?_, hcap1⟩
      · have := wf_of_touch db1 key (mapSet db1.keyValueStore key value)
          (mapSet db1.expirationTimes key
            (now + wrapInt64 (expirationSeconds * 1000000000))) hwf1
          (nodup_mapKeys_mapSet _ _ _ hwf1.1) (fun k => mem_mapKeys_mapSet _ _ _ _)
          (nodup_mapKeys_mapSet _ _ _ hwf1.2.1)
          (fun k hk2 => (mem_mapKeys_mapSet _ _ _ _).mp hk2)
        exact this
      · dsimp only
        omega
    · simp only [hexp, if_false]
      refine ⟨?_, ?_, hcap1⟩
      · have := wf_of_touch db1 key (mapSet db1.keyValueStore key value)
          db1.expirationTimes hwf1
          (nodup_mapKeys_mapSet _ _ _ hwf1.1) (fun k => mem_mapKeys_mapSet _ _ _ _)
          hwf1.2.1 (fun k hk2 => Or.inr hk2)
        exact this
      · dsimp only
        omega

theorem GetValue_inv {α : Type} (db : InMemoryDB α) (now : Int) (key : String) (h : db.wf) :
    (db.GetValue now key).2.wf ∧
      (db.GetValue now key).2.keyValueStore.length ≤ db.keyValueStore.length ∧
      (db.GetValue now key).2.maxCapacity = db.maxCapacity := by
  unfold InMemoryDB.GetValue
  by_cases hk : key = ""
  · rw [if_pos hk]
    exact ⟨h, Nat.le_refl _, rfl⟩
  · rw [if_neg hk]
    rcases hexp : mapGet db.expirationTimes key with _ | expireTime
    · dsimp only
      rcases hval : mapGet db.keyValueStore key with _ | value
      · exact ⟨h, Nat.le_refl _, rfl⟩
      · dsimp only
        rw [moveToFront_eq]
        have hmem : key ∈ mapKeys db.keyValueStore :=
          (mapGet_isSome_iff _ _).mp (by rw [hval]; rfl)
        refine ⟨?_, Nat.le_refl _, rfl⟩
        exact wf_of_touch db key db.keyValueStore db.expirationTimes h h.1
          (fun k => ⟨Or.inr, fun hk2 => hk2.elim (fun e => e ▸ hmem) id⟩) h.2.1
          (fun k hk2 => Or.inr hk2)
    · dsimp only
      by_cases hpast : now > expireTime
      · simp only [hpast, if_true]
        exact ⟨removeKey_wf db key h, removeKey_length_le db key, rfl⟩
      · simp only [hpast, if_false]
        rw [moveToFront_eq]
        have hmemE : key ∈ mapKeys db.expirationTimes :=
          (mapGet_isSome_iff _ _).mp (by rw [hexp]; rfl)
        have hmem : key ∈ mapKeys db.keyValueStore := h.2.2.2.1 key hmemE
        refine ⟨?_, Nat.le_refl _, rfl⟩
        exact wf_of_touch db key db.keyValueStore
          (mapSet db.expirationTimes key (now + defaultExpiration)) h h.1
          (fun k => ⟨Or.inr, fun hk2 => hk2.elim (fun e => e ▸ hmem) id⟩)
          (nodup_mapKeys_mapSet _ _ _ h.2.1)
          (fun k hk2 => (mem_mapKeys_mapSet _ _ _ _).mp hk2)

theorem UpdateValue_inv {α : Type} (db : InMemoryDB α) (now : Int) (key : String) (value : α)
    (h : db.wf) :
    (db.UpdateValue now key value).2.wf ∧
      (db.UpdateValue now key value).2.keyValueStore.length ≤ db.keyValueStore.length ∧
      (db.UpdateValue now key value).2.maxCapacity = db.maxCapacity := by
  unfold InMemoryDB.UpdateValue
  by_cases hk : key = ""
  · rw [if_pos hk]
    exact ⟨h, Nat.le_refl _, rfl⟩
  · rw [if_neg hk]
    rcases hexp : mapGet db.expirationTimes key with _ | expireTime
    · dsimp only
      rcases hval : mapGet db.keyValueStore key with _ | old
      · exact ⟨h, Nat.le_refl _, rfl⟩
      · dsimp only
        rw [moveToFront_eq]
        have hmem : key ∈ mapKeys db.keyValueStore :=
          (mapGet_isSome_iff _ _).mp (by rw [hval]; rfl)
        refine ⟨?_, Nat.le_of_eq (length_mapSet_of_mem _ _ _ hmem), rfl⟩
        exact wf_of_touch db key (mapSet db.keyValueStore key value) db.expirationTimes h
          (nodup_mapKeys_mapSet _ _ _ h.1) (fun k => mem_mapKeys_mapSet _ _ _ _) h.2.1
          (fun k hk2 => Or.inr hk2)
    · dsimp only
      by_cases hpast : now > expireTime
      · simp only [hpast, if_true]
        exact ⟨removeKey_wf db key h, removeKey_length_le db key, rfl⟩
      · simp only [hpast, if_false]
        rw [moveToFront_eq]
        have hmemE : key ∈ mapKeys db.expirationTimes :=
          (mapGet_isSome_iff _ _).mp (by rw [hexp]; rfl)
        have hmem : key ∈ mapKeys db.keyValueStore := h.2.2.2.1 key hmemE
        refine ⟨?_, Nat.le_of_eq (length_mapSet_of_mem _ _ _ hmem), rfl⟩
        exact wf_of_touch db key (mapSet db.keyValueStore key value)
          (mapSet db.expirationTimes key (now + defaultExpiration)) h
          (nodup_mapKeys_mapSet _ _ _ h.1) (fun k => mem_mapKeys_mapSet _ _ _ _)
          (nodup_mapKeys_mapSet _ _ _ h.2.1)
          (fun k hk2 => (mem_mapKeys_mapSet _ _ _ _).mp hk2)

theorem DeleteValue_inv {α : Type} (db : InMemoryDB α) (key : String) (h : db.wf) :
    (db.DeleteValue key).2.wf ∧
      (db.DeleteValue key).2.keyValueStore.length ≤ db.keyValueStore.length ∧
      (db.DeleteValue key).2.maxCapacity = db.maxCapacity := by
  unfold InMemoryDB.DeleteValue
  by_cases hk : key = ""
  · rw [if_pos hk]
    exact ⟨h, Nat.le_refl _, rfl⟩
  · rw [if_neg hk]
    rcases hval : mapGet db.keyValueStore key with _ | old
    · exact ⟨h, Nat.le_refl _, rfl⟩
    · exact ⟨removeKey_wf db key h, removeKey_length_le db key, rfl⟩

theorem removeKeys_inv {α : Type} (keys : List String) :
    ∀ db : InMemoryDB α, db.wf →
      (keys.foldl InMemoryDB.removeKey db).wf ∧
        (keys.foldl InMemoryDB.removeKey db).keyValueStore.length ≤ db.keyValueStore.length ∧
        (keys.foldl InMemoryDB.removeKey db).maxCapacity = db.maxCapacity := by
  induction keys with
  | nil => intro db h; exact ⟨h, Nat.le_refl _, rfl⟩
  | cons k keys ih =>
    intro db h
    obtain ⟨a, b, c⟩ := ih (db.removeKey k) (removeKey_wf db k h)
    exact ⟨a, Nat.le_trans b (removeKey_length_le db k), c⟩

theorem PeriodicCleanup_inv {α : Type} (db : InMemoryDB α) (now checkSize : Int)
    (shuffle : List String → List String) (h : db.wf) :
    (db.PeriodicCleanup now checkSize shuffle).2.wf ∧
      (db.PeriodicCleanup now checkSize shuffle).2.keyValueStore.length
        ≤ db.keyValueStore.length ∧
      (db.PeriodicCleanup now checkSize shuffle).2.maxCapacity = db.maxCapacity := by
  unfold InMemoryDB.PeriodicCleanup
  split
  · exact ⟨h, Nat.le_refl _, rfl⟩
  · dsimp only
    split
    · exact removeKeys_inv _ db h
    · exact ⟨h, Nat.le_refl _, rfl⟩

theorem run_inv {α : Type} (db : InMemoryDB α) (call : StoreCall α) (h : db.wf)
    (hcap : (db.keyValueStore.length : Int) ≤ db.maxCapacity) (hpos : 0 < db.maxCapacity) :
    (call.run db).wf ∧ ((call.run db).keyValueStore.length : Int) ≤ db.maxCapacity ∧
      (call.run db).maxCapacity = db.maxCapacity := by
  cases call with
  | setValue now key value expirationSeconds =>
    exact SetValue_inv db now key value expirationSeconds h hcap hpos
  | getValue now key =>
    obtain ⟨a, b, c⟩ := GetValue_inv db now key h
    exact ⟨a, by have : ((StoreCall.getValue now key).run db).keyValueStore.length
      ≤ db.keyValueStore.length := b
                 omega, c⟩
  | updateValue now key value =>
    obtain ⟨a, b, c⟩ := UpdateValue_inv db now key value h
    exact ⟨a, by have : ((StoreCall.updateValue now key value).run db).keyValueStore.length
      ≤ db.keyValueStore.length := b
                 omega, c⟩
  | deleteValue key =>
    obtain ⟨a, b, c⟩ := DeleteValue_inv db key h
    exact ⟨a, by have : ((StoreCall.deleteValue key : StoreCall α).run db).keyValueStore.length
      ≤ db.keyValueStore.length := b
                 omega, c⟩
  | periodicCleanup now checkSize shuffle =>
    obtain ⟨a, b, c⟩ := PeriodicCleanup_inv db now checkSize shuffle h
    exact ⟨a, by have : ((StoreCall.periodicCleanup now checkSize shuffle :
      StoreCall α).run db).keyValueStore.length ≤ db.keyValueStore.length := b
                 omega, c⟩

theorem runCalls_inv {α : Type} (calls : List (StoreCall α)) :
    ∀ db : InMemoryDB α, db.wf → (db.keyValueStore.length : Int) ≤ db.maxCapacity →
      0 < db.maxCapacity →
      (runCalls db calls).wf ∧ ((runCalls db calls).keyValueStore.length : Int) ≤ db.maxCapacity ∧
        (runCalls db calls).maxCapacity = db.maxCapacity := by
  induction calls with
  | nil => intro db h hcap _; exact ⟨h, hcap, rfl⟩
  | cons call calls ih =>
    intro db h hcap hpos
    obtain ⟨a, b, c⟩ := run_inv db call h hcap hpos
    have := ih (call.run db) a (by rw [c]; exact b) (by rw [c]; exact hpos)
    rw [c] at this
    exact this

theorem new_store_wf {α : Type} (capacity : Int) (ratio : Float64) (db : InMemoryDB α)
    (hnew : NewInMemoryDBDao α capacity ratio = .ok db) :
    db.wf ∧ db.keyValueStore = [] ∧ db.maxCapacity = capacity ∧ 0 < capacity ∧
      db.evictionRatio = ratio ∧ ratio.ltZero = false ∧ ratio.gtOne = false := by
  unfold NewInMemoryDBDao at hnew
  by_cases hc : capacity ≤ 0
  · simp [hc] at hnew
  · by_cases hr : (ratio.ltZero || ratio.gtOne) = true
    · simp [hc, hr] at hnew
    · rw [if_neg hc, if_neg hr] at hnew
      injection hnew with hnew
      subst hnew
      refine ⟨⟨?_, ?_, ?_, ?_, ?_⟩, rfl, rfl, by omega, rfl, ?_, ?_⟩
      · simp [mapKeys]
      · simp [mapKeys]
      · simp
      · intro k hk; simp [mapKeys] at hk
      · intro k; simp [mapKeys]
      · cases h1 : ratio.ltZero <;> simp_all
      · cases h1 : ratio.gtOne <;> simp_all

/-- C28.  For every store that `NewInMemoryDBDao(capacity, ratio)` creates (so
`capacity > 0` and `0 ≤ ratio ≤ 1`) and every sequence of `SetValue`,
`GetValue`, `UpdateValue`, `DeleteValue` and `PeriodicCleanup` calls, with any
arguments, at any times and whatever order the sweep draws: the number of
stored keys, `GetKeyCount`, is at most `capacity` after the calls. -/
theorem C28_key_count_never_exceeds_capacity {α : Type} (capacity : Int) (ratio : Float64)
    (db : InMemoryDB α) (calls : List (StoreCall α))
    (hnew : NewInMemoryDBDao α capacity ratio = .ok db) :
    (runCalls db calls).GetKeyCount ≤ capacity := by
  obtain ⟨hwf, hempty, hcap, hpos, _⟩ := new_store_wf capacity ratio db hnew
  have h := (runCalls_inv calls db hwf (by rw [hempty, hcap]; simpa using hpos.le)
    (by rw [hcap]; exact hpos)).2.1
  rw [hcap] at h
  exact h

/-! ## The sweep of the in-process store -/

theorem removeKeys_store_get {α : Type} (keys : List String) :
    ∀ (db : InMemoryDB α) (k : String),
      mapGet (keys.foldl InMemoryDB.removeKey db).keyValueStore k
        = if k ∈ keys then none else mapGet db.keyValueStore k := by
  induction keys with
  | nil => intro db k; simp
  | cons a keys ih =>
    intro db k
    rw [List.foldl_cons, ih (db.removeKey a) k]
    by_cases hk : k ∈ keys
    · simp [hk]
    · by_cases ha : a = k
      · subst ha
        simp [hk, InMemoryDB.removeKey, mapGet_mapDelete_self]
      · have ha2 : ¬ k = a := fun e => ha e.symm
        simp [hk, ha2, InMemoryDB.removeKey, mapGet_mapDelete_ne _ _ _ ha]

theorem removeKeys_expiry_get {α : Type} (keys : List String) :
    ∀ (db : InMemoryDB α) (k : String),
      mapGet (keys.foldl InMemoryDB.removeKey db).expirationTimes k
        = if k ∈ keys then none else mapGet db.expirationTimes k := by
  induction keys with
  | nil => intro db k; simp
  | cons a keys ih =>
    intro db k
    rw [List.foldl_cons, ih (db.removeKey a) k]
    by_cases hk : k ∈ keys
    · simp [hk]
    · by_cases ha : a = k
      · subst ha
        simp [hk, InMemoryDB.removeKey, mapGet_mapDelete_self]
      · have ha2 : ¬ k = a := fun e => ha e.symm
        simp [hk, ha2, InMemoryDB.removeKey, mapGet_mapDelete_ne _ _ _ ha]

theorem removeKeys_lru_mem {α : Type} (keys : List String) :
    ∀ (db : InMemoryDB α) (k : String), db.lruCacheList.Nodup →
      (k ∈ (keys.foldl InMemoryDB.removeKey db).lruCacheList
        ↔ k ∈ db.lruCacheList ∧ k ∉ keys) := by
  induction keys with
  | nil => intro db k _; simp
  | cons a keys ih =>
    intro db k hn
    rw [List.foldl_cons, ih (db.removeKey a) k (hn.erase a)]
    simp only [InMemoryDB.removeKey, List.Nodup.mem_erase_iff hn, List.mem_cons, not_or]
    tauto

theorem removeKeys_lru_sublist {α : Type} (keys : List String) :
    ∀ db : InMemoryDB α,
      (keys.foldl InMemoryDB.removeKey db).lruCacheList.Sublist db.lruCacheList := by
  induction keys with
  | nil => intro db; exact List.Sublist.refl _
  | cons a keys ih =>
    intro db
    rw [List.foldl_cons]
    exact List.Sublist.trans (ih (db.removeKey a)) (List.erase_sublist a db.lruCacheList)

theorem removeKeys_length {α : Type} (keys : List String) :
    ∀ db : InMemoryDB α, (mapKeys db.keyValueStore).Nodup → keys.Nodup →
      (∀ k ∈ keys, k ∈ mapKeys db.keyValueStore) →
      (keys.foldl InMemoryDB.removeKey db).keyValueStore.length + keys.length
        = db.keyValueStore.length := by
  induction keys with
  | nil => intro db _ _ _; rfl
  | cons a keys ih =>
    intro db hn hk hmem
    have hk2 := List.nodup_cons.mp hk
    have hstep := length_mapDelete_of_mem db.keyValueStore a hn
      (hmem a (List.mem_cons_self a keys))
    have := ih (db.removeKey a) (nodup_mapKeys_mapDelete _ _ hn) hk2.2 (fun k hkk => by
      simp only [InMemoryDB.removeKey, mem_mapKeys_mapDelete]
      refine ⟨fun e => hk2.1 (e ▸ hkk), hmem k (List.mem_cons_of_mem a hkk)⟩)
    have hrm : (db.removeKey a).keyValueStore.length + 1 = db.keyValueStore.length := hstep
    rw [List.foldl_cons, List.length_cons]
    omega

theorem expiredKeys_nodup {α : Type} (db : InMemoryDB α) (now : Int)
    (h : (mapKeys db.expirationTimes).Nodup) : (db.expiredKeys now).Nodup := by
  unfold InMemoryDB.expiredKeys mapKeys at *
  exact List.Nodup.sublist (List.Sublist.map _ (List.filter_sublist _)) h

theorem mem_expiredKeys {α : Type} (db : InMemoryDB α) (now : Int) (k : String)
    (h : (mapKeys db.expirationTimes).Nodup) :
    k ∈ db.expiredKeys now ↔ ∃ t, mapGet db.expirationTimes k = some t ∧ now > t := by
  unfold InMemoryDB.expiredKeys mapKeys
  simp only [List.mem_map, List.mem_filter, decide_eq_true_eq]
  constructor
  · rintro ⟨⟨k2, t⟩, ⟨hmem, hpast⟩, rfl⟩
    exact ⟨t, (mem_iff_mapGet _ _ _ h).mp hmem, hpast⟩
  · rintro ⟨t, hget, hpast⟩
    exact ⟨(k, t), ⟨(mem_iff_mapGet _ _ _ h).mpr hget, hpast⟩, rfl⟩

theorem PeriodicCleanup_eq {α : Type} (db : InMemoryDB α) (now checkSize : Int)
    (shuffle : List String → List String) (hsize : 0 ≤ checkSize)
    (hperm : (shuffle (db.expiredKeys now)).Perm (db.expiredKeys now)) :
    db.PeriodicCleanup now checkSize shuffle
      = (none, ((shuffle (db.expiredKeys now)).take
          (min checkSize.toNat (db.expiredKeys now).length)).foldl InMemoryDB.removeKey db) := by
  unfold InMemoryDB.PeriodicCleanup
  rw [if_neg (by omega)]
  dsimp only
  by_cases hlen : (db.expiredKeys now).length > 0
  · rw [if_pos hlen]
    congr 3
    split <;> omega
  · rw [if_neg hlen]
    have hnil : db.expiredKeys now = [] := List.length_eq_zero.mp (by omega)
    rw [hnil] at hperm ⊢
    rw [List.Perm.eq_nil hperm]
    simp

/-- C30.  For every state of a store that keeps its invariants, every time
`now` and every order `shuffle` in which the expired keys are drawn:
`PeriodicCleanup(checkSize)` with `checkSize < 0` returns an error and changes
nothing; with `checkSize ≥ 0` it returns nil and removes a set of keys, all of
them with an expiry time before `now`, whose number is the smaller of
`checkSize` and the number of expired keys; these keys lose value, expiry time
and place in the list, the number of stored keys drops by their number, and
every other key keeps its value, its expiry time and its place. -/
theorem C30_sweep_removes_expired_keys_only {α : Type} (db : InMemoryDB α)
    (now checkSize : Int) (shuffle : List String → List String) (hwf : db.wf)
    (hperm : (shuffle (db.expiredKeys now)).Perm (db.expiredKeys now)) :
    (checkSize < 0 →
      db.PeriodicCleanup now checkSize shuffle = (some "检查数量不能为负数", db)) ∧
    (0 ≤ checkSize →
      (db.PeriodicCleanup now checkSize shuffle).1 = none ∧
      (db.expiredKeys now).Nodup ∧
      (∀ k, k ∈ db.expiredKeys now ↔
        ∃ t, mapGet db.expirationTimes k = some t ∧ now > t) ∧
      ∃ removed : List String,
        removed.Nodup ∧
        (removed.length : Int) = min checkSize (db.expiredKeys now).length ∧
        (∀ k ∈ removed, k ∈ db.expiredKeys now ∧ (mapGet db.keyValueStore k).isSome = true) ∧
        (∀ k ∈ removed,
          mapGet (db.PeriodicCleanup now checkSize shuffle).2.keyValueStore k = none ∧
          mapGet (db.PeriodicCleanup now checkSize shuffle).2.expirationTimes k = none ∧
          k ∉ (db.PeriodicCleanup now checkSize shuffle).2.lruCacheList) ∧
        (∀ k, k ∉ removed →
          mapGet (db.PeriodicCleanup now checkSize shuffle).2.keyValueStore k
            = mapGet db.keyValueStore k ∧
          mapGet (db.PeriodicCleanup now checkSize shuffle).2.expirationTimes k
            = mapGet db.expirationTimes k ∧
          (k ∈ (db.PeriodicCleanup now checkSize shuffle).2.lruCacheList
            ↔ k ∈ db.lruCacheList)) ∧
        (db.PeriodicCleanup now checkSize shuffle).2.lruCacheList.Sublist db.lruCacheList ∧
        (db.PeriodicCleanup now checkSize shuffle).2.GetKeyCount
          = db.GetKeyCount - removed.length) := by
  obtain ⟨h1, h2, h3, h4, h5⟩ := hwf
  refine ⟨fun hneg => by unfold InMemoryDB.PeriodicCleanup; rw [if_pos hneg], fun hsize => ?_⟩
  have hnodup := expiredKeys_nodup db now h2
  have hmemE := fun k => mem_expiredKeys db now k h2
  rw [PeriodicCleanup_eq db now checkSize shuffle hsize hperm]
  refine ⟨rfl, hnodup, hmemE, (shuffle (db.expiredKeys now)).take
    (min checkSize.toNat (db.expiredKeys now).length), ?_, ?_, ?_, ?_, ?_, ?_, ?_⟩
  · exact List.Nodup.sublist (List.take_sublist _ _) ((List.Perm.nodup_iff hperm).mpr hnodup)
  · rw [List.length_take, List.Perm.length_eq hperm]
    omega
  · intro k hk
    have hk2 : k ∈ db.expiredKeys now :=
      (List.Perm.mem_iff hperm).mp (List.mem_of_mem_take hk)
    refine ⟨hk2, ?_⟩
    obtain ⟨t, hget, _⟩ := (hmemE k).mp hk2
    have : k ∈ mapKeys db.expirationTimes := (mapGet_isSome_iff _ _).mp (by rw [hget]; rfl)
    exact (mapGet_isSome_iff _ _).mpr (h4 k this)
  · intro k hk
    refine ⟨?_, ?_, ?_⟩
    · rw [removeKeys_store_get]
      simp [hk]
    · rw [removeKeys_expiry_get]
      simp [hk]
    · rw [removeKeys_lru_mem _ _ _ h3]
      exact fun h => h.2 hk
  · intro k hk
    refine ⟨?_, ?_, ?_⟩
    · rw [removeKeys_store_get]
      simp [hk]
    · rw [removeKeys_expiry_get]
      simp [hk]
    · rw [removeKeys_lru_mem _ _ _ h3]
      exact ⟨fun h => h.1, fun h => ⟨h, hk⟩⟩
  · exact removeKeys_lru_sublist _ db
  · have hlen := removeKeys_length
      ((shuffle (db.expiredKeys now)).take (min checkSize.toNat (db.expiredKeys now).length))
      db h1
      (List.Nodup.sublist (List.take_sublist _ _) ((List.Perm.nodup_iff hperm).mpr hnodup))
      (fun k hk => by
        have hk2 : k ∈ db.expiredKeys now :=
          (List.Perm.mem_iff hperm).mp (List.mem_of_mem_take hk)
        obtain ⟨t, hget, _⟩ := (hmemE k).mp hk2
        exact h4 k ((mapGet_isSome_iff _ _).mp (by rw [hget]; rfl)))
    unfold InMemoryDB.GetKeyCount
    dsimp only
    omega

/-! ## Eviction in the in-process store -/

theorem evictLoop_eq_removeKeys {α : Type} (n : Nat) :
    ∀ db : InMemoryDB α, db.lruCacheList.Nodup →
      InMemoryDB.evictLoop n db
        = ((db.lruCacheList.drop (db.lruCacheList.length - n)).reverse).foldl
            InMemoryDB.removeKey db := by
  induction n with
  | zero => intro db _; simp [InMemoryDB.evictLoop]
  | succ n ih =>
    intro db hn
    unfold InMemoryDB.evictLoop
    rcases hl : db.lruCacheList.getLast? with _ | last
    · rw [List.getLast?_eq_none_iff] at hl
      simp [hl]
    · dsimp only
      have hsplit : db.lruCacheList.dropLast ++ [last] = db.lruCacheList :=
        List.dropLast_append_getLast? last (by rw [hl]; rfl)
      have hnd : (db.lruCacheList.dropLast ++ [last]).Nodup := by rw [hsplit]; exact hn
      have hnot : last ∉ db.lruCacheList.dropLast := by
        intro hmem
        have := (List.nodup_append.mp hnd).2.2
        exact this hmem (List.mem_singleton_self last)
      have herase : (db.removeKey last).lruCacheList = db.lruCacheList.dropLast := by
        show db.lruCacheList.erase last = db.lruCacheList.dropLast
        conv_lhs => rw [← hsplit]
        rw [List.erase_append_right _ hnot]
        simp
      rw [ih (db.removeKey last) (by rw [herase]; exact (List.nodup_append.mp hnd).1), herase]
      conv_rhs => rw [← hsplit]
      have hlen : (db.lruCacheList.dropLast ++ [last]).length - (n + 1)
          = db.lruCacheList.dropLast.length - n := by
        simp
      rw [hlen, List.drop_append_of_le_length (Nat.sub_le _ _), List.reverse_append]
      rfl

theorem evictLoop_lru {α : Type} (n : Nat) :
    ∀ db : InMemoryDB α, db.lruCacheList.Nodup →
      (InMemoryDB.evictLoop n db).lruCacheList
        = db.lruCacheList.take (db.lruCacheList.length - n) := by
  induction n with
  | zero => intro db _; simp [InMemoryDB.evictLoop]
  | succ n ih =>
    intro db hn
    unfold InMemoryDB.evictLoop
    rcases hl : db.lruCacheList.getLast? with _ | last
    · rw [List.getLast?_eq_none_iff] at hl
      simp [hl]
    · dsimp only
      have hsplit : db.lruCacheList.dropLast ++ [last] = db.lruCacheList :=
        List.dropLast_append_getLast? last (by rw [hl]; rfl)
      have hnd : (db.lruCacheList.dropLast ++ [last]).Nodup := by rw [hsplit]; exact hn
      have hnot : last ∉ db.lruCacheList.dropLast := by
        intro hmem
        have := (List.nodup_append.mp hnd).2.2
        exact this hmem (List.mem_singleton_self last)
      have herase : (db.removeKey last).lruCacheList = db.lruCacheList.dropLast := by
        show db.lruCacheList.erase last = db.lruCacheList.dropLast
        conv_lhs => rw [← hsplit]
        rw [List.erase_append_right _ hnot]
        simp
      rw [ih (db.removeKey last) (by rw [herase]; exact (List.nodup_append.mp hnd).1), herase]
      conv_rhs => rw [← hsplit]
      have hlen : (db.lruCacheList.dropLast ++ [last]).length - (n + 1)
          = db.lruCacheList.dropLast.length - n := by
        simp
      rw [hlen, List.take_append_of_le_length (Nat.sub_le _ _)]

theorem roundShift_zero (n : Nat) : roundShift n 0 = n := by
  simp [roundShift, Nat.mod_one]

theorem evictionCount_exact {α : Type} (db : InMemoryDB α) (hcap : 0 ≤ db.maxCapacity)
    (hsign : db.evictionRatio.neg = false)
    (hc : bitLength db.maxCapacity.natAbs ≤ 53)
    (hp : bitLength (db.maxCapacity.natAbs * db.evictionRatio.mant) ≤ 53)
    (hs : db.evictionRatio.scale ≤ 1074) :
    db.evictionCount
      = max 1 (db.maxCapacity.natAbs * db.evictionRatio.mant / 2 ^ db.evictionRatio.scale) := by
  have h1 : bitLength db.maxCapacity.natAbs - 53 = 0 := by omega
  have h2 : bitLength (db.maxCapacity.natAbs * db.evictionRatio.mant) - 53 = 0 := by omega
  have h3 : db.evictionRatio.scale - 1074 = 0 := by omega
  have htr : truncProduct db.maxCapacity.natAbs db.evictionRatio
      = db.maxCapacity.natAbs * db.evictionRatio.mant / 2 ^ db.evictionRatio.scale := by
    simp [truncProduct, h1, h2, h3, roundShift_zero]
  have hint : intOfProduct db.maxCapacity db.evictionRatio
      = ((db.maxCapacity.natAbs * db.evictionRatio.mant / 2 ^ db.evictionRatio.scale : Nat) :
          Int) := by
    unfold intOfProduct
    rw [if_pos (by rw [hsign]; simp; omega), htr]
  unfold InMemoryDB.evictionCount
  rw [hint]
  split
  · rename_i h
    omega
  · rename_i h
    omega

/-- C29, amended.  For every store that keeps its invariants: `lruCacheList` is
the order of last use (a `GetValue` or `UpdateValue` that finds the key, and a
`SetValue`, put the key in front and keep the order of the others).  When a
`SetValue` call finds the store full, it first removes the keys at the back of
that list, the least recently used ones, `evictionCount` of them or all if
fewer are stored, and then stores the key in front; every other key keeps its
value and expiry time.  `evictionCount` is `int(float64(capacity) * ratio)`,
the product truncated, and 1 if that is less than 1; where the product needs
no rounding it is the greater of 1 and the integer part of
`capacity * ratio`. -/
theorem C29_eviction_removes_the_least_recently_used {α : Type} (db : InMemoryDB α)
    (now : Int) (key : String) (value : α) (expirationSeconds : Int) (hwf : db.wf)
    (hkey : key ≠ "") :
    ((db.keyValueStore.length : Int) ≥ db.maxCapacity →
      (db.SetValue now key value expirationSeconds).1 = none ∧
      (db.lruCacheList.drop (db.lruCacheList.length - db.evictionCount)).length
        = min db.evictionCount db.lruCacheList.length ∧
      (db.SetValue now key value expirationSeconds).2.lruCacheList
        = key :: (db.lruCacheList.take (db.lruCacheList.length - db.evictionCount)).erase key ∧
      mapGet (db.SetValue now key value expirationSeconds).2.keyValueStore key = some value ∧
      ∀ k, k ≠ key →
        mapGet (db.SetValue now key value expirationSeconds).2.keyValueStore k
          = (if k ∈ db.lruCacheList.drop (db.lruCacheList.length - db.evictionCount) then none
              else mapGet db.keyValueStore k) ∧
        mapGet (db.SetValue now key value expirationSeconds).2.expirationTimes k
          = (if k ∈ db.lruCacheList.drop (db.lruCacheList.length - db.evictionCount) then none
              else mapGet db.expirationTimes k)) ∧
    ((db.keyValueStore.length : Int) < db.maxCapacity →
      (db.SetValue now key value expirationSeconds).2.lruCacheList
        = key :: db.lruCacheList.erase key) ∧
    ((db.GetValue now key).1.2.1 = true →
      (db.GetValue now key).2.lruCacheList = key :: db.lruCacheList.erase key) ∧
    ((db.UpdateValue now key value).1.1 = true →
      (db.UpdateValue now key value).2.lruCacheList = key :: db.lruCacheList.erase key) ∧
    db.evictionCount = max 1 (intOfProduct db.maxCapacity db.evictionRatio).toNat ∧
    (0 ≤ db.maxCapacity → db.evictionRatio.neg = false →
      bitLength db.maxCapacity.natAbs ≤ 53 →
      bitLength (db.maxCapacity.natAbs * db.evictionRatio.mant) ≤ 53 →
      db.evictionRatio.scale ≤ 1074 →
      db.evictionCount
        = max 1 (db.maxCapacity.natAbs * db.evictionRatio.mant
            / 2 ^ db.evictionRatio.scale)) := by
  obtain ⟨h1, h2, h3, h4, h5⟩ := hwf
  refine ⟨?_, ?_, ?_, ?_, ?_, evictionCount_exact db⟩
  · intro hfull
    have hloop := evictLoop_eq_removeKeys db.evictionCount db h3
    have hlru := evictLoop_lru db.evictionCount db h3
    unfold InMemoryDB.SetValue
    rw [if_neg hkey, if_pos hfull]
    simp only [InMemoryDB.performEviction, moveToFront_eq]
    refine ⟨by split <;> rfl, by rw [List.length_drop]; omega, ?_, ?_, ?_⟩
    · split <;> exact congrArg (fun l => key :: List.erase l key) hlru
    · split <;> exact mapGet_mapSet_self _ _ _
    · intro k hk
      have hne : key ≠ k := fun e => hk e.symm
      have hs := removeKeys_store_get
        ((db.lruCacheList.drop (db.lruCacheList.length - db.evictionCount)).reverse) db k
      have he := removeKeys_expiry_get
        ((db.lruCacheList.drop (db.lruCacheList.length - db.evictionCount)).reverse) db k
      rw [← hloop] at hs he
      simp only [List.mem_reverse] at hs he
      split
      · exact ⟨by rw [← hs]; exact mapGet_mapSet_ne _ _ _ _ hne,
          by rw [← he]; exact mapGet_mapSet_ne _ _ _ _ hne⟩
      · exact ⟨by rw [← hs]; exact mapGet_mapSet_ne _ _ _ _ hne, he⟩
  · intro hroom
    unfold InMemoryDB.SetValue
    rw [if_neg hkey, if_neg (by omega)]
    simp only [moveToFront_eq]
    split <;> rfl
  · unfold InMemoryDB.GetValue
    rw [if_neg hkey]
    rcases mapGet db.expirationTimes key with _ | expireTime
    · dsimp only
      rcases mapGet db.keyValueStore key with _ | v
      · intro h; simp at h
      · intro _; simp only [moveToFront_eq]
    · dsimp only
      split
      · intro h; simp at h
      · intro _; simp only [moveToFront_eq]
  · unfold InMemoryDB.UpdateValue
    rw [if_neg hkey]
    rcases mapGet db.expirationTimes key with _ | expireTime
    · dsimp only
      rcases mapGet db.keyValueStore key with _ | v
      · intro h; simp at h
      · intro _; simp only [moveToFront_eq]
    · dsimp only
      split
      · intro h; simp at h
      · intro _; simp only [moveToFront_eq]
  · unfold InMemoryDB.evictionCount
    split
    · rename_i h
      omega
    · rename_i h
      omega

theorem exEmptyStore_wf : exEmptyStore.wf :=
  (new_store_wf 3 exHalf exEmptyStore (by decide)).1

theorem exFullStore_wf : exFullStore.wf := by
  have h := (runCalls_inv exFillCalls exEmptyStore exEmptyStore_wf (by decide) (by decide)).1
  rwa [show runCalls exEmptyStore exFillCalls = exFullStore from by decide] at h

theorem exAgingStore_wf : exAgingStore.wf := by
  have h := (runCalls_inv exAgingCalls exEmptyStore exEmptyStore_wf (by decide) (by decide)).1
  rwa [show runCalls exEmptyStore exAgingCalls = exAgingStore from by decide] at h

/-- C28, on a store of capacity 3 after calls of every kind, seven keys set in
all: three keys are stored. -/
theorem C28_key_count_witness :
    NewInMemoryDBDao String 3 exHalf = .ok exEmptyStore ∧
      (runCalls exEmptyStore exMixedCalls).GetKeyCount ≤ 3 ∧
      (runCalls exEmptyStore exMixedCalls).GetKeyCount = 3 :=
  ⟨by decide,
    C28_key_count_never_exceeds_capacity 3 exHalf exEmptyStore exMixedCalls (by decide),
    by decide⟩

/-- C29 as stated fails: with capacity 3 and ratio 0.5 the claim asks for
`max(1, ceil(1.5)) = 2` evictions.  The store is full with `a`, `b`, `c`, set
in this order; `SetValue` of `d` evicts `a` alone, and `b`, the second least
recently used key, stays. -/
theorem C29_eviction_count_is_not_rounded_up :
    NewInMemoryDBDao String 3 exHalf = .ok exEmptyStore ∧
      runCalls exEmptyStore exFillCalls = exFullStore ∧
      exFullStore.lruCacheList = ["c", "b", "a"] ∧
      exFullStore.evictionCount = 1 ∧
      (exFullStore.SetValue 0 "d" "4" 0).1 = none ∧
      (exFullStore.SetValue 0 "d" "4" 0).2.keyValueStore
        = [("b", "2"), ("c", "3"), ("d", "4")] ∧
      (exFullStore.SetValue 0 "d" "4" 0).2.lruCacheList = ["d", "c", "b"] := by
  decide

/-- C29 amended, on the full store `a`, `b`, `c`: `SetValue` of `d` leaves the
list `d`, `c`, `b`. -/
theorem C29_eviction_witness :
    ((exFullStore.keyValueStore.length : Int) ≥ exFullStore.maxCapacity) ∧
      (exFullStore.SetValue 0 "d" "4" 0).2.lruCacheList
        = "d" :: (exFullStore.lruCacheList.take
            (exFullStore.lruCacheList.length - exFullStore.evictionCount)).erase "d" ∧
      "d" :: (exFullStore.lruCacheList.take
        (exFullStore.lruCacheList.length - exFullStore.evictionCount)).erase "d"
        = ["d", "c", "b"] :=
  ⟨by decide,
    ((C29_eviction_removes_the_least_recently_used exFullStore 0 "d" "4" 0 exFullStore_wf
      (by decide)).1 (by decide)).2.2.1,
    by decide⟩

/-- C30, on a store in which `a` and `b` have expired and `c` has not: a sweep
of size 1 that draws `b` first removes `b` and nothing else. -/
theorem C30_sweep_witness :
    runCalls exEmptyStore exAgingCalls = exAgingStore ∧
      exAgingStore.expiredKeys 5000000000 = ["a", "b"] ∧
      (exAgingStore.PeriodicCleanup 5000000000 1 List.reverse).1 = none ∧
      (exAgingStore.PeriodicCleanup 5000000000 1 List.reverse).2.keyValueStore
        = [("a", "1"), ("c", "3")] ∧
      (exAgingStore.PeriodicCleanup 5000000000 1 List.reverse).2.expirationTimes
        = [("a", 1000000000), ("c", 100000000000)] ∧
      exAgingStore.PeriodicCleanup 5000000000 (-1) List.reverse
        = (some "检查数量不能为负数", exAgingStore) :=
  ⟨by decide, by decide,
    ((C30_sweep_removes_expired_keys_only exAgingStore 5000000000 1 List.reverse
      exAgingStore_wf (List.reverse_perm _)).2 (by decide)).1,
    by decide, by decide,
    (C30_sweep_removes_expired_keys_only exAgingStore 5000000000 (-1) List.reverse
      exAgingStore_wf (List.reverse_perm _)).1 (by decide)⟩
